import Mathlib

/-!
# LibAAF interface layer (`LibAAF/AAFIface/AAFIface.c`)

A shallow embedding of the timeline model of `AAFIface.c`: the C heap is an
explicit state (`Heap`), pointers are addresses (`0` is `NULL`), every
dereference can fault, and the result of each `calloc`/`malloc` is an input of
the embedded function (`0` when the allocation fails).  Loops that follow
`next` pointers take a fuel bound.
-/

namespace LibAAF

/-! ## Data model (`AAFIface.h`) -/

/-- A C pointer: a heap address, `0` being `NULL`. -/
abbrev Ptr := Nat

/-- Enumeration `aafiTimelineItem_type_e`. -/
def AAFI_CLIP : Nat := 0x0001
def AAFI_TRANS : Nat := 0x0002

/-- Enumeration `aafiInterpolation_e`. -/
def AAFI_INTERPOL_NONE : Nat := 0x0400
def AAFI_INTERPOL_LINEAR : Nat := 0x0800
def AAFI_INTERPOL_LOG : Nat := 0x1000
def AAFI_INTERPOL_CONSTANT : Nat := 0x2000
def AAFI_INTERPOL_POWER : Nat := 0x4000
def AAFI_INTERPOL_BSPLINE : Nat := 0x8000

/-- Enumeration `aafiAudioGain_e`. -/
def AAFI_AUDIO_GAIN_CONSTANT : Nat := 0x0001
def AAFI_AUDIO_GAIN_VARIABLE : Nat := 0x0002

/-- Enumeration `aafiTransition_e`. -/
def AAFI_TRANS_SINGLE_CURVE : Nat := 0x0010
def AAFI_TRANS_TWO_CURVE : Nat := 0x0020
def AAFI_TRANS_FADE_IN : Nat := 0x0040
def AAFI_TRANS_FADE_OUT : Nat := 0x0080
def AAFI_TRANS_XFADE : Nat := 0x0100

/-- Struct `aafiTransition`.  `flags` is the bit pattern of the C `int`; the
curve arrays are pointers. -/
structure aafiTransition where
  flags : Nat
  len : Int
  cut_pt : Int
  pts_cnt_a : Int
  time_a : Ptr
  value_a : Ptr
  pts_cnt_b : Int
  time_b : Ptr
  value_b : Ptr
deriving DecidableEq

/-- Struct `aafiAudioGain`. -/
structure aafiAudioGain where
  flags : Nat
  pts_cnt : Int
  time : Ptr
  value : Ptr
deriving DecidableEq

/-- Struct `aafiAudioClip`. -/
structure aafiAudioClip where
  track : Ptr
  Essence : Ptr
  gain : Ptr
  pos : Int
  len : Int
  essence_offset : Int
  subClipNum : Nat
deriving DecidableEq

/-- The trailing storage `data[]` of a timeline item, which the code casts to
`aafiAudioClip` or to `aafiTransition`. -/
inductive ItemData where
  | clip (c : aafiAudioClip)
  | trans (t : aafiTransition)
deriving DecidableEq

/-- Struct `aafiTimelineItem`.  `type` is the bit pattern of the C `int`. -/
structure aafiTimelineItem where
  type : Nat
  next : Ptr
  prev : Ptr
  data : ItemData
deriving DecidableEq

/-- Struct `aafiAudioTrack`, with the members `format` and `pan` that
`AAFIface.c` uses. -/
structure aafiAudioTrack where
  number : Nat
  name : Ptr
  format : Nat
  gain : Ptr
  pan : Ptr
  Items : Ptr
  edit_rate : Ptr
  Audio : Ptr
  next : Ptr
deriving DecidableEq

/-- Struct `aafiAudioEssence`: the owned buffers freed by
`aafi_freeAudioEssences`, the scalar descriptors and the list link (the
fixed-size byte arrays carry no pointer and are left out). -/
structure aafiAudioEssence where
  original_file : Ptr
  exported_file : Ptr
  file_name : Ptr
  unique_file_name : Ptr
  isEmbedded : Int
  length : Nat
  nodes : Ptr
  type : Nat
  wFormatTag : Nat
  nChannels : Nat
  nSamplesPerSec : Nat
  nAvgBytesPerSec : Nat
  nBlockAlign : Nat
  wBitsPerSample : Nat
  timeReference : Nat
  subClipCnt : Nat
  next : Ptr
deriving DecidableEq

/-- Struct `aafiUserComment`, as `AAFIface.c` uses it: `name`, `text`, `next`. -/
structure aafiUserComment where
  name : Ptr
  text : Ptr
  next : Ptr
deriving DecidableEq

/-- Struct `aafiAudio`. -/
structure aafiAudio where
  tc : Ptr
  Essences : Ptr
  Tracks : Ptr
deriving DecidableEq

/-- The member `ctx` of `AAF_Iface`, as `AAFIface.c` uses it
(`aafi->ctx.current_track`). -/
structure aafiContext where
  current_track : Ptr
deriving DecidableEq

/-- Struct `AAF_Iface`, with the members `compositionName`, `Comments` and
`ctx` that `AAFIface.c` uses.  `aafd` points to the object store of the
decoder, which lives outside this heap. -/
structure AAF_Iface where
  aafd : Ptr
  Audio : Ptr
  compositionName : Ptr
  Comments : Ptr
  ctx : aafiContext
deriving DecidableEq

/-! ## Heap -/

/-- What a live heap block holds. -/
inductive Obj where
  | iface (v : AAF_Iface)
  | audio (v : aafiAudio)
  | track (v : aafiAudioTrack)
  | item (v : aafiTimelineItem)
  | essence (v : aafiAudioEssence)
  | comment (v : aafiUserComment)
  | gain (v : aafiAudioGain)
  | ptrvar (v : Ptr)
  | blob
deriving DecidableEq

/-- The C heap: the live blocks by address, and the log of the addresses given
to `free`, most recent first. -/
structure Heap where
  mem : Ptr → Option Obj
  freed : List Ptr

/-- Why an execution stops without a result. -/
inductive Fault where
  | nullDeref
  | invalidDeref
  | typeConfusion
  | invalidFree
  | outOfFuel
deriving DecidableEq

namespace Heap

/-- The heap with no live block. -/
def empty : Heap := ⟨fun _ => none, []⟩

/-- Store `o` at address `p`. -/
def set (h : Heap) (p : Ptr) (o : Obj) : Heap :=
  { h with mem := fun q => if q = p then some o else h.mem q }

/-- Call `free (p)`: nothing happens on `NULL`; otherwise the block must be
live, and it is released and logged. -/
def free (h : Heap) (p : Ptr) : Except Fault Heap :=
  if p = 0 then .ok h
  else
    match h.mem p with
    | none => .error .invalidFree
    | some _ => .ok ⟨fun q => if q = p then none else h.mem q, p :: h.freed⟩

def getIface (h : Heap) (p : Ptr) : Except Fault AAF_Iface :=
  if p = 0 then .error .nullDeref else
  match h.mem p with
  | some (.iface v) => .ok v
  | _ => .error .invalidDeref

def getAudio (h : Heap) (p : Ptr) : Except Fault aafiAudio :=
  if p = 0 then .error .nullDeref else
  match h.mem p with
  | some (.audio v) => .ok v
  | _ => .error .invalidDeref

def getTrack (h : Heap) (p : Ptr) : Except Fault aafiAudioTrack :=
  if p = 0 then .error .nullDeref else
  match h.mem p with
  | some (.track v) => .ok v
  | _ => .error .invalidDeref

def getItem (h : Heap) (p : Ptr) : Except Fault aafiTimelineItem :=
  if p = 0 then .error .nullDeref else
  match h.mem p with
  | some (.item v) => .ok v
  | _ => .error .invalidDeref

def getEssence (h : Heap) (p : Ptr) : Except Fault aafiAudioEssence :=
  if p = 0 then .error .nullDeref else
  match h.mem p with
  | some (.essence v) => .ok v
  | _ => .error .invalidDeref

def getComment (h : Heap) (p : Ptr) : Except Fault aafiUserComment :=
  if p = 0 then .error .nullDeref else
  match h.mem p with
  | some (.comment v) => .ok v
  | _ => .error .invalidDeref

def getPtrvar (h : Heap) (p : Ptr) : Except Fault Ptr :=
  if p = 0 then .error .nullDeref else
  match h.mem p with
  | some (.ptrvar v) => .ok v
  | _ => .error .invalidDeref

end Heap

/-- Address of the trailing storage of a timeline item: `dataOf p` is
`p->data`, and `null` is `NULL`. -/
inductive DataPtr where
  | null
  | dataOf (item : Ptr)
deriving DecidableEq

/-- Read `*(aafiTransition*)d`: the payload must hold a transition. -/
def Heap.getTransition (h : Heap) (d : DataPtr) : Except Fault aafiTransition :=
  match d with
  | .null => .error .nullDeref
  | .dataOf p =>
    match h.getItem p with
    | .error e => .error e
    | .ok it =>
      match it.data with
      | .trans t => .ok t
      | .clip _ => .error .typeConfusion

/-! ## Fade lookup -/

/-- Function `get_fadein`. -/
def get_fadein (h : Heap) (audioItem : Ptr) : Except Fault DataPtr := do
  let it ← h.getItem audioItem
  if it.prev ≠ 0 then
    let prev ← h.getItem it.prev
    if prev.type &&& AAFI_TRANS ≠ 0 then
      let Trans ← h.getTransition (.dataOf it.prev)
      if Trans.flags &&& AAFI_TRANS_FADE_IN ≠ 0 then
        pure (.dataOf it.prev)
      else pure .null
    else pure .null
  else pure .null

/-- Function `get_fadeout`. -/
def get_fadeout (h : Heap) (audioItem : Ptr) : Except Fault DataPtr := do
  let it ← h.getItem audioItem
  if it.next ≠ 0 then
    let next ← h.getItem it.next
    if next.type &&& AAFI_TRANS ≠ 0 then
      let Trans ← h.getTransition (.dataOf it.next)
      if Trans.flags &&& AAFI_TRANS_FADE_OUT ≠ 0 then
        pure (.dataOf it.next)
      else pure .null
    else pure .null
  else pure .null

/-- An item as `aafi_newTimelineItem` tags it: the tag is `AAFI_CLIP` over a
clip payload or `AAFI_TRANS` over a transition payload. -/
def TagOK (it : aafiTimelineItem) : Prop :=
  (it.type = AAFI_CLIP ∧ ∃ c, it.data = .clip c) ∨
  (it.type = AAFI_TRANS ∧ ∃ t, it.data = .trans t)

/-- The neighbour at `q` is a transition item whose flags have bit `flag`. -/
def IsFade (h : Heap) (q : Ptr) (flag : Nat) : Prop :=
  q ≠ 0 ∧ ∃ n t, h.mem q = some (.item n) ∧ n.type = AAFI_TRANS ∧
    n.data = .trans t ∧ t.flags &&& flag ≠ 0

/-! ## Zero-filled blocks and field updates -/

/-- A `calloc`ed `aafiTransition`. -/
def aafiTransition.zero : aafiTransition := ⟨0, 0, 0, 0, 0, 0, 0, 0, 0⟩

/-- A `calloc`ed `aafiAudioClip`. -/
def aafiAudioClip.zero : aafiAudioClip := ⟨0, 0, 0, 0, 0, 0, 0⟩

/-- A `calloc`ed `aafiAudioTrack`. -/
def aafiAudioTrack.zero : aafiAudioTrack := ⟨0, 0, 0, 0, 0, 0, 0, 0, 0⟩

/-- A `calloc`ed `aafiAudioEssence`. -/
def aafiAudioEssence.zero : aafiAudioEssence :=
  ⟨0, 0, 0, 0, 0, 0, 0, 0, 0, 0, 0, 0, 0, 0, 0, 0, 0⟩

/-- A `calloc`ed `aafiUserComment`. -/
def aafiUserComment.zero : aafiUserComment := ⟨0, 0, 0⟩

/-- A `calloc`ed `AAF_Iface`. -/
def AAF_Iface.zero : AAF_Iface := ⟨0, 0, 0, 0, ⟨0⟩⟩

namespace Heap

/-- Assignment `p->field = ...` on an `AAF_Iface`. -/
def modifyIface (h : Heap) (p : Ptr) (f : AAF_Iface → AAF_Iface) : Except Fault Heap :=
  match h.getIface p with
  | .error e => .error e
  | .ok v => .ok (h.set p (.iface (f v)))

/-- Assignment `p->field = ...` on an `aafiAudio`. -/
def modifyAudio (h : Heap) (p : Ptr) (f : aafiAudio → aafiAudio) : Except Fault Heap :=
  match h.getAudio p with
  | .error e => .error e
  | .ok v => .ok (h.set p (.audio (f v)))

/-- Assignment `p->field = ...` on an `aafiAudioTrack`. -/
def modifyTrack (h : Heap) (p : Ptr) (f : aafiAudioTrack → aafiAudioTrack) :
    Except Fault Heap :=
  match h.getTrack p with
  | .error e => .error e
  | .ok v => .ok (h.set p (.track (f v)))

/-- Assignment `p->field = ...` on an `aafiTimelineItem`. -/
def modifyItem (h : Heap) (p : Ptr) (f : aafiTimelineItem → aafiTimelineItem) :
    Except Fault Heap :=
  match h.getItem p with
  | .error e => .error e
  | .ok v => .ok (h.set p (.item (f v)))

/-- Assignment `((aafiAudioClip*)d)->field = ...`: the payload must hold a clip. -/
def modifyClip (h : Heap) (d : DataPtr) (f : aafiAudioClip → aafiAudioClip) :
    Except Fault Heap :=
  match d with
  | .null => .error .nullDeref
  | .dataOf p =>
    match h.getItem p with
    | .error e => .error e
    | .ok it =>
      match it.data with
      | .clip c => .ok (h.set p (.item { it with data := .clip (f c) }))
      | .trans _ => .error .typeConfusion

/-- Assignment `((aafiTransition*)d)->field = ...`: the payload must hold a
transition. -/
def modifyTransition (h : Heap) (d : DataPtr) (f : aafiTransition → aafiTransition) :
    Except Fault Heap :=
  match d with
  | .null => .error .nullDeref
  | .dataOf p =>
    match h.getItem p with
    | .error e => .error e
    | .ok it =>
      match it.data with
      | .trans t => .ok (h.set p (.item { it with data := .trans (f t) }))
      | .clip _ => .error .typeConfusion

/-- Assignment `p->field = ...` on an `aafiAudioEssence`. -/
def modifyEssence (h : Heap) (p : Ptr) (f : aafiAudioEssence → aafiAudioEssence) :
    Except Fault Heap :=
  match h.getEssence p with
  | .error e => .error e
  | .ok v => .ok (h.set p (.essence (f v)))

/-- Assignment `p->field = ...` on an `aafiUserComment`. -/
def modifyComment (h : Heap) (p : Ptr) (f : aafiUserComment → aafiUserComment) :
    Except Fault Heap :=
  match h.getComment p with
  | .error e => .error e
  | .ok v => .ok (h.set p (.comment (f v)))

/-- Read `p->next` of a track. -/
def trackNext (h : Heap) (p : Ptr) : Except Fault Ptr :=
  match h.getTrack p with
  | .error e => .error e
  | .ok v => .ok v.next

/-- Read `p->next` of a timeline item. -/
def itemNext (h : Heap) (p : Ptr) : Except Fault Ptr :=
  match h.getItem p with
  | .error e => .error e
  | .ok v => .ok v.next

/-- Read `p->next` of an essence. -/
def essenceNext (h : Heap) (p : Ptr) : Except Fault Ptr :=
  match h.getEssence p with
  | .error e => .error e
  | .ok v => .ok v.next

/-- Read `p->next` of a comment. -/
def commentNext (h : Heap) (p : Ptr) : Except Fault Ptr :=
  match h.getComment p with
  | .error e => .error e
  | .ok v => .ok v.next

end Heap

/-! ## Linked lists -/

/-- The tail scan of both appends,
`for (; tmp != NULL; tmp = tmp->next) if (tmp->next == NULL) break;`,
where `next p` reads `p->next`; the result is the final `tmp`. -/
def tailScan (next : Ptr → Except Fault Ptr) : Nat → Ptr → Except Fault Ptr
  | 0, _ => .error .outOfFuel
  | fuel + 1, tmp =>
    if tmp = 0 then .ok tmp
    else
      match next tmp with
      | .error e => .error e
      | .ok n => if n = 0 then .ok tmp else tailScan next fuel n

/-- The traversal `for (x = head; x != NULL; x = x->next)` of the macros
`foreach_audioTrack`, `foreach_audioItem` and `foreachAudioEssence`: the nodes
visited, in order. -/
def foreachNode (next : Ptr → Except Fault Ptr) : Nat → Ptr → Except Fault (List Ptr)
  | 0, _ => .error .outOfFuel
  | fuel + 1, x =>
    if x = 0 then .ok []
    else
      match next x with
      | .error e => .error e
      | .ok n =>
        match foreachNode next fuel n with
        | .error e => .error e
        | .ok l => .ok (x :: l)

/-- Macro `foreach_audioTrack`, from `aafi->Audio->Tracks`. -/
def foreach_audioTrack (fuel : Nat) (h : Heap) (aafi : Ptr) : Except Fault (List Ptr) := do
  let r ← h.getIface aafi
  let a ← h.getAudio r.Audio
  foreachNode h.trackNext fuel a.Tracks

/-- Macro `foreach_audioItem`, from `audioTrack->Items`. -/
def foreach_audioItem (fuel : Nat) (h : Heap) (audioTrack : Ptr) :
    Except Fault (List Ptr) := do
  let t ← h.getTrack audioTrack
  foreachNode h.itemNext fuel t.Items

/-- Macro `foreachAudioEssence`, from the list head `aeList`. -/
def foreachAudioEssence (fuel : Nat) (h : Heap) (aeList : Ptr) : Except Fault (List Ptr) :=
  foreachNode h.essenceNext fuel aeList

/-- The nodes `l` are linked from `p` through `next` and the last one has a
null `next`: a well-formed, null-terminated list. -/
def Chain (next : Ptr → Except Fault Ptr) : Ptr → List Ptr → Prop
  | p, [] => p = 0
  | p, q :: l => p = q ∧ p ≠ 0 ∧ ∃ n, next p = .ok n ∧ Chain next n l

/-- The `prev` members along `l`: the first item has `prev == pv`, every other
one points back to the item before it. -/
def PrevChain (h : Heap) : Ptr → List Ptr → Prop
  | _, [] => True
  | pv, q :: l => (∃ it, h.mem q = some (.item it) ∧ it.prev = pv) ∧ PrevChain h q l

/-! ## Timeline items -/

/-- Lines 239-264 of `aafi_newTimelineItem`: link `item` at the tail of the
item list of `track`. -/
def linkTimelineItem (fuel : Nat) (h : Heap) (track : Ptr) (item : Ptr) :
    Except Fault (Heap × Ptr) :=
  if track ≠ 0 then do
    let t ← h.getTrack track
    if t.Items ≠ 0 then
      let tmp ← tailScan h.itemNext fuel t.Items
      let h ← h.modifyItem tmp (fun i => { i with next := item })
      let h ← h.modifyItem item (fun i => { i with prev := tmp })
      pure (h, item)
    else
      let h ← h.modifyTrack track (fun t => { t with Items := item })
      let h ← h.modifyItem item (fun i => { i with prev := 0 })
      pure (h, item)
  else pure (h, item)

/-- Function `aafi_newTimelineItem`.  `alloc` is what `calloc` returns (`0` when
it fails); the block is zero-filled and sized for the requested payload. -/
def aafi_newTimelineItem (fuel : Nat) (h : Heap) (track : Ptr) (itemType : Nat)
    (alloc : Ptr) : Except Fault (Heap × Ptr) :=
  if itemType = AAFI_CLIP then
    if alloc = 0 then pure (h, 0)
    else do
      let h := h.set alloc (.item ⟨0, 0, 0, .clip aafiAudioClip.zero⟩)
      let h ← h.modifyItem alloc (fun i => { i with type := i.type ||| AAFI_CLIP })
      let h ← h.modifyClip (.dataOf alloc) (fun c => { c with track := track })
      linkTimelineItem fuel h track alloc
  else if itemType = AAFI_TRANS then
    if alloc = 0 then pure (h, 0)
    else do
      let h := h.set alloc (.item ⟨0, 0, 0, .trans aafiTransition.zero⟩)
      let h ← h.modifyItem alloc (fun i => { i with type := i.type ||| AAFI_TRANS })
      linkTimelineItem fuel h track alloc
  else linkTimelineItem fuel h track 0

/-- The item that a successful `aafi_newTimelineItem (track, kind)` leaves in
its block, for `kind` one of `AAFI_CLIP` and `AAFI_TRANS`: tagged `kind`, with
a null `next`, `prev` as linked, and a zero-filled payload (a clip payload is
bound to `track`). -/
def createdItem (track : Ptr) (kind : Nat) (prev : Ptr) : aafiTimelineItem :=
  ⟨kind, 0, prev,
    if kind = AAFI_CLIP then .clip { aafiAudioClip.zero with track := track }
    else .trans aafiTransition.zero⟩

/-- The item list of `track` is the well-formed list `l`, with `prev` members
that mirror the `next` members and a null `prev` at the head. -/
def ItemsInv (h : Heap) (track : Ptr) (l : List Ptr) : Prop :=
  ∃ t, h.mem track = some (.track t) ∧ Chain h.itemNext t.Items l ∧ PrevChain h 0 l

/-- A run of `aafi_newTimelineItem` calls on one track, each with its kind and
the block `calloc` gives it. -/
def newTimelineItems (fuel : Nat) (h : Heap) (track : Ptr) :
    List (Nat × Ptr) → Except Fault Heap
  | [] => .ok h
  | (k, a) :: rest =>
    match aafi_newTimelineItem fuel h track k a with
    | .error e => .error e
    | .ok (h1, _) => newTimelineItems fuel h1 track rest

/-- The assignment `((aafiTransition*)item->data)->flags = flags` that the
caller makes on a transition item it has created. -/
def setTransitionFlags (h : Heap) (item : Ptr) (flags : Nat) : Except Fault Heap :=
  h.modifyTransition (.dataOf item) (fun t => { t with flags := flags })

/-! ## User comments -/

/-- A handle of type `aafiUserComment **`: null, the address of a pointer
variable, `&aafi->Comments`, or `&c->next` of a comment. -/
inductive CommentHandle where
  | null
  | var (a : Ptr)
  | ifaceComments (aafi : Ptr)
  | commentNext (c : Ptr)
deriving DecidableEq

namespace Heap

/-- Read `*CommentList`. -/
def loadComment (h : Heap) : CommentHandle → Except Fault Ptr
  | .null => .error .nullDeref
  | .var a => h.getPtrvar a
  | .ifaceComments a =>
    match h.getIface a with
    | .error e => .error e
    | .ok r => .ok r.Comments
  | .commentNext c => h.commentNext c

/-- Assignment `*CommentList = v`. -/
def storeComment (h : Heap) (l : CommentHandle) (v : Ptr) : Except Fault Heap :=
  match l with
  | .null => .error .nullDeref
  | .var a =>
    match h.getPtrvar a with
    | .error e => .error e
    | .ok _ => .ok (h.set a (.ptrvar v))
  | .ifaceComments a => h.modifyIface a (fun r => { r with Comments := v })
  | .commentNext c => h.modifyComment c (fun x => { x with next := v })

end Heap

/-- Function `aafi_newUserComment`.  `alloc` is what `calloc` returns. -/
def aafi_newUserComment (h : Heap) (CommentList : CommentHandle) (alloc : Ptr) :
    Except Fault (Heap × Ptr) :=
  if alloc = 0 then pure (h, 0)
  else do
    let h := h.set alloc (.comment aafiUserComment.zero)
    if CommentList ≠ .null then
      let head ← h.loadComment CommentList
      let h ← h.modifyComment alloc (fun c => { c with next := head })
      let h ← h.storeComment CommentList alloc
      pure (h, alloc)
    else
      let h ← h.storeComment CommentList alloc
      pure (h, alloc)

/-! ## Tracks and essences -/

/-- Function `aafi_newAudioTrack`.  `alloc` is what `calloc` returns;
`AAFI_TRACK_FORMAT_MONO` is the value of that constant, whose declaration is
not in `AAFIface.h`. -/
def aafi_newAudioTrack (AAFI_TRACK_FORMAT_MONO : Nat) (fuel : Nat) (h : Heap)
    (aafi : Ptr) (alloc : Ptr) : Except Fault (Heap × Ptr) :=
  if alloc = 0 then pure (h, 0)
  else do
    let h := h.set alloc (.track aafiAudioTrack.zero)
    let h ← h.modifyTrack alloc (fun t => { t with next := 0 })
    let h ← h.modifyTrack alloc (fun t => { t with format := AAFI_TRACK_FORMAT_MONO })
    let r ← h.getIface aafi
    let a ← h.getAudio r.Audio
    let h ←
      if a.Tracks ≠ 0 then do
        let tmp ← tailScan h.trackNext fuel a.Tracks
        h.modifyTrack tmp (fun t => { t with next := alloc })
      else
        h.modifyAudio r.Audio (fun a => { a with Tracks := alloc })
    let r ← h.getIface aafi
    let h ← h.modifyTrack alloc (fun t => { t with Audio := r.Audio })
    let h ← h.modifyIface aafi (fun r => { r with ctx := { r.ctx with current_track := alloc } })
    pure (h, alloc)

/-- The track that a successful `aafi_newAudioTrack` leaves in its block before
any later append: zero-filled but for `format` and the back-reference `Audio`. -/
def createdTrack (MONO : Nat) (audio : Ptr) : aafiAudioTrack :=
  { aafiAudioTrack.zero with format := MONO, Audio := audio }

/-- The root `aafi` owns the container `audio`, whose track list is the
well-formed list `l`. -/
def TracksInv (h : Heap) (aafi audio : Ptr) (l : List Ptr) : Prop :=
  ∃ r a, h.mem aafi = some (.iface r) ∧ r.Audio = audio ∧
    h.mem audio = some (.audio a) ∧ Chain h.trackNext a.Tracks l

/-- A run of `aafi_newAudioTrack` calls on one root, each with the block
`calloc` gives it. -/
def newAudioTracks (MONO : Nat) (fuel : Nat) (h : Heap) (aafi : Ptr) :
    List Ptr → Except Fault Heap
  | [] => .ok h
  | a :: rest =>
    match aafi_newAudioTrack MONO fuel h aafi a with
    | .error e => .error e
    | .ok (h1, _) => newAudioTracks MONO fuel h1 aafi rest

/-- Function `aafi_newAudioEssence`.  `alloc` is what `calloc` returns. -/
def aafi_newAudioEssence (h : Heap) (aafi : Ptr) (alloc : Ptr) :
    Except Fault (Heap × Ptr) :=
  if alloc = 0 then pure (h, 0)
  else do
    let h := h.set alloc (.essence aafiAudioEssence.zero)
    let r ← h.getIface aafi
    let a ← h.getAudio r.Audio
    let h ← h.modifyEssence alloc (fun e => { e with next := a.Essences })
    let h ← h.modifyEssence alloc (fun e => { e with original_file := 0 })
    let h ← h.modifyEssence alloc (fun e => { e with exported_file := 0 })
    let h ← h.modifyEssence alloc (fun e => { e with file_name := 0 })
    let h ← h.modifyEssence alloc (fun e => { e with unique_file_name := 0 })
    let r ← h.getIface aafi
    let h ← h.modifyAudio r.Audio (fun a => { a with Essences := alloc })
    pure (h, alloc)

/-- The root `aafi` owns the container `audio`, whose essence list is the
well-formed list `l`. -/
def EssencesInv (h : Heap) (aafi audio : Ptr) (l : List Ptr) : Prop :=
  ∃ r a, h.mem aafi = some (.iface r) ∧ r.Audio = audio ∧
    h.mem audio = some (.audio a) ∧ Chain h.essenceNext a.Essences l

/-- A run of `aafi_newAudioEssence` calls on one root, each with the block
`calloc` gives it. -/
def newAudioEssences (h : Heap) (aafi : Ptr) : List Ptr → Except Fault Heap
  | [] => .ok h
  | a :: rest =>
    match aafi_newAudioEssence h aafi a with
    | .error e => .error e
    | .ok (h1, _) => newAudioEssences h1 aafi rest

/-! ## Interface root -/

/-- Function `aafi_alloc`.  `aafi_mem` is what `calloc` returns for the root,
`Audio_mem` what `malloc` returns for the container (a block with arbitrary
contents `garbage`), and `aaf_alloc` what the call `aaf_alloc()` returns (the
store of the decoder, `0` when it cannot allocate one). -/
def aafi_alloc (h : Heap) (aafd : Ptr) (aafi_mem : Ptr) (Audio_mem : Ptr)
    (garbage : aafiAudio) (aaf_alloc : Ptr) : Except Fault (Heap × Ptr) :=
  if aafi_mem = 0 then pure (h, 0)
  else do
    let h := h.set aafi_mem (.iface AAF_Iface.zero)
    let h := if Audio_mem = 0 then h else h.set Audio_mem (.audio garbage)
    let h ← h.modifyIface aafi_mem (fun r => { r with Audio := Audio_mem })
    let r ← h.getIface aafi_mem
    if r.Audio = 0 then pure (h, 0)
    else do
      let h ← h.modifyAudio r.Audio (fun a => { a with Essences := 0 })
      let r ← h.getIface aafi_mem
      let h ← h.modifyAudio r.Audio (fun a => { a with tc := 0 })
      let r ← h.getIface aafi_mem
      let h ← h.modifyAudio r.Audio (fun a => { a with Tracks := 0 })
      let h ←
        if aafd ≠ 0 then h.modifyIface aafi_mem (fun r => { r with aafd := aafd })
        else h.modifyIface aafi_mem (fun r => { r with aafd := aaf_alloc })
      let h ← h.modifyIface aafi_mem (fun r => { r with compositionName := 0 })
      pure (h, aafi_mem)

/-- Function `aafi_load_file`.  The two callees are not in this file:
`aaf_load_file` is the load of the decoder, returning `0` on success, and
`aafi_retrieveData` is the resolution pass, which fills the container. -/
def aafi_load_file (aaf_load_file : Ptr → String → Nat)
    (aafi_retrieveData : Heap → Ptr → Heap) (h : Heap) (aafi : Ptr) (file : String) :
    Except Fault (Heap × Nat) := do
  let r ← h.getIface aafi
  if aaf_load_file r.aafd file ≠ 0 then pure (h, 1)
  else pure (aafi_retrieveData h aafi, 0)

/-! ## Example states -/

/-- A transition item with the given links and flags. -/
def exTrans (next prev : Ptr) (flags : Nat) : aafiTimelineItem :=
  ⟨AAFI_TRANS, next, prev, .trans { aafiTransition.zero with flags := flags }⟩

/-- A clip item of track `1` with the given links. -/
def exClip (next prev : Ptr) : aafiTimelineItem :=
  ⟨AAFI_CLIP, next, prev, .clip { aafiAudioClip.zero with track := 1 }⟩

/-- A track with the given item list head. -/
def exTrack (items : Ptr) : aafiAudioTrack := { aafiAudioTrack.zero with Items := items }

/-- Three items in a row: a fade-in at `2`, a clip at `3`, a fade-out at `4`. -/
def exFades : Heap :=
  (((Heap.empty.set 1 (.track (exTrack 2))).set 2 (.item (exTrans 3 0 AAFI_TRANS_FADE_IN))).set 3
    (.item (exClip 4 2))).set 4 (.item (exTrans 0 3 AAFI_TRANS_FADE_OUT))

/-- A track at `1` with no item. -/
def exEmptyTrack : Heap := Heap.empty.set 1 (.track (exTrack 0))

/-- A track at `1` whose only item is the clip at `2`. -/
def exOneClip : Heap := (Heap.empty.set 1 (.track (exTrack 2))).set 2 (.item (exClip 0 0))

/-- The state that creating a clip in block `2` on the empty track at `1`
leaves. -/
def exAfterClip : Heap :=
  (exEmptyTrack.set 1 (.track (exTrack 2))).set 2 (.item (createdItem 1 AAFI_CLIP 0))

/-- A root whose container is at `2` and whose comment list starts at
`comments`. -/
def exIface (comments : Ptr) : AAF_Iface :=
  { AAF_Iface.zero with Audio := 2, Comments := comments }

/-- A root at `1` with an empty container at `2`. -/
def exRoot : Heap := (Heap.empty.set 1 (.iface (exIface 0))).set 2 (.audio ⟨0, 0, 0⟩)

/-- A root at `1` whose comment list holds the single comment at `3`. -/
def exComments : Heap :=
  ((Heap.empty.set 1 (.iface (exIface 3))).set 2 (.audio ⟨0, 0, 0⟩)).set 3
    (.comment ⟨0, 0, 0⟩)

/-- A load of the decoder that fails on every file. -/
def exLoadFails : Ptr → String → Nat := fun _ _ => 1

/-- A load of the decoder that succeeds on every file. -/
def exLoadOk : Ptr → String → Nat := fun _ _ => 0

/-- A resolution pass that leaves a block at `9`. -/
def exRetrieve : Heap → Ptr → Heap := fun h _ => h.set 9 .blob

/-! ## Handles and release -/

/-- A handle of type `T **` on a track, item or essence list or on the root:
null, the address of a pointer variable, `&audio->Tracks`,
`&audio->Essences`, or `&track->Items`. -/
inductive Handle where
  | null
  | var (a : Ptr)
  | audioTracks (audio : Ptr)
  | audioEssences (audio : Ptr)
  | trackItems (track : Ptr)
deriving DecidableEq

/-- The block that holds the pointer a handle designates. -/
def Handle.cell : Handle → Ptr
  | .null => 0
  | .var a => a
  | .audioTracks a => a
  | .audioEssences a => a
  | .trackItems t => t

/-- The block that holds the pointer a comment handle designates. -/
def CommentHandle.cell : CommentHandle → Ptr
  | .null => 0
  | .var a => a
  | .ifaceComments a => a
  | .commentNext c => c

/-- The object `o` that holds the pointer of a handle, once that pointer is
set to `v`. -/
def Handle.put (hd : Handle) (v : Ptr) (o : Obj) : Obj :=
  match hd, o with
  | .var _, .ptrvar _ => .ptrvar v
  | .audioTracks _, .audio a => .audio { a with Tracks := v }
  | .audioEssences _, .audio a => .audio { a with Essences := v }
  | .trackItems _, .track t => .track { t with Items := v }
  | _, o => o

/-- The object `o` that holds the pointer of a comment handle, once that
pointer is set to `v`. -/
def CommentHandle.put (hd : CommentHandle) (v : Ptr) (o : Obj) : Obj :=
  match hd, o with
  | .var _, .ptrvar _ => .ptrvar v
  | .ifaceComments _, .iface r => .iface { r with Comments := v }
  | .commentNext _, .comment c => .comment { c with next := v }
  | _, o => o

namespace Heap

/-- Read `*handle`. -/
def load (h : Heap) : Handle → Except Fault Ptr
  | .null => .error .nullDeref
  | .var a => h.getPtrvar a
  | .audioTracks a =>
    match h.getAudio a with
    | .error e => .error e
    | .ok v => .ok v.Tracks
  | .audioEssences a =>
    match h.getAudio a with
    | .error e => .error e
    | .ok v => .ok v.Essences
  | .trackItems t =>
    match h.getTrack t with
    | .error e => .error e
    | .ok v => .ok v.Items

/-- Assignment `*handle = v`. -/
def store (h : Heap) (l : Handle) (v : Ptr) : Except Fault Heap :=
  match l with
  | .null => .error .nullDeref
  | .var a =>
    match h.getPtrvar a with
    | .error e => .error e
    | .ok _ => .ok (h.set a (.ptrvar v))
  | .audioTracks a => h.modifyAudio a (fun x => { x with Tracks := v })
  | .audioEssences a => h.modifyAudio a (fun x => { x with Essences := v })
  | .trackItems t => h.modifyTrack t (fun x => { x with Items := v })

/-- Read `*p` of an `aafiAudioGain`. -/
def getGain (h : Heap) (p : Ptr) : Except Fault aafiAudioGain :=
  if p = 0 then .error .nullDeref else
  match h.mem p with
  | some (.gain v) => .ok v
  | _ => .error .invalidDeref

/-- Read `*(aafiAudioClip*)d`: the payload must hold a clip. -/
def getClip (h : Heap) (d : DataPtr) : Except Fault aafiAudioClip :=
  match d with
  | .null => .error .nullDeref
  | .dataOf p =>
    match h.getItem p with
    | .error e => .error e
    | .ok it =>
      match it.data with
      | .clip c => .ok c
      | .trans _ => .error .typeConfusion

end Heap

/-- Function `aafi_freeTransition`. -/
def aafi_freeTransition (h : Heap) (Transition : DataPtr) : Except Fault Heap := do
  let t ← h.getTransition Transition
  let h ← (if t.value_a ≠ 0 then h.free t.value_a else pure h)
  let t ← h.getTransition Transition
  let h ← (if t.value_b ≠ 0 then h.free t.value_b else pure h)
  let t ← h.getTransition Transition
  let h ← (if t.time_a ≠ 0 then h.free t.time_a else pure h)
  let t ← h.getTransition Transition
  let h ← (if t.time_b ≠ 0 then h.free t.time_b else pure h)
  pure h

/-- Lines 274-298 of `aafi_freeTimelineItem`, where `p` is the value of
`*item`: release what the payload owns, then the item block. -/
def freeTimelineItemNode (h : Heap) (p : Ptr) : Except Fault Heap := do
  let it ← h.getItem p
  let h ←
    (if it.type = AAFI_TRANS then aafi_freeTransition h (.dataOf p)
    else if it.type = AAFI_CLIP then (do
      let audioClip ← h.getClip (.dataOf p)
      if audioClip.gain ≠ 0 then
        let g ← h.getGain audioClip.gain
        let h ← (if g.time ≠ 0 then h.free g.time else pure h)
        let g ← h.getGain audioClip.gain
        let h ← (if g.value ≠ 0 then h.free g.value else pure h)
        h.free audioClip.gain
      else pure h)
    else pure h)
  h.free p

/-- Function `aafi_freeTimelineItem`. -/
def aafi_freeTimelineItem (h : Heap) (item : Handle) : Except Fault Heap := do
  let p ← h.load item
  let h ← freeTimelineItemNode h p
  h.store item 0

/-- The loop of `aafi_freeTimelineItems`.  The call
`aafi_freeTimelineItem (&item)` acts on the local variable `item`, which the
loop step then overwrites with `nextItem`. -/
def freeTimelineItemsLoop (h : Heap) : Nat → Ptr → Except Fault Heap
  | 0, item => if item = 0 then .ok h else .error .outOfFuel
  | fuel + 1, item =>
    if item = 0 then .ok h
    else
      match h.getItem item with
      | .error e => .error e
      | .ok it =>
        match freeTimelineItemNode h item with
        | .error e => .error e
        | .ok h1 => freeTimelineItemsLoop h1 fuel it.next

/-- Function `aafi_freeTimelineItems`. -/
def aafi_freeTimelineItems (fuel : Nat) (h : Heap) (items : Handle) : Except Fault Heap := do
  let item ← h.load items
  let h ← freeTimelineItemsLoop h fuel item
  h.store items 0

/-- The loop of `aafi_freeUserComments`. -/
def freeUserCommentsLoop (h : Heap) : Nat → Ptr → Except Fault Heap
  | 0, UserComment => if UserComment = 0 then .ok h else .error .outOfFuel
  | fuel + 1, UserComment =>
    if UserComment = 0 then .ok h
    else
      match (do
        let tmp := UserComment
        let c ← h.getComment tmp
        let UserComment := c.next
        let h ← (if c.name ≠ 0 then h.free c.name else pure h)
        let c ← h.getComment tmp
        let h ← (if c.text ≠ 0 then h.free c.text else pure h)
        let h ← h.free tmp
        pure (h, UserComment)) with
      | .error e => .error e
      | .ok (h1, next) => freeUserCommentsLoop h1 fuel next

/-- Function `aafi_freeUserComments`. -/
def aafi_freeUserComments (fuel : Nat) (h : Heap) (CommentList : CommentHandle) :
    Except Fault Heap := do
  let UserComment ← h.loadComment CommentList
  let h ← freeUserCommentsLoop h fuel UserComment
  h.storeComment CommentList 0

/-- The three `free` calls that `aafi_freeAudioTracks` makes on the gain, and
again on the pan, of a track. -/
def freeTrackGain (h : Heap) (gain : Ptr) : Except Fault Heap := do
  let g ← h.getGain gain
  let h ← h.free g.time
  let g ← h.getGain gain
  let h ← h.free g.value
  h.free gain

/-- The body of the loop of `aafi_freeAudioTracks` for the track `track`: the
heap after `free (track)`, and `nextTrack`. -/
def freeAudioTrackNode (fuel : Nat) (h : Heap) (track : Ptr) : Except Fault (Heap × Ptr) := do
  let t ← h.getTrack track
  let nextTrack := t.next
  let h ← (if t.name ≠ 0 then h.free t.name else pure h)
  let t ← h.getTrack track
  let h ← (if t.gain ≠ 0 then freeTrackGain h t.gain else pure h)
  let t ← h.getTrack track
  let h ← (if t.pan ≠ 0 then freeTrackGain h t.pan else pure h)
  let t ← h.getTrack track
  let h ← (if t.Items ≠ 0 then aafi_freeTimelineItems fuel h (.trackItems track) else pure h)
  let h ← h.free track
  pure (h, nextTrack)

/-- The loop of `aafi_freeAudioTracks`. -/
def freeAudioTracksLoop (inner : Nat) (h : Heap) : Nat → Ptr → Except Fault Heap
  | 0, track => if track = 0 then .ok h else .error .outOfFuel
  | fuel + 1, track =>
    if track = 0 then .ok h
    else
      match freeAudioTrackNode inner h track with
      | .error e => .error e
      | .ok (h1, nextTrack) => freeAudioTracksLoop inner h1 fuel nextTrack

/-- Function `aafi_freeAudioTracks`; `fuel` bounds the track loop and each
item loop. -/
def aafi_freeAudioTracks (fuel : Nat) (h : Heap) (tracks : Handle) : Except Fault Heap := do
  let track ← h.load tracks
  if track = 0 then pure h
  else
    let h ← freeAudioTracksLoop fuel h fuel track
    h.store tracks 0

/-- The loop of `aafi_freeAudioEssences`, whose loop variable is
`*audioEssence` itself. -/
def freeAudioEssencesLoop (audioEssence : Handle) (h : Heap) : Nat → Except Fault Heap
  | 0 =>
    match h.load audioEssence with
    | .error e => .error e
    | .ok p => if p = 0 then .ok h else .error .outOfFuel
  | fuel + 1 =>
    match h.load audioEssence with
    | .error e => .error e
    | .ok p =>
      if p = 0 then .ok h
      else
        match (do
          let e ← h.getEssence p
          let nextAudioEssence := e.next
          let h ← (if e.original_file ≠ 0 then h.free e.original_file else pure h)
          let p ← h.load audioEssence
          let e ← h.getEssence p
          let h ← (if e.exported_file ≠ 0 then h.free e.exported_file else pure h)
          let p ← h.load audioEssence
          let e ← h.getEssence p
          let h ← (if e.file_name ≠ 0 then h.free e.file_name else pure h)
          let p ← h.load audioEssence
          let e ← h.getEssence p
          let h ← (if e.unique_file_name ≠ 0 then h.free e.unique_file_name else pure h)
          let p ← h.load audioEssence
          let h ← h.free p
          h.store audioEssence nextAudioEssence) with
        | .error e => .error e
        | .ok h1 => freeAudioEssencesLoop audioEssence h1 fuel

/-- Function `aafi_freeAudioEssences`. -/
def aafi_freeAudioEssences (fuel : Nat) (h : Heap) (audioEssence : Handle) :
    Except Fault Heap := do
  let p ← h.load audioEssence
  if p = 0 then pure h
  else
    let h ← freeAudioEssencesLoop audioEssence h fuel
    h.store audioEssence 0

/-- Function `aafi_release`, on the handle `aafi`.  The callee `aaf_release` is
not in this file: it is given `&(*aafi)->aafd`, releases the store of the
decoder, which lives outside this heap, and returns with `aaf_release v` in
that member (`v` being its value at the call). -/
def aafi_release (aaf_release : Ptr → Ptr) (fuel : Nat) (h : Heap) (aafi : Handle) :
    Except Fault Heap := do
  let p ← h.load aafi
  if p = 0 then pure h
  else
    let h ← h.modifyIface p (fun r => { r with aafd := aaf_release r.aafd })
    let p ← h.load aafi
    let r ← h.getIface p
    let h ← (if r.compositionName ≠ 0 then h.free r.compositionName else pure h)
    let p ← h.load aafi
    let r ← h.getIface p
    let h ← (if r.Comments ≠ 0 then aafi_freeUserComments fuel h (.ifaceComments p) else pure h)
    let p ← h.load aafi
    let r ← h.getIface p
    let h ←
      (if r.Audio ≠ 0 then (do
        let a ← h.getAudio r.Audio
        let h ←
          (if a.Tracks ≠ 0 then aafi_freeAudioTracks fuel h (.audioTracks r.Audio)
          else pure h)
        let p ← h.load aafi
        let r ← h.getIface p
        let a ← h.getAudio r.Audio
        let h ←
          (if a.Essences ≠ 0 then aafi_freeAudioEssences fuel h (.audioEssences r.Audio)
          else pure h)
        let p ← h.load aafi
        let r ← h.getIface p
        let a ← h.getAudio r.Audio
        let h ← (if a.tc ≠ 0 then h.free a.tc else pure h)
        let p ← h.load aafi
        let r ← h.getIface p
        h.free r.Audio)
      else pure h)
    let p ← h.load aafi
    h.free p

/-! ## Owned blocks -/

/-- The non-null pointers of a list. -/
def nz (l : List Ptr) : List Ptr := l.filter (fun q => q ≠ 0)

/-- Heap `g` is heap `h` after `free` has been called on the blocks `B`, in
that order, and nothing else has changed but the blocks `cells`. -/
def FreedFrom (h g : Heap) (B cells : List Ptr) : Prop :=
  g.freed = B.reverse ++ h.freed ∧ (∀ q ∈ B, g.mem q = none) ∧
  (∀ q, q ∉ B → q ∉ cells → g.mem q = h.mem q)

/-- The non-null pointers of `l` point to live buffers. -/
def BlobsAt (h : Heap) (l : List Ptr) : Prop := ∀ q ∈ nz l, h.mem q = some .blob

/-- An optional gain: null, or a live `aafiAudioGain` whose point arrays are
null or live buffers. -/
def GainOK (h : Heap) (gp : Ptr) : Prop :=
  gp = 0 ∨ ∃ g, h.mem gp = some (.gain g) ∧ BlobsAt h [g.time, g.value]

/-- The blocks an optional gain owns, in the order they are freed. -/
def gainBlocks (h : Heap) (gp : Ptr) : List Ptr :=
  if gp = 0 then []
  else
    match h.mem gp with
    | some (.gain g) => nz [g.time, g.value] ++ [gp]
    | _ => []

/-- A well-formed timeline item: a live item tagged as `aafi_newTimelineItem`
tags it, whose payload owns live blocks (the gain of a clip, the curve arrays
of a transition). -/
def ItemOK (h : Heap) (p : Ptr) : Prop :=
  p ≠ 0 ∧ ∃ it, h.mem p = some (.item it) ∧
    ((it.type = AAFI_CLIP ∧ ∃ c, it.data = .clip c ∧ GainOK h c.gain) ∨
     (it.type = AAFI_TRANS ∧ ∃ t, it.data = .trans t ∧
        BlobsAt h [t.value_a, t.value_b, t.time_a, t.time_b]))

/-- The blocks a timeline item owns, in the order they are freed, the item
block last. -/
def itemBlocks (h : Heap) (p : Ptr) : List Ptr :=
  match h.mem p with
  | some (.item it) =>
    (match it.data with
      | .clip c => gainBlocks h c.gain
      | .trans t => nz [t.value_a, t.value_b, t.time_a, t.time_b]) ++ [p]
  | _ => []

/-- A well-formed track `s.1` with item list `s.2`: a live track whose name is
null or a live buffer, whose gain and pan are well-formed, and whose item
list is the null-terminated list `s.2` of well-formed items. -/
def TrackOK (h : Heap) (s : Ptr × List Ptr) : Prop :=
  s.1 ≠ 0 ∧ ∃ t, h.mem s.1 = some (.track t) ∧ BlobsAt h [t.name] ∧ GainOK h t.gain ∧
    GainOK h t.pan ∧ Chain h.itemNext t.Items s.2 ∧ ∀ x ∈ s.2, ItemOK h x

/-- The blocks the track `s.1` with item list `s.2` owns, in the order they are
freed, the track block last. -/
def trackBlocks (h : Heap) (s : Ptr × List Ptr) : List Ptr :=
  match h.mem s.1 with
  | some (.track t) =>
    nz [t.name] ++ (gainBlocks h t.gain ++ (gainBlocks h t.pan ++
      (s.2.flatMap (itemBlocks h) ++ [s.1])))
  | _ => []

/-- A well-formed comment: a live comment whose name and text are null or
live buffers. -/
def CommentOK (h : Heap) (c : Ptr) : Prop :=
  c ≠ 0 ∧ ∃ x, h.mem c = some (.comment x) ∧ BlobsAt h [x.name, x.text]

/-- The blocks a comment owns, in the order they are freed. -/
def commentBlocks (h : Heap) (c : Ptr) : List Ptr :=
  match h.mem c with
  | some (.comment x) => nz [x.name] ++ (nz [x.text] ++ [c])
  | _ => []

/-- A well-formed essence: a live essence whose four file names are null or
live buffers. -/
def EssenceOK (h : Heap) (p : Ptr) : Prop :=
  p ≠ 0 ∧ ∃ e, h.mem p = some (.essence e) ∧
    BlobsAt h [e.original_file, e.exported_file, e.file_name, e.unique_file_name]

/-- The blocks an essence owns, in the order they are freed. -/
def essenceBlocks (h : Heap) (p : Ptr) : List Ptr :=
  match h.mem p with
  | some (.essence e) =>
    nz [e.original_file] ++ (nz [e.exported_file] ++ (nz [e.file_name] ++
      (nz [e.unique_file_name] ++ [p])))
  | _ => []

/-- A well-formed root `aafi` with track list `shape` (each track with its item
list), essence list `le` and comment list `lc`: a live root with a live Audio
Container, whose lists are null-terminated lists of well-formed nodes and
whose composition name and timecode are null or live buffers. -/
def RootOK (h : Heap) (aafi : Ptr) (shape : List (Ptr × List Ptr)) (le lc : List Ptr) :
    Prop :=
  aafi ≠ 0 ∧ ∃ r a, h.mem aafi = some (.iface r) ∧ r.Audio ≠ 0 ∧
    h.mem r.Audio = some (.audio a) ∧ BlobsAt h [r.compositionName] ∧
    Chain h.commentNext r.Comments lc ∧ (∀ c ∈ lc, CommentOK h c) ∧
    Chain h.trackNext a.Tracks (shape.map Prod.fst) ∧ (∀ s ∈ shape, TrackOK h s) ∧
    Chain h.essenceNext a.Essences le ∧ (∀ e ∈ le, EssenceOK h e) ∧ BlobsAt h [a.tc]

/-- The blocks a root owns, in the order `aafi_release` frees them. -/
def rootBlocks (h : Heap) (aafi : Ptr) (shape : List (Ptr × List Ptr)) (le lc : List Ptr) :
    List Ptr :=
  match h.mem aafi with
  | some (.iface r) =>
    match h.mem r.Audio with
    | some (.audio a) =>
      nz [r.compositionName] ++ (lc.flatMap (commentBlocks h) ++
        (shape.flatMap (trackBlocks h) ++ (le.flatMap (essenceBlocks h) ++
          (nz [a.tc] ++ ([r.Audio] ++ [aafi])))))
    | _ => []
  | _ => []

/-! ## Frames and further example states -/

/-- Every item of `h` other than `X` is still an item of `g`, with the same
`type`. -/
def TypeKept (h g : Heap) (X : Ptr) : Prop :=
  ∀ q it0, q ≠ X → h.mem q = some (.item it0) →
    ∃ it1, g.mem q = some (.item it1) ∧ it1.type = it0.type

/-- The empty root of `exRoot` with a pointer variable at `5` that holds
null. -/
def exNullVar : Heap := exRoot.set 5 (.ptrvar 0)

/-- The constants of `aafiAudioGain_e`, `aafiTransition_e` and
`aafiInterpolation_e`, which share the `flags` words. -/
def flagConstants : List Nat :=
  [AAFI_AUDIO_GAIN_CONSTANT, AAFI_AUDIO_GAIN_VARIABLE, AAFI_TRANS_SINGLE_CURVE,
    AAFI_TRANS_TWO_CURVE, AAFI_TRANS_FADE_IN, AAFI_TRANS_FADE_OUT, AAFI_TRANS_XFADE,
    AAFI_INTERPOL_NONE, AAFI_INTERPOL_LINEAR, AAFI_INTERPOL_LOG, AAFI_INTERPOL_CONSTANT,
    AAFI_INTERPOL_POWER, AAFI_INTERPOL_BSPLINE]

/-- The flags word `f | G1 | ... | Gn`. -/
def orFlags (f : Nat) (Gs : List Nat) : Nat := Gs.foldl (fun x G => x ||| G) f

/-- A clip at `2`, a transition at `3` with flags
`FADE_OUT | SINGLE_CURVE | INTERPOL_LINEAR`, and a clip at `4`, on the track at
`1`. -/
def exMixed : Heap :=
  (((Heap.empty.set 1 (.track (exTrack 2))).set 2 (.item (exClip 3 0))).set 3
    (.item (exTrans 4 2
      (AAFI_TRANS_FADE_OUT ||| AAFI_TRANS_SINGLE_CURVE ||| AAFI_INTERPOL_LINEAR)))).set 4
    (.item (exClip 0 3))

/-! ## Roots built by the creators -/

/-- One creation call on a root: `aafi_newAudioTrack`, `aafi_newTimelineItem`
on a track with a kind, `aafi_newAudioEssence`, or `aafi_newUserComment`
through `&aafi->Comments`; `alloc` is the block `calloc` gives the call. -/
inductive Op where
  | track (alloc : Ptr)
  | item (track : Ptr) (kind : Nat) (alloc : Ptr)
  | essence (alloc : Ptr)
  | comment (alloc : Ptr)
deriving DecidableEq

/-- The block `calloc` gives a creation call. -/
def Op.alloc : Op → Ptr
  | .track a => a
  | .item _ _ a => a
  | .essence a => a
  | .comment a => a

/-- Run one creation call on the root `aafi`. -/
def runOp (MONO fuel : Nat) (h : Heap) (aafi : Ptr) : Op → Except Fault (Heap × Ptr)
  | .track a => aafi_newAudioTrack MONO fuel h aafi a
  | .item t k a => aafi_newTimelineItem fuel h t k a
  | .essence a => aafi_newAudioEssence h aafi a
  | .comment a => aafi_newUserComment h (.ifaceComments aafi) a

/-- Run a sequence of creation calls on the root `aafi`. -/
def runOps (MONO fuel : Nat) (h : Heap) (aafi : Ptr) : List Op → Except Fault Heap
  | [] => .ok h
  | o :: rest =>
    match runOp MONO fuel h aafi o with
    | .error e => .error e
    | .ok (h1, _) => runOps MONO fuel h1 aafi rest

/-- The calls extend the root they are run on: given the tracks `ts` created
so far, every item is created on one of the tracks created before it, with
kind `AAFI_CLIP` or `AAFI_TRANS`. -/
def OpsOK : List Ptr → List Op → Prop
  | _, [] => True
  | ts, .track a :: rest => OpsOK (ts ++ [a]) rest
  | ts, .item t k _ :: rest => t ∈ ts ∧ (k = AAFI_CLIP ∨ k = AAFI_TRANS) ∧ OpsOK ts rest
  | ts, .essence _ :: rest => OpsOK ts rest
  | ts, .comment _ :: rest => OpsOK ts rest

/-- The track list with its item lists after `alloc` is appended to the items
of `track`. -/
def addItem (track alloc : Ptr) (shape : List (Ptr × List Ptr)) : List (Ptr × List Ptr) :=
  shape.map (fun s => if s.1 = track then (s.1, s.2 ++ [alloc]) else s)

/-- A block that owns no buffer: every pointer to a name, a timecode, a gain
or a curve array in it is null, and an item is tagged as its payload is. -/
def Obj.plain : Obj → Prop
  | .iface r => r.compositionName = 0
  | .audio a => a.tc = 0
  | .track t => t.name = 0 ∧ t.gain = 0 ∧ t.pan = 0
  | .item it =>
    (it.type = AAFI_CLIP ∧ ∃ c, it.data = .clip c ∧ c.gain = 0) ∨
    (it.type = AAFI_TRANS ∧ ∃ t, it.data = .trans t ∧ t.value_a = 0 ∧ t.value_b = 0 ∧
      t.time_a = 0 ∧ t.time_b = 0)
  | .essence e =>
    e.original_file = 0 ∧ e.exported_file = 0 ∧ e.file_name = 0 ∧ e.unique_file_name = 0
  | .comment c => c.name = 0 ∧ c.text = 0
  | _ => True

/-- The nodes of a root with track list `shape`, essence list `le` and comment
list `lc`, in the order `aafi_release` reaches them. -/
def rootNodes (aafi audio : Ptr) (shape : List (Ptr × List Ptr)) (le lc : List Ptr) :
    List Ptr :=
  lc ++ (shape.flatMap (fun s => s.2 ++ [s.1]) ++ (le ++ ([audio] ++ [aafi])))

/-- The state of a root `aafi` with container `audio` that the creators have
built over the heap `h0`: its nodes are distinct blocks that were free in
`h0` and own no buffer, nothing else has changed, nothing has been freed, and
the lists are null-terminated. -/
def Built (h0 h : Heap) (aafi audio : Ptr) (shape : List (Ptr × List Ptr))
    (le lc : List Ptr) : Prop :=
  (rootNodes aafi audio shape le lc).Nodup ∧
  (∀ q ∈ rootNodes aafi audio shape le lc,
    q ≠ 0 ∧ h0.mem q = none ∧ ∃ o, h.mem q = some o ∧ o.plain) ∧
  (∀ q, q ∉ rootNodes aafi audio shape le lc → h.mem q = h0.mem q) ∧
  h.freed = h0.freed ∧
  ∃ r a, h.mem aafi = some (.iface r) ∧ r.Audio = audio ∧ h.mem audio = some (.audio a) ∧
    Chain h.commentNext r.Comments lc ∧ Chain h.trackNext a.Tracks (shape.map Prod.fst) ∧
    Chain h.essenceNext a.Essences le ∧
    ∀ s ∈ shape, ∃ t, h.mem s.1 = some (.track t) ∧ Chain h.itemNext t.Items s.2

/-- The lists of a root after one creation call. -/
def applyOp (st : List (Ptr × List Ptr) × List Ptr × List Ptr) :
    Op → List (Ptr × List Ptr) × List Ptr × List Ptr
  | .track a => (st.1 ++ [(a, [])], st.2.1, st.2.2)
  | .item t _ a => (addItem t a st.1, st.2.1, st.2.2)
  | .essence a => (st.1, a :: st.2.1, st.2.2)
  | .comment a => (st.1, st.2.1, a :: st.2.2)

/-- Heap `g` is heap `h` with some of the nodes `N` and the fresh block
`alloc` rewritten, the nodes still owning no buffer, and nothing freed. -/
def Ext (h g : Heap) (N : List Ptr) (alloc : Ptr) : Prop :=
  g.freed = h.freed ∧ (∀ q ∈ N, ∃ o, g.mem q = some o ∧ o.plain) ∧
  (∀ q, q ∉ N → q ≠ alloc → g.mem q = h.mem q)

/-! ## Free calls and node kinds -/

/-- The block at `q` holds a track. -/
def isTrack (h : Heap) (q : Ptr) : Bool :=
  match h.mem q with
  | some (.track _) => true
  | _ => false

/-- The block at `q` holds a timeline item. -/
def isItem (h : Heap) (q : Ptr) : Bool :=
  match h.mem q with
  | some (.item _) => true
  | _ => false

/-- A call of one of the five free functions, on a handle. -/
inductive FreeCall where
  | item (hd : Handle)
  | items (hd : Handle)
  | tracks (hd : Handle)
  | essences (hd : Handle)
  | comments (hd : CommentHandle)
deriving DecidableEq

/-- Run a free call. -/
def FreeCall.run (fuel : Nat) (h : Heap) : FreeCall → Except Fault Heap
  | .item hd => aafi_freeTimelineItem h hd
  | .items hd => aafi_freeTimelineItems fuel h hd
  | .tracks hd => aafi_freeAudioTracks fuel h hd
  | .essences hd => aafi_freeAudioEssences fuel h hd
  | .comments hd => aafi_freeUserComments fuel h hd

/-- The pointer the handle of a free call holds. -/
def FreeCall.held (h : Heap) : FreeCall → Except Fault Ptr
  | .item hd => h.load hd
  | .items hd => h.load hd
  | .tracks hd => h.load hd
  | .essences hd => h.load hd
  | .comments hd => h.loadComment hd

/-- The free call is one of the four list frees. -/
def FreeCall.isList : FreeCall → Bool
  | .item _ => false
  | _ => true

/-- The handle of a free call holds a well-formed item, or the head of a
well-formed (null-terminated) list of well-formed nodes that `fuel` covers; no
block is owned twice, and the handle is not stored in a block that the call
frees. -/
def FreeCall.WellFormed (fuel : Nat) (h : Heap) : FreeCall → Prop
  | .item hd => ∃ p, h.load hd = .ok p ∧ ItemOK h p ∧ (itemBlocks h p).Nodup ∧
      hd.cell ∉ itemBlocks h p
  | .items hd => ∃ p l, h.load hd = .ok p ∧ Chain h.itemNext p l ∧ (∀ x ∈ l, ItemOK h x) ∧
      (l.flatMap (itemBlocks h)).Nodup ∧ hd.cell ∉ l.flatMap (itemBlocks h) ∧ l.length ≤ fuel
  | .tracks hd => ∃ (p : Ptr) (shape : List (Ptr × List Ptr)), h.load hd = .ok p ∧
      Chain h.trackNext p (shape.map Prod.fst) ∧
      (∀ s ∈ shape, TrackOK h s) ∧ (shape.flatMap (trackBlocks h)).Nodup ∧
      hd.cell ∉ shape.flatMap (trackBlocks h) ∧ shape.length ≤ fuel ∧
      ∀ s ∈ shape, s.2.length ≤ fuel
  | .essences hd => ∃ p l, h.load hd = .ok p ∧ Chain h.essenceNext p l ∧
      (∀ x ∈ l, EssenceOK h x) ∧ (l.flatMap (essenceBlocks h)).Nodup ∧
      hd.cell ∉ l.flatMap (essenceBlocks h) ∧ l.length ≤ fuel
  | .comments hd => ∃ p l, h.loadComment hd = .ok p ∧ Chain h.commentNext p l ∧
      (∀ x ∈ l, CommentOK h x) ∧ (l.flatMap (commentBlocks h)).Nodup ∧
      hd.cell ∉ l.flatMap (commentBlocks h) ∧ l.length ≤ fuel

/-- The track of the example session. -/
def exSessionTrack : aafiAudioTrack :=
  { aafiAudioTrack.zero with name := 10, Items := 4, Audio := 2 }

/-- The clip of the example session, with its gain at `11`. -/
def exSessionClip : aafiTimelineItem :=
  ⟨AAFI_CLIP, 5, 0, .clip { aafiAudioClip.zero with track := 3, gain := 11 }⟩

/-- The gain of the clip of the example session. -/
def exSessionGain : aafiAudioGain := ⟨AAFI_AUDIO_GAIN_VARIABLE, 2, 12, 13⟩

/-- A session: the root at `1` with its container at `2`; the track at `3`,
named by the buffer at `10`, with the clip at `4` (whose gain at `11` has the
point arrays `12` and `13`) and the fade-out at `5`; the essence at `7`; the
comment at `8`; and the pointer variable at `9`, which holds the root. -/
def exSession : Heap :=
  ((((((((((((Heap.empty.set 1 (.iface (exIface 8))).set 2 (.audio ⟨0, 7, 3⟩)).set 3
    (.track exSessionTrack)).set 4 (.item exSessionClip)).set 5
    (.item (exTrans 0 4 AAFI_TRANS_FADE_OUT))).set 7 (.essence aafiAudioEssence.zero)).set 8
    (.comment ⟨0, 0, 0⟩)).set 9 (.ptrvar 1)).set 10 .blob).set 11
    (.gain exSessionGain)).set 12 .blob).set 13 .blob)

/-! ## Frame of the creators -/

/-- Heap `h1` is heap `h` but for the blocks `cells`: every other block holds
what it held, and nothing has been freed. -/
def SameBut (h h1 : Heap) (cells : List Ptr) : Prop :=
  h1.freed = h.freed ∧ ∀ q, q ∉ cells → h1.mem q = h.mem q

/-- A heap with a pointer variable at `5` that holds the comment at `3`. -/
def exCommentVar : Heap :=
  (Heap.empty.set 3 (.comment ⟨0, 0, 0⟩)).set 5 (.ptrvar 3)

/-! ## Theorems -/

/-! ### Null-terminated lists -/

theorem Chain.zero_not_mem {next : Ptr → Except Fault Ptr} :
    ∀ {l : List Ptr} {p : Ptr}, Chain next p l → (0 : Ptr) ∉ l
  | [], _, _ => by simp
  | q :: l, p, hc => by
    obtain ⟨hpq, hp0, n, _, hn⟩ := hc
    have ih := Chain.zero_not_mem hn
    subst hpq
    simp only [List.mem_cons, not_or]
    exact ⟨fun e => hp0 e.symm, ih⟩

theorem Chain.congr {next next' : Ptr → Except Fault Ptr} :
    ∀ {l : List Ptr} {p : Ptr}, (∀ q ∈ l, next' q = next q) → Chain next p l →
      Chain next' p l
  | [], _, _, hc => hc
  | q :: l, p, hagree, hc => by
    obtain ⟨hpq, hp0, n, hnx, hn⟩ := hc
    subst hpq
    refine ⟨rfl, hp0, n, ?_, ?_⟩
    · rw [hagree p (List.mem_cons_self _ _)]; exact hnx
    · exact Chain.congr (fun x hx => hagree x (List.mem_cons_of_mem _ hx)) hn

theorem Chain.unique {next : Ptr → Except Fault Ptr} :
    ∀ {l1 l2 : List Ptr} {p : Ptr}, Chain next p l1 → Chain next p l2 → l1 = l2
  | [], [], _, _, _ => rfl
  | [], _ :: _, _, h1, h2 => absurd h1 h2.2.1
  | _ :: _, [], _, h1, h2 => absurd h2 h1.2.1
  | q1 :: l1, q2 :: l2, p, h1, h2 => by
    obtain ⟨e1, _, n1, hn1, c1⟩ := h1
    obtain ⟨e2, _, n2, hn2, c2⟩ := h2
    have hn : n1 = n2 := by
      rw [hn1] at hn2
      exact Except.ok.inj hn2
    subst hn
    rw [← e1, ← e2, Chain.unique c1 c2]

theorem Chain.of_mem {next : Ptr → Except Fault Ptr} :
    ∀ {l : List Ptr} {p x : Ptr}, Chain next p l → x ∈ l →
      ∃ s, Chain next x s ∧ s.length ≤ l.length
  | [], _, _, _, hx => by simp at hx
  | q :: l, p, x, hc, hx => by
    rcases List.mem_cons.mp hx with hxq | hxl
    · have hpq : p = q := hc.1
      subst hxq
      subst hpq
      exact ⟨p :: l, hc, le_refl _⟩
    · obtain ⟨_, _, n, _, hn⟩ := hc
      obtain ⟨s, hs, hlen⟩ := Chain.of_mem hn hxl
      exact ⟨s, hs, by simp only [List.length_cons]; omega⟩

theorem Chain.nodup {next : Ptr → Except Fault Ptr} :
    ∀ {l : List Ptr} {p : Ptr}, Chain next p l → l.Nodup
  | [], _, _ => List.nodup_nil
  | q :: l, p, hc => by
    have hc0 := hc
    obtain ⟨hpq, _, n, _, hn⟩ := hc
    subst hpq
    refine List.nodup_cons.mpr ⟨?_, Chain.nodup hn⟩
    intro hmem
    obtain ⟨s, hs, hlen⟩ := Chain.of_mem hn hmem
    have := Chain.unique hs hc0
    subst this
    simp only [List.length_cons] at hlen
    omega

theorem Chain.last_next {next : Ptr → Except Fault Ptr} :
    ∀ {l : List Ptr} {p x : Ptr}, Chain next p (l ++ [x]) → next x = .ok 0
  | [], p, x, hc => by
    obtain ⟨hpq, _, n, hnx, hn⟩ := hc
    have hn0 : n = 0 := hn
    subst hpq
    rw [hnx, hn0]
  | _ :: l, _, x, hc => by
    obtain ⟨_, _, n, _, hn⟩ := hc
    exact Chain.last_next hn

theorem tailScan_chain {next : Ptr → Except Fault Ptr} :
    ∀ {l : List Ptr} {p x : Ptr} {fuel : Nat}, Chain next p (l ++ [x]) →
      l.length < fuel → tailScan next fuel p = .ok x
  | _, _, _, 0, _, hf => by omega
  | [], p, x, fuel + 1, hc, _ => by
    obtain ⟨hpq, hp0, n, hnx, hn⟩ := hc
    have hn0 : n = 0 := hn
    subst hpq
    simp [tailScan, hp0, hnx, hn0]
  | q :: l, p, x, fuel + 1, hc, hf => by
    obtain ⟨hpq, hp0, n, hnx, hn⟩ := hc
    have hne : n ≠ 0 := by
      cases l with
      | nil => exact hn.2.1
      | cons a l => exact hn.2.1
    have hf1 : l.length < fuel := by simp only [List.length_cons] at hf; omega
    have ih := tailScan_chain hn hf1
    simp [tailScan, hp0, hnx, hne, ih]

theorem foreachNode_chain {next : Ptr → Except Fault Ptr} :
    ∀ {l : List Ptr} {p : Ptr} {fuel : Nat}, Chain next p l →
      l.length < fuel → foreachNode next fuel p = .ok l
  | _, _, 0, _, hf => by omega
  | [], p, fuel + 1, hc, _ => by
    have hp : p = 0 := hc
    simp [foreachNode, hp]
  | q :: l, p, fuel + 1, hc, hf => by
    obtain ⟨hpq, hp0, n, hnx, hn⟩ := hc
    have hf1 : l.length < fuel := by simp only [List.length_cons] at hf; omega
    have ih := foreachNode_chain hn hf1
    subst hpq
    simp [foreachNode, hp0, hnx, ih]

theorem foreachNode_sound {next : Ptr → Except Fault Ptr} :
    ∀ {fuel : Nat} {p : Ptr} {visited l : List Ptr}, foreachNode next fuel p = .ok visited →
      Chain next p l → visited = l
  | 0, _, _, _, hv, _ => by simp [foreachNode] at hv
  | fuel + 1, p, visited, [], hv, hc => by
    have hp : p = 0 := hc
    simp [foreachNode, hp] at hv
    exact hv
  | fuel + 1, p, visited, q :: l, hv, hc => by
    obtain ⟨hpq, hp0, n, hnx, hn⟩ := hc
    subst hpq
    simp only [foreachNode, hp0, if_false, hnx] at hv
    cases hrec : foreachNode next fuel n with
    | error e => simp [hrec] at hv
    | ok l1 =>
      simp only [hrec, Except.ok.injEq] at hv
      rw [← hv, foreachNode_sound hrec hn]

theorem Chain.snoc {next next' : Ptr → Except Fault Ptr} :
    ∀ {l : List Ptr} {p x n : Ptr}, Chain next p (l ++ [x]) →
      (∀ q ∈ l, next' q = next q) → next' x = .ok n → n ≠ 0 → next' n = .ok 0 →
      Chain next' p (l ++ [x, n])
  | [], p, x, n, hc, _, hx, hn0, hnn => by
    obtain ⟨hpq, hp0, _, _, _⟩ := hc
    subst hpq
    exact ⟨rfl, hp0, n, hx, rfl, hn0, 0, hnn, rfl⟩
  | q :: l, p, x, n, hc, hagree, hx, hn0, hnn => by
    obtain ⟨hpq, hp0, m, hnx, hm⟩ := hc
    subst hpq
    refine ⟨rfl, hp0, m, ?_, ?_⟩
    · rw [hagree p (List.mem_cons_self _ _)]; exact hnx
    · exact Chain.snoc hm (fun y hy => hagree y (List.mem_cons_of_mem _ hy)) hx hn0 hnn

/-! ### Heap reads and writes -/

theorem Heap.set_mem_same (h : Heap) (p : Ptr) (o : Obj) : (h.set p o).mem p = some o := by
  simp [Heap.set]

theorem Heap.set_mem_ne (h : Heap) {p q : Ptr} (o : Obj) (hne : q ≠ p) :
    (h.set p o).mem q = h.mem q := by
  simp [Heap.set, hne]

theorem Heap.set_set (h : Heap) (p : Ptr) (a b : Obj) : (h.set p a).set p b = h.set p b := by
  unfold Heap.set
  congr 1
  funext q
  by_cases hq : q = p <;> simp [hq]

theorem Heap.set_set_set (h : Heap) {p q : Ptr} (a b c : Obj) :
    ((h.set p a).set q b).set p c = (h.set q b).set p c := by
  unfold Heap.set
  congr 1
  funext x
  by_cases hx : x = p <;> simp [hx]

theorem itemNext_of_mem {h : Heap} {p : Ptr} {it : aafiTimelineItem}
    (hp : p ≠ 0) (hm : h.mem p = some (.item it)) : h.itemNext p = .ok it.next := by
  simp [Heap.itemNext, Heap.getItem, hp, hm]

theorem itemNext_ok {h : Heap} {p n : Ptr} (hn : h.itemNext p = .ok n) :
    p ≠ 0 ∧ ∃ it, h.mem p = some (.item it) ∧ it.next = n := by
  unfold Heap.itemNext Heap.getItem at hn
  by_cases hp : p = 0
  · simp [hp] at hn
  · refine ⟨hp, ?_⟩
    cases hm : h.mem p with
    | none => simp [hp, hm] at hn
    | some o =>
      cases o <;> simp [hp, hm] at hn
      exact ⟨_, rfl, hn⟩

theorem itemNext_set_ne (h : Heap) {p q : Ptr} (o : Obj) (hne : q ≠ p) :
    (h.set p o).itemNext q = h.itemNext q := by
  simp [Heap.itemNext, Heap.getItem, Heap.set_mem_ne h o hne]

theorem Chain.item_live {h : Heap} {l : List Ptr} {p x : Ptr}
    (hc : Chain h.itemNext p l) (hx : x ∈ l) : x ≠ 0 ∧ ∃ it, h.mem x = some (.item it) := by
  obtain ⟨s, hs, _⟩ := Chain.of_mem hc hx
  cases s with
  | nil =>
    have h0 : x = 0 := hs
    exact absurd (h0 ▸ hx) (Chain.zero_not_mem hc)
  | cons a s =>
    obtain ⟨_, _, n, hn, _⟩ := hs
    obtain ⟨hx0, it, hit, _⟩ := itemNext_ok hn
    exact ⟨hx0, it, hit⟩

theorem link_empty (fuel : Nat) (h : Heap) (track item : Ptr) (t : aafiAudioTrack)
    (i : aafiTimelineItem) (htrack : track ≠ 0) (hmem : h.mem track = some (.track t))
    (hitems : t.Items = 0) (hitem : item ≠ 0) (hi : h.mem item = some (.item i)) :
    linkTimelineItem fuel h track item =
      .ok ((h.set track (.track { t with Items := item })).set item
        (.item { i with prev := 0 }), item) := by
  have hne : item ≠ track := by
    intro e
    rw [e, hmem] at hi
    cases hi
  simp [linkTimelineItem, htrack, Heap.getTrack, hmem, hitems, bind, Except.bind, pure,
    Except.pure, Heap.modifyTrack, Heap.modifyItem, Heap.getItem, hitem, Heap.set_mem_ne, hne, hi]

theorem link_nonempty (fuel : Nat) (h : Heap) (track item x : Ptr) (t : aafiAudioTrack)
    (i ix : aafiTimelineItem) (l : List Ptr) (htrack : track ≠ 0)
    (hmem : h.mem track = some (.track t))
    (hchain : Chain h.itemNext t.Items (l ++ [x])) (hfuel : l.length < fuel)
    (hx : h.mem x = some (.item ix)) (hitem : item ≠ 0) (hne : item ≠ x)
    (hi : h.mem item = some (.item i)) :
    linkTimelineItem fuel h track item =
      .ok ((h.set x (.item { ix with next := item })).set item
        (.item { i with prev := x }), item) := by
  have hitems : t.Items ≠ 0 := by
    cases l with
    | nil => exact hchain.2.1
    | cons a l => exact hchain.2.1
  have hx0 : x ≠ 0 := (Chain.item_live hchain (by simp)).1
  simp [linkTimelineItem, htrack, Heap.getTrack, hmem, hitems, bind, Except.bind, pure,
    Except.pure, tailScan_chain hchain hfuel, Heap.modifyItem, Heap.getItem, hitem, hx0, hx,
    Heap.set_mem_ne, hne, hi]

theorem newTimelineItem_empty (fuel : Nat) (h : Heap) (track alloc kind : Nat)
    (t : aafiAudioTrack) (htrack : track ≠ 0) (hmem : h.mem track = some (.track t))
    (hitems : t.Items = 0) (hkind : kind = AAFI_CLIP ∨ kind = AAFI_TRANS)
    (halloc : alloc ≠ 0) (hfresh : h.mem alloc = none) :
    aafi_newTimelineItem fuel h track kind alloc =
      .ok ((h.set track (.track { t with Items := alloc })).set alloc
        (.item (createdItem track kind 0)), alloc) := by
  have hne : track ≠ alloc := by
    intro e
    rw [e, hfresh] at hmem
    cases hmem
  rcases hkind with hk | hk
  · subst hk
    simp only [aafi_newTimelineItem, if_true, halloc, if_false, bind, Except.bind,
      Heap.modifyItem, Heap.modifyClip, Heap.getItem, Heap.set_mem_same, Heap.set_set]
    rw [link_empty fuel _ track alloc t _ htrack (by rw [Heap.set_mem_ne _ _ hne]; exact hmem)
      hitems halloc (Heap.set_mem_same _ _ _), Heap.set_set_set]
    simp [createdItem, AAFI_CLIP]
  · subst hk
    simp only [aafi_newTimelineItem, AAFI_TRANS, AAFI_CLIP, if_true, halloc, if_false, bind,
      Except.bind, Heap.modifyItem, Heap.getItem, Heap.set_mem_same, Heap.set_set]
    rw [if_neg (by decide)]
    rw [link_empty fuel _ track alloc t _ htrack (by rw [Heap.set_mem_ne _ _ hne]; exact hmem)
      hitems halloc (Heap.set_mem_same _ _ _), Heap.set_set_set]
    simp [createdItem, AAFI_CLIP]

theorem Chain.item_set_fresh {h : Heap} {l : List Ptr} {p alloc : Ptr} (o : Obj)
    (hc : Chain h.itemNext p l) (hfresh : h.mem alloc = none) :
    Chain (h.set alloc o).itemNext p l := by
  refine Chain.congr (fun q hq => itemNext_set_ne h o ?_) hc
  intro e
  obtain ⟨_, it, hit⟩ := Chain.item_live hc hq
  rw [e, hfresh] at hit
  cases hit

theorem newTimelineItem_nonempty (fuel : Nat) (h : Heap) (track alloc kind x : Nat)
    (t : aafiAudioTrack) (ix : aafiTimelineItem) (l : List Ptr) (htrack : track ≠ 0)
    (hmem : h.mem track = some (.track t))
    (hchain : Chain h.itemNext t.Items (l ++ [x])) (hfuel : l.length < fuel)
    (hx : h.mem x = some (.item ix)) (hkind : kind = AAFI_CLIP ∨ kind = AAFI_TRANS)
    (halloc : alloc ≠ 0) (hfresh : h.mem alloc = none) :
    aafi_newTimelineItem fuel h track kind alloc =
      .ok ((h.set x (.item { ix with next := alloc })).set alloc
        (.item (createdItem track kind x)), alloc) := by
  have hne : track ≠ alloc := by
    intro e
    rw [e, hfresh] at hmem
    cases hmem
  have hxne : x ≠ alloc := by
    intro e
    rw [e, hfresh] at hx
    cases hx
  rcases hkind with hk | hk
  · subst hk
    simp only [aafi_newTimelineItem, if_true, halloc, if_false, bind, Except.bind,
      Heap.modifyItem, Heap.modifyClip, Heap.getItem, Heap.set_mem_same, Heap.set_set]
    rw [link_nonempty fuel _ track alloc x t _ ix l htrack
      (by rw [Heap.set_mem_ne _ _ hne]; exact hmem) (Chain.item_set_fresh _ hchain hfresh) hfuel
      (by rw [Heap.set_mem_ne _ _ hxne]; exact hx) halloc (Ne.symm hxne)
      (Heap.set_mem_same _ _ _), Heap.set_set_set]
    simp [createdItem, AAFI_CLIP]
  · subst hk
    simp only [aafi_newTimelineItem, AAFI_TRANS, AAFI_CLIP, if_true, halloc, if_false, bind,
      Except.bind, Heap.modifyItem, Heap.getItem, Heap.set_mem_same, Heap.set_set]
    rw [if_neg (by decide)]
    rw [link_nonempty fuel _ track alloc x t _ ix l htrack
      (by rw [Heap.set_mem_ne _ _ hne]; exact hmem) (Chain.item_set_fresh _ hchain hfresh) hfuel
      (by rw [Heap.set_mem_ne _ _ hxne]; exact hx) halloc (Ne.symm hxne)
      (Heap.set_mem_same _ _ _), Heap.set_set_set]
    simp [createdItem, AAFI_CLIP]

theorem chain_item_snoc {h : Heap} {l : List Ptr} {p x alloc : Ptr}
    {ix new : aafiTimelineItem} (hc : Chain h.itemNext p (l ++ [x]))
    (hx : h.mem x = some (.item ix)) (halloc : alloc ≠ 0) (hfresh : h.mem alloc = none)
    (hnew : new.next = 0) :
    Chain ((h.set x (.item { ix with next := alloc })).set alloc (.item new)).itemNext p
      (l ++ [x, alloc]) := by
  have hxne : x ≠ alloc := by
    intro e
    rw [e, hfresh] at hx
    cases hx
  have hx0 : x ≠ 0 := (Chain.item_live hc (by simp)).1
  have hnd : (l ++ [x]).Nodup := Chain.nodup hc
  refine Chain.snoc hc ?_ ?_ halloc ?_
  · intro q hq
    have hqa : q ≠ alloc := by
      intro e
      obtain ⟨_, it, hit⟩ := Chain.item_live hc (List.mem_append_left _ hq)
      rw [e, hfresh] at hit
      cases hit
    have hqx : q ≠ x := by
      intro e
      rw [List.nodup_append] at hnd
      exact hnd.2.2 hq (by simp [e])
    rw [itemNext_set_ne _ _ hqa, itemNext_set_ne _ _ hqx]
  · rw [itemNext_set_ne _ _ hxne]
    exact itemNext_of_mem hx0 (Heap.set_mem_same _ _ _)
  · rw [itemNext_of_mem halloc (Heap.set_mem_same _ _ _), hnew]

theorem chain_item_single {h : Heap} {alloc : Ptr} {new : aafiTimelineItem}
    (halloc : alloc ≠ 0) (hnew : new.next = 0) :
    Chain (h.set alloc (.item new)).itemNext alloc [alloc] :=
  ⟨rfl, halloc, 0, by rw [itemNext_of_mem halloc (Heap.set_mem_same _ _ _), hnew], rfl⟩

/-- C3: on a non-null track whose item list is the well-formed list `l`, a
successful `aafi_newTimelineItem` of kind `AAFI_CLIP` or `AAFI_TRANS` returns
the fresh item `new` and the list becomes `l` followed by `new`: on an empty
list `track->Items == new` and `new->prev == NULL`, otherwise `track->Items`
is unchanged, the former last item has `next == new` and `new->prev` is that
item; in both cases `new->next == NULL`. -/
theorem C3_newTimelineItem_append (fuel : Nat) (h : Heap) (track kind alloc : Nat)
    (t : aafiAudioTrack) (l : List Ptr) (htrack : track ≠ 0)
    (hmem : h.mem track = some (.track t)) (hchain : Chain h.itemNext t.Items l)
    (hkind : kind = AAFI_CLIP ∨ kind = AAFI_TRANS) (halloc : alloc ≠ 0)
    (hfresh : h.mem alloc = none) (hfuel : l.length ≤ fuel) :
    ∃ h1 t1 new, aafi_newTimelineItem fuel h track kind alloc = .ok (h1, alloc) ∧
      h1.mem track = some (.track t1) ∧ h1.mem alloc = some (.item new) ∧
      Chain h1.itemNext t1.Items (l ++ [alloc]) ∧ new.next = 0 ∧
      (l = [] → t1.Items = alloc ∧ new.prev = 0) ∧
      (∀ l0 x, l = l0 ++ [x] → t1.Items = t.Items ∧ new.prev = x ∧
        ∃ ix, h1.mem x = some (.item ix) ∧ ix.next = alloc) := by
  have hne : track ≠ alloc := by
    intro e
    rw [e, hfresh] at hmem
    cases hmem
  rcases List.eq_nil_or_concat l with hl | ⟨l0, x, hl⟩
  · subst hl
    have hitems : t.Items = 0 := hchain
    refine ⟨_, { t with Items := alloc }, createdItem track kind 0,
      newTimelineItem_empty fuel h track alloc kind t htrack hmem hitems hkind halloc hfresh,
      ?_, Heap.set_mem_same _ _ _, ?_, rfl, fun _ => ⟨rfl, rfl⟩, ?_⟩
    · rw [Heap.set_mem_ne _ _ hne, Heap.set_mem_same]
    · exact chain_item_single halloc rfl
    · intro l0 x hl
      simp at hl
  · rw [List.concat_eq_append] at hl
    subst hl
    obtain ⟨hx0, ix, hx⟩ := Chain.item_live hchain (by simp : x ∈ l0 ++ [x])
    have hxne : x ≠ alloc := by
      intro e
      rw [e, hfresh] at hx
      cases hx
    have hxt : track ≠ x := by
      intro e
      rw [e, hx] at hmem
      cases hmem
    have hlen : l0.length < fuel := by
      simp only [List.length_append, List.length_singleton] at hfuel
      omega
    refine ⟨_, t, createdItem track kind x,
      newTimelineItem_nonempty fuel h track alloc kind x t ix l0 htrack hmem hchain hlen hx
        hkind halloc hfresh,
      ?_, Heap.set_mem_same _ _ _, ?_, rfl, ?_, ?_⟩
    · rw [Heap.set_mem_ne _ _ hne, Heap.set_mem_ne _ _ hxt, hmem]
    · rw [List.append_assoc]
      exact chain_item_snoc hchain hx halloc hfresh rfl
    · intro hl
      simp at hl
    · intro l1 y hl
      obtain ⟨_, hy⟩ := List.append_inj' hl rfl
      have hxy : x = y := by simpa using hy
      subst hxy
      refine ⟨rfl, rfl, { ix with next := alloc }, ?_, rfl⟩
      rw [Heap.set_mem_ne _ _ hxne, Heap.set_mem_same]

theorem Chain.head_mem {next : Ptr → Except Fault Ptr} {l : List Ptr} {p : Ptr}
    (hc : Chain next p l) : p = 0 ∨ p ∈ l := by
  cases l with
  | nil => exact Or.inl hc
  | cons q l => exact Or.inr (by rw [hc.1]; exact List.mem_cons_self _ _)

theorem Chain.next_mem {next : Ptr → Except Fault Ptr} :
    ∀ {l : List Ptr} {p x n : Ptr}, Chain next p l → x ∈ l → next x = .ok n →
      n = 0 ∨ n ∈ l
  | [], _, _, _, _, hx, _ => by simp at hx
  | q :: l, p, x, n, hc, hx, hn => by
    obtain ⟨hpq, _, m, hm, hcm⟩ := hc
    subst hpq
    rcases List.mem_cons.mp hx with hxq | hxl
    · subst hxq
      rw [hm] at hn
      have hmn : m = n := Except.ok.inj hn
      subst hmn
      rcases Chain.head_mem hcm with h0 | hmem
      · exact Or.inl h0
      · exact Or.inr (List.mem_cons_of_mem _ hmem)
    · rcases Chain.next_mem hcm hxl hn with h0 | hmem
      · exact Or.inl h0
      · exact Or.inr (List.mem_cons_of_mem _ hmem)

theorem Chain.next_ne_self {next : Ptr → Except Fault Ptr} :
    ∀ {l : List Ptr} {p x n : Ptr}, Chain next p l → x ∈ l → next x = .ok n → n ≠ x
  | [], _, _, _, _, hx, _ => by simp at hx
  | q :: l, p, x, n, hc, hx, hn => by
    have hnd : (q :: l).Nodup := Chain.nodup hc
    obtain ⟨hpq, hp0, m, hm, hcm⟩ := hc
    subst hpq
    rcases List.mem_cons.mp hx with hxq | hxl
    · subst hxq
      rw [hm] at hn
      have hmn : m = n := Except.ok.inj hn
      subst hmn
      rcases Chain.head_mem hcm with h0 | hmem
      · rw [h0]; exact Ne.symm hp0
      · intro e
        rw [e] at hmem
        exact (List.nodup_cons.mp hnd).1 hmem
    · exact Chain.next_ne_self hcm hxl hn

theorem PrevChain.prev_mem {h : Heap} :
    ∀ {l : List Ptr} {pv y : Ptr} {iy : aafiTimelineItem}, PrevChain h pv l → y ∈ l →
      h.mem y = some (.item iy) → iy.prev = pv ∨ iy.prev ∈ l
  | [], _, _, _, _, hy, _ => by simp at hy
  | q :: l, pv, y, iy, hp, hy, hm => by
    obtain ⟨⟨it, hit, hpv⟩, hrest⟩ := hp
    rcases List.mem_cons.mp hy with hyq | hyl
    · subst hyq
      rw [hit] at hm
      cases hm
      exact Or.inl hpv
    · rcases PrevChain.prev_mem hrest hyl hm with e | hmem
      · exact Or.inr (by rw [e]; exact List.mem_cons_self _ _)
      · exact Or.inr (List.mem_cons_of_mem _ hmem)

theorem prevChain_congr {h h1 : Heap} :
    ∀ {l : List Ptr} {pv : Ptr},
      (∀ q ∈ l, ∀ it, h.mem q = some (.item it) →
        ∃ it1, h1.mem q = some (.item it1) ∧ it1.prev = it.prev) →
      PrevChain h pv l → PrevChain h1 pv l
  | [], _, _, _ => trivial
  | q :: l, pv, hagree, hp => by
    obtain ⟨⟨it, hit, hpv⟩, hrest⟩ := hp
    obtain ⟨it1, hit1, hprev⟩ := hagree q (List.mem_cons_self _ _) it hit
    exact ⟨⟨it1, hit1, by rw [hprev, hpv]⟩,
      prevChain_congr (fun x hx => hagree x (List.mem_cons_of_mem _ hx)) hrest⟩

theorem prevChain_snoc {h : Heap} {a x : Ptr} {ia : aafiTimelineItem}
    (ha : h.mem a = some (.item ia)) (hprev : ia.prev = x) :
    ∀ {l : List Ptr} {pv : Ptr}, PrevChain h pv (l ++ [x]) → PrevChain h pv (l ++ [x, a])
  | [], _, hp => ⟨hp.1, ⟨ia, ha, hprev⟩, trivial⟩
  | _ :: _, _, hp => ⟨hp.1, prevChain_snoc ha hprev hp.2⟩

theorem linked_first {h : Heap} {l : List Ptr} {n q y : Ptr} {iy : aafiTimelineItem}
    (hc : Chain h.itemNext n l) (hp : PrevChain h q l) (hq : q ∉ l) (hy : y ∈ l)
    (hm : h.mem y = some (.item iy)) : n = y ↔ iy.prev = q := by
  have hnd : l.Nodup := Chain.nodup hc
  cases l with
  | nil => simp at hy
  | cons y0 l =>
    obtain ⟨hny0, _, _, _, _⟩ := hc
    obtain ⟨⟨it, hit, hpv⟩, hrest⟩ := hp
    subst hny0
    rcases List.mem_cons.mp hy with hyy | hyl
    · subst hyy
      rw [hit] at hm
      cases hm
      exact ⟨fun _ => hpv, fun _ => rfl⟩
    · have hne : n ≠ y := by
        intro e
        rw [← e] at hyl
        exact (List.nodup_cons.mp hnd).1 hyl
      constructor
      · intro e
        exact absurd e hne
      · intro e
        exfalso
        rcases PrevChain.prev_mem hrest hyl hm with e1 | hmem
        · rw [e] at e1
          exact hq (by rw [e1]; exact List.mem_cons_self _ _)
        · rw [e] at hmem
          exact hq (List.mem_cons_of_mem _ hmem)

theorem linked_inverse {h : Heap} :
    ∀ {l : List Ptr} {p pv : Ptr}, Chain h.itemNext p l → PrevChain h pv l → pv ∉ l →
      ∀ x ∈ l, ∀ y ∈ l, ∀ ix iy, h.mem x = some (.item ix) → h.mem y = some (.item iy) →
        (ix.next = y ↔ iy.prev = x)
  | [], _, _, _, _, _ => by
    intro x hx
    simp at hx
  | q :: l, p, pv, hc, hp, hpv => by
    intro x hx y hy ix iy hmx hmy
    have hnd : (q :: l).Nodup := Chain.nodup hc
    have hql : q ∉ l := (List.nodup_cons.mp hnd).1
    obtain ⟨hpq, hp0, n, hn, hcn⟩ := hc
    obtain ⟨⟨it, hit, hitpv⟩, hrest⟩ := hp
    subst hpq
    obtain ⟨_, it2, hit2, hnext⟩ := itemNext_ok hn
    rw [hit] at hit2
    cases hit2
    have hpvq : pv ≠ p := fun e => hpv (by rw [e]; exact List.mem_cons_self _ _)
    have hpvl : pv ∉ l := fun e => hpv (List.mem_cons_of_mem _ e)
    rcases List.mem_cons.mp hx with hxq | hxl <;> rcases List.mem_cons.mp hy with hyq | hyl
    · subst hxq
      subst hyq
      rw [hit] at hmx hmy
      cases hmx
      cases hmy
      constructor
      · intro e
        exfalso
        rw [hnext] at e
        rcases Chain.head_mem hcn with h0 | hmem
        · exact hp0 (by rw [← e, h0])
        · exact hql (by rw [← e]; exact hmem)
      · intro e
        exact absurd (hitpv.symm.trans e) hpvq
    · subst hxq
      rw [hit] at hmx
      cases hmx
      rw [hnext]
      exact linked_first hcn hrest hql hyl hmy
    · subst hyq
      rw [hit] at hmy
      cases hmy
      constructor
      · intro e
        exfalso
        have hxn : h.itemNext x = .ok ix.next :=
          itemNext_of_mem (Chain.item_live hcn hxl).1 hmx
        rcases Chain.next_mem hcn hxl hxn with h0 | hmem
        · exact hp0 (by rw [← e, h0])
        · exact hql (by rw [← e]; exact hmem)
      · intro e
        exfalso
        rw [hitpv] at e
        exact hpvl (by rw [e]; exact hxl)
    · exact linked_inverse hcn hrest hql x hxl y hyl ix iy hmx hmy

theorem newTimelineItem_inv (fuel : Nat) (h : Heap) (track kind alloc : Nat) (l : List Ptr)
    (htrack : track ≠ 0) (hinv : ItemsInv h track l)
    (hkind : kind = AAFI_CLIP ∨ kind = AAFI_TRANS) (halloc : alloc ≠ 0)
    (hfresh : h.mem alloc = none) (hfuel : l.length ≤ fuel) :
    ∃ h1, aafi_newTimelineItem fuel h track kind alloc = .ok (h1, alloc) ∧
      ItemsInv h1 track (l ++ [alloc]) ∧
      (∀ q, h.mem q = none → q ≠ alloc → h1.mem q = none) := by
  obtain ⟨t, hmem, hchain, hprev⟩ := hinv
  have hne : track ≠ alloc := by
    intro e
    rw [e, hfresh] at hmem
    cases hmem
  rcases List.eq_nil_or_concat l with hl | ⟨l0, x, hl⟩
  · subst hl
    have hitems : t.Items = 0 := hchain
    refine ⟨_, newTimelineItem_empty fuel h track alloc kind t htrack hmem hitems hkind halloc
      hfresh, ⟨{ t with Items := alloc }, ?_, chain_item_single halloc rfl,
        ⟨createdItem track kind 0, Heap.set_mem_same _ _ _, rfl⟩, trivial⟩, ?_⟩
    · rw [Heap.set_mem_ne _ _ hne, Heap.set_mem_same]
    · intro q hq hqa
      have hqt : q ≠ track := by
        intro e
        rw [e, hmem] at hq
        cases hq
      rw [Heap.set_mem_ne _ _ hqa, Heap.set_mem_ne _ _ hqt, hq]
  · rw [List.concat_eq_append] at hl
    subst hl
    obtain ⟨hx0, ix, hx⟩ := Chain.item_live hchain (by simp : x ∈ l0 ++ [x])
    have hxne : x ≠ alloc := by
      intro e
      rw [e, hfresh] at hx
      cases hx
    have hxt : track ≠ x := by
      intro e
      rw [e, hx] at hmem
      cases hmem
    have hlen : l0.length < fuel := by
      simp only [List.length_append, List.length_singleton] at hfuel
      omega
    refine ⟨_, newTimelineItem_nonempty fuel h track alloc kind x t ix l0 htrack hmem hchain
      hlen hx hkind halloc hfresh, ⟨t, ?_, ?_, ?_⟩, ?_⟩
    · rw [Heap.set_mem_ne _ _ hne, Heap.set_mem_ne _ _ hxt, hmem]
    · rw [List.append_assoc]
      exact chain_item_snoc hchain hx halloc hfresh rfl
    · rw [List.append_assoc]
      refine prevChain_snoc (Heap.set_mem_same _ _ _) rfl (prevChain_congr ?_ hprev)
      intro q hq it hit
      have hqa : q ≠ alloc := by
        intro e
        rw [e, hfresh] at hit
        cases hit
      by_cases hqx : q = x
      · subst hqx
        rw [hx] at hit
        cases hit
        exact ⟨{ ix with next := alloc },
          by rw [Heap.set_mem_ne _ _ hqa, Heap.set_mem_same], rfl⟩
      · exact ⟨it, by rw [Heap.set_mem_ne _ _ hqa, Heap.set_mem_ne _ _ hqx, hit], rfl⟩
    · intro q hq hqa
      have hqx : q ≠ x := by
        intro e
        rw [e, hx] at hq
        cases hq
      rw [Heap.set_mem_ne _ _ hqa, Heap.set_mem_ne _ _ hqx, hq]

theorem newTimelineItems_inv (fuel : Nat) (track : Ptr) (htrack : track ≠ 0) :
    ∀ (calls : List (Nat × Ptr)) (h : Heap) (l : List Ptr), ItemsInv h track l →
      (∀ c ∈ calls, (c.1 = AAFI_CLIP ∨ c.1 = AAFI_TRANS) ∧ c.2 ≠ 0 ∧ h.mem c.2 = none) →
      (calls.map Prod.snd).Nodup → l.length + calls.length ≤ fuel + 1 →
      ∃ h1, newTimelineItems fuel h track calls = .ok h1 ∧
        ItemsInv h1 track (l ++ calls.map Prod.snd)
  | [], h, l, hinv, _, _, _ => ⟨h, rfl, by simpa using hinv⟩
  | (k, a) :: rest, h, l, hinv, hcalls, hnd, hfuel => by
    obtain ⟨hk, ha0, hfresh⟩ := hcalls (k, a) (List.mem_cons_self _ _)
    simp only [List.length_cons] at hfuel
    obtain ⟨h1, hrun, hinv1, hframe⟩ :=
      newTimelineItem_inv fuel h track k a l htrack hinv hk ha0 hfresh (by omega)
    simp only [List.map_cons, List.nodup_cons] at hnd
    have hcalls1 : ∀ c ∈ rest,
        (c.1 = AAFI_CLIP ∨ c.1 = AAFI_TRANS) ∧ c.2 ≠ 0 ∧ h1.mem c.2 = none := by
      intro c hc
      obtain ⟨hck, hc0, hcf⟩ := hcalls c (List.mem_cons_of_mem _ hc)
      refine ⟨hck, hc0, hframe c.2 hcf ?_⟩
      intro e
      exact hnd.1 (by rw [← e]; exact List.mem_map_of_mem _ hc)
    obtain ⟨h2, hrun2, hinv2⟩ :=
      newTimelineItems_inv fuel track htrack rest h1 (l ++ [a]) hinv1 hcalls1 hnd.2
        (by simp only [List.length_append, List.length_singleton]; omega)
    refine ⟨h2, ?_, ?_⟩
    · simp only [newTimelineItems, hrun]
      exact hrun2
    · simpa using hinv2

/-- C4: after any run of successful `aafi_newTimelineItem` calls (kinds
`AAFI_CLIP` or `AAFI_TRANS`) on an empty track, the item list is the created
items in insertion order, null-terminated and without repetition; a forward
traversal from `track->Items` returns exactly that list; `x->next == y` iff
`y->prev == x` for all items `x`, `y` of the track; the head has a null
`prev`; and no item is its own successor. -/
theorem C4_item_list_invariant (fuel : Nat) (h : Heap) (track : Ptr) (t : aafiAudioTrack)
    (calls : List (Nat × Ptr)) (htrack : track ≠ 0) (hmem : h.mem track = some (.track t))
    (hempty : t.Items = 0)
    (hcalls : ∀ c ∈ calls, (c.1 = AAFI_CLIP ∨ c.1 = AAFI_TRANS) ∧ c.2 ≠ 0 ∧ h.mem c.2 = none)
    (hnd : (calls.map Prod.snd).Nodup) (hfuel : calls.length ≤ fuel) :
    ∃ h1 t1, newTimelineItems fuel h track calls = .ok h1 ∧
      h1.mem track = some (.track t1) ∧
      Chain h1.itemNext t1.Items (calls.map Prod.snd) ∧
      (calls.map Prod.snd).Nodup ∧
      (∀ fuel1, calls.length < fuel1 →
        foreach_audioItem fuel1 h1 track = .ok (calls.map Prod.snd)) ∧
      (∀ x ∈ calls.map Prod.snd, ∀ y ∈ calls.map Prod.snd, ∀ ix iy,
        h1.mem x = some (.item ix) → h1.mem y = some (.item iy) →
        (ix.next = y ↔ iy.prev = x)) ∧
      (∀ x ∈ calls.map Prod.snd, ∃ ix, h1.mem x = some (.item ix) ∧ ix.next ≠ x) ∧
      (∀ hd ∈ (calls.map Prod.snd).head?, ∃ ihd, h1.mem hd = some (.item ihd) ∧ ihd.prev = 0) := by
  have hinv : ItemsInv h track [] := ⟨t, hmem, hempty, trivial⟩
  obtain ⟨h1, hrun, t1, hmem1, hchain, hprev⟩ :=
    newTimelineItems_inv fuel track htrack calls h [] hinv hcalls hnd
      (by simp only [List.length_nil]; omega)
  simp only [List.nil_append] at hchain hprev
  refine ⟨h1, t1, hrun, hmem1, hchain, hnd, ?_, ?_, ?_, ?_⟩
  · intro fuel1 hf
    simp only [foreach_audioItem, Heap.getTrack, htrack, if_false, hmem1, bind, Except.bind]
    exact foreachNode_chain hchain (by simpa using hf)
  · exact linked_inverse hchain hprev (Chain.zero_not_mem hchain)
  · intro x hx
    obtain ⟨hx0, ix, hix⟩ := Chain.item_live hchain hx
    exact ⟨ix, hix, Chain.next_ne_self hchain hx (itemNext_of_mem hx0 hix)⟩
  · intro hd hhd
    cases hl : calls.map Prod.snd with
    | nil => rw [hl] at hhd; simp at hhd
    | cons a l =>
      rw [hl] at hhd hprev
      simp only [List.head?_cons, Option.mem_def, Option.some.injEq] at hhd
      subst hhd
      exact hprev.1

/-- C7: on a non-null track whose last item is `c` (the only item when `l` is
empty), `aafi_newTimelineItem (track, AAFI_TRANS)` returns `t`; once the flags
of `t` are set to a value containing `AAFI_TRANS_FADE_OUT`, `c->next == t` and
`get_fadeout (c)` returns the payload of `t`, which holds those flags. -/
theorem C7_fadeout_discovery (fuel : Nat) (h : Heap) (track c alloc flags : Nat)
    (t : aafiAudioTrack) (ic : aafiTimelineItem) (l : List Ptr) (htrack : track ≠ 0)
    (hmem : h.mem track = some (.track t)) (hchain : Chain h.itemNext t.Items (l ++ [c]))
    (hc : h.mem c = some (.item ic)) (hclip : ic.type = AAFI_CLIP) (halloc : alloc ≠ 0)
    (hfresh : h.mem alloc = none) (hfuel : l.length < fuel)
    (hflags : flags &&& AAFI_TRANS_FADE_OUT ≠ 0) :
    ∃ h1 h2, aafi_newTimelineItem fuel h track AAFI_TRANS alloc = .ok (h1, alloc) ∧
      setTransitionFlags h1 alloc flags = .ok h2 ∧
      (∃ ic2, h2.mem c = some (.item ic2) ∧ ic2.next = alloc ∧ ic2.type = AAFI_CLIP) ∧
      get_fadeout h2 c = .ok (.dataOf alloc) ∧
      (∃ tr, h2.getTransition (.dataOf alloc) = .ok tr ∧ tr.flags = flags) := by
  have hc0 : c ≠ 0 := (Chain.item_live hchain (by simp)).1
  have hca : c ≠ alloc := by
    intro e
    rw [e, hfresh] at hc
    cases hc
  refine ⟨(h.set c (.item { ic with next := alloc })).set alloc
      (.item (createdItem track AAFI_TRANS c)),
    ((h.set c (.item { ic with next := alloc })).set alloc
      (.item (createdItem track AAFI_TRANS c))).set alloc
      (.item ⟨AAFI_TRANS, 0, c, .trans { aafiTransition.zero with flags := flags }⟩),
    newTimelineItem_nonempty fuel h track alloc AAFI_TRANS c t ic l htrack hmem
      hchain hfuel hc (Or.inr rfl) halloc hfresh, ?_, ?_, ?_, ?_⟩
  · simp only [setTransitionFlags, Heap.modifyTransition, Heap.getItem, halloc, if_false,
      Heap.set_mem_same, createdItem, AAFI_TRANS, AAFI_CLIP]
    rw [if_neg (by decide)]
  · refine ⟨{ ic with next := alloc }, ?_, rfl, hclip⟩
    rw [Heap.set_mem_ne _ _ hca, Heap.set_mem_ne _ _ hca, Heap.set_mem_same]
  · simp [get_fadeout, Heap.getItem, hc0, halloc, Heap.set_mem_ne, hca, Heap.set_mem_same,
      bind, Except.bind, pure, Except.pure, Heap.getTransition, AAFI_TRANS, hflags]
  · simp [Heap.getTransition, Heap.getItem, halloc, Heap.set_mem_same]

/-! ### Tracks -/

theorem trackNext_of_mem {h : Heap} {p : Ptr} {t : aafiAudioTrack}
    (hp : p ≠ 0) (hm : h.mem p = some (.track t)) : h.trackNext p = .ok t.next := by
  simp [Heap.trackNext, Heap.getTrack, hp, hm]

theorem trackNext_ok {h : Heap} {p n : Ptr} (hn : h.trackNext p = .ok n) :
    p ≠ 0 ∧ ∃ t, h.mem p = some (.track t) ∧ t.next = n := by
  unfold Heap.trackNext Heap.getTrack at hn
  by_cases hp : p = 0
  · simp [hp] at hn
  · refine ⟨hp, ?_⟩
    cases hm : h.mem p with
    | none => simp [hp, hm] at hn
    | some o =>
      cases o <;> simp [hp, hm] at hn
      exact ⟨_, rfl, hn⟩

theorem trackNext_set_ne (h : Heap) {p q : Ptr} (o : Obj) (hne : q ≠ p) :
    (h.set p o).trackNext q = h.trackNext q := by
  simp [Heap.trackNext, Heap.getTrack, Heap.set_mem_ne h o hne]

theorem Chain.track_live {h : Heap} {l : List Ptr} {p x : Ptr}
    (hc : Chain h.trackNext p l) (hx : x ∈ l) : x ≠ 0 ∧ ∃ t, h.mem x = some (.track t) := by
  obtain ⟨s, hs, _⟩ := Chain.of_mem hc hx
  cases s with
  | nil =>
    have h0 : x = 0 := hs
    exact absurd (h0 ▸ hx) (Chain.zero_not_mem hc)
  | cons a s =>
    obtain ⟨_, _, n, hn, _⟩ := hs
    obtain ⟨hx0, t, ht, _⟩ := trackNext_ok hn
    exact ⟨hx0, t, ht⟩

theorem Chain.track_set_other {h : Heap} {l : List Ptr} {p q : Ptr} (o : Obj)
    (hc : Chain h.trackNext p l) (hq : q ∉ l) : Chain (h.set q o).trackNext p l := by
  refine Chain.congr (fun x hx => trackNext_set_ne h o ?_) hc
  intro e
  exact hq (e ▸ hx)

theorem newAudioTrack_empty (MONO fuel : Nat) (h : Heap) (aafi alloc : Ptr) (r : AAF_Iface)
    (a : aafiAudio) (haafi : aafi ≠ 0) (hr : h.mem aafi = some (.iface r))
    (haudio : r.Audio ≠ 0) (ha : h.mem r.Audio = some (.audio a)) (hempty : a.Tracks = 0)
    (halloc : alloc ≠ 0) (hfresh : h.mem alloc = none) :
    aafi_newAudioTrack MONO fuel h aafi alloc =
      .ok ((((h.set r.Audio (.audio { a with Tracks := alloc })).set alloc
        (.track (createdTrack MONO r.Audio))).set aafi
        (.iface { r with ctx := { r.ctx with current_track := alloc } })), alloc) := by
  have hna : aafi ≠ alloc := by
    intro e
    rw [e, hfresh] at hr
    cases hr
  have hnb : r.Audio ≠ alloc := by
    intro e
    rw [e, hfresh] at ha
    cases ha
  have hab : aafi ≠ r.Audio := by
    intro e
    rw [e, ha] at hr
    cases hr
  simp [aafi_newAudioTrack, halloc, bind, Except.bind, pure, Except.pure, Heap.modifyTrack,
    Heap.getTrack, Heap.set_mem_same, Heap.set_set, Heap.getIface, haafi, Heap.set_mem_ne,
    hna, hr, Heap.getAudio, haudio, hnb, ha, hempty, Heap.modifyAudio, hab, Heap.modifyIface,
    Heap.set_set_set, createdTrack, aafiAudioTrack.zero, hna.symm, hnb.symm, hab.symm]

theorem newAudioTrack_nonempty (MONO fuel : Nat) (h : Heap) (aafi alloc x : Ptr)
    (r : AAF_Iface) (a : aafiAudio) (tx : aafiAudioTrack) (l : List Ptr) (haafi : aafi ≠ 0)
    (hr : h.mem aafi = some (.iface r)) (haudio : r.Audio ≠ 0)
    (ha : h.mem r.Audio = some (.audio a)) (hchain : Chain h.trackNext a.Tracks (l ++ [x]))
    (hfuel : l.length < fuel) (hx : h.mem x = some (.track tx)) (halloc : alloc ≠ 0)
    (hfresh : h.mem alloc = none) :
    aafi_newAudioTrack MONO fuel h aafi alloc =
      .ok ((((h.set x (.track { tx with next := alloc })).set alloc
        (.track (createdTrack MONO r.Audio))).set aafi
        (.iface { r with ctx := { r.ctx with current_track := alloc } })), alloc) := by
  have hna : aafi ≠ alloc := by
    intro e
    rw [e, hfresh] at hr
    cases hr
  have hnb : r.Audio ≠ alloc := by
    intro e
    rw [e, hfresh] at ha
    cases ha
  have hxa : x ≠ alloc := by
    intro e
    rw [e, hfresh] at hx
    cases hx
  have hax : aafi ≠ x := by
    intro e
    rw [e, hx] at hr
    cases hr
  have hx0 : x ≠ 0 := (Chain.track_live hchain (by simp)).1
  have hne : a.Tracks ≠ 0 := by
    cases l with
    | nil => exact hchain.2.1
    | cons b l => exact hchain.2.1
  have hmem : alloc ∉ l ++ [x] := by
    intro hm
    obtain ⟨_, t, ht⟩ := Chain.track_live hchain hm
    rw [hfresh] at ht
    cases ht
  have hscan := fun o => tailScan_chain (Chain.track_set_other o hchain hmem) hfuel
  simp [aafi_newAudioTrack, halloc, bind, Except.bind, pure, Except.pure, Heap.modifyTrack,
    Heap.getTrack, Heap.set_mem_same, Heap.set_set, Heap.getIface, haafi, Heap.set_mem_ne,
    hna, hr, Heap.getAudio, haudio, hnb, ha, hne, hscan, hx0, hxa, hx, hax,
    Heap.modifyIface, Heap.set_set_set, createdTrack, aafiAudioTrack.zero, hna.symm, hnb.symm,
    hxa.symm, hax.symm]

theorem newAudioTrack_inv (MONO fuel : Nat) (h : Heap) (aafi audio alloc : Ptr)
    (l : List Ptr) (haafi : aafi ≠ 0) (haudio : audio ≠ 0) (hinv : TracksInv h aafi audio l)
    (halloc : alloc ≠ 0) (hfresh : h.mem alloc = none) (hfuel : l.length ≤ fuel) :
    ∃ h1, aafi_newAudioTrack MONO fuel h aafi alloc = .ok (h1, alloc) ∧
      TracksInv h1 aafi audio (l ++ [alloc]) ∧
      (∀ q, h.mem q = none → q ≠ alloc → h1.mem q = none) := by
  obtain ⟨r, a, hr, hra, ha, hchain⟩ := hinv
  subst hra
  have hna : aafi ≠ alloc := by
    intro e
    rw [e, hfresh] at hr
    cases hr
  have hnb : r.Audio ≠ alloc := by
    intro e
    rw [e, hfresh] at ha
    cases ha
  have hab : aafi ≠ r.Audio := by
    intro e
    rw [e, ha] at hr
    cases hr
  rcases List.eq_nil_or_concat l with hl | ⟨l0, x, hl⟩
  · subst hl
    have hempty : a.Tracks = 0 := hchain
    refine ⟨_, newAudioTrack_empty MONO fuel h aafi alloc r a haafi hr haudio ha hempty halloc
      hfresh, ⟨_, { a with Tracks := alloc }, Heap.set_mem_same _ _ _, rfl, ?_, ?_⟩, ?_⟩
    · rw [Heap.set_mem_ne _ _ hab.symm, Heap.set_mem_ne _ _ hnb, Heap.set_mem_same]
    · refine ⟨rfl, halloc, 0, ?_, rfl⟩
      rw [trackNext_set_ne _ _ hna.symm]
      exact trackNext_of_mem halloc (Heap.set_mem_same _ _ _)
    · intro q hq hqa
      have hq1 : q ≠ aafi := by
        intro e
        rw [e, hr] at hq
        cases hq
      have hq2 : q ≠ r.Audio := by
        intro e
        rw [e, ha] at hq
        cases hq
      rw [Heap.set_mem_ne _ _ hq1, Heap.set_mem_ne _ _ hqa, Heap.set_mem_ne _ _ hq2, hq]
  · rw [List.concat_eq_append] at hl
    subst hl
    obtain ⟨hx0, tx, hx⟩ := Chain.track_live hchain (by simp : x ∈ l0 ++ [x])
    have hxa : x ≠ alloc := by
      intro e
      rw [e, hfresh] at hx
      cases hx
    have hxr : x ≠ aafi := by
      intro e
      rw [e, hr] at hx
      cases hx
    have hxb : r.Audio ≠ x := by
      intro e
      rw [e, hx] at ha
      cases ha
    have hlen : l0.length < fuel := by
      simp only [List.length_append, List.length_singleton] at hfuel
      omega
    have hnd : (l0 ++ [x]).Nodup := Chain.nodup hchain
    refine ⟨_, newAudioTrack_nonempty MONO fuel h aafi alloc x r a tx l0 haafi hr haudio ha
      hchain hlen hx halloc hfresh, ⟨_, a, Heap.set_mem_same _ _ _, rfl, ?_, ?_⟩, ?_⟩
    · rw [Heap.set_mem_ne _ _ hab.symm, Heap.set_mem_ne _ _ hnb, Heap.set_mem_ne _ _ hxb, ha]
    · rw [List.append_assoc]
      refine Chain.snoc hchain ?_ ?_ halloc ?_
      · intro q hq
        obtain ⟨_, tq, htq⟩ := Chain.track_live hchain (List.mem_append_left _ hq)
        have hq1 : q ≠ aafi := by
          intro e
          rw [e, hr] at htq
          cases htq
        have hq2 : q ≠ alloc := by
          intro e
          rw [e, hfresh] at htq
          cases htq
        have hq3 : q ≠ x := by
          intro e
          rw [List.nodup_append] at hnd
          exact hnd.2.2 hq (by simp [e])
        rw [trackNext_set_ne _ _ hq1, trackNext_set_ne _ _ hq2, trackNext_set_ne _ _ hq3]
      · rw [trackNext_set_ne _ _ hxr, trackNext_set_ne _ _ hxa]
        exact trackNext_of_mem hx0 (Heap.set_mem_same _ _ _)
      · rw [trackNext_set_ne _ _ hna.symm]
        exact trackNext_of_mem halloc (Heap.set_mem_same _ _ _)
    · intro q hq hqa
      have hq1 : q ≠ aafi := by
        intro e
        rw [e, hr] at hq
        cases hq
      have hq2 : q ≠ x := by
        intro e
        rw [e, hx] at hq
        cases hq
      rw [Heap.set_mem_ne _ _ hq1, Heap.set_mem_ne _ _ hqa, Heap.set_mem_ne _ _ hq2, hq]

theorem newAudioTracks_inv (MONO fuel : Nat) (aafi audio : Ptr) (haafi : aafi ≠ 0)
    (haudio : audio ≠ 0) :
    ∀ (allocs : List Ptr) (h : Heap) (l : List Ptr), TracksInv h aafi audio l →
      (∀ p ∈ allocs, p ≠ 0 ∧ h.mem p = none) → allocs.Nodup →
      l.length + allocs.length ≤ fuel + 1 →
      ∃ h1, newAudioTracks MONO fuel h aafi allocs = .ok h1 ∧
        TracksInv h1 aafi audio (l ++ allocs)
  | [], h, l, hinv, _, _, _ => ⟨h, rfl, by simpa using hinv⟩
  | p :: rest, h, l, hinv, hallocs, hnd, hfuel => by
    obtain ⟨hp0, hfresh⟩ := hallocs p (List.mem_cons_self _ _)
    simp only [List.length_cons] at hfuel
    obtain ⟨h1, hrun, hinv1, hframe⟩ :=
      newAudioTrack_inv MONO fuel h aafi audio p l haafi haudio hinv hp0 hfresh (by omega)
    rw [List.nodup_cons] at hnd
    have hallocs1 : ∀ q ∈ rest, q ≠ 0 ∧ h1.mem q = none := by
      intro q hq
      obtain ⟨hq0, hqf⟩ := hallocs q (List.mem_cons_of_mem _ hq)
      refine ⟨hq0, hframe q hqf ?_⟩
      intro e
      exact hnd.1 (e ▸ hq)
    obtain ⟨h2, hrun2, hinv2⟩ :=
      newAudioTracks_inv MONO fuel aafi audio haafi haudio rest h1 (l ++ [p]) hinv1 hallocs1
        hnd.2 (by simp only [List.length_append, List.length_singleton]; omega)
    refine ⟨h2, ?_, ?_⟩
    · simp only [newAudioTracks, hrun]
      exact hrun2
    · simpa using hinv2

/-- C2: `N` successful `aafi_newAudioTrack` calls on a root whose track list is
empty leave the track list equal to the created tracks in creation order: the
list from `Audio->Tracks` through `next` is null-terminated and is exactly the
`N` created tracks, and the traversal `foreach_audioTrack` returns them in
that order (so it has length `N`; for two tracks `A`, `B` this is
`Tracks == A`, `A->next == B`, `B->next == NULL`). -/
theorem C2_track_list_fifo (MONO fuel : Nat) (h : Heap) (aafi : Ptr) (r : AAF_Iface)
    (a : aafiAudio) (allocs : List Ptr) (haafi : aafi ≠ 0)
    (hr : h.mem aafi = some (.iface r)) (haudio : r.Audio ≠ 0)
    (ha : h.mem r.Audio = some (.audio a)) (hempty : a.Tracks = 0)
    (hallocs : ∀ p ∈ allocs, p ≠ 0 ∧ h.mem p = none) (hnd : allocs.Nodup)
    (hfuel : allocs.length ≤ fuel) :
    ∃ h1 r1 a1, newAudioTracks MONO fuel h aafi allocs = .ok h1 ∧
      h1.mem aafi = some (.iface r1) ∧ r1.Audio = r.Audio ∧
      h1.mem r.Audio = some (.audio a1) ∧
      Chain h1.trackNext a1.Tracks allocs ∧
      (∀ fuel1, allocs.length < fuel1 → foreach_audioTrack fuel1 h1 aafi = .ok allocs) ∧
      (∀ fuel1 visited, foreach_audioTrack fuel1 h1 aafi = .ok visited →
        visited.length = allocs.length) := by
  have hinv : TracksInv h aafi r.Audio [] := ⟨r, a, hr, rfl, ha, hempty⟩
  obtain ⟨h1, hrun, r1, a1, hr1, hra, ha1, hchain⟩ :=
    newAudioTracks_inv MONO fuel aafi r.Audio haafi haudio allocs h [] hinv hallocs hnd
      (by simp only [List.length_nil]; omega)
  simp only [List.nil_append] at hchain
  have hwalk : ∀ fuel1, foreach_audioTrack fuel1 h1 aafi =
      foreachNode h1.trackNext fuel1 a1.Tracks := by
    intro fuel1
    simp [foreach_audioTrack, Heap.getIface, haafi, hr1, bind, Except.bind, Heap.getAudio, hra,
      haudio, ha1]
  refine ⟨h1, r1, a1, hrun, hr1, hra, ha1, hchain, ?_, ?_⟩
  · intro fuel1 hf
    rw [hwalk]
    exact foreachNode_chain hchain hf
  · intro fuel1 visited hv
    rw [hwalk] at hv
    rw [foreachNode_sound hv hchain]

/-! ### Essences -/

theorem essenceNext_of_mem {h : Heap} {p : Ptr} {e : aafiAudioEssence}
    (hp : p ≠ 0) (hm : h.mem p = some (.essence e)) : h.essenceNext p = .ok e.next := by
  simp [Heap.essenceNext, Heap.getEssence, hp, hm]

theorem essenceNext_ok {h : Heap} {p n : Ptr} (hn : h.essenceNext p = .ok n) :
    p ≠ 0 ∧ ∃ e, h.mem p = some (.essence e) ∧ e.next = n := by
  unfold Heap.essenceNext Heap.getEssence at hn
  by_cases hp : p = 0
  · simp [hp] at hn
  · refine ⟨hp, ?_⟩
    cases hm : h.mem p with
    | none => simp [hp, hm] at hn
    | some o =>
      cases o <;> simp [hp, hm] at hn
      exact ⟨_, rfl, hn⟩

theorem essenceNext_set_ne (h : Heap) {p q : Ptr} (o : Obj) (hne : q ≠ p) :
    (h.set p o).essenceNext q = h.essenceNext q := by
  simp [Heap.essenceNext, Heap.getEssence, Heap.set_mem_ne h o hne]

theorem Chain.essence_live {h : Heap} {l : List Ptr} {p x : Ptr}
    (hc : Chain h.essenceNext p l) (hx : x ∈ l) :
    x ≠ 0 ∧ ∃ e, h.mem x = some (.essence e) := by
  obtain ⟨s, hs, _⟩ := Chain.of_mem hc hx
  cases s with
  | nil =>
    have h0 : x = 0 := hs
    exact absurd (h0 ▸ hx) (Chain.zero_not_mem hc)
  | cons a s =>
    obtain ⟨_, _, n, hn, _⟩ := hs
    obtain ⟨hx0, e, he, _⟩ := essenceNext_ok hn
    exact ⟨hx0, e, he⟩

theorem newAudioEssence_eval (h : Heap) (aafi alloc : Ptr) (r : AAF_Iface) (a : aafiAudio)
    (haafi : aafi ≠ 0) (hr : h.mem aafi = some (.iface r)) (haudio : r.Audio ≠ 0)
    (ha : h.mem r.Audio = some (.audio a)) (halloc : alloc ≠ 0)
    (hfresh : h.mem alloc = none) :
    aafi_newAudioEssence h aafi alloc =
      .ok ((h.set alloc (.essence { aafiAudioEssence.zero with next := a.Essences })).set
        r.Audio (.audio { a with Essences := alloc }), alloc) := by
  have hna : aafi ≠ alloc := by
    intro e
    rw [e, hfresh] at hr
    cases hr
  have hnb : r.Audio ≠ alloc := by
    intro e
    rw [e, hfresh] at ha
    cases ha
  have hab : aafi ≠ r.Audio := by
    intro e
    rw [e, ha] at hr
    cases hr
  simp [aafi_newAudioEssence, halloc, bind, Except.bind, pure, Except.pure,
    Heap.modifyEssence, Heap.getEssence, Heap.set_mem_same, Heap.set_set, Heap.getIface, haafi,
    Heap.set_mem_ne, hna, hr, Heap.getAudio, haudio, hnb, ha, Heap.modifyAudio, hab,
    aafiAudioEssence.zero, hna.symm, hnb.symm, hab.symm]

theorem newAudioEssence_inv (h : Heap) (aafi audio alloc : Ptr) (l : List Ptr)
    (haafi : aafi ≠ 0) (haudio : audio ≠ 0) (hinv : EssencesInv h aafi audio l)
    (halloc : alloc ≠ 0) (hfresh : h.mem alloc = none) :
    ∃ h1, aafi_newAudioEssence h aafi alloc = .ok (h1, alloc) ∧
      EssencesInv h1 aafi audio (alloc :: l) ∧
      (∀ q, h.mem q = none → q ≠ alloc → h1.mem q = none) := by
  obtain ⟨r, a, hr, hra, ha, hchain⟩ := hinv
  subst hra
  have hna : aafi ≠ alloc := by
    intro e
    rw [e, hfresh] at hr
    cases hr
  have hnb : r.Audio ≠ alloc := by
    intro e
    rw [e, hfresh] at ha
    cases ha
  have hab : aafi ≠ r.Audio := by
    intro e
    rw [e, ha] at hr
    cases hr
  refine ⟨_, newAudioEssence_eval h aafi alloc r a haafi hr haudio ha halloc hfresh,
    ⟨r, { a with Essences := alloc }, ?_, rfl, Heap.set_mem_same _ _ _, ?_⟩, ?_⟩
  · rw [Heap.set_mem_ne _ _ hab, Heap.set_mem_ne _ _ hna, hr]
  · refine ⟨rfl, halloc, a.Essences, ?_, ?_⟩
    · rw [essenceNext_set_ne _ _ hnb.symm]
      exact essenceNext_of_mem halloc (Heap.set_mem_same _ _ _)
    · refine Chain.congr ?_ hchain
      intro q hq
      obtain ⟨_, e, he⟩ := Chain.essence_live hchain hq
      have hq1 : q ≠ r.Audio := by
        intro e1
        rw [e1, ha] at he
        cases he
      have hq2 : q ≠ alloc := by
        intro e1
        rw [e1, hfresh] at he
        cases he
      rw [essenceNext_set_ne _ _ hq1, essenceNext_set_ne _ _ hq2]
  · intro q hq hqa
    have hq1 : q ≠ r.Audio := by
      intro e
      rw [e, ha] at hq
      cases hq
    rw [Heap.set_mem_ne _ _ hq1, Heap.set_mem_ne _ _ hqa, hq]

theorem newAudioEssences_inv (aafi audio : Ptr) (haafi : aafi ≠ 0) (haudio : audio ≠ 0) :
    ∀ (allocs : List Ptr) (h : Heap) (l : List Ptr), EssencesInv h aafi audio l →
      (∀ p ∈ allocs, p ≠ 0 ∧ h.mem p = none) → allocs.Nodup →
      ∃ h1, newAudioEssences h aafi allocs = .ok h1 ∧
        EssencesInv h1 aafi audio (allocs.reverse ++ l)
  | [], h, l, hinv, _, _ => ⟨h, rfl, by simpa using hinv⟩
  | p :: rest, h, l, hinv, hallocs, hnd => by
    obtain ⟨hp0, hfresh⟩ := hallocs p (List.mem_cons_self _ _)
    obtain ⟨h1, hrun, hinv1, hframe⟩ :=
      newAudioEssence_inv h aafi audio p l haafi haudio hinv hp0 hfresh
    rw [List.nodup_cons] at hnd
    have hallocs1 : ∀ q ∈ rest, q ≠ 0 ∧ h1.mem q = none := by
      intro q hq
      obtain ⟨hq0, hqf⟩ := hallocs q (List.mem_cons_of_mem _ hq)
      refine ⟨hq0, hframe q hqf ?_⟩
      intro e
      exact hnd.1 (e ▸ hq)
    obtain ⟨h2, hrun2, hinv2⟩ :=
      newAudioEssences_inv aafi audio haafi haudio rest h1 (p :: l) hinv1 hallocs1 hnd.2
    refine ⟨h2, ?_, ?_⟩
    · simp only [newAudioEssences, hrun]
      exact hrun2
    · simpa using hinv2

/-- C5: successful `aafi_newAudioEssence` calls creating `e1, ..., eN` on a root
whose essence list is empty leave the essence list, from `Audio->Essences`
through `next`, equal to `eN, ..., e1`, null-terminated after `e1`; the
traversal `foreachAudioEssence` returns them in that order (for two essences
`A`, `B` this is `Essences == B`, `B->next == A`, `A->next == NULL`). -/
theorem C5_essence_list_lifo (h : Heap) (aafi : Ptr) (r : AAF_Iface) (a : aafiAudio)
    (allocs : List Ptr) (haafi : aafi ≠ 0) (hr : h.mem aafi = some (.iface r))
    (haudio : r.Audio ≠ 0) (ha : h.mem r.Audio = some (.audio a))
    (hempty : a.Essences = 0) (hallocs : ∀ p ∈ allocs, p ≠ 0 ∧ h.mem p = none)
    (hnd : allocs.Nodup) :
    ∃ h1 r1 a1, newAudioEssences h aafi allocs = .ok h1 ∧
      h1.mem aafi = some (.iface r1) ∧ r1.Audio = r.Audio ∧
      h1.mem r.Audio = some (.audio a1) ∧
      Chain h1.essenceNext a1.Essences allocs.reverse ∧
      (∀ fuel, allocs.length < fuel →
        foreachAudioEssence fuel h1 a1.Essences = .ok allocs.reverse) := by
  have hinv : EssencesInv h aafi r.Audio [] := ⟨r, a, hr, rfl, ha, hempty⟩
  obtain ⟨h1, hrun, r1, a1, hr1, hra, ha1, hchain⟩ :=
    newAudioEssences_inv aafi r.Audio haafi haudio allocs h [] hinv hallocs hnd
  simp only [List.append_nil] at hchain
  refine ⟨h1, r1, a1, hrun, hr1, hra, ha1, hchain, ?_⟩
  intro fuel hf
  exact foreachNode_chain hchain (by simpa using hf)

/-! ### User comments -/

theorem commentNext_of_mem {h : Heap} {p : Ptr} {c : aafiUserComment}
    (hp : p ≠ 0) (hm : h.mem p = some (.comment c)) : h.commentNext p = .ok c.next := by
  simp [Heap.commentNext, Heap.getComment, hp, hm]

theorem commentNext_ok {h : Heap} {p n : Ptr} (hn : h.commentNext p = .ok n) :
    p ≠ 0 ∧ ∃ c, h.mem p = some (.comment c) ∧ c.next = n := by
  unfold Heap.commentNext Heap.getComment at hn
  by_cases hp : p = 0
  · simp [hp] at hn
  · refine ⟨hp, ?_⟩
    cases hm : h.mem p with
    | none => simp [hp, hm] at hn
    | some o =>
      cases o <;> simp [hp, hm] at hn
      exact ⟨_, rfl, hn⟩

theorem commentNext_set_ne (h : Heap) {p q : Ptr} (o : Obj) (hne : q ≠ p) :
    (h.set p o).commentNext q = h.commentNext q := by
  simp [Heap.commentNext, Heap.getComment, Heap.set_mem_ne h o hne]

theorem Chain.comment_live {h : Heap} {l : List Ptr} {p x : Ptr}
    (hc : Chain h.commentNext p l) (hx : x ∈ l) :
    x ≠ 0 ∧ ∃ c, h.mem x = some (.comment c) := by
  obtain ⟨s, hs, _⟩ := Chain.of_mem hc hx
  cases s with
  | nil =>
    have h0 : x = 0 := hs
    exact absurd (h0 ▸ hx) (Chain.zero_not_mem hc)
  | cons a s =>
    obtain ⟨_, _, n, hn, _⟩ := hs
    obtain ⟨hx0, c, hcm, _⟩ := commentNext_ok hn
    exact ⟨hx0, c, hcm⟩

theorem comment_prepended {h : Heap} {L : List Ptr} {head alloc a : Ptr} (o : Obj)
    (hchain : Chain h.commentNext head L) (halloc : alloc ≠ 0) (hfresh : h.mem alloc = none)
    (haL : a ∉ L) (haa : a ≠ alloc) :
    Chain ((h.set alloc (.comment ⟨0, 0, head⟩)).set a o).commentNext alloc (alloc :: L) ∧
    (∀ q ∈ L, ((h.set alloc (.comment ⟨0, 0, head⟩)).set a o).mem q = h.mem q) := by
  have hfr : ∀ q ∈ L, q ≠ alloc := by
    intro q hq e
    obtain ⟨_, c, hc⟩ := Chain.comment_live hchain hq
    rw [e, hfresh] at hc
    cases hc
  have hna : ∀ q ∈ L, q ≠ a := fun q hq e => haL (e ▸ hq)
  refine ⟨⟨rfl, halloc, head, ?_, ?_⟩, ?_⟩
  · rw [commentNext_set_ne _ _ haa.symm]
    exact commentNext_of_mem halloc (Heap.set_mem_same _ _ _)
  · refine Chain.congr ?_ hchain
    intro q hq
    rw [commentNext_set_ne _ _ (hna q hq), commentNext_set_ne _ _ (hfr q hq)]
  · intro q hq
    rw [Heap.set_mem_ne _ _ (hna q hq), Heap.set_mem_ne _ _ (hfr q hq)]

/-- C6: through a non-null handle that holds the well-formed list `L`, a
successful `aafi_newUserComment` returns a new comment `c` with null `name` and
`text`, stores `c` in the handle and sets `c->next` to the former head, so the
list becomes `c` followed by `L`, whose nodes are unchanged. -/
theorem C6_newUserComment_prepend (h : Heap) (CommentList : CommentHandle)
    (head alloc : Ptr) (L : List Ptr) (hhandle : CommentList ≠ .null)
    (hload : h.loadComment CommentList = .ok head)
    (hchain : Chain h.commentNext head L) (halloc : alloc ≠ 0)
    (hfresh : h.mem alloc = none) :
    ∃ h1 c, aafi_newUserComment h CommentList alloc = .ok (h1, alloc) ∧
      h1.mem alloc = some (.comment c) ∧ c.name = 0 ∧ c.text = 0 ∧ c.next = head ∧
      h1.loadComment CommentList = .ok alloc ∧
      Chain h1.commentNext alloc (alloc :: L) ∧
      (∀ q ∈ L, h1.mem q = h.mem q) := by
  cases CommentList with
  | null => exact absurd rfl hhandle
  | var a =>
    have ha0 : a ≠ 0 := by
      intro e
      simp [Heap.loadComment, Heap.getPtrvar, e] at hload
    have ham : h.mem a = some (.ptrvar head) := by
      simp only [Heap.loadComment, Heap.getPtrvar, ha0, if_false] at hload
      cases hm : h.mem a with
      | none => simp [hm] at hload
      | some o =>
        cases o <;> simp [hm] at hload
        rw [hload]
    have haa : a ≠ alloc := by
      intro e
      rw [e, hfresh] at ham
      cases ham
    have haL : a ∉ L := by
      intro hm
      obtain ⟨_, c, hc⟩ := Chain.comment_live hchain hm
      rw [ham] at hc
      cases hc
    obtain ⟨hc1, hc2⟩ := comment_prepended (.ptrvar alloc) hchain halloc hfresh haL haa
    refine ⟨(h.set alloc (.comment ⟨0, 0, head⟩)).set a (.ptrvar alloc), ⟨0, 0, head⟩, ?_, ?_,
      rfl, rfl, rfl, ?_, hc1, hc2⟩
    · simp [aafi_newUserComment, halloc, bind, Except.bind, pure, Except.pure,
        Heap.loadComment, Heap.getPtrvar, ha0, Heap.set_mem_ne, haa, ham, Heap.modifyComment,
        Heap.getComment, Heap.set_mem_same, Heap.set_set, Heap.storeComment,
        aafiUserComment.zero]
    · rw [Heap.set_mem_ne _ _ haa.symm, Heap.set_mem_same]
    · simp [Heap.loadComment, Heap.getPtrvar, ha0, Heap.set_mem_same]
  | ifaceComments a =>
    have ha0 : a ≠ 0 := by
      intro e
      simp [Heap.loadComment, Heap.getIface, e] at hload
    obtain ⟨r, ham, hrc⟩ : ∃ r, h.mem a = some (.iface r) ∧ r.Comments = head := by
      simp only [Heap.loadComment, Heap.getIface, ha0, if_false] at hload
      cases hm : h.mem a with
      | none => simp [hm] at hload
      | some o =>
        cases o <;> simp [hm] at hload
        exact ⟨_, rfl, hload⟩
    have haa : a ≠ alloc := by
      intro e
      rw [e, hfresh] at ham
      cases ham
    have haL : a ∉ L := by
      intro hm
      obtain ⟨_, c, hc⟩ := Chain.comment_live hchain hm
      rw [ham] at hc
      cases hc
    obtain ⟨hc1, hc2⟩ :=
      comment_prepended (.iface { r with Comments := alloc }) hchain halloc hfresh haL haa
    refine ⟨(h.set alloc (.comment ⟨0, 0, head⟩)).set a (.iface { r with Comments := alloc }),
      ⟨0, 0, head⟩, ?_, ?_, rfl, rfl, rfl, ?_, hc1, hc2⟩
    · simp [aafi_newUserComment, halloc, bind, Except.bind, pure, Except.pure,
        Heap.loadComment, Heap.getIface, ha0, Heap.set_mem_ne, haa, ham, Heap.modifyComment,
        Heap.getComment, Heap.set_mem_same, Heap.set_set, Heap.storeComment, Heap.modifyIface,
        aafiUserComment.zero, hrc]
    · rw [Heap.set_mem_ne _ _ haa.symm, Heap.set_mem_same]
    · simp [Heap.loadComment, Heap.getIface, ha0, Heap.set_mem_same]
  | commentNext a =>
    obtain ⟨ha0, x, ham, hxn⟩ := commentNext_ok hload
    have haa : a ≠ alloc := by
      intro e
      rw [e, hfresh] at ham
      cases ham
    have haL : a ∉ L := by
      have hnd : (a :: L).Nodup := Chain.nodup (p := a) ⟨rfl, ha0, head, hload, hchain⟩
      exact (List.nodup_cons.mp hnd).1
    obtain ⟨hc1, hc2⟩ :=
      comment_prepended (.comment { x with next := alloc }) hchain halloc hfresh haL haa
    refine ⟨(h.set alloc (.comment ⟨0, 0, head⟩)).set a (.comment { x with next := alloc }),
      ⟨0, 0, head⟩, ?_, ?_, rfl, rfl, rfl, ?_, hc1, hc2⟩
    · simp [aafi_newUserComment, halloc, bind, Except.bind, pure, Except.pure,
        Heap.loadComment, Heap.commentNext, ha0, Heap.set_mem_ne, haa, ham, Heap.modifyComment,
        Heap.getComment, Heap.set_mem_same, Heap.set_set, Heap.storeComment,
        aafiUserComment.zero, hxn]
    · rw [Heap.set_mem_ne _ _ haa.symm, Heap.set_mem_same]
    · simp [Heap.loadComment, Heap.commentNext, Heap.getComment, ha0, Heap.set_mem_same]

/-! ### Interface root -/

theorem aafi_alloc_eval (h : Heap) (aafd aafi_mem Audio_mem aaf_alloc : Ptr)
    (garbage : aafiAudio) (haafi : aafi_mem ≠ 0) (hAudio : Audio_mem ≠ 0)
    (hdist : Audio_mem ≠ aafi_mem) :
    aafi_alloc h aafd aafi_mem Audio_mem garbage aaf_alloc =
      .ok ((h.set Audio_mem (.audio ⟨0, 0, 0⟩)).set aafi_mem
        (.iface { AAF_Iface.zero with
          Audio := Audio_mem, aafd := if aafd ≠ 0 then aafd else aaf_alloc }), aafi_mem) := by
  by_cases hd : aafd = 0
  · simp [aafi_alloc, haafi, hAudio, bind, Except.bind, pure, Except.pure, Heap.modifyIface,
      Heap.getIface, Heap.set_mem_same, Heap.set_mem_ne, hdist, hdist.symm, Heap.set_set,
      Heap.set_set_set, Heap.modifyAudio, Heap.getAudio, AAF_Iface.zero, hd]
  · simp [aafi_alloc, haafi, hAudio, bind, Except.bind, pure, Except.pure, Heap.modifyIface,
      Heap.getIface, Heap.set_mem_same, Heap.set_mem_ne, hdist, hdist.symm, Heap.set_set,
      Heap.set_set_set, Heap.modifyAudio, Heap.getAudio, AAF_Iface.zero, hd]

/-- C9: when the root and the container are allocated, `aafi_alloc` returns the
root, whose Audio Container has an empty track list, an empty essence list
and no timecode, whose composition name and comment list are null, and whose
object store is the supplied store when that is non-null, otherwise the store
that `aaf_alloc` returns. -/
theorem C9_alloc_success (h : Heap) (aafd aafi_mem Audio_mem aaf_alloc : Ptr)
    (garbage : aafiAudio) (haafi : aafi_mem ≠ 0) (hAudio : Audio_mem ≠ 0)
    (hdist : Audio_mem ≠ aafi_mem) :
    ∃ h1 r au, aafi_alloc h aafd aafi_mem Audio_mem garbage aaf_alloc = .ok (h1, aafi_mem) ∧
      h1.mem aafi_mem = some (.iface r) ∧ r.Audio = Audio_mem ∧
      h1.mem Audio_mem = some (.audio au) ∧
      au.Tracks = 0 ∧ au.Essences = 0 ∧ au.tc = 0 ∧
      r.compositionName = 0 ∧ r.Comments = 0 ∧
      (aafd ≠ 0 → r.aafd = aafd) ∧ (aafd = 0 → r.aafd = aaf_alloc) ∧
      foreach_audioTrack 1 h1 aafi_mem = .ok [] ∧
      foreachAudioEssence 1 h1 au.Essences = .ok [] := by
  refine ⟨_, _, ⟨0, 0, 0⟩,
    aafi_alloc_eval h aafd aafi_mem Audio_mem aaf_alloc garbage haafi hAudio hdist,
    Heap.set_mem_same _ _ _, rfl, ?_, rfl, rfl, rfl, rfl, rfl, ?_, ?_, ?_, ?_⟩
  · rw [Heap.set_mem_ne _ _ hdist, Heap.set_mem_same]
  · intro hd
    simp [hd]
  · intro hd
    simp [hd]
  · simp [foreach_audioTrack, Heap.getIface, haafi, Heap.set_mem_same, bind, Except.bind,
      Heap.getAudio, hAudio, Heap.set_mem_ne, hdist, foreachNode]
  · simp [foreachAudioEssence, foreachNode]

/-- C8, evaluated on the code: when `calloc` gives the root the block `1` and
`malloc` fails for the container, `aafi_alloc` returns `NULL` and the root
block is still live; and when both blocks are allocated but `aaf_alloc`
returns `NULL`, `aafi_alloc` returns the root, whose store is `NULL`. -/
theorem C8_alloc_failure_paths :
    (∃ h1, aafi_alloc Heap.empty 0 1 0 ⟨0, 0, 0⟩ 5 = .ok (h1, 0) ∧
      h1.mem 1 = some (.iface AAF_Iface.zero)) ∧
    (∃ h1 r, aafi_alloc Heap.empty 0 1 2 ⟨0, 0, 0⟩ 0 = .ok (h1, 1) ∧
      h1.mem 1 = some (.iface r) ∧ r.aafd = 0) := by
  refine ⟨⟨Heap.empty.set 1 (.iface AAF_Iface.zero), ?_, Heap.set_mem_same _ _ _⟩,
    ⟨_, _, aafi_alloc_eval Heap.empty 0 1 2 0 ⟨0, 0, 0⟩ (by decide) (by decide) (by decide),
      Heap.set_mem_same _ _ _, rfl⟩⟩
  simp [aafi_alloc, bind, Except.bind, pure, Except.pure, Heap.modifyIface, Heap.getIface,
    Heap.set_mem_same, Heap.set_set, AAF_Iface.zero]

/-- C10: on a valid root, if the load of the decoder fails then
`aafi_load_file` returns `1`, the resolution pass is not run and the heap
(hence the track and essence lists) is unchanged; if the load succeeds then
the resolution pass is run once, on the heap as it was, and `aafi_load_file`
returns `0`. -/
theorem C10_load_file (aaf_load_file : Ptr → String → Nat)
    (aafi_retrieveData : Heap → Ptr → Heap) (h : Heap) (aafi : Ptr) (r : AAF_Iface)
    (file : String) (haafi : aafi ≠ 0) (hr : h.mem aafi = some (.iface r)) :
    (aaf_load_file r.aafd file ≠ 0 →
      aafi_load_file aaf_load_file aafi_retrieveData h aafi file = .ok (h, 1) ∧
      ∀ R, aafi_load_file aaf_load_file R h aafi file = .ok (h, 1)) ∧
    (aaf_load_file r.aafd file = 0 →
      aafi_load_file aaf_load_file aafi_retrieveData h aafi file =
        .ok (aafi_retrieveData h aafi, 0)) := by
  constructor
  · intro hl
    constructor
    · simp [aafi_load_file, Heap.getIface, haafi, hr, bind, Except.bind, pure, Except.pure, hl]
    · intro R
      simp [aafi_load_file, Heap.getIface, haafi, hr, bind, Except.bind, pure, Except.pure, hl]
  · intro hl
    simp [aafi_load_file, Heap.getIface, haafi, hr, bind, Except.bind, pure, Except.pure, hl]

theorem getItem_of_mem {h : Heap} {p : Ptr} {it : aafiTimelineItem}
    (hp : p ≠ 0) (hm : h.mem p = some (.item it)) : h.getItem p = .ok it := by
  simp [Heap.getItem, hp, hm]

theorem get_fadein_eval (h : Heap) (p : Ptr) (it : aafiTimelineItem)
    (hp : p ≠ 0) (hit : h.mem p = some (.item it))
    (hprev : it.prev ≠ 0 → ∃ q, h.mem it.prev = some (.item q) ∧ TagOK q) :
    ∃ r, get_fadein h p = .ok r ∧
      (r ≠ .null ↔ IsFade h it.prev AAFI_TRANS_FADE_IN) ∧
      (r ≠ .null → r = .dataOf it.prev) := by
  unfold get_fadein
  rw [getItem_of_mem hp hit]
  by_cases h0 : it.prev = 0
  · refine ⟨.null, ?_, ?_, ?_⟩
    · simp [h0, bind, Except.bind, pure, Except.pure]
    · simp [IsFade, h0]
    · simp
  · obtain ⟨q, hq, htag⟩ := hprev h0
    rcases htag with ⟨hty, c, hc⟩ | ⟨hty, t, ht⟩
    · refine ⟨.null, ?_, ?_, ?_⟩
      · simp [h0, bind, Except.bind, pure, Except.pure, getItem_of_mem h0 hq, hty, AAFI_CLIP,
          AAFI_TRANS]
      · simp [IsFade, h0, hq, hty, AAFI_CLIP, AAFI_TRANS]
      · simp
    · by_cases hf : t.flags &&& AAFI_TRANS_FADE_IN = 0
      · refine ⟨.null, ?_, ?_, ?_⟩
        · simp [h0, bind, Except.bind, pure, Except.pure, getItem_of_mem h0 hq, hty, AAFI_TRANS,
            Heap.getTransition, ht, hf]
        · simp [IsFade, h0, hq, hty, ht, hf]
        · simp
      · refine ⟨.dataOf it.prev, ?_, ?_, ?_⟩
        · simp [h0, bind, Except.bind, pure, Except.pure, getItem_of_mem h0 hq, hty, AAFI_TRANS,
            Heap.getTransition, ht, hf]
        · simp [IsFade, h0, hq, hty, ht, hf]
        · simp

theorem get_fadeout_eval (h : Heap) (p : Ptr) (it : aafiTimelineItem)
    (hp : p ≠ 0) (hit : h.mem p = some (.item it))
    (hnext : it.next ≠ 0 → ∃ q, h.mem it.next = some (.item q) ∧ TagOK q) :
    ∃ r, get_fadeout h p = .ok r ∧
      (r ≠ .null ↔ IsFade h it.next AAFI_TRANS_FADE_OUT) ∧
      (r ≠ .null → r = .dataOf it.next) := by
  unfold get_fadeout
  rw [getItem_of_mem hp hit]
  by_cases h0 : it.next = 0
  · refine ⟨.null, ?_, ?_, ?_⟩
    · simp [h0, bind, Except.bind, pure, Except.pure]
    · simp [IsFade, h0]
    · simp
  · obtain ⟨q, hq, htag⟩ := hnext h0
    rcases htag with ⟨hty, c, hc⟩ | ⟨hty, t, ht⟩
    · refine ⟨.null, ?_, ?_, ?_⟩
      · simp [h0, bind, Except.bind, pure, Except.pure, getItem_of_mem h0 hq, hty, AAFI_CLIP,
          AAFI_TRANS]
      · simp [IsFade, h0, hq, hty, AAFI_CLIP, AAFI_TRANS]
      · simp
    · by_cases hf : t.flags &&& AAFI_TRANS_FADE_OUT = 0
      · refine ⟨.null, ?_, ?_, ?_⟩
        · simp [h0, bind, Except.bind, pure, Except.pure, getItem_of_mem h0 hq, hty, AAFI_TRANS,
            Heap.getTransition, ht, hf]
        · simp [IsFade, h0, hq, hty, ht, hf]
        · simp
      · refine ⟨.dataOf it.next, ?_, ?_, ?_⟩
        · simp [h0, bind, Except.bind, pure, Except.pure, getItem_of_mem h0 hq, hty, AAFI_TRANS,
            Heap.getTransition, ht, hf]
        · simp [IsFade, h0, hq, hty, ht, hf]
        · simp

/-- C1: for an item whose neighbours are tagged as `aafi_newTimelineItem` tags
them, `get_fadein` returns a result, non-null iff `prev` exists, is tagged
`AAFI_TRANS` and has `AAFI_TRANS_FADE_IN` set, and then it is the payload of
`prev`; `get_fadeout` is the same with `next` and `AAFI_TRANS_FADE_OUT`; with
no previous (next) neighbour the result is null. -/
theorem C1_get_fade (h : Heap) (p : Ptr) (it : aafiTimelineItem)
    (hp : p ≠ 0) (hit : h.mem p = some (.item it))
    (hprev : it.prev ≠ 0 → ∃ q, h.mem it.prev = some (.item q) ∧ TagOK q)
    (hnext : it.next ≠ 0 → ∃ q, h.mem it.next = some (.item q) ∧ TagOK q) :
    (∃ r, get_fadein h p = .ok r ∧
      (r ≠ .null ↔ IsFade h it.prev AAFI_TRANS_FADE_IN) ∧
      (r ≠ .null → r = .dataOf it.prev) ∧ (it.prev = 0 → r = .null)) ∧
    (∃ r, get_fadeout h p = .ok r ∧
      (r ≠ .null ↔ IsFade h it.next AAFI_TRANS_FADE_OUT) ∧
      (r ≠ .null → r = .dataOf it.next) ∧ (it.next = 0 → r = .null)) := by
  obtain ⟨r1, e1, i1, d1⟩ := get_fadein_eval h p it hp hit hprev
  obtain ⟨r2, e2, i2, d2⟩ := get_fadeout_eval h p it hp hit hnext
  refine ⟨⟨r1, e1, i1, d1, ?_⟩, ⟨r2, e2, i2, d2, ?_⟩⟩
  · intro h0
    by_contra hne
    exact (i1.mp hne).1 h0
  · intro h0
    by_contra hne
    exact (i2.mp hne).1 h0

/-- Witness of C1: the clip at `3` between a fade-in and a fade-out. -/
theorem C1_get_fade_witness :
    (∃ r, get_fadein exFades 3 = .ok r ∧
      (r ≠ .null ↔ IsFade exFades (exClip 4 2).prev AAFI_TRANS_FADE_IN) ∧
      (r ≠ .null → r = .dataOf (exClip 4 2).prev) ∧ ((exClip 4 2).prev = 0 → r = .null)) ∧
    (∃ r, get_fadeout exFades 3 = .ok r ∧
      (r ≠ .null ↔ IsFade exFades (exClip 4 2).next AAFI_TRANS_FADE_OUT) ∧
      (r ≠ .null → r = .dataOf (exClip 4 2).next) ∧ ((exClip 4 2).next = 0 → r = .null)) :=
  C1_get_fade exFades 3 (exClip 4 2) (by decide) rfl
    (fun _ => ⟨exTrans 3 0 AAFI_TRANS_FADE_IN, rfl, Or.inr ⟨rfl, _, rfl⟩⟩)
    (fun _ => ⟨exTrans 0 3 AAFI_TRANS_FADE_OUT, rfl, Or.inr ⟨rfl, _, rfl⟩⟩)

/-- Witness of C3: a transition appended after the only clip of a track. -/
theorem C3_newTimelineItem_append_witness :
    ∃ h1 t1 new, aafi_newTimelineItem 1 exOneClip 1 AAFI_TRANS 3 = .ok (h1, 3) ∧
      h1.mem 1 = some (.track t1) ∧ h1.mem 3 = some (.item new) ∧
      Chain h1.itemNext t1.Items ([2] ++ [3]) ∧ new.next = 0 ∧
      ([2] = [] → t1.Items = 3 ∧ new.prev = 0) ∧
      (∀ l0 x, [2] = l0 ++ [x] → t1.Items = (exTrack 2).Items ∧ new.prev = x ∧
        ∃ ix, h1.mem x = some (.item ix) ∧ ix.next = 3) :=
  C3_newTimelineItem_append 1 exOneClip 1 AAFI_TRANS 3 (exTrack 2) [2] (by decide) rfl
    ⟨rfl, by decide, 0, rfl, rfl⟩ (Or.inr rfl) (by decide) rfl (by decide)

/-- Witness of C4: a clip then a transition created on an empty track. -/
theorem C4_item_list_invariant_witness :
    ∃ h1 t1, newTimelineItems 2 exEmptyTrack 1 [(AAFI_CLIP, 2), (AAFI_TRANS, 3)] = .ok h1 ∧
      h1.mem 1 = some (.track t1) ∧
      Chain h1.itemNext t1.Items ([(AAFI_CLIP, 2), (AAFI_TRANS, 3)].map Prod.snd) ∧
      ([(AAFI_CLIP, 2), (AAFI_TRANS, 3)].map Prod.snd).Nodup ∧
      (∀ fuel1, [(AAFI_CLIP, 2), (AAFI_TRANS, 3)].length < fuel1 →
        foreach_audioItem fuel1 h1 1 = .ok ([(AAFI_CLIP, 2), (AAFI_TRANS, 3)].map Prod.snd)) ∧
      (∀ x ∈ [(AAFI_CLIP, 2), (AAFI_TRANS, 3)].map Prod.snd,
        ∀ y ∈ [(AAFI_CLIP, 2), (AAFI_TRANS, 3)].map Prod.snd, ∀ ix iy,
        h1.mem x = some (.item ix) → h1.mem y = some (.item iy) →
        (ix.next = y ↔ iy.prev = x)) ∧
      (∀ x ∈ [(AAFI_CLIP, 2), (AAFI_TRANS, 3)].map Prod.snd,
        ∃ ix, h1.mem x = some (.item ix) ∧ ix.next ≠ x) ∧
      (∀ hd ∈ ([(AAFI_CLIP, 2), (AAFI_TRANS, 3)].map Prod.snd).head?,
        ∃ ihd, h1.mem hd = some (.item ihd) ∧ ihd.prev = 0) :=
  C4_item_list_invariant 2 exEmptyTrack 1 (exTrack 0) [(AAFI_CLIP, 2), (AAFI_TRANS, 3)]
    (by decide) rfl rfl (by decide) (by decide) (by decide)

/-- Witness of C2: two tracks created on the empty root. -/
theorem C2_track_list_fifo_witness :
    ∃ h1 r1 a1, newAudioTracks 1 2 exRoot 1 [3, 4] = .ok h1 ∧
      h1.mem 1 = some (.iface r1) ∧ r1.Audio = (exIface 0).Audio ∧
      h1.mem (exIface 0).Audio = some (.audio a1) ∧
      Chain h1.trackNext a1.Tracks [3, 4] ∧
      (∀ fuel1, [3, 4].length < fuel1 → foreach_audioTrack fuel1 h1 1 = .ok [3, 4]) ∧
      (∀ fuel1 visited, foreach_audioTrack fuel1 h1 1 = .ok visited →
        visited.length = [3, 4].length) :=
  C2_track_list_fifo 1 2 exRoot 1 (exIface 0) ⟨0, 0, 0⟩ [3, 4] (by decide) rfl (by decide) rfl
    rfl (by decide) (by decide) (by decide)

/-- Witness of C5: two essences created on the empty root. -/
theorem C5_essence_list_lifo_witness :
    ∃ h1 r1 a1, newAudioEssences exRoot 1 [3, 4] = .ok h1 ∧
      h1.mem 1 = some (.iface r1) ∧ r1.Audio = (exIface 0).Audio ∧
      h1.mem (exIface 0).Audio = some (.audio a1) ∧
      Chain h1.essenceNext a1.Essences [3, 4].reverse ∧
      (∀ fuel, [3, 4].length < fuel →
        foreachAudioEssence fuel h1 a1.Essences = .ok [3, 4].reverse) :=
  C5_essence_list_lifo exRoot 1 (exIface 0) ⟨0, 0, 0⟩ [3, 4] (by decide) rfl (by decide) rfl
    rfl (by decide) (by decide)

/-- Witness of C6: a second comment created through `&aafi->Comments`. -/
theorem C6_newUserComment_prepend_witness :
    ∃ h1 c, aafi_newUserComment exComments (.ifaceComments 1) 4 = .ok (h1, 4) ∧
      h1.mem 4 = some (.comment c) ∧ c.name = 0 ∧ c.text = 0 ∧ c.next = 3 ∧
      h1.loadComment (.ifaceComments 1) = .ok 4 ∧
      Chain h1.commentNext 4 (4 :: [3]) ∧
      (∀ q ∈ [3], h1.mem q = exComments.mem q) :=
  C6_newUserComment_prepend exComments (.ifaceComments 1) 3 4 [3] (by decide) rfl
    ⟨rfl, by decide, 0, rfl, rfl⟩ (by decide) rfl

/-- Witness of C7: a clip created on an empty track, which becomes
`track->Items` with a null `prev`, then a fade-out created after it. -/
theorem C7_fadeout_discovery_witness :
    (aafi_newTimelineItem 0 exEmptyTrack 1 AAFI_CLIP 2 = .ok (exAfterClip, 2) ∧
      exAfterClip.mem 1 = some (.track (exTrack 2)) ∧
      exAfterClip.mem 2 = some (.item (exClip 0 0))) ∧
    ∃ h1 h2, aafi_newTimelineItem 1 exAfterClip 1 AAFI_TRANS 3 = .ok (h1, 3) ∧
      setTransitionFlags h1 3 AAFI_TRANS_FADE_OUT = .ok h2 ∧
      (∃ ic2, h2.mem 2 = some (.item ic2) ∧ ic2.next = 3 ∧ ic2.type = AAFI_CLIP) ∧
      get_fadeout h2 2 = .ok (.dataOf 3) ∧
      (∃ tr, h2.getTransition (.dataOf 3) = .ok tr ∧ tr.flags = AAFI_TRANS_FADE_OUT) :=
  ⟨⟨newTimelineItem_empty 0 exEmptyTrack 1 2 AAFI_CLIP (exTrack 0) (by decide) rfl rfl
      (Or.inl rfl) (by decide) rfl, rfl, rfl⟩,
    C7_fadeout_discovery 1 exAfterClip 1 2 3 AAFI_TRANS_FADE_OUT (exTrack 2) (exClip 0 0) []
      (by decide) rfl ⟨rfl, by decide, 0, rfl, rfl⟩ rfl rfl (by decide) rfl (by decide)
      (by decide)⟩

/-- Witness of C9: a root created without a supplied store. -/
theorem C9_alloc_success_witness :
    ∃ h1 r au, aafi_alloc Heap.empty 0 1 2 ⟨7, 8, 9⟩ 5 = .ok (h1, 1) ∧
      h1.mem 1 = some (.iface r) ∧ r.Audio = 2 ∧
      h1.mem 2 = some (.audio au) ∧
      au.Tracks = 0 ∧ au.Essences = 0 ∧ au.tc = 0 ∧
      r.compositionName = 0 ∧ r.Comments = 0 ∧
      ((0 : Ptr) ≠ 0 → r.aafd = 0) ∧ ((0 : Ptr) = 0 → r.aafd = 5) ∧
      foreach_audioTrack 1 h1 1 = .ok [] ∧
      foreachAudioEssence 1 h1 au.Essences = .ok [] :=
  C9_alloc_success Heap.empty 0 1 2 5 ⟨7, 8, 9⟩ (by decide) (by decide) (by decide)

/-- Witness of C10: on the empty root, a load that fails and a load that
succeeds. -/
theorem C10_load_file_witness :
    (aafi_load_file exLoadFails exRetrieve exRoot 1 "missing.aaf" = .ok (exRoot, 1) ∧
      ∀ R, aafi_load_file exLoadFails R exRoot 1 "missing.aaf" = .ok (exRoot, 1)) ∧
    aafi_load_file exLoadOk exRetrieve exRoot 1 "session.aaf" =
      .ok (exRetrieve exRoot 1, 0) :=
  ⟨(C10_load_file exLoadFails exRetrieve exRoot 1 (exIface 0) "missing.aaf" (by decide)
      rfl).1 (by decide),
    (C10_load_file exLoadOk exRetrieve exRoot 1 (exIface 0) "session.aaf" (by decide)
      rfl).2 rfl⟩

/-! ### Freed blocks -/

theorem nz_cons (x : Ptr) (l : List Ptr) : nz (x :: l) = nz [x] ++ nz l := by
  by_cases hx : x = 0 <;> simp [nz, List.filter_cons, hx]

theorem nz_single_ne {x : Ptr} (hx : x ≠ 0) : nz [x] = [x] := by
  simp [nz, hx]

theorem nz_zero : nz [0] = [] := by
  simp [nz]

theorem mem_nz {x : Ptr} {l : List Ptr} : x ∈ nz l ↔ x ∈ l ∧ x ≠ 0 := by
  simp [nz]

theorem FreedFrom.start (h : Heap) (cells : List Ptr) : FreedFrom h h [] cells :=
  ⟨by simp, by simp, fun _ _ _ => rfl⟩

theorem free_guard (h : Heap) (x : Ptr) :
    (if x ≠ 0 then h.free x else pure h) = h.free x := by
  by_cases hx : x = 0
  · simp [hx, Heap.free, pure, Except.pure]
  · simp [hx]

theorem FreedFrom.free_step {h g : Heap} {B R cells : List Ptr} {x : Ptr}
    (hf : FreedFrom h g B cells) (hnd : (B ++ (nz [x] ++ R)).Nodup)
    (hlive : ∀ q ∈ nz [x], q ∉ cells ∧ h.mem q ≠ none) :
    ∃ g1, g.free x = .ok g1 ∧ FreedFrom h g1 (B ++ nz [x]) cells ∧
      ((B ++ nz [x]) ++ R).Nodup ∧ (∀ c, c ∉ nz [x] → g1.mem c = g.mem c) := by
  obtain ⟨hfreed, hdead, hsame⟩ := hf
  by_cases hx : x = 0
  · subst hx
    refine ⟨g, by simp [Heap.free], ?_, ?_, fun _ _ => rfl⟩
    · simpa [nz_zero] using (⟨hfreed, hdead, hsame⟩ : FreedFrom h g B cells)
    · simpa [nz_zero] using hnd
  · rw [nz_single_ne hx] at hnd hlive ⊢
    obtain ⟨hxc, hxl⟩ := hlive x (by simp)
    have hxB : x ∉ B := by
      intro hm
      have := (List.nodup_append.mp hnd).2.2
      exact this hm (by simp)
    have hgx : g.mem x = h.mem x := hsame x hxB hxc
    cases hm : g.mem x with
    | none => rw [hm] at hgx; exact absurd hgx.symm hxl
    | some o =>
      refine ⟨⟨fun q => if q = x then none else g.mem q, x :: g.freed⟩, ?_, ⟨?_, ?_, ?_⟩, ?_, ?_⟩
      · simp [Heap.free, hx, hm]
      · simp [hfreed]
      · intro q hq
        by_cases hqx : q = x
        · simp [hqx]
        · simp only [hqx, if_false]
          rcases List.mem_append.mp hq with hqB | hqx1
          · exact hdead q hqB
          · simp at hqx1; exact absurd hqx1 hqx
      · intro q hq hqc
        have hqx : q ≠ x := fun e => hq (by simp [e])
        simp only [hqx, if_false]
        exact hsame q (fun hm1 => hq (List.mem_append_left _ hm1)) hqc
      · simpa [List.append_assoc] using hnd
      · intro c hc
        have hcx : c ≠ x := by simpa using hc
        simp [hcx]

theorem FreedFrom.mem_eq {h g : Heap} {B cells : List Ptr} (hf : FreedFrom h g B cells)
    {q : Ptr} (hq : q ∉ B) (hc : q ∉ cells) : g.mem q = h.mem q :=
  hf.2.2 q hq hc

theorem nodup_mid_not_mem {B L R : List Ptr} {x : Ptr} (hnd : (B ++ (L ++ R)).Nodup)
    (hx : x ∈ L) : x ∉ B := by
  intro hm
  exact (List.nodup_append.mp hnd).2.2 hm (List.mem_append_left _ hx)

theorem getGain_of_mem {h : Heap} {p : Ptr} {g : aafiAudioGain} (hp : p ≠ 0)
    (hm : h.mem p = some (.gain g)) : h.getGain p = .ok g := by
  simp [Heap.getGain, hp, hm]

theorem gainBlocks_of_mem {h : Heap} {p : Ptr} {g : aafiAudioGain} (hp : p ≠ 0)
    (hm : h.mem p = some (.gain g)) :
    gainBlocks h p = nz [g.time] ++ (nz [g.value] ++ [p]) := by
  simp [gainBlocks, hp, hm, nz_cons g.time [g.value]]

theorem gainBlocks_null (h : Heap) : gainBlocks h 0 = [] := by
  simp [gainBlocks]

/-- The three `free` calls on a gain (the clip path guards the first two
against null, which `free` ignores anyway). -/
theorem FreedFrom.free_gain {h g : Heap} {B R cells : List Ptr} {gp : Ptr}
    {gg : aafiAudioGain} (hf : FreedFrom h g B cells) (hgp : gp ≠ 0)
    (hm : h.mem gp = some (.gain gg)) (hblobs : BlobsAt h [gg.time, gg.value])
    (hnd : (B ++ (gainBlocks h gp ++ R)).Nodup)
    (hcells : ∀ q ∈ gainBlocks h gp, q ∉ cells) :
    ∃ g1 g2 g3, g.getGain gp = .ok gg ∧ g.free gg.time = .ok g1 ∧
      g1.getGain gp = .ok gg ∧ g1.free gg.value = .ok g2 ∧ g2.free gp = .ok g3 ∧
      FreedFrom h g3 (B ++ gainBlocks h gp) cells ∧ ((B ++ gainBlocks h gp) ++ R).Nodup ∧
      (∀ c, c ∉ gainBlocks h gp → g3.mem c = g.mem c) := by
  rw [gainBlocks_of_mem hgp hm] at hnd hcells ⊢
  have hgB : gp ∉ B := nodup_mid_not_mem hnd (by simp)
  have hgc : gp ∉ cells := hcells gp (by simp)
  have hlive : ∀ l, (∀ q ∈ l, q ∈ [gg.time, gg.value]) →
      ∀ q ∈ nz l, q ∉ cells ∧ h.mem q ≠ none := by
    intro l hl q hq
    obtain ⟨hq1, hq0⟩ := mem_nz.mp hq
    have hqb : q ∈ nz [gg.time, gg.value] := mem_nz.mpr ⟨hl q hq1, hq0⟩
    refine ⟨hcells q ?_, by rw [hblobs q hqb]; simp⟩
    rw [nz_cons gg.time [gg.value]] at hqb
    rcases List.mem_append.mp hqb with h1 | h2
    · exact List.mem_append_left _ h1
    · exact List.mem_append_right _ (List.mem_append_left _ h2)
  have hget0 : g.getGain gp = .ok gg := getGain_of_mem hgp (by rw [hf.mem_eq hgB hgc]; exact hm)
  obtain ⟨g1, hfree1, hF1, hnd1, hfr1⟩ :=
    hf.free_step (x := gg.time) (R := nz [gg.value] ++ ([gp] ++ R))
      (by simpa [List.append_assoc] using hnd) (hlive [gg.time] (by simp))
  have hgB1 : gp ∉ B ++ nz [gg.time] := by
    intro hmm
    have := (List.nodup_append.mp hnd1).2.2 hmm
    exact this (by simp)
  have hget1 : g1.getGain gp = .ok gg :=
    getGain_of_mem hgp (by rw [hF1.mem_eq hgB1 hgc]; exact hm)
  obtain ⟨g2, hfree2, hF2, hnd2, hfr2⟩ :=
    hF1.free_step (x := gg.value) (R := [gp] ++ R)
      (by simpa [List.append_assoc] using hnd1) (hlive [gg.value] (by simp))
  obtain ⟨g3, hfree3, hF3, hnd3, hfr3⟩ :=
    hF2.free_step (x := gp) (R := R)
      (by simpa [List.append_assoc, nz_single_ne hgp] using hnd2)
      (by
        intro q hq
        rw [nz_single_ne hgp] at hq
        simp at hq
        subst hq
        exact ⟨hgc, by rw [hm]; simp⟩)
  rw [nz_single_ne hgp] at hF3 hnd3
  refine ⟨g1, g2, g3, hget0, hfree1, hget1, hfree2, hfree3, ?_, ?_, ?_⟩
  · simpa [List.append_assoc] using hF3
  · simpa [List.append_assoc] using hnd3
  · intro c hc
    simp only [List.mem_append, not_or] at hc
    rw [hfr3 c (by rw [nz_single_ne hgp]; exact hc.2.2), hfr2 c hc.2.1, hfr1 c hc.1]

/-! ### Handles -/

theorem Heap.load_congr {g g1 : Heap} (hd : Handle) (hm : g1.mem hd.cell = g.mem hd.cell) :
    g1.load hd = g.load hd := by
  cases hd <;>
    simp [Heap.load, Heap.getPtrvar, Heap.getAudio, Heap.getTrack, Handle.cell] at hm ⊢ <;>
    rw [hm]

theorem Heap.load_live {g : Heap} {hd : Handle} {v : Ptr} (hl : g.load hd = .ok v) :
    hd.cell ≠ 0 ∧ g.mem hd.cell ≠ none := by
  cases hd with
  | null => simp [Heap.load] at hl
  | var a =>
    simp only [Heap.load, Heap.getPtrvar, Handle.cell] at hl ⊢
    by_cases ha : a = 0
    · simp [ha] at hl
    · refine ⟨ha, ?_⟩
      intro hn
      simp [ha, hn] at hl
  | audioTracks a =>
    simp only [Heap.load, Heap.getAudio, Handle.cell] at hl ⊢
    by_cases ha : a = 0
    · simp [ha] at hl
    · refine ⟨ha, ?_⟩
      intro hn
      simp [ha, hn] at hl
  | audioEssences a =>
    simp only [Heap.load, Heap.getAudio, Handle.cell] at hl ⊢
    by_cases ha : a = 0
    · simp [ha] at hl
    · refine ⟨ha, ?_⟩
      intro hn
      simp [ha, hn] at hl
  | trackItems a =>
    simp only [Heap.load, Heap.getTrack, Handle.cell] at hl ⊢
    by_cases ha : a = 0
    · simp [ha] at hl
    · refine ⟨ha, ?_⟩
      intro hn
      simp [ha, hn] at hl

theorem Heap.store_ok {g : Heap} {hd : Handle} {v : Ptr} (w : Ptr) (hl : g.load hd = .ok v) :
    ∃ g1, g.store hd w = .ok g1 ∧ g1.load hd = .ok w ∧ g1.freed = g.freed ∧
      (∀ q, q ≠ hd.cell → g1.mem q = g.mem q) ∧
      g1.mem hd.cell = (g.mem hd.cell).map (hd.put w) := by
  cases hd with
  | null => simp [Heap.load] at hl
  | var a =>
    simp only [Heap.load, Heap.getPtrvar] at hl
    by_cases ha : a = 0
    · simp [ha] at hl
    · cases hm : g.mem a with
      | none => simp [ha, hm] at hl
      | some o =>
        cases o <;> simp [ha, hm] at hl
        refine ⟨g.set a (.ptrvar w), ?_, ?_, rfl, ?_, ?_⟩
        · simp [Heap.store, Heap.getPtrvar, ha, hm]
        · simp [Heap.load, Heap.getPtrvar, ha, Heap.set_mem_same]
        · intro q hq
          exact Heap.set_mem_ne _ _ hq
        · simp [Handle.cell, Handle.put, Heap.set_mem_same, hm]
  | audioTracks a =>
    simp only [Heap.load, Heap.getAudio] at hl
    by_cases ha : a = 0
    · simp [ha] at hl
    · cases hm : g.mem a with
      | none => simp [ha, hm] at hl
      | some o =>
        cases o <;> simp [ha, hm] at hl
        rename_i x
        refine ⟨g.set a (.audio { x with Tracks := w }), ?_, ?_, rfl, ?_, ?_⟩
        · simp [Heap.store, Heap.modifyAudio, Heap.getAudio, ha, hm]
        · simp [Heap.load, Heap.getAudio, ha, Heap.set_mem_same]
        · intro q hq
          exact Heap.set_mem_ne _ _ hq
        · simp [Handle.cell, Handle.put, Heap.set_mem_same, hm]
  | audioEssences a =>
    simp only [Heap.load, Heap.getAudio] at hl
    by_cases ha : a = 0
    · simp [ha] at hl
    · cases hm : g.mem a with
      | none => simp [ha, hm] at hl
      | some o =>
        cases o <;> simp [ha, hm] at hl
        rename_i x
        refine ⟨g.set a (.audio { x with Essences := w }), ?_, ?_, rfl, ?_, ?_⟩
        · simp [Heap.store, Heap.modifyAudio, Heap.getAudio, ha, hm]
        · simp [Heap.load, Heap.getAudio, ha, Heap.set_mem_same]
        · intro q hq
          exact Heap.set_mem_ne _ _ hq
        · simp [Handle.cell, Handle.put, Heap.set_mem_same, hm]
  | trackItems a =>
    simp only [Heap.load, Heap.getTrack] at hl
    by_cases ha : a = 0
    · simp [ha] at hl
    · cases hm : g.mem a with
      | none => simp [ha, hm] at hl
      | some o =>
        cases o <;> simp [ha, hm] at hl
        rename_i x
        refine ⟨g.set a (.track { x with Items := w }), ?_, ?_, rfl, ?_, ?_⟩
        · simp [Heap.store, Heap.modifyTrack, Heap.getTrack, ha, hm]
        · simp [Heap.load, Heap.getTrack, ha, Heap.set_mem_same]
        · intro q hq
          exact Heap.set_mem_ne _ _ hq
        · simp [Handle.cell, Handle.put, Heap.set_mem_same, hm]

theorem Heap.set_same {g : Heap} {p : Ptr} {o : Obj} (hm : g.mem p = some o) :
    g.set p o = g := by
  cases g with
  | mk mem freed =>
    simp only [Heap.set, Heap.mk.injEq, and_true]
    funext q
    by_cases hq : q = p
    · simp [hq]; exact hm.symm
    · simp [hq]

theorem Heap.store_same {g : Heap} {hd : Handle} {v : Ptr} (hl : g.load hd = .ok v) :
    g.store hd v = .ok g := by
  cases hd with
  | null => simp [Heap.load] at hl
  | var a =>
    simp only [Heap.load, Heap.getPtrvar] at hl
    by_cases ha : a = 0
    · simp [ha] at hl
    · cases hm : g.mem a with
      | none => simp [ha, hm] at hl
      | some o =>
        cases o <;> simp [ha, hm] at hl
        subst hl
        simp [Heap.store, Heap.getPtrvar, ha, hm, Heap.set_same hm]
  | audioTracks a =>
    simp only [Heap.load, Heap.getAudio] at hl
    by_cases ha : a = 0
    · simp [ha] at hl
    · cases hm : g.mem a with
      | none => simp [ha, hm] at hl
      | some o =>
        cases o <;> simp [ha, hm] at hl
        subst hl
        simp [Heap.store, Heap.modifyAudio, Heap.getAudio, ha, hm, Heap.set_same hm]
  | audioEssences a =>
    simp only [Heap.load, Heap.getAudio] at hl
    by_cases ha : a = 0
    · simp [ha] at hl
    · cases hm : g.mem a with
      | none => simp [ha, hm] at hl
      | some o =>
        cases o <;> simp [ha, hm] at hl
        subst hl
        simp [Heap.store, Heap.modifyAudio, Heap.getAudio, ha, hm, Heap.set_same hm]
  | trackItems a =>
    simp only [Heap.load, Heap.getTrack] at hl
    by_cases ha : a = 0
    · simp [ha] at hl
    · cases hm : g.mem a with
      | none => simp [ha, hm] at hl
      | some o =>
        cases o <;> simp [ha, hm] at hl
        subst hl
        simp [Heap.store, Heap.modifyTrack, Heap.getTrack, ha, hm, Heap.set_same hm]

theorem FreedFrom.after_store {h g g1 : Heap} {B cells : List Ptr} {c : Ptr}
    (hf : FreedFrom h g B cells) (hc : c ∈ cells) (hcB : c ∉ B)
    (hfreed : g1.freed = g.freed) (hframe : ∀ q, q ≠ c → g1.mem q = g.mem q) :
    FreedFrom h g1 B cells := by
  obtain ⟨h1, h2, h3⟩ := hf
  refine ⟨by rw [hfreed, h1], ?_, ?_⟩
  · intro q hq
    rw [hframe q (fun e => hcB (e ▸ hq))]
    exact h2 q hq
  · intro q hq hqc
    rw [hframe q (fun e => hqc (e ▸ hc))]
    exact h3 q hq hqc

theorem Handle.put_put (hd : Handle) (v w : Ptr) (o : Obj) :
    hd.put w (hd.put v o) = hd.put w o := by
  cases hd <;> cases o <;> simp [Handle.put]

theorem Heap.load_put_same {g : Heap} {hd : Handle} {v : Ptr} (hl : g.load hd = .ok v) :
    (g.mem hd.cell).map (hd.put v) = g.mem hd.cell := by
  cases hd with
  | null => simp [Heap.load] at hl
  | var a =>
    simp only [Heap.load, Heap.getPtrvar] at hl
    by_cases ha : a = 0
    · simp [ha] at hl
    · cases hm : g.mem a with
      | none => simp [ha, hm] at hl
      | some o =>
        cases o <;> simp [ha, hm] at hl
        subst hl
        simp [Handle.cell, Handle.put, hm]
  | audioTracks a =>
    simp only [Heap.load, Heap.getAudio] at hl
    by_cases ha : a = 0
    · simp [ha] at hl
    · cases hm : g.mem a with
      | none => simp [ha, hm] at hl
      | some o =>
        cases o <;> simp [ha, hm] at hl
        subst hl
        simp [Handle.cell, Handle.put, hm]
  | audioEssences a =>
    simp only [Heap.load, Heap.getAudio] at hl
    by_cases ha : a = 0
    · simp [ha] at hl
    · cases hm : g.mem a with
      | none => simp [ha, hm] at hl
      | some o =>
        cases o <;> simp [ha, hm] at hl
        subst hl
        simp [Handle.cell, Handle.put, hm]
  | trackItems a =>
    simp only [Heap.load, Heap.getTrack] at hl
    by_cases ha : a = 0
    · simp [ha] at hl
    · cases hm : g.mem a with
      | none => simp [ha, hm] at hl
      | some o =>
        cases o <;> simp [ha, hm] at hl
        subst hl
        simp [Handle.cell, Handle.put, hm]

/-! ### Releasing timeline items -/

theorem itemBlocks_clip {h : Heap} {p : Ptr} {it : aafiTimelineItem} {c : aafiAudioClip}
    (hm : h.mem p = some (.item it)) (hd : it.data = .clip c) :
    itemBlocks h p = gainBlocks h c.gain ++ [p] := by
  simp [itemBlocks, hm, hd]

theorem itemBlocks_trans {h : Heap} {p : Ptr} {it : aafiTimelineItem} {t : aafiTransition}
    (hm : h.mem p = some (.item it)) (hd : it.data = .trans t) :
    itemBlocks h p =
      nz [t.value_a] ++ (nz [t.value_b] ++ (nz [t.time_a] ++ (nz [t.time_b] ++ [p]))) := by
  simp only [itemBlocks, hm, hd]
  rw [nz_cons t.value_a, nz_cons t.value_b, nz_cons t.time_a]
  simp only [List.append_assoc]

theorem FreedFrom.free_item {h g : Heap} {B R cells : List Ptr} {p : Ptr}
    (hf : FreedFrom h g B cells) (hok : ItemOK h p)
    (hnd : (B ++ (itemBlocks h p ++ R)).Nodup) (hcells : ∀ q ∈ itemBlocks h p, q ∉ cells) :
    ∃ g1, freeTimelineItemNode g p = .ok g1 ∧ FreedFrom h g1 (B ++ itemBlocks h p) cells ∧
      ((B ++ itemBlocks h p) ++ R).Nodup ∧ (∀ c, c ∉ itemBlocks h p → g1.mem c = g.mem c) := by
  obtain ⟨hp0, it, hm, hcase⟩ := hok
  have hpmem : p ∈ itemBlocks h p := by
    simp only [itemBlocks, hm]
    simp
  have hpB : p ∉ B := nodup_mid_not_mem hnd hpmem
  have hpc : p ∉ cells := hcells p hpmem
  have hget : g.getItem p = .ok it := getItem_of_mem hp0 (by rw [hf.mem_eq hpB hpc]; exact hm)
  rcases hcase with ⟨hty, c, hd, hgain⟩ | ⟨hty, t, hd, hblobs⟩
  · -- clip
    rw [itemBlocks_clip hm hd] at hnd hcells ⊢
    have hclip : g.getClip (.dataOf p) = .ok c := by simp [Heap.getClip, hget, hd]
    have hne : it.type ≠ AAFI_TRANS := by rw [hty]; decide
    have hct : ¬ AAFI_CLIP = AAFI_TRANS := by decide
    by_cases hg0 : c.gain = 0
    · -- no gain
      rw [hg0, gainBlocks_null] at hnd hcells ⊢
      obtain ⟨g1, hfree1, hF1, hnd1, hfr1⟩ :=
        hf.free_step (x := p) (R := R) (by simpa [nz_single_ne hp0] using hnd)
          (by
            intro q hq
            rw [nz_single_ne hp0] at hq
            simp at hq
            subst hq
            exact ⟨hpc, by rw [hm]; simp⟩)
      rw [nz_single_ne hp0] at hF1 hnd1 hfr1
      refine ⟨g1, ?_, by simpa using hF1, by simpa using hnd1, by simpa using hfr1⟩
      simp only [freeTimelineItemNode, bind, Except.bind, hget, hct, if_false, hty, if_true,
        hclip, hg0, ne_eq, not_true_eq_false, pure, Except.pure, hfree1]
    · obtain ⟨gg, hgm, hgb⟩ := hgain.resolve_left hg0
      have hgp : c.gain ≠ 0 := hg0
      obtain ⟨ga, gb, g1, hr1, hr2, hr3, hr4, hr5, hF1, hnd1, hfr1⟩ :=
        hf.free_gain (R := [p] ++ R) hgp hgm hgb (by simpa [List.append_assoc] using hnd)
          (fun q hq => hcells q (List.mem_append_left _ hq))
      obtain ⟨g2, hfree2, hF2, hnd2, hfr2⟩ :=
        hF1.free_step (x := p) (R := R) (by simpa [nz_single_ne hp0, List.append_assoc] using hnd1)
          (by
            intro q hq
            rw [nz_single_ne hp0] at hq
            simp at hq
            subst hq
            exact ⟨hpc, by rw [hm]; simp⟩)
      rw [nz_single_ne hp0] at hF2 hnd2 hfr2
      refine ⟨g2, ?_, by simpa [List.append_assoc] using hF2,
        by simpa [List.append_assoc] using hnd2, ?_⟩
      · simp only [freeTimelineItemNode, free_guard]
        simp only [bind, Except.bind, hget, hct, if_false, hty, if_true,
          hclip, hgp, ne_eq, not_false_eq_true, hr1, hr2, hr3, hr4, hr5, hfree2]
      · intro q hq
        simp only [List.mem_append, not_or] at hq
        rw [hfr2 q hq.2, hfr1 q hq.1]
  · -- transition
    rw [itemBlocks_trans hm hd] at hnd hcells ⊢
    have htr : ∀ g0 : Heap, g0.mem p = h.mem p → g0.getTransition (.dataOf p) = .ok t := by
      intro g0 hg0
      simp [Heap.getTransition, Heap.getItem, hp0, hg0, hm, hd]
    have hlive : ∀ x, x ∈ [t.value_a, t.value_b, t.time_a, t.time_b] →
        (∀ q ∈ nz [x], q ∈ nz [t.value_a] ++ (nz [t.value_b] ++ (nz [t.time_a] ++
          (nz [t.time_b] ++ [p])))) →
        ∀ q ∈ nz [x], q ∉ cells ∧ h.mem q ≠ none := by
      intro x hx hsub q hq
      obtain ⟨hq1, hq0⟩ := mem_nz.mp hq
      simp only [List.mem_singleton] at hq1
      subst hq1
      refine ⟨hcells q (hsub q hq), ?_⟩
      rw [hblobs q (mem_nz.mpr ⟨hx, hq0⟩)]
      simp
    obtain ⟨g1, hfree1, hF1, hnd1, hfr1⟩ :=
      hf.free_step (x := t.value_a) (R := nz [t.value_b] ++ (nz [t.time_a] ++
        (nz [t.time_b] ++ ([p] ++ R))))
        (by simpa [List.append_assoc] using hnd)
        (hlive _ (by simp) (fun q hq => List.mem_append_left _ hq))
    have hp1 : g1.mem p = h.mem p := by
      refine hF1.mem_eq ?_ hpc
      intro hmm
      exact (List.nodup_append.mp hnd1).2.2 hmm (by simp)
    obtain ⟨g2, hfree2, hF2, hnd2, hfr2⟩ :=
      hF1.free_step (x := t.value_b) (R := nz [t.time_a] ++ (nz [t.time_b] ++ ([p] ++ R)))
        (by simpa [List.append_assoc] using hnd1)
        (hlive _ (by simp)
          (fun q hq => List.mem_append_right _ (List.mem_append_left _ hq)))
    have hp2 : g2.mem p = h.mem p := by
      refine hF2.mem_eq ?_ hpc
      intro hmm
      exact (List.nodup_append.mp hnd2).2.2 hmm (by simp)
    obtain ⟨g3, hfree3, hF3, hnd3, hfr3⟩ :=
      hF2.free_step (x := t.time_a) (R := nz [t.time_b] ++ ([p] ++ R))
        (by simpa [List.append_assoc] using hnd2)
        (hlive _ (by simp)
          (fun q hq => List.mem_append_right _
            (List.mem_append_right _ (List.mem_append_left _ hq))))
    have hp3 : g3.mem p = h.mem p := by
      refine hF3.mem_eq ?_ hpc
      intro hmm
      exact (List.nodup_append.mp hnd3).2.2 hmm (by simp)
    obtain ⟨g4, hfree4, hF4, hnd4, hfr4⟩ :=
      hF3.free_step (x := t.time_b) (R := [p] ++ R)
        (by simpa [List.append_assoc] using hnd3)
        (hlive _ (by simp)
          (fun q hq => List.mem_append_right _ (List.mem_append_right _
            (List.mem_append_right _ (List.mem_append_left _ hq)))))
    obtain ⟨g5, hfree5, hF5, hnd5, hfr5⟩ :=
      hF4.free_step (x := p) (R := R)
        (by simpa [nz_single_ne hp0, List.append_assoc] using hnd4)
        (by
          intro q hq
          rw [nz_single_ne hp0] at hq
          simp at hq
          subst hq
          exact ⟨hpc, by rw [hm]; simp⟩)
    rw [nz_single_ne hp0] at hF5 hnd5 hfr5
    refine ⟨g5, ?_, by simpa [List.append_assoc] using hF5,
      by simpa [List.append_assoc] using hnd5, ?_⟩
    · simp only [freeTimelineItemNode, aafi_freeTransition, free_guard]
      simp only [bind, Except.bind, hget, hty, if_true,
        htr g (by rw [hf.mem_eq hpB hpc]), hfree1, htr g1 hp1,
        hfree2, htr g2 hp2, hfree3, htr g3 hp3, hfree4, pure, Except.pure, hfree5]
    · intro q hq
      simp only [List.mem_append, not_or] at hq
      rw [hfr5 q hq.2.2.2.2, hfr4 q hq.2.2.2.1, hfr3 q hq.2.2.1, hfr2 q hq.2.1, hfr1 q hq.1]

theorem itemBlocks_self {h : Heap} {p : Ptr} (hok : ItemOK h p) : p ∈ itemBlocks h p := by
  obtain ⟨_, it, hm, _⟩ := hok
  simp only [itemBlocks, hm]
  simp

theorem FreedFrom.free_items {h : Heap} {R cells : List Ptr} :
    ∀ {l : List Ptr} {g : Heap} {B : List Ptr} {p : Ptr} {fuel : Nat}, FreedFrom h g B cells →
      Chain h.itemNext p l → (∀ x ∈ l, ItemOK h x) →
      (B ++ (l.flatMap (itemBlocks h) ++ R)).Nodup →
      (∀ q ∈ l.flatMap (itemBlocks h), q ∉ cells) → l.length ≤ fuel →
      ∃ g1, freeTimelineItemsLoop g fuel p = .ok g1 ∧
        FreedFrom h g1 (B ++ l.flatMap (itemBlocks h)) cells ∧
        ((B ++ l.flatMap (itemBlocks h)) ++ R).Nodup ∧
        (∀ c, c ∉ l.flatMap (itemBlocks h) → g1.mem c = g.mem c)
  | [], g, B, p, fuel, hf, hc, _, hnd, _, _ => by
    have hp : p = 0 := hc
    refine ⟨g, ?_, by simpa using hf, by simpa using hnd, fun _ _ => rfl⟩
    cases fuel <;> simp [freeTimelineItemsLoop, hp]
  | x :: l, g, B, p, 0, _, _, _, _, _, hfuel => by simp at hfuel
  | x :: l, g, B, p, fuel + 1, hf, hc, hok, hnd, hcells, hfuel => by
    obtain ⟨hpx, hp0, n, hnx, hcn⟩ := hc
    subst hpx
    obtain ⟨_, it, hm, hnext⟩ := itemNext_ok hnx
    have hokp : ItemOK h p := hok p (List.mem_cons_self _ _)
    rw [List.flatMap_cons] at hnd hcells ⊢
    have hpB : p ∉ B :=
      nodup_mid_not_mem hnd (List.mem_append_left _ (itemBlocks_self hokp))
    have hpc : p ∉ cells := hcells p (List.mem_append_left _ (itemBlocks_self hokp))
    have hget : g.getItem p = .ok it :=
      getItem_of_mem hp0 (by rw [hf.mem_eq hpB hpc]; exact hm)
    obtain ⟨g1, hrun1, hF1, hnd1, hfr1⟩ :=
      hf.free_item (R := l.flatMap (itemBlocks h) ++ R) hokp
        (by simpa [List.append_assoc] using hnd)
        (fun q hq => hcells q (List.mem_append_left _ hq))
    have hfl : l.length ≤ fuel := by simp only [List.length_cons] at hfuel; omega
    obtain ⟨g2, hrun2, hF2, hnd2, hfr2⟩ :=
      FreedFrom.free_items hF1 hcn (fun y hy => hok y (List.mem_cons_of_mem _ hy)) hnd1
        (fun q hq => hcells q (List.mem_append_right _ hq)) hfl
    refine ⟨g2, ?_, by simpa [List.append_assoc] using hF2,
      by simpa [List.append_assoc] using hnd2, ?_⟩
    · simp only [freeTimelineItemsLoop, hp0, if_false, hget, hrun1, hnext]
      exact hrun2
    · intro c hc
      simp only [List.mem_append, not_or] at hc
      rw [hfr2 c hc.2, hfr1 c hc.1]

/-- Function `aafi_freeTimelineItems` on a well-formed item list held by a
handle whose block is not among the blocks of the list. -/
theorem freeTimelineItems_spec {h : Heap} {items : Handle} {l : List Ptr} {p : Ptr}
    {fuel : Nat} {g : Heap} {B R cells : List Ptr} (hf : FreedFrom h g B cells)
    (hload : g.load items = .ok p) (hcell : items.cell ∈ cells) (hcB : items.cell ∉ B)
    (hc : Chain h.itemNext p l) (hok : ∀ x ∈ l, ItemOK h x)
    (hnd : (B ++ (l.flatMap (itemBlocks h) ++ R)).Nodup)
    (hcells : ∀ q ∈ l.flatMap (itemBlocks h), q ∉ cells) (hfuel : l.length ≤ fuel) :
    ∃ g1, aafi_freeTimelineItems fuel g items = .ok g1 ∧
      FreedFrom h g1 (B ++ l.flatMap (itemBlocks h)) cells ∧
      ((B ++ l.flatMap (itemBlocks h)) ++ R).Nodup ∧ g1.load items = .ok 0 ∧
      (∀ c, c ∉ l.flatMap (itemBlocks h) → c ≠ items.cell → g1.mem c = g.mem c) ∧
      g1.mem items.cell = (g.mem items.cell).map (items.put 0) := by
  obtain ⟨g1, hrun1, hF1, hnd1, hfr1⟩ := hf.free_items (R := R) hc hok hnd hcells hfuel
  have hcf : items.cell ∉ l.flatMap (itemBlocks h) := fun hm => hcells _ hm hcell
  have hload1 : g1.load items = .ok p := by
    rw [Heap.load_congr items (hfr1 _ hcf)]
    exact hload
  obtain ⟨g2, hst, hl2, hfreed2, hfr2, hput2⟩ := Heap.store_ok 0 hload1
  refine ⟨g2, ?_, ?_, hnd1, hl2, ?_, by rw [hput2, hfr1 _ hcf]⟩
  · simp only [aafi_freeTimelineItems, bind, Except.bind, hload, hrun1, hst]
  · refine hF1.after_store hcell ?_ hfreed2 hfr2
    intro hm
    rcases List.mem_append.mp hm with h1 | h2
    · exact hcB h1
    · exact hcf h2
  · intro c hc1 hc2
    rw [hfr2 c hc2, hfr1 c hc1]

/-- Function `aafi_freeTimelineItem` on a well-formed item held by a handle
whose block is not among the blocks of the item. -/
theorem freeTimelineItem_spec {h : Heap} {item : Handle} {p : Ptr} {g : Heap}
    {B R cells : List Ptr} (hf : FreedFrom h g B cells)
    (hload : g.load item = .ok p) (hcell : item.cell ∈ cells) (hcB : item.cell ∉ B)
    (hok : ItemOK h p) (hnd : (B ++ (itemBlocks h p ++ R)).Nodup)
    (hcells : ∀ q ∈ itemBlocks h p, q ∉ cells) :
    ∃ g1, aafi_freeTimelineItem g item = .ok g1 ∧
      FreedFrom h g1 (B ++ itemBlocks h p) cells ∧
      ((B ++ itemBlocks h p) ++ R).Nodup ∧ g1.load item = .ok 0 ∧
      (∀ c, c ∉ itemBlocks h p → c ≠ item.cell → g1.mem c = g.mem c) ∧
      g1.mem item.cell = (g.mem item.cell).map (item.put 0) := by
  obtain ⟨g1, hrun1, hF1, hnd1, hfr1⟩ := hf.free_item (R := R) hok hnd hcells
  have hcf : item.cell ∉ itemBlocks h p := fun hm => hcells _ hm hcell
  have hload1 : g1.load item = .ok p := by
    rw [Heap.load_congr item (hfr1 _ hcf)]
    exact hload
  obtain ⟨g2, hst, hl2, hfreed2, hfr2, hput2⟩ := Heap.store_ok 0 hload1
  refine ⟨g2, ?_, ?_, hnd1, hl2, fun c hc1 hc2 => by rw [hfr2 c hc2, hfr1 c hc1],
    by rw [hput2, hfr1 _ hcf]⟩
  · simp only [aafi_freeTimelineItem, bind, Except.bind, hload, hrun1, hst]
  · refine hF1.after_store hcell ?_ hfreed2 hfr2
    intro hm
    rcases List.mem_append.mp hm with h1 | h2
    · exact hcB h1
    · exact hcf h2

/-! ### Releasing tracks -/

theorem FreedFrom.weaken {h g : Heap} {B cells cells1 : List Ptr} (hf : FreedFrom h g B cells)
    (hsub : ∀ q ∈ cells, q ∈ cells1) : FreedFrom h g B cells1 :=
  ⟨hf.1, hf.2.1, fun q hq hqc => hf.2.2 q hq (fun hm => hqc (hsub q hm))⟩

theorem FreedFrom.free_cell {h g : Heap} {B R D cells1 : List Ptr} {c : Ptr}
    (hf : FreedFrom h g B cells1) (hsub : ∀ q ∈ cells1, q = c ∨ q ∈ D) (hc0 : c ≠ 0)
    (hlive : g.mem c ≠ none) (hnd : (B ++ ([c] ++ R)).Nodup) :
    ∃ g1, g.free c = .ok g1 ∧ FreedFrom h g1 (B ++ [c]) D ∧ ((B ++ [c]) ++ R).Nodup ∧
      (∀ q, q ≠ c → g1.mem q = g.mem q) := by
  obtain ⟨hfreed, hdead, hsame⟩ := hf
  cases hm : g.mem c with
  | none => exact absurd hm hlive
  | some o =>
    refine ⟨⟨fun q => if q = c then none else g.mem q, c :: g.freed⟩, ?_, ⟨?_, ?_, ?_⟩, ?_, ?_⟩
    · simp [Heap.free, hc0, hm]
    · simp [hfreed]
    · intro q hq
      by_cases hqc : q = c
      · simp [hqc]
      · simp only [hqc, if_false]
        rcases List.mem_append.mp hq with hqB | hq1
        · exact hdead q hqB
        · simp at hq1; exact absurd hq1 hqc
    · intro q hq hqcells
      have hqc : q ≠ c := fun e => hq (by simp [e])
      simp only [hqc, if_false]
      refine hsame q (fun hm1 => hq (List.mem_append_left _ hm1)) ?_
      intro hm1
      rcases hsub q hm1 with e | hin
      · exact hqc e
      · exact hqcells hin
    · simpa [List.append_assoc] using hnd
    · intro q hq
      simp [hq]

theorem Chain.null_nil {next : Ptr → Except Fault Ptr} {l : List Ptr}
    (hc : Chain next 0 l) : l = [] := by
  cases l with
  | nil => rfl
  | cons q l => exact absurd rfl hc.2.1

theorem Chain.head_ne_null {next : Ptr → Except Fault Ptr} {l : List Ptr} {p : Ptr}
    (hc : Chain next p l) (hp : p ≠ 0) : l ≠ [] := by
  intro e
  subst e
  exact hp hc

theorem FreedFrom.free_opt_gain {h g : Heap} {B R cells : List Ptr} {gp : Ptr}
    (hf : FreedFrom h g B cells) (hok : GainOK h gp)
    (hnd : (B ++ (gainBlocks h gp ++ R)).Nodup) (hcells : ∀ q ∈ gainBlocks h gp, q ∉ cells) :
    ∃ g1, (if gp ≠ 0 then freeTrackGain g gp else pure g) = .ok g1 ∧
      FreedFrom h g1 (B ++ gainBlocks h gp) cells ∧ ((B ++ gainBlocks h gp) ++ R).Nodup ∧
      (∀ c, c ∉ gainBlocks h gp → g1.mem c = g.mem c) := by
  by_cases hg0 : gp = 0
  · subst hg0
    rw [gainBlocks_null] at hnd ⊢
    exact ⟨g, by simp [pure, Except.pure], by simpa using hf, by simpa using hnd,
      fun _ _ => rfl⟩
  · obtain ⟨gg, hgm, hgb⟩ := hok.resolve_left hg0
    obtain ⟨ga, gb, g1, hr1, hr2, hr3, hr4, hr5, hF1, hnd1, hfr1⟩ :=
      hf.free_gain (R := R) hg0 hgm hgb hnd hcells
    refine ⟨g1, ?_, hF1, hnd1, hfr1⟩
    simp only [ne_eq, hg0, not_false_eq_true, if_true, freeTrackGain, bind, Except.bind, hr1,
      hr2, hr3, hr4, hr5]

theorem FreedFrom.free_opt_blob {h g : Heap} {B R cells : List Ptr} {x : Ptr}
    (hf : FreedFrom h g B cells) (hok : BlobsAt h [x])
    (hnd : (B ++ (nz [x] ++ R)).Nodup) (hcells : ∀ q ∈ nz [x], q ∉ cells) :
    ∃ g1, (if x ≠ 0 then g.free x else pure g) = .ok g1 ∧
      FreedFrom h g1 (B ++ nz [x]) cells ∧ ((B ++ nz [x]) ++ R).Nodup ∧
      (∀ c, c ∉ nz [x] → g1.mem c = g.mem c) := by
  rw [free_guard]
  exact hf.free_step hnd (fun q hq => ⟨hcells q hq, by rw [hok q hq]; simp⟩)

theorem FreedFrom.free_opt_items {h g : Heap} {B R cells : List Ptr} {track : Ptr}
    {t : aafiAudioTrack} {l : List Ptr} {fuel : Nat} (hf : FreedFrom h g B cells)
    (ht0 : track ≠ 0) (hm : h.mem track = some (.track t)) (hgm : g.mem track = h.mem track)
    (htB : track ∉ B) (hc : Chain h.itemNext t.Items l) (hok : ∀ x ∈ l, ItemOK h x)
    (hnd : (B ++ (l.flatMap (itemBlocks h) ++ R)).Nodup)
    (hcells : ∀ q ∈ l.flatMap (itemBlocks h), q ∉ cells ∧ q ≠ track)
    (hfuel : l.length ≤ fuel) :
    ∃ g1, (if t.Items ≠ 0 then aafi_freeTimelineItems fuel g (.trackItems track)
        else pure g) = .ok g1 ∧
      FreedFrom h g1 (B ++ l.flatMap (itemBlocks h)) (track :: cells) ∧
      ((B ++ l.flatMap (itemBlocks h)) ++ R).Nodup ∧ g1.mem track ≠ none ∧
      (∀ c, c ∉ l.flatMap (itemBlocks h) → c ≠ track → g1.mem c = g.mem c) := by
  have hfw : FreedFrom h g B (track :: cells) :=
    hf.weaken (fun q hq => List.mem_cons_of_mem _ hq)
  by_cases hi : t.Items = 0
  · rw [hi] at hc
    have hl : l = [] := Chain.null_nil hc
    subst hl
    refine ⟨g, by simp [hi, pure, Except.pure], by simpa using hfw, by simpa using hnd, ?_,
      fun _ _ _ => rfl⟩
    rw [hgm, hm]
    simp
  · have hload : g.load (.trackItems track) = .ok t.Items := by
      simp [Heap.load, Heap.getTrack, ht0, hgm, hm]
    obtain ⟨g1, hrun, hF1, hnd1, hl1, hfr1, _⟩ :=
      freeTimelineItems_spec (R := R) hfw hload
        (List.mem_cons_self _ _) htB hc hok hnd
        (by
          intro q hq hqc
          rcases List.mem_cons.mp hqc with e | hin
          · exact (hcells q hq).2 e
          · exact (hcells q hq).1 hin)
        hfuel
    refine ⟨g1, by simp [hi, hrun], hF1, hnd1, (Heap.load_live hl1).2, ?_⟩
    intro c hc1 hc2
    exact hfr1 c hc1 hc2

theorem trackBlocks_of_mem {h : Heap} {s : Ptr × List Ptr} {t : aafiAudioTrack}
    (hm : h.mem s.1 = some (.track t)) :
    trackBlocks h s = nz [t.name] ++ (gainBlocks h t.gain ++ (gainBlocks h t.pan ++
      (s.2.flatMap (itemBlocks h) ++ [s.1]))) := by
  simp [trackBlocks, hm]

theorem FreedFrom.free_track {h g : Heap} {B R cells : List Ptr} {s : Ptr × List Ptr}
    {fuel : Nat} (hf : FreedFrom h g B cells) (hok : TrackOK h s)
    (hnd : (B ++ (trackBlocks h s ++ R)).Nodup) (hcells : ∀ q ∈ trackBlocks h s, q ∉ cells)
    (hfuel : s.2.length ≤ fuel) :
    ∃ g1 n, freeAudioTrackNode fuel g s.1 = .ok (g1, n) ∧ h.trackNext s.1 = .ok n ∧
      FreedFrom h g1 (B ++ trackBlocks h s) cells ∧ ((B ++ trackBlocks h s) ++ R).Nodup ∧
      (∀ c, c ∉ trackBlocks h s → g1.mem c = g.mem c) := by
  obtain ⟨ht0, t, hm, hname, hgain, hpan, hchain, hitems⟩ := hok
  rw [trackBlocks_of_mem hm] at hnd hcells ⊢
  have htc : s.1 ∉ cells := hcells s.1 (by simp)
  have hread : ∀ {g0 : Heap} {B0 X : List Ptr} {cs : List Ptr}, FreedFrom h g0 B0 cs →
      (B0 ++ X).Nodup → s.1 ∈ X → s.1 ∉ cs → g0.getTrack s.1 = .ok t := by
    intro g0 B0 X cs hf0 hnd0 hx hcs
    have hB : s.1 ∉ B0 := fun hmm => (List.nodup_append.mp hnd0).2.2 hmm hx
    simp [Heap.getTrack, ht0, hf0.mem_eq hB hcs, hm]
  have hget0 := hread hf hnd (by simp) htc
  obtain ⟨g1, hrun1, hF1, hnd1, hfr1⟩ :=
    hf.free_opt_blob (x := t.name) (R := gainBlocks h t.gain ++ (gainBlocks h t.pan ++
      (s.2.flatMap (itemBlocks h) ++ ([s.1] ++ R)))) hname
      (by simpa [List.append_assoc] using hnd)
      (fun q hq => hcells q (List.mem_append_left _ hq))
  have hget1 := hread hF1 hnd1 (by simp) htc
  obtain ⟨g2, hrun2, hF2, hnd2, hfr2⟩ :=
    hF1.free_opt_gain (R := gainBlocks h t.pan ++
      (s.2.flatMap (itemBlocks h) ++ ([s.1] ++ R))) hgain
      (by simpa [List.append_assoc] using hnd1)
      (fun q hq => hcells q (List.mem_append_right _ (List.mem_append_left _ hq)))
  have hget2 := hread hF2 hnd2 (by simp) htc
  obtain ⟨g3, hrun3, hF3, hnd3, hfr3⟩ :=
    hF2.free_opt_gain (R := s.2.flatMap (itemBlocks h) ++ ([s.1] ++ R)) hpan
      (by simpa [List.append_assoc] using hnd2)
      (fun q hq => hcells q (List.mem_append_right _ (List.mem_append_right _
        (List.mem_append_left _ hq))))
  have hget3 := hread hF3 hnd3 (by simp) htc
  have htB3 : s.1 ∉ B ++ nz [t.name] ++ gainBlocks h t.gain ++ gainBlocks h t.pan :=
    fun hmm => (List.nodup_append.mp hnd3).2.2 hmm (by simp)
  have hitems_ne : ∀ q ∈ s.2.flatMap (itemBlocks h), q ∉ cells ∧ q ≠ s.1 := by
    intro q hq
    refine ⟨hcells q (by simp [hq]), ?_⟩
    intro e
    have hnd3a : (s.2.flatMap (itemBlocks h) ++ ([s.1] ++ R)).Nodup :=
      (List.nodup_append.mp hnd3).2.1
    exact (List.nodup_append.mp hnd3a).2.2 hq (by simp [e])
  obtain ⟨g4, hrun4, hF4, hnd4, hlive4, hfr4⟩ :=
    hF3.free_opt_items (R := [s.1] ++ R) ht0 hm (hF3.mem_eq htB3 htc) htB3 hchain hitems
      hnd3 hitems_ne hfuel
  obtain ⟨g5, hrun5, hF5, hnd5, hfr5⟩ :=
    hF4.free_cell (c := s.1) (R := R)
      (by
        intro q hq
        rcases List.mem_cons.mp hq with e | hin
        · exact Or.inl e
        · exact Or.inr hin)
      ht0 hlive4 hnd4
  refine ⟨g5, t.next, ?_, trackNext_of_mem ht0 hm, by simpa [List.append_assoc] using hF5,
    by simpa [List.append_assoc] using hnd5, ?_⟩
  · simp only [freeAudioTrackNode, bind, Except.bind, hget0, hrun1, hget1, hrun2, hget2, hrun3,
      hget3, hrun4, hrun5]
    rfl
  · intro c hc
    simp only [List.mem_append, List.mem_singleton, not_or] at hc
    rw [hfr5 c hc.2.2.2.2, hfr4 c hc.2.2.2.1 hc.2.2.2.2, hfr3 c hc.2.2.1, hfr2 c hc.2.1,
      hfr1 c hc.1]

theorem trackBlocks_self {h : Heap} {s : Ptr × List Ptr} (hok : TrackOK h s) :
    s.1 ∈ trackBlocks h s := by
  obtain ⟨_, t, hm, _⟩ := hok
  rw [trackBlocks_of_mem hm]
  simp

theorem FreedFrom.free_tracks {h : Heap} {R cells : List Ptr} {inner : Nat} :
    ∀ {shape : List (Ptr × List Ptr)} {g : Heap} {B : List Ptr} {p : Ptr} {fuel : Nat},
      FreedFrom h g B cells → Chain h.trackNext p (shape.map Prod.fst) →
      (∀ s ∈ shape, TrackOK h s) →
      (B ++ (shape.flatMap (trackBlocks h) ++ R)).Nodup →
      (∀ q ∈ shape.flatMap (trackBlocks h), q ∉ cells) → shape.length ≤ fuel →
      (∀ s ∈ shape, s.2.length ≤ inner) →
      ∃ g1, freeAudioTracksLoop inner g fuel p = .ok g1 ∧
        FreedFrom h g1 (B ++ shape.flatMap (trackBlocks h)) cells ∧
        ((B ++ shape.flatMap (trackBlocks h)) ++ R).Nodup ∧
        (∀ c, c ∉ shape.flatMap (trackBlocks h) → g1.mem c = g.mem c)
  | [], g, B, p, fuel, hf, hc, _, hnd, _, _, _ => by
    have hp : p = 0 := hc
    refine ⟨g, ?_, by simpa using hf, by simpa using hnd, fun _ _ => rfl⟩
    cases fuel <;> simp [freeAudioTracksLoop, hp]
  | s :: shape, g, B, p, 0, _, _, _, _, _, hfuel, _ => by simp at hfuel
  | s :: shape, g, B, p, fuel + 1, hf, hc, hok, hnd, hcells, hfuel, hinner => by
    obtain ⟨hps, hp0, n, hnx, hcn⟩ := hc
    subst hps
    rw [List.flatMap_cons] at hnd hcells ⊢
    obtain ⟨g1, n1, hrun1, hnx1, hF1, hnd1, hfr1⟩ :=
      hf.free_track (R := shape.flatMap (trackBlocks h) ++ R)
        (hok s (List.mem_cons_self _ _)) (by simpa [List.append_assoc] using hnd)
        (fun q hq => hcells q (List.mem_append_left _ hq))
        (hinner s (List.mem_cons_self _ _))
    have hn : n1 = n := by
      rw [hnx] at hnx1
      exact (Except.ok.inj hnx1).symm
    subst hn
    have hfl : shape.length ≤ fuel := by simp only [List.length_cons] at hfuel; omega
    obtain ⟨g2, hrun2, hF2, hnd2, hfr2⟩ :=
      FreedFrom.free_tracks hF1 hcn (fun y hy => hok y (List.mem_cons_of_mem _ hy)) hnd1
        (fun q hq => hcells q (List.mem_append_right _ hq)) hfl
        (fun y hy => hinner y (List.mem_cons_of_mem _ hy))
    refine ⟨g2, ?_, by simpa [List.append_assoc] using hF2,
      by simpa [List.append_assoc] using hnd2, ?_⟩
    · simp only [freeAudioTracksLoop, hp0, if_false, hrun1]
      exact hrun2
    · intro c hc
      simp only [List.mem_append, not_or] at hc
      rw [hfr2 c hc.2, hfr1 c hc.1]

/-- Function `aafi_freeAudioTracks` on a well-formed track list held by a
handle whose block is not among the blocks of the list. -/
theorem freeAudioTracks_spec {h : Heap} {tracks : Handle} {shape : List (Ptr × List Ptr)}
    {p : Ptr} {fuel : Nat} {g : Heap} {B R cells : List Ptr} (hf : FreedFrom h g B cells)
    (hload : g.load tracks = .ok p) (hcell : tracks.cell ∈ cells) (hcB : tracks.cell ∉ B)
    (hc : Chain h.trackNext p (shape.map Prod.fst)) (hok : ∀ s ∈ shape, TrackOK h s)
    (hnd : (B ++ (shape.flatMap (trackBlocks h) ++ R)).Nodup)
    (hcells : ∀ q ∈ shape.flatMap (trackBlocks h), q ∉ cells) (hfuel : shape.length ≤ fuel)
    (hinner : ∀ s ∈ shape, s.2.length ≤ fuel) :
    ∃ g1, aafi_freeAudioTracks fuel g tracks = .ok g1 ∧
      FreedFrom h g1 (B ++ shape.flatMap (trackBlocks h)) cells ∧
      ((B ++ shape.flatMap (trackBlocks h)) ++ R).Nodup ∧ g1.load tracks = .ok 0 ∧
      (∀ c, c ∉ shape.flatMap (trackBlocks h) → c ≠ tracks.cell → g1.mem c = g.mem c) ∧
      g1.mem tracks.cell = (g.mem tracks.cell).map (tracks.put 0) := by
  by_cases hp : p = 0
  · subst hp
    have hs : shape.map Prod.fst = [] := Chain.null_nil hc
    have hs1 : shape = [] := by simpa using hs
    subst hs1
    refine ⟨g, ?_, by simpa using hf, by simpa using hnd, hload, fun _ _ _ => rfl,
      (Heap.load_put_same hload).symm⟩
    simp [aafi_freeAudioTracks, bind, Except.bind, hload, pure, Except.pure]
  · obtain ⟨g1, hrun1, hF1, hnd1, hfr1⟩ :=
      hf.free_tracks (R := R) hc hok hnd hcells hfuel hinner
    have hcf : tracks.cell ∉ shape.flatMap (trackBlocks h) := fun hm => hcells _ hm hcell
    have hload1 : g1.load tracks = .ok p := by
      rw [Heap.load_congr tracks (hfr1 _ hcf)]
      exact hload
    obtain ⟨g2, hst, hl2, hfreed2, hfr2, hput2⟩ := Heap.store_ok 0 hload1
    refine ⟨g2, ?_, ?_, hnd1, hl2, ?_, by rw [hput2, hfr1 _ hcf]⟩
    · simp only [aafi_freeAudioTracks, bind, Except.bind, hload, hp, if_false, hrun1, hst]
    · refine hF1.after_store hcell ?_ hfreed2 hfr2
      intro hm
      rcases List.mem_append.mp hm with h1 | h2
      · exact hcB h1
      · exact hcf h2
    · intro c hc1 hc2
      rw [hfr2 c hc2, hfr1 c hc1]

/-! ### Releasing comments -/

theorem Heap.loadComment_congr {g g1 : Heap} (hd : CommentHandle)
    (hm : g1.mem hd.cell = g.mem hd.cell) : g1.loadComment hd = g.loadComment hd := by
  cases hd <;>
    simp [Heap.loadComment, Heap.getPtrvar, Heap.getIface, Heap.commentNext, Heap.getComment,
      CommentHandle.cell] at hm ⊢ <;>
    rw [hm]

theorem Heap.storeComment_ok {g : Heap} {hd : CommentHandle} {v : Ptr} (w : Ptr)
    (hl : g.loadComment hd = .ok v) :
    ∃ g1, g.storeComment hd w = .ok g1 ∧ g1.loadComment hd = .ok w ∧ g1.freed = g.freed ∧
      (∀ q, q ≠ hd.cell → g1.mem q = g.mem q) ∧
      g1.mem hd.cell = (g.mem hd.cell).map (hd.put w) := by
  cases hd with
  | null => simp [Heap.loadComment] at hl
  | var a =>
    simp only [Heap.loadComment, Heap.getPtrvar] at hl
    by_cases ha : a = 0
    · simp [ha] at hl
    · cases hm : g.mem a with
      | none => simp [ha, hm] at hl
      | some o =>
        cases o <;> simp [ha, hm] at hl
        refine ⟨g.set a (.ptrvar w), ?_, ?_, rfl, ?_, ?_⟩
        · simp [Heap.storeComment, Heap.getPtrvar, ha, hm]
        · simp [Heap.loadComment, Heap.getPtrvar, ha, Heap.set_mem_same]
        · intro q hq
          exact Heap.set_mem_ne _ _ hq
        · simp [CommentHandle.cell, CommentHandle.put, Heap.set_mem_same, hm]
  | ifaceComments a =>
    simp only [Heap.loadComment, Heap.getIface] at hl
    by_cases ha : a = 0
    · simp [ha] at hl
    · cases hm : g.mem a with
      | none => simp [ha, hm] at hl
      | some o =>
        cases o <;> simp [ha, hm] at hl
        rename_i x
        refine ⟨g.set a (.iface { x with Comments := w }), ?_, ?_, rfl, ?_, ?_⟩
        · simp [Heap.storeComment, Heap.modifyIface, Heap.getIface, ha, hm]
        · simp [Heap.loadComment, Heap.getIface, ha, Heap.set_mem_same]
        · intro q hq
          exact Heap.set_mem_ne _ _ hq
        · simp [CommentHandle.cell, CommentHandle.put, Heap.set_mem_same, hm]
  | commentNext a =>
    simp only [Heap.loadComment, Heap.commentNext, Heap.getComment] at hl
    by_cases ha : a = 0
    · simp [ha] at hl
    · cases hm : g.mem a with
      | none => simp [ha, hm] at hl
      | some o =>
        cases o <;> simp [ha, hm] at hl
        rename_i x
        refine ⟨g.set a (.comment { x with next := w }), ?_, ?_, rfl, ?_, ?_⟩
        · simp [Heap.storeComment, Heap.modifyComment, Heap.getComment, ha, hm]
        · simp [Heap.loadComment, Heap.commentNext, Heap.getComment, ha, Heap.set_mem_same]
        · intro q hq
          exact Heap.set_mem_ne _ _ hq
        · simp [CommentHandle.cell, CommentHandle.put, Heap.set_mem_same, hm]

theorem Heap.storeComment_same {g : Heap} {hd : CommentHandle} {v : Ptr}
    (hl : g.loadComment hd = .ok v) : g.storeComment hd v = .ok g := by
  cases hd with
  | null => simp [Heap.loadComment] at hl
  | var a =>
    simp only [Heap.loadComment, Heap.getPtrvar] at hl
    by_cases ha : a = 0
    · simp [ha] at hl
    · cases hm : g.mem a with
      | none => simp [ha, hm] at hl
      | some o =>
        cases o <;> simp [ha, hm] at hl
        subst hl
        simp [Heap.storeComment, Heap.getPtrvar, ha, hm, Heap.set_same hm]
  | ifaceComments a =>
    simp only [Heap.loadComment, Heap.getIface] at hl
    by_cases ha : a = 0
    · simp [ha] at hl
    · cases hm : g.mem a with
      | none => simp [ha, hm] at hl
      | some o =>
        cases o <;> simp [ha, hm] at hl
        subst hl
        simp [Heap.storeComment, Heap.modifyIface, Heap.getIface, ha, hm, Heap.set_same hm]
  | commentNext a =>
    simp only [Heap.loadComment, Heap.commentNext, Heap.getComment] at hl
    by_cases ha : a = 0
    · simp [ha] at hl
    · cases hm : g.mem a with
      | none => simp [ha, hm] at hl
      | some o =>
        cases o <;> simp [ha, hm] at hl
        subst hl
        simp [Heap.storeComment, Heap.modifyComment, Heap.getComment, ha, hm,
          Heap.set_same hm]

theorem commentBlocks_of_mem {h : Heap} {c : Ptr} {x : aafiUserComment}
    (hm : h.mem c = some (.comment x)) :
    commentBlocks h c = nz [x.name] ++ (nz [x.text] ++ [c]) := by
  simp [commentBlocks, hm]

theorem FreedFrom.free_comments {h : Heap} {R cells : List Ptr} :
    ∀ {l : List Ptr} {g : Heap} {B : List Ptr} {p : Ptr} {fuel : Nat}, FreedFrom h g B cells →
      Chain h.commentNext p l → (∀ x ∈ l, CommentOK h x) →
      (B ++ (l.flatMap (commentBlocks h) ++ R)).Nodup →
      (∀ q ∈ l.flatMap (commentBlocks h), q ∉ cells) → l.length ≤ fuel →
      ∃ g1, freeUserCommentsLoop g fuel p = .ok g1 ∧
        FreedFrom h g1 (B ++ l.flatMap (commentBlocks h)) cells ∧
        ((B ++ l.flatMap (commentBlocks h)) ++ R).Nodup ∧
        (∀ c, c ∉ l.flatMap (commentBlocks h) → g1.mem c = g.mem c)
  | [], g, B, p, fuel, hf, hc, _, hnd, _, _ => by
    have hp : p = 0 := hc
    refine ⟨g, ?_, by simpa using hf, by simpa using hnd, fun _ _ => rfl⟩
    cases fuel <;> simp [freeUserCommentsLoop, hp]
  | x :: l, g, B, p, 0, _, _, _, _, _, hfuel => by simp at hfuel
  | x :: l, g, B, p, fuel + 1, hf, hc, hok, hnd, hcells, hfuel => by
    obtain ⟨hpx, hp0, n, hnx, hcn⟩ := hc
    subst hpx
    obtain ⟨_, cx, hm, hnext⟩ := commentNext_ok hnx
    obtain ⟨_, cx1, hm1, hblobs⟩ := hok p (List.mem_cons_self _ _)
    rw [hm] at hm1
    cases hm1
    rw [List.flatMap_cons, commentBlocks_of_mem hm] at hnd hcells ⊢
    have hpc : p ∉ cells := hcells p (by simp)
    have hread : ∀ {g0 : Heap} {B0 X : List Ptr}, FreedFrom h g0 B0 cells →
        (B0 ++ X).Nodup → p ∈ X → g0.getComment p = .ok cx := by
      intro g0 B0 X hf0 hnd0 hx
      have hB : p ∉ B0 := fun hmm => (List.nodup_append.mp hnd0).2.2 hmm hx
      simp [Heap.getComment, hp0, hf0.mem_eq hB hpc, hm]
    have hget0 := hread hf hnd (by simp)
    obtain ⟨g1, hrun1, hF1, hnd1, hfr1⟩ :=
      hf.free_opt_blob (x := cx.name)
        (R := nz [cx.text] ++ ([p] ++ (l.flatMap (commentBlocks h) ++ R)))
        (fun q hq => hblobs q (by
          rw [nz_cons]
          exact List.mem_append_left _ hq))
        (by simpa [List.append_assoc] using hnd)
        (fun q hq => hcells q (by simp [hq]))
    have hget1 := hread hF1 hnd1 (by simp)
    obtain ⟨g2, hrun2, hF2, hnd2, hfr2⟩ :=
      hF1.free_opt_blob (x := cx.text) (R := [p] ++ (l.flatMap (commentBlocks h) ++ R))
        (fun q hq => hblobs q (by
          rw [nz_cons]
          exact List.mem_append_right _ hq))
        (by simpa [List.append_assoc] using hnd1)
        (fun q hq => hcells q (by simp [hq]))
    obtain ⟨g3, hrun3, hF3, hnd3, hfr3⟩ :=
      hF2.free_step (x := p) (R := l.flatMap (commentBlocks h) ++ R)
        (by simpa [nz_single_ne hp0, List.append_assoc] using hnd2)
        (by
          intro q hq
          rw [nz_single_ne hp0] at hq
          simp at hq
          subst hq
          exact ⟨hpc, by rw [hm]; simp⟩)
    rw [nz_single_ne hp0] at hF3 hnd3 hfr3
    have hfl : l.length ≤ fuel := by simp only [List.length_cons] at hfuel; omega
    obtain ⟨g4, hrun4, hF4, hnd4, hfr4⟩ :=
      FreedFrom.free_comments hF3 hcn (fun y hy => hok y (List.mem_cons_of_mem _ hy)) hnd3
        (fun q hq => hcells q (by simp [hq])) hfl
    refine ⟨g4, ?_, by simpa [List.append_assoc] using hF4,
      by simpa [List.append_assoc] using hnd4, ?_⟩
    · simp only [freeUserCommentsLoop, hp0, if_false, bind, Except.bind, hget0, hrun1, hget1,
        hrun2, hrun3, hnext]
      simp only [pure, Except.pure]
      exact hrun4
    · intro c hc
      simp only [List.mem_append, not_or] at hc
      rw [hfr4 c hc.2, hfr3 c hc.1.2.2, hfr2 c hc.1.2.1, hfr1 c hc.1.1]

/-- Function `aafi_freeUserComments` on a well-formed comment list held by a
handle whose block is not among the blocks of the list. -/
theorem freeUserComments_spec {h : Heap} {CommentList : CommentHandle} {l : List Ptr}
    {p : Ptr} {fuel : Nat} {g : Heap} {B R cells : List Ptr} (hf : FreedFrom h g B cells)
    (hload : g.loadComment CommentList = .ok p) (hcell : CommentList.cell ∈ cells)
    (hcB : CommentList.cell ∉ B) (hc : Chain h.commentNext p l)
    (hok : ∀ x ∈ l, CommentOK h x)
    (hnd : (B ++ (l.flatMap (commentBlocks h) ++ R)).Nodup)
    (hcells : ∀ q ∈ l.flatMap (commentBlocks h), q ∉ cells) (hfuel : l.length ≤ fuel) :
    ∃ g1, aafi_freeUserComments fuel g CommentList = .ok g1 ∧
      FreedFrom h g1 (B ++ l.flatMap (commentBlocks h)) cells ∧
      ((B ++ l.flatMap (commentBlocks h)) ++ R).Nodup ∧ g1.loadComment CommentList = .ok 0 ∧
      (∀ c, c ∉ l.flatMap (commentBlocks h) → c ≠ CommentList.cell → g1.mem c = g.mem c) ∧
      g1.mem CommentList.cell = (g.mem CommentList.cell).map (CommentList.put 0) := by
  obtain ⟨g1, hrun1, hF1, hnd1, hfr1⟩ := hf.free_comments (R := R) hc hok hnd hcells hfuel
  have hcf : CommentList.cell ∉ l.flatMap (commentBlocks h) := fun hm => hcells _ hm hcell
  have hload1 : g1.loadComment CommentList = .ok p := by
    rw [Heap.loadComment_congr CommentList (hfr1 _ hcf)]
    exact hload
  obtain ⟨g2, hst, hl2, hfreed2, hfr2, hput2⟩ := Heap.storeComment_ok 0 hload1
  refine ⟨g2, ?_, ?_, hnd1, hl2, ?_, by rw [hput2, hfr1 _ hcf]⟩
  · simp only [aafi_freeUserComments, bind, Except.bind, hload, hrun1, hst]
  · refine hF1.after_store hcell ?_ hfreed2 hfr2
    intro hm
    rcases List.mem_append.mp hm with h1 | h2
    · exact hcB h1
    · exact hcf h2
  · intro c hc1 hc2
    rw [hfr2 c hc2, hfr1 c hc1]

/-! ### Releasing essences -/

theorem essenceBlocks_of_mem {h : Heap} {p : Ptr} {e : aafiAudioEssence}
    (hm : h.mem p = some (.essence e)) :
    essenceBlocks h p = nz [e.original_file] ++ (nz [e.exported_file] ++ (nz [e.file_name] ++
      (nz [e.unique_file_name] ++ [p]))) := by
  simp [essenceBlocks, hm]

theorem FreedFrom.free_essences {h : Heap} {R cells : List Ptr} {hd : Handle}
    (hcell : hd.cell ∈ cells) :
    ∀ {l : List Ptr} {g : Heap} {B : List Ptr} {p : Ptr} {fuel : Nat}, FreedFrom h g B cells →
      g.load hd = .ok p → hd.cell ∉ B → Chain h.essenceNext p l →
      (∀ x ∈ l, EssenceOK h x) → (B ++ (l.flatMap (essenceBlocks h) ++ R)).Nodup →
      (∀ q ∈ l.flatMap (essenceBlocks h), q ∉ cells) → l.length ≤ fuel →
      ∃ g1, freeAudioEssencesLoop hd g fuel = .ok g1 ∧
        FreedFrom h g1 (B ++ l.flatMap (essenceBlocks h)) cells ∧
        ((B ++ l.flatMap (essenceBlocks h)) ++ R).Nodup ∧ g1.load hd = .ok 0 ∧
        (∀ c, c ∉ l.flatMap (essenceBlocks h) → c ≠ hd.cell → g1.mem c = g.mem c) ∧
        g1.mem hd.cell = (g.mem hd.cell).map (hd.put 0)
  | [], g, B, p, fuel, hf, hload, _, hc, _, hnd, _, _ => by
    have hp : p = 0 := hc
    subst hp
    refine ⟨g, ?_, by simpa using hf, by simpa using hnd, hload, fun _ _ _ => rfl,
      (Heap.load_put_same hload).symm⟩
    cases fuel <;> simp [freeAudioEssencesLoop, hload]
  | x :: l, g, B, p, 0, _, _, _, _, _, _, _, hfuel => by simp at hfuel
  | x :: l, g, B, p, fuel + 1, hf, hload, hcB, hc, hok, hnd, hcells, hfuel => by
    obtain ⟨hpx, hp0, n, hnx, hcn⟩ := hc
    subst hpx
    obtain ⟨_, e, hm, hnext⟩ := essenceNext_ok hnx
    obtain ⟨_, e1, hm1, hblobs⟩ := hok p (List.mem_cons_self _ _)
    rw [hm] at hm1
    cases hm1
    rw [List.flatMap_cons, essenceBlocks_of_mem hm] at hnd hcells ⊢
    have hpc : p ∉ cells := hcells p (by simp)
    have hread : ∀ {g0 : Heap} {B0 X : List Ptr}, FreedFrom h g0 B0 cells →
        (B0 ++ X).Nodup → p ∈ X → g0.getEssence p = .ok e := by
      intro g0 B0 X hf0 hnd0 hx
      have hB : p ∉ B0 := fun hmm => (List.nodup_append.mp hnd0).2.2 hmm hx
      simp [Heap.getEssence, hp0, hf0.mem_eq hB hpc, hm]
    have hblob : ∀ y, y ∈ [e.original_file, e.exported_file, e.file_name,
        e.unique_file_name] → BlobsAt h [y] := by
      intro y hy q hq
      obtain ⟨hq1, hq0⟩ := mem_nz.mp hq
      simp only [List.mem_singleton] at hq1
      subst hq1
      exact hblobs q (mem_nz.mpr ⟨hy, hq0⟩)
    have hkeep : ∀ {ga gb : Heap} {X : List Ptr}, (∀ c, c ∉ X → gb.mem c = ga.mem c) →
        (∀ q ∈ X, q ∉ cells) → ga.load hd = .ok p → gb.load hd = .ok p := by
      intro ga gb X hfr hX hl
      rw [Heap.load_congr hd (hfr _ (fun hmm => hX _ hmm hcell))]
      exact hl
    have hget0 := hread hf hnd (by simp)
    obtain ⟨g1, hrun1, hF1, hnd1, hfr1⟩ :=
      hf.free_opt_blob (x := e.original_file)
        (R := nz [e.exported_file] ++ (nz [e.file_name] ++ (nz [e.unique_file_name] ++
          ([p] ++ (l.flatMap (essenceBlocks h) ++ R)))))
        (hblob _ (by simp)) (by simpa [List.append_assoc] using hnd)
        (fun q hq => hcells q (by simp [hq]))
    have hl1 := hkeep hfr1 (fun q hq => hcells q (by simp [hq])) hload
    have hget1 := hread hF1 hnd1 (by simp)
    obtain ⟨g2, hrun2, hF2, hnd2, hfr2⟩ :=
      hF1.free_opt_blob (x := e.exported_file)
        (R := nz [e.file_name] ++ (nz [e.unique_file_name] ++
          ([p] ++ (l.flatMap (essenceBlocks h) ++ R))))
        (hblob _ (by simp)) (by simpa [List.append_assoc] using hnd1)
        (fun q hq => hcells q (by simp [hq]))
    have hl2 := hkeep hfr2 (fun q hq => hcells q (by simp [hq])) hl1
    have hget2 := hread hF2 hnd2 (by simp)
    obtain ⟨g3, hrun3, hF3, hnd3, hfr3⟩ :=
      hF2.free_opt_blob (x := e.file_name)
        (R := nz [e.unique_file_name] ++ ([p] ++ (l.flatMap (essenceBlocks h) ++ R)))
        (hblob _ (by simp)) (by simpa [List.append_assoc] using hnd2)
        (fun q hq => hcells q (by simp [hq]))
    have hl3 := hkeep hfr3 (fun q hq => hcells q (by simp [hq])) hl2
    have hget3 := hread hF3 hnd3 (by simp)
    obtain ⟨g4, hrun4, hF4, hnd4, hfr4⟩ :=
      hF3.free_opt_blob (x := e.unique_file_name)
        (R := [p] ++ (l.flatMap (essenceBlocks h) ++ R))
        (hblob _ (by simp)) (by simpa [List.append_assoc] using hnd3)
        (fun q hq => hcells q (by simp [hq]))
    have hl4 := hkeep hfr4 (fun q hq => hcells q (by simp [hq])) hl3
    obtain ⟨g5, hrun5, hF5, hnd5, hfr5⟩ :=
      hF4.free_step (x := p) (R := l.flatMap (essenceBlocks h) ++ R)
        (by simpa [nz_single_ne hp0, List.append_assoc] using hnd4)
        (by
          intro q hq
          rw [nz_single_ne hp0] at hq
          simp at hq
          subst hq
          exact ⟨hpc, by rw [hm]; simp⟩)
    rw [nz_single_ne hp0] at hF5 hnd5 hfr5
    have hl5 := hkeep hfr5 (fun q hq => hcells q (by simp at hq; simp [hq])) hl4
    obtain ⟨g6, hst, hl6, hfreed6, hfr6, hput6⟩ := Heap.store_ok n hl5
    have hcB5 : hd.cell ∉ B ++ nz [e.original_file] ++ nz [e.exported_file] ++
        nz [e.file_name] ++ nz [e.unique_file_name] ++ [p] := by
      intro hmm
      simp only [List.append_assoc] at hmm
      rcases List.mem_append.mp hmm with h1 | h2
      · exact hcB h1
      · exact hcells _ (List.mem_append_left _ (by simpa [List.append_assoc] using h2)) hcell
    have hF6 := hF5.after_store hcell hcB5 hfreed6 hfr6
    have hfl : l.length ≤ fuel := by simp only [List.length_cons] at hfuel; omega
    obtain ⟨g7, hrun7, hF7, hnd7, hl7, hfr7, hput7⟩ :=
      FreedFrom.free_essences hcell hF6 hl6 hcB5 hcn
        (fun y hy => hok y (List.mem_cons_of_mem _ hy)) hnd5
        (fun q hq => hcells q (by simp [hq])) hfl
    have hcellmem : g5.mem hd.cell = g.mem hd.cell := by
      have hx : ∀ X : List Ptr, (∀ q ∈ X, q ∈ nz [e.original_file] ++ (nz [e.exported_file] ++
          (nz [e.file_name] ++ (nz [e.unique_file_name] ++ [p])))) → hd.cell ∉ X :=
        fun X hX hmm => hcells _ (List.mem_append_left _ (hX _ hmm)) hcell
      rw [hfr5 _ (hx [p] (by simp)), hfr4 _ (hx _ (by intro q hq; simp [hq])),
        hfr3 _ (hx _ (by intro q hq; simp [hq])), hfr2 _ (hx _ (by intro q hq; simp [hq])),
        hfr1 _ (hx _ (by intro q hq; simp [hq]))]
    refine ⟨g7, ?_, by simpa [List.append_assoc] using hF7,
      by simpa [List.append_assoc] using hnd7, hl7, ?_, ?_⟩
    rotate_left
    · intro c hc1 hc2
      simp only [List.mem_append, not_or] at hc1
      rw [hfr7 c hc1.2 hc2, hfr6 c hc2, hfr5 c hc1.1.2.2.2.2, hfr4 c hc1.1.2.2.2.1,
        hfr3 c hc1.1.2.2.1, hfr2 c hc1.1.2.1, hfr1 c hc1.1.1]
    · rw [hput7, hput6, hcellmem, Option.map_map]
      congr 1
      funext o
      exact Handle.put_put hd n 0 o
    · simp only [freeAudioEssencesLoop, hload, hp0, if_false, bind, Except.bind, hget0, hrun1,
        hl1, hget1, hrun2, hl2, hget2, hrun3, hl3, hget3, hrun4, hl4, hrun5, hnext, hst]
      exact hrun7

/-- Function `aafi_freeAudioEssences` on a well-formed essence list held by a
handle whose block is not among the blocks of the list. -/
theorem freeAudioEssences_spec {h : Heap} {audioEssence : Handle} {l : List Ptr}
    {p : Ptr} {fuel : Nat} {g : Heap} {B R cells : List Ptr} (hf : FreedFrom h g B cells)
    (hload : g.load audioEssence = .ok p) (hcell : audioEssence.cell ∈ cells)
    (hcB : audioEssence.cell ∉ B) (hc : Chain h.essenceNext p l)
    (hok : ∀ x ∈ l, EssenceOK h x)
    (hnd : (B ++ (l.flatMap (essenceBlocks h) ++ R)).Nodup)
    (hcells : ∀ q ∈ l.flatMap (essenceBlocks h), q ∉ cells) (hfuel : l.length ≤ fuel) :
    ∃ g1, aafi_freeAudioEssences fuel g audioEssence = .ok g1 ∧
      FreedFrom h g1 (B ++ l.flatMap (essenceBlocks h)) cells ∧
      ((B ++ l.flatMap (essenceBlocks h)) ++ R).Nodup ∧ g1.load audioEssence = .ok 0 ∧
      (∀ c, c ∉ l.flatMap (essenceBlocks h) → c ≠ audioEssence.cell →
        g1.mem c = g.mem c) ∧
      g1.mem audioEssence.cell = (g.mem audioEssence.cell).map (audioEssence.put 0) := by
  by_cases hp : p = 0
  · subst hp
    have hl : l = [] := Chain.null_nil hc
    subst hl
    refine ⟨g, ?_, by simpa using hf, by simpa using hnd, hload, fun _ _ _ => rfl,
      (Heap.load_put_same hload).symm⟩
    simp [aafi_freeAudioEssences, bind, Except.bind, hload, pure, Except.pure]
  · obtain ⟨g1, hrun1, hF1, hnd1, hl1, hfr1, hput1⟩ :=
      FreedFrom.free_essences (R := R) hcell hf hload hcB hc hok hnd hcells hfuel
    obtain ⟨g2, hst, hl2, hfreed2, hfr2, hput2⟩ := Heap.store_ok 0 hl1
    have hcf : audioEssence.cell ∉ l.flatMap (essenceBlocks h) := fun hm => hcells _ hm hcell
    refine ⟨g2, ?_, ?_, hnd1, hl2, ?_, ?_⟩
    rotate_left 3
    · rw [hput2, hput1, Option.map_map]
      congr 1
      funext o
      exact Handle.put_put audioEssence 0 0 o
    · simp only [aafi_freeAudioEssences, bind, Except.bind, hload, hp, if_false, hrun1, hst]
    · refine hF1.after_store hcell ?_ hfreed2 hfr2
      intro hm
      rcases List.mem_append.mp hm with h1 | h2
      · exact hcB h1
      · exact hcf h2
    · intro c hc1 hc2
      rw [hfr2 c hc2, hfr1 c hc1 hc2]

/-! ### Releasing the root -/

theorem Heap.loadComment_put_same {g : Heap} {hd : CommentHandle} {v : Ptr}
    (hl : g.loadComment hd = .ok v) : (g.mem hd.cell).map (hd.put v) = g.mem hd.cell := by
  cases hd with
  | null => simp [Heap.loadComment] at hl
  | var a =>
    simp only [Heap.loadComment, Heap.getPtrvar] at hl
    by_cases ha : a = 0
    · simp [ha] at hl
    · cases hm : g.mem a with
      | none => simp [ha, hm] at hl
      | some o =>
        cases o <;> simp [ha, hm] at hl
        subst hl
        simp [CommentHandle.cell, CommentHandle.put, hm]
  | ifaceComments a =>
    simp only [Heap.loadComment, Heap.getIface] at hl
    by_cases ha : a = 0
    · simp [ha] at hl
    · cases hm : g.mem a with
      | none => simp [ha, hm] at hl
      | some o =>
        cases o <;> simp [ha, hm] at hl
        subst hl
        simp [CommentHandle.cell, CommentHandle.put, hm]
  | commentNext a =>
    simp only [Heap.loadComment, Heap.commentNext, Heap.getComment] at hl
    by_cases ha : a = 0
    · simp [ha] at hl
    · cases hm : g.mem a with
      | none => simp [ha, hm] at hl
      | some o =>
        cases o <;> simp [ha, hm] at hl
        subst hl
        simp [CommentHandle.cell, CommentHandle.put, hm]

theorem release_opt_comments {h : Heap} {d : CommentHandle} {l : List Ptr}
    {p : Ptr} {fuel : Nat} {g : Heap} {B R cells : List Ptr} (hf : FreedFrom h g B cells)
    (hload : g.loadComment d = .ok p) (hcell : d.cell ∈ cells)
    (hcB : d.cell ∉ B) (hc : Chain h.commentNext p l)
    (hok : ∀ x ∈ l, CommentOK h x)
    (hnd : (B ++ (l.flatMap (commentBlocks h) ++ R)).Nodup)
    (hcells : ∀ q ∈ l.flatMap (commentBlocks h), q ∉ cells) (hfuel : l.length ≤ fuel) :
    ∃ g1, (if p ≠ 0 then aafi_freeUserComments fuel g d else pure g) = .ok g1 ∧
      FreedFrom h g1 (B ++ l.flatMap (commentBlocks h)) cells ∧
      ((B ++ l.flatMap (commentBlocks h)) ++ R).Nodup ∧
      (∀ c, c ∉ l.flatMap (commentBlocks h) → c ≠ d.cell → g1.mem c = g.mem c) ∧
      g1.mem d.cell = (g.mem d.cell).map (d.put 0) := by
  by_cases hp : p = 0
  · subst hp
    have hl : l = [] := Chain.null_nil hc
    subst hl
    exact ⟨g, by simp [pure, Except.pure], by simpa using hf, by simpa using hnd,
      fun _ _ _ => rfl, (Heap.loadComment_put_same hload).symm⟩
  · obtain ⟨g1, hrun, hF1, hnd1, _, hfr1, hput1⟩ :=
      freeUserComments_spec (R := R) hf hload hcell hcB hc hok hnd hcells hfuel
    exact ⟨g1, by simp [hp, hrun], hF1, hnd1, hfr1, hput1⟩

theorem release_opt_tracks {h : Heap} {d : Handle} {shape : List (Ptr × List Ptr)}
    {p : Ptr} {fuel : Nat} {g : Heap} {B R cells : List Ptr} (hf : FreedFrom h g B cells)
    (hload : g.load d = .ok p) (hcell : d.cell ∈ cells) (hcB : d.cell ∉ B)
    (hc : Chain h.trackNext p (shape.map Prod.fst)) (hok : ∀ s ∈ shape, TrackOK h s)
    (hnd : (B ++ (shape.flatMap (trackBlocks h) ++ R)).Nodup)
    (hcells : ∀ q ∈ shape.flatMap (trackBlocks h), q ∉ cells) (hfuel : shape.length ≤ fuel)
    (hinner : ∀ s ∈ shape, s.2.length ≤ fuel) :
    ∃ g1, (if p ≠ 0 then aafi_freeAudioTracks fuel g d else pure g) = .ok g1 ∧
      FreedFrom h g1 (B ++ shape.flatMap (trackBlocks h)) cells ∧
      ((B ++ shape.flatMap (trackBlocks h)) ++ R).Nodup ∧
      (∀ c, c ∉ shape.flatMap (trackBlocks h) → c ≠ d.cell → g1.mem c = g.mem c) ∧
      g1.mem d.cell = (g.mem d.cell).map (d.put 0) := by
  by_cases hp : p = 0
  · subst hp
    have hs : shape.map Prod.fst = [] := Chain.null_nil hc
    have hs1 : shape = [] := by simpa using hs
    subst hs1
    exact ⟨g, by simp [pure, Except.pure], by simpa using hf, by simpa using hnd,
      fun _ _ _ => rfl, (Heap.load_put_same hload).symm⟩
  · obtain ⟨g1, hrun, hF1, hnd1, _, hfr1, hput1⟩ :=
      freeAudioTracks_spec (R := R) hf hload hcell hcB hc hok hnd hcells hfuel hinner
    exact ⟨g1, by simp [hp, hrun], hF1, hnd1, hfr1, hput1⟩

theorem release_opt_essences {h : Heap} {d : Handle} {l : List Ptr}
    {p : Ptr} {fuel : Nat} {g : Heap} {B R cells : List Ptr} (hf : FreedFrom h g B cells)
    (hload : g.load d = .ok p) (hcell : d.cell ∈ cells)
    (hcB : d.cell ∉ B) (hc : Chain h.essenceNext p l)
    (hok : ∀ x ∈ l, EssenceOK h x)
    (hnd : (B ++ (l.flatMap (essenceBlocks h) ++ R)).Nodup)
    (hcells : ∀ q ∈ l.flatMap (essenceBlocks h), q ∉ cells) (hfuel : l.length ≤ fuel) :
    ∃ g1, (if p ≠ 0 then aafi_freeAudioEssences fuel g d else pure g) = .ok g1 ∧
      FreedFrom h g1 (B ++ l.flatMap (essenceBlocks h)) cells ∧
      ((B ++ l.flatMap (essenceBlocks h)) ++ R).Nodup ∧
      (∀ c, c ∉ l.flatMap (essenceBlocks h) → c ≠ d.cell →
        g1.mem c = g.mem c) ∧
      g1.mem d.cell = (g.mem d.cell).map (d.put 0) := by
  by_cases hp : p = 0
  · subst hp
    have hl : l = [] := Chain.null_nil hc
    subst hl
    exact ⟨g, by simp [pure, Except.pure], by simpa using hf, by simpa using hnd,
      fun _ _ _ => rfl, (Heap.load_put_same hload).symm⟩
  · obtain ⟨g1, hrun, hF1, hnd1, _, hfr1, hput1⟩ :=
      freeAudioEssences_spec (R := R) hf hload hcell hcB hc hok hnd hcells hfuel
    exact ⟨g1, by simp [hp, hrun], hF1, hnd1, hfr1, hput1⟩

theorem rootBlocks_of_mem {h : Heap} {aafi : Ptr} {shape : List (Ptr × List Ptr)}
    {le lc : List Ptr} {r : AAF_Iface} {a : aafiAudio} (hr : h.mem aafi = some (.iface r))
    (ha : h.mem r.Audio = some (.audio a)) :
    rootBlocks h aafi shape le lc =
      nz [r.compositionName] ++ (lc.flatMap (commentBlocks h) ++
        (shape.flatMap (trackBlocks h) ++ (le.flatMap (essenceBlocks h) ++
          (nz [a.tc] ++ ([r.Audio] ++ [aafi]))))) := by
  simp [rootBlocks, hr, ha]

theorem root_cells_disjoint {A1 A2 A3 A4 A5 : List Ptr} {c au aafi : Ptr}
    (hnd : (A1 ++ (A2 ++ (A3 ++ (A4 ++ (A5 ++ ([au] ++ [aafi])))))).Nodup)
    (hcell : c ∉ A1 ++ (A2 ++ (A3 ++ (A4 ++ (A5 ++ ([au] ++ [aafi])))))) :
    ∀ q ∈ A1 ++ (A2 ++ (A3 ++ (A4 ++ A5))), q ∉ [c, aafi, au] := by
  intro q hq hqc
  have hq2 : q ∈ A1 ++ (A2 ++ (A3 ++ (A4 ++ (A5 ++ ([au] ++ [aafi]))))) := by
    simp only [List.mem_append] at hq ⊢
    tauto
  have hnd2 : ((A1 ++ (A2 ++ (A3 ++ (A4 ++ A5)))) ++ ([au] ++ [aafi])).Nodup := by
    simpa [List.append_assoc] using hnd
  have hdis := (List.nodup_append.mp hnd2).2.2
  simp only [List.mem_cons, List.mem_singleton, List.not_mem_nil, or_false] at hqc
  rcases hqc with e | e | e
  · exact hcell (e ▸ hq2)
  · exact hdis hq (by simp [e])
  · exact hdis hq (by simp [e])

theorem root_tail_nodup {A1 A2 A3 A4 A5 : List Ptr} {au aafi : Ptr}
    (hnd : (A1 ++ (A2 ++ (A3 ++ (A4 ++ (A5 ++ ([au] ++ [aafi])))))).Nodup) : au ≠ aafi := by
  intro e
  have h1 : ([au] ++ [aafi]).Nodup := by
    simp only [List.nodup_append] at hnd
    exact List.nodup_append.mpr hnd.2.1.2.1.2.1.2.1.2.1
  simp [e] at h1

/-- Function `aafi_release` on a well-formed root held by a handle whose block
is not among the blocks of the root: every block of the root is freed once,
in the order of `rootBlocks`, nothing else changes, and the handle still
holds the address of the root. -/
theorem release_spec (rel : Ptr → Ptr) {h : Heap} {hd : Handle} {aafi : Ptr}
    {shape : List (Ptr × List Ptr)} {le lc : List Ptr} {fuel : Nat}
    (hok : RootOK h aafi shape le lc) (hnd : (rootBlocks h aafi shape le lc).Nodup)
    (hload : h.load hd = .ok aafi) (hcell : hd.cell ∉ rootBlocks h aafi shape le lc)
    (hfc : lc.length ≤ fuel) (hft : shape.length ≤ fuel)
    (hfi : ∀ s ∈ shape, s.2.length ≤ fuel) (hfe : le.length ≤ fuel) :
    ∃ h1, aafi_release rel fuel h hd = .ok h1 ∧
      FreedFrom h h1 (rootBlocks h aafi shape le lc) [] ∧ h1.load hd = .ok aafi := by
  obtain ⟨ha0, r, a, hr, hau0, ha, hcn, hcc, hcok, hct, htok, hce, heok, htc⟩ := hok
  rw [rootBlocks_of_mem hr ha] at hnd hcell ⊢
  have hne_ca : hd.cell ≠ aafi := fun e => hcell (by simp [e])
  have hne_cu : hd.cell ≠ r.Audio := fun e => hcell (by simp [e])
  have hne_ua : r.Audio ≠ aafi := root_tail_nodup hnd
  have hcX := root_cells_disjoint hnd hcell
  have hin1 : ∀ q ∈ nz [r.compositionName], q ∉ [hd.cell, aafi, r.Audio] :=
    fun q hq => hcX q (List.mem_append_left _ hq)
  have hin2 : ∀ q ∈ lc.flatMap (commentBlocks h), q ∉ [hd.cell, aafi, r.Audio] :=
    fun q hq => hcX q (List.mem_append_right _ (List.mem_append_left _ hq))
  have hin3 : ∀ q ∈ shape.flatMap (trackBlocks h), q ∉ [hd.cell, aafi, r.Audio] :=
    fun q hq => hcX q (List.mem_append_right _ (List.mem_append_right _
      (List.mem_append_left _ hq)))
  have hin4 : ∀ q ∈ le.flatMap (essenceBlocks h), q ∉ [hd.cell, aafi, r.Audio] :=
    fun q hq => hcX q (List.mem_append_right _ (List.mem_append_right _
      (List.mem_append_right _ (List.mem_append_left _ hq))))
  have hin5 : ∀ q ∈ nz [a.tc], q ∉ [hd.cell, aafi, r.Audio] :=
    fun q hq => hcX q (List.mem_append_right _ (List.mem_append_right _
      (List.mem_append_right _ (List.mem_append_right _ hq))))
  have hc_in : hd.cell ∈ [hd.cell, aafi, r.Audio] := List.mem_cons_self _ _
  have ha_in : aafi ∈ [hd.cell, aafi, r.Audio] :=
    List.mem_cons_of_mem _ (List.mem_cons_self _ _)
  have hu_in : r.Audio ∈ [hd.cell, aafi, r.Audio] :=
    List.mem_cons_of_mem _ (List.mem_cons_of_mem _ (List.mem_cons_self _ _))
  have hF0 : FreedFrom h h [] [hd.cell, aafi, r.Audio] := FreedFrom.start h _
  -- aaf_release (&(*aafi)->aafd)
  have hgetr : h.getIface aafi = .ok r := by simp [Heap.getIface, ha0, hr]
  have hF1 : FreedFrom h (h.set aafi (.iface { r with aafd := rel r.aafd })) []
      [hd.cell, aafi, r.Audio] :=
    hF0.after_store (c := aafi) ha_in (by simp) rfl (fun q hq => Heap.set_mem_ne _ _ hq)
  have hl1 : (h.set aafi (.iface { r with aafd := rel r.aafd })).load hd = .ok aafi := by
    rw [Heap.load_congr hd (Heap.set_mem_ne _ _ hne_ca)]
    exact hload
  have hgetr1 : (h.set aafi (.iface { r with aafd := rel r.aafd })).getIface aafi =
      .ok { r with aafd := rel r.aafd } := by
    simp [Heap.getIface, ha0, Heap.set_mem_same]
  -- composition name
  obtain ⟨g2, hrun2, hF2, hnd2, hfr2⟩ :=
    hF1.free_opt_blob (x := r.compositionName)
      (R := lc.flatMap (commentBlocks h) ++ (shape.flatMap (trackBlocks h) ++
        (le.flatMap (essenceBlocks h) ++ (nz [a.tc] ++ ([r.Audio] ++ [aafi])))))
      hcn (by simpa using hnd) hin1
  have hk2 : ∀ c, c ∈ [hd.cell, aafi, r.Audio] →
      g2.mem c = (h.set aafi (.iface { r with aafd := rel r.aafd })).mem c :=
    fun c hc => hfr2 c (fun hm => hin1 c hm hc)
  have hl2 : g2.load hd = .ok aafi := by
    rw [Heap.load_congr hd (hk2 _ hc_in)]
    exact hl1
  have hma2 : g2.mem aafi = some (.iface { r with aafd := rel r.aafd }) := by
    rw [hk2 _ ha_in, Heap.set_mem_same]
  have hmu2 : g2.mem r.Audio = some (.audio a) := by
    rw [hk2 _ hu_in, Heap.set_mem_ne _ _ hne_ua, ha]
  have hgetr2 : g2.getIface aafi = .ok { r with aafd := rel r.aafd } := by
    simp [Heap.getIface, ha0, hma2]
  -- comments
  have haB2 : aafi ∉ [] ++ nz [r.compositionName] :=
    fun hm => hin1 aafi (by simpa using hm) ha_in
  obtain ⟨g3, hrun3, hF3, hnd3, hfr3, hput3⟩ :=
    release_opt_comments (d := .ifaceComments aafi) (p := r.Comments)
      (R := shape.flatMap (trackBlocks h) ++ (le.flatMap (essenceBlocks h) ++
        (nz [a.tc] ++ ([r.Audio] ++ [aafi]))))
      hF2 (by simp [Heap.loadComment, hgetr2]) (by simp [CommentHandle.cell]) haB2 hcc hcok
      hnd2 hin2 hfc
  simp only [CommentHandle.cell] at hfr3 hput3
  have hma3 : g3.mem aafi = some (.iface { r with aafd := rel r.aafd, Comments := 0 }) := by
    rw [hput3, hma2]
    simp [CommentHandle.put]
  have hkc3 : g3.mem hd.cell = g2.mem hd.cell :=
    hfr3 _ (fun hm => hin2 _ hm hc_in) hne_ca
  have hku3 : g3.mem r.Audio = g2.mem r.Audio :=
    hfr3 _ (fun hm => hin2 _ hm hu_in) hne_ua
  have hl3 : g3.load hd = .ok aafi := by
    rw [Heap.load_congr hd hkc3]
    exact hl2
  have hmu3 : g3.mem r.Audio = some (.audio a) := by rw [hku3, hmu2]
  have hgetr3 : g3.getIface aafi =
      .ok { r with aafd := rel r.aafd, Comments := 0 } := by
    simp [Heap.getIface, ha0, hma3]
  have hgeta3 : g3.getAudio r.Audio = .ok a := by simp [Heap.getAudio, hau0, hmu3]
  -- d
  have huB3 : r.Audio ∉ [] ++ nz [r.compositionName] ++ lc.flatMap (commentBlocks h) := by
    intro hm
    simp only [List.nil_append] at hm
    rcases List.mem_append.mp hm with h1 | h1
    · exact hin1 _ h1 hu_in
    · exact hin2 _ h1 hu_in
  obtain ⟨g4, hrun4, hF4, hnd4, hfr4, hput4⟩ :=
    release_opt_tracks (d := .audioTracks r.Audio) (p := a.Tracks)
      (R := le.flatMap (essenceBlocks h) ++ (nz [a.tc] ++ ([r.Audio] ++ [aafi])))
      hF3 (by simp [Heap.load, hgeta3]) (by simp [Handle.cell]) huB3 hct htok
      hnd3 hin3 hft hfi
  simp only [Handle.cell] at hfr4 hput4
  have hmu4 : g4.mem r.Audio = some (.audio { a with Tracks := 0 }) := by
    rw [hput4, hmu3]
    simp [Handle.put]
  have hkc4 : g4.mem hd.cell = g3.mem hd.cell :=
    hfr4 _ (fun hm => hin3 _ hm hc_in) hne_cu
  have hka4 : g4.mem aafi = g3.mem aafi :=
    hfr4 _ (fun hm => hin3 _ hm ha_in) hne_ua.symm
  have hl4 : g4.load hd = .ok aafi := by
    rw [Heap.load_congr hd hkc4]
    exact hl3
  have hgetr4 : g4.getIface aafi =
      .ok { r with aafd := rel r.aafd, Comments := 0 } := by
    simp [Heap.getIface, ha0, hka4, hma3]
  have hgeta4 : g4.getAudio r.Audio = .ok { a with Tracks := 0 } := by
    simp [Heap.getAudio, hau0, hmu4]
  -- essences
  have huB4 : r.Audio ∉ [] ++ nz [r.compositionName] ++ lc.flatMap (commentBlocks h) ++
      shape.flatMap (trackBlocks h) := by
    intro hm
    rcases List.mem_append.mp hm with h1 | h1
    · exact huB3 h1
    · exact hin3 _ h1 hu_in
  obtain ⟨g5, hrun5, hF5, hnd5, hfr5, hput5⟩ :=
    release_opt_essences (d := .audioEssences r.Audio) (p := a.Essences)
      (R := nz [a.tc] ++ ([r.Audio] ++ [aafi]))
      hF4 (by simp [Heap.load, hgeta4]) (by simp [Handle.cell]) huB4 hce heok
      hnd4 hin4 hfe
  simp only [Handle.cell] at hfr5 hput5
  have hmu5 : g5.mem r.Audio = some (.audio { a with Tracks := 0, Essences := 0 }) := by
    rw [hput5, hmu4]
    simp [Handle.put]
  have hkc5 : g5.mem hd.cell = g4.mem hd.cell :=
    hfr5 _ (fun hm => hin4 _ hm hc_in) hne_cu
  have hka5 : g5.mem aafi = g4.mem aafi :=
    hfr5 _ (fun hm => hin4 _ hm ha_in) hne_ua.symm
  have hl5 : g5.load hd = .ok aafi := by
    rw [Heap.load_congr hd hkc5]
    exact hl4
  have hgetr5 : g5.getIface aafi =
      .ok { r with aafd := rel r.aafd, Comments := 0 } := by
    simp [Heap.getIface, ha0, hka5, hka4, hma3]
  have hgeta5 : g5.getAudio r.Audio = .ok { a with Tracks := 0, Essences := 0 } := by
    simp [Heap.getAudio, hau0, hmu5]
  -- timecode
  obtain ⟨g6, hrun6, hF6, hnd6, hfr6⟩ :=
    hF5.free_opt_blob (x := a.tc) (R := [r.Audio] ++ [aafi]) htc hnd5 hin5
  have hk6 : ∀ c, c ∈ [hd.cell, aafi, r.Audio] → g6.mem c = g5.mem c :=
    fun c hc => hfr6 c (fun hm => hin5 c hm hc)
  have hl6 : g6.load hd = .ok aafi := by
    rw [Heap.load_congr hd (hk6 _ hc_in)]
    exact hl5
  have hgetr6 : g6.getIface aafi =
      .ok { r with aafd := rel r.aafd, Comments := 0 } := by
    simp [Heap.getIface, ha0, hk6 aafi ha_in, hka5, hka4, hma3]
  -- the container, then the root
  obtain ⟨g7, hrun7, hF7, hnd7, hfr7⟩ :=
    hF6.free_cell (c := r.Audio) (R := [aafi]) (D := [hd.cell, aafi])
      (by
        intro q hq
        simp only [List.mem_cons, List.mem_singleton, List.not_mem_nil, or_false] at hq ⊢
        rcases hq with e | e | e
        · exact Or.inr (Or.inl e)
        · exact Or.inr (Or.inr e)
        · exact Or.inl e)
      hau0 (by rw [hk6 _ hu_in, hmu5]; simp) (by simpa [List.append_assoc] using hnd6)
  have hl7 : g7.load hd = .ok aafi := by
    rw [Heap.load_congr hd (hfr7 _ hne_cu)]
    exact hl6
  obtain ⟨g8, hrun8, hF8, hnd8, hfr8⟩ :=
    hF7.free_cell (c := aafi) (R := []) (D := [hd.cell])
      (by
        intro q hq
        simp only [List.mem_cons, List.mem_singleton, List.not_mem_nil, or_false] at hq ⊢
        rcases hq with e | e
        · exact Or.inr e
        · exact Or.inl e)
      ha0
      (by
        rw [hfr7 _ hne_ua.symm, hk6 _ ha_in, hka5, hka4, hma3]
        simp)
      (by simpa [List.append_assoc] using hnd7)
  have hcellmem : g8.mem hd.cell = h.mem hd.cell := by
    rw [hfr8 _ hne_ca, hfr7 _ hne_cu, hk6 _ hc_in, hkc5, hkc4, hkc3, hk2 _ hc_in,
      Heap.set_mem_ne _ _ hne_ca]
  have hl8 : g8.load hd = .ok aafi := by
    rw [Heap.load_congr hd hcellmem]
    exact hload
  refine ⟨g8, ?_, ?_, hl8⟩
  · simp only [aafi_release, bind, Except.bind, hload, ha0, if_false, Heap.modifyIface, hgetr,
      hl1, hgetr1, hrun2, hl2, hgetr2, hrun3, hl3, hgetr3, hau0, ne_eq, not_false_eq_true,
      if_true, hgeta3, hrun4, hl4, hgetr4, hgeta4, hrun5, hl5, hgetr5, hgeta5, hrun6, hl6,
      hgetr6, hrun7, hl7, hrun8]
  · obtain ⟨hfreed, hdead, hsame⟩ := hF8
    refine ⟨by simpa [List.append_assoc] using hfreed, ?_, ?_⟩
    · intro q hq
      exact hdead q (by simpa [List.append_assoc] using hq)
    · intro q hq _
      by_cases hqc : q = hd.cell
      · rw [hqc]; exact hcellmem
      · exact hsame q (by simpa [List.append_assoc] using hq) (by simpa using hqc)

/-! ### Null list heads -/

theorem freeTimelineItemsLoop_null (h : Heap) (fuel : Nat) :
    freeTimelineItemsLoop h fuel 0 = .ok h := by
  cases fuel <;> simp [freeTimelineItemsLoop]

theorem freeUserCommentsLoop_null (h : Heap) (fuel : Nat) :
    freeUserCommentsLoop h fuel 0 = .ok h := by
  cases fuel <;> simp [freeUserCommentsLoop]

theorem freeTimelineItems_null (fuel : Nat) {h : Heap} {items : Handle}
    (hl : h.load items = .ok 0) : aafi_freeTimelineItems fuel h items = .ok h := by
  simp only [aafi_freeTimelineItems, bind, Except.bind, hl, freeTimelineItemsLoop_null]
  exact Heap.store_same hl

theorem freeUserComments_null (fuel : Nat) {h : Heap} {CommentList : CommentHandle}
    (hl : h.loadComment CommentList = .ok 0) :
    aafi_freeUserComments fuel h CommentList = .ok h := by
  simp only [aafi_freeUserComments, bind, Except.bind, hl, freeUserCommentsLoop_null]
  exact Heap.storeComment_same hl

theorem freeAudioTracks_null (fuel : Nat) {h : Heap} {tracks : Handle}
    (hl : h.load tracks = .ok 0) : aafi_freeAudioTracks fuel h tracks = .ok h := by
  simp [aafi_freeAudioTracks, bind, Except.bind, hl, pure, Except.pure]

theorem freeAudioEssences_null (fuel : Nat) {h : Heap} {audioEssence : Handle}
    (hl : h.load audioEssence = .ok 0) : aafi_freeAudioEssences fuel h audioEssence = .ok h := by
  simp [aafi_freeAudioEssences, bind, Except.bind, hl, pure, Except.pure]

theorem release_null (rel : Ptr → Ptr) (fuel : Nat) {h : Heap} {aafi : Handle}
    (hl : h.load aafi = .ok 0) : aafi_release rel fuel h aafi = .ok h := by
  simp [aafi_release, bind, Except.bind, hl, pure, Except.pure]

/-! ### Creation: failure, tags, frame -/

theorem bind_eq_ok {α β : Type} {x : Except Fault α} {f : α → Except Fault β} {b : β}
    (hb : (x >>= f) = .ok b) : ∃ a, x = .ok a ∧ f a = .ok b := by
  cases x with
  | error e => simp [bind, Except.bind] at hb
  | ok a => exact ⟨a, rfl, by simpa [bind, Except.bind] using hb⟩

theorem modifyItem_ok {h h1 : Heap} {p : Ptr} {f : aafiTimelineItem → aafiTimelineItem}
    (hm : h.modifyItem p f = .ok h1) :
    p ≠ 0 ∧ ∃ it, h.mem p = some (.item it) ∧ h1 = h.set p (.item (f it)) := by
  unfold Heap.modifyItem Heap.getItem at hm
  by_cases hp : p = 0
  · simp [hp] at hm
  · cases hq : h.mem p with
    | none => simp [hp, hq] at hm
    | some o =>
      cases o <;> simp [hp, hq] at hm
      exact ⟨hp, _, rfl, hm.symm⟩

theorem modifyTrack_ok {h h1 : Heap} {p : Ptr} {f : aafiAudioTrack → aafiAudioTrack}
    (hm : h.modifyTrack p f = .ok h1) :
    p ≠ 0 ∧ ∃ t, h.mem p = some (.track t) ∧ h1 = h.set p (.track (f t)) := by
  unfold Heap.modifyTrack Heap.getTrack at hm
  by_cases hp : p = 0
  · simp [hp] at hm
  · cases hq : h.mem p with
    | none => simp [hp, hq] at hm
    | some o =>
      cases o <;> simp [hp, hq] at hm
      exact ⟨hp, _, rfl, hm.symm⟩

theorem modifyAudio_ok {h h1 : Heap} {p : Ptr} {f : aafiAudio → aafiAudio}
    (hm : h.modifyAudio p f = .ok h1) :
    p ≠ 0 ∧ ∃ a, h.mem p = some (.audio a) ∧ h1 = h.set p (.audio (f a)) := by
  unfold Heap.modifyAudio Heap.getAudio at hm
  by_cases hp : p = 0
  · simp [hp] at hm
  · cases hq : h.mem p with
    | none => simp [hp, hq] at hm
    | some o =>
      cases o <;> simp [hp, hq] at hm
      exact ⟨hp, _, rfl, hm.symm⟩

theorem modifyIface_ok {h h1 : Heap} {p : Ptr} {f : AAF_Iface → AAF_Iface}
    (hm : h.modifyIface p f = .ok h1) :
    p ≠ 0 ∧ ∃ r, h.mem p = some (.iface r) ∧ h1 = h.set p (.iface (f r)) := by
  unfold Heap.modifyIface Heap.getIface at hm
  by_cases hp : p = 0
  · simp [hp] at hm
  · cases hq : h.mem p with
    | none => simp [hp, hq] at hm
    | some o =>
      cases o <;> simp [hp, hq] at hm
      exact ⟨hp, _, rfl, hm.symm⟩

theorem modifyClip_ok {h h1 : Heap} {p : Ptr} {f : aafiAudioClip → aafiAudioClip}
    (hm : h.modifyClip (.dataOf p) f = .ok h1) : ∃ o, h1 = h.set p o := by
  unfold Heap.modifyClip Heap.getItem at hm
  by_cases hp : p = 0
  · simp [hp] at hm
  · cases hq : h.mem p with
    | none => simp [hp, hq] at hm
    | some o =>
      cases o <;> simp [hp, hq] at hm
      rename_i it
      cases hd : it.data <;> simp [hd] at hm
      exact ⟨_, hm.symm⟩

theorem TypeKept.refl (h : Heap) (X : Ptr) : TypeKept h h X :=
  fun _ it0 _ hq => ⟨it0, hq, rfl⟩

theorem TypeKept.set_self {h g : Heap} {X : Ptr} (hk : TypeKept h g X) (o : Obj) :
    TypeKept h (g.set X o) X := by
  intro q it0 hqX hq
  rw [Heap.set_mem_ne _ _ hqX]
  exact hk q it0 hqX hq

theorem TypeKept.modifyItem {h g g1 : Heap} {X p : Ptr}
    {f : aafiTimelineItem → aafiTimelineItem} (hk : TypeKept h g X)
    (hm : g.modifyItem p f = .ok g1) (hf : p = X ∨ ∀ i, (f i).type = i.type) :
    TypeKept h g1 X := by
  obtain ⟨_, it, hit, rfl⟩ := modifyItem_ok hm
  intro q it0 hqX hq
  obtain ⟨it1, h1, h2⟩ := hk q it0 hqX hq
  by_cases hqp : q = p
  · subst hqp
    rcases hf with e | hf
    · exact absurd e hqX
    · rw [hit] at h1
      cases h1
      exact ⟨f it, Heap.set_mem_same _ _ _, by rw [hf, h2]⟩
  · exact ⟨it1, by rw [Heap.set_mem_ne _ _ hqp]; exact h1, h2⟩

theorem TypeKept.modifyTrack {h g g1 : Heap} {X p : Ptr}
    {f : aafiAudioTrack → aafiAudioTrack} (hk : TypeKept h g X)
    (hm : g.modifyTrack p f = .ok g1) : TypeKept h g1 X := by
  obtain ⟨_, t, ht, rfl⟩ := modifyTrack_ok hm
  intro q it0 hqX hq
  obtain ⟨it1, h1, h2⟩ := hk q it0 hqX hq
  have hqp : q ≠ p := by
    intro e
    rw [e, ht] at h1
    cases h1
  exact ⟨it1, by rw [Heap.set_mem_ne _ _ hqp]; exact h1, h2⟩

theorem TypeKept.modifyAudio {h g g1 : Heap} {X p : Ptr}
    {f : aafiAudio → aafiAudio} (hk : TypeKept h g X)
    (hm : g.modifyAudio p f = .ok g1) : TypeKept h g1 X := by
  obtain ⟨_, t, ht, rfl⟩ := modifyAudio_ok hm
  intro q it0 hqX hq
  obtain ⟨it1, h1, h2⟩ := hk q it0 hqX hq
  have hqp : q ≠ p := by
    intro e
    rw [e, ht] at h1
    cases h1
  exact ⟨it1, by rw [Heap.set_mem_ne _ _ hqp]; exact h1, h2⟩

theorem TypeKept.modifyIface {h g g1 : Heap} {X p : Ptr}
    {f : AAF_Iface → AAF_Iface} (hk : TypeKept h g X)
    (hm : g.modifyIface p f = .ok g1) : TypeKept h g1 X := by
  obtain ⟨_, t, ht, rfl⟩ := modifyIface_ok hm
  intro q it0 hqX hq
  obtain ⟨it1, h1, h2⟩ := hk q it0 hqX hq
  have hqp : q ≠ p := by
    intro e
    rw [e, ht] at h1
    cases h1
  exact ⟨it1, by rw [Heap.set_mem_ne _ _ hqp]; exact h1, h2⟩

theorem TypeKept.link {h g g1 : Heap} {X track p : Ptr} {fuel : Nat}
    (hk : TypeKept h g X) (hl : linkTimelineItem fuel g track X = .ok (g1, p)) :
    TypeKept h g1 X := by
  unfold linkTimelineItem at hl
  by_cases ht : track = 0
  · simp [ht, pure, Except.pure] at hl
    rw [← hl.1]
    exact hk
  · simp only [ne_eq, ht, not_false_eq_true, if_true] at hl
    obtain ⟨t, _, hl⟩ := bind_eq_ok hl
    by_cases hi : t.Items = 0
    · simp only [hi, ne_eq, not_true_eq_false, if_false] at hl
      obtain ⟨g2, h2, hl⟩ := bind_eq_ok hl
      obtain ⟨g3, h3, hl⟩ := bind_eq_ok hl
      simp only [pure, Except.pure, Except.ok.injEq, Prod.mk.injEq] at hl
      rw [← hl.1]
      exact (hk.modifyTrack h2).modifyItem h3 (Or.inl rfl)
    · simp only [ne_eq, hi, not_false_eq_true, if_true] at hl
      obtain ⟨tmp, _, hl⟩ := bind_eq_ok hl
      obtain ⟨g2, h2, hl⟩ := bind_eq_ok hl
      obtain ⟨g3, h3, hl⟩ := bind_eq_ok hl
      simp only [pure, Except.pure, Except.ok.injEq, Prod.mk.injEq] at hl
      rw [← hl.1]
      exact (hk.modifyItem h2 (Or.inr (fun _ => rfl))).modifyItem h3 (Or.inl rfl)

/-- A call of `aafi_newTimelineItem` that returns leaves the `type` of every
item that existed before it as it was. -/
theorem newTimelineItem_types {fuel : Nat} {h h1 : Heap} {track kind alloc p : Ptr}
    (hrun : aafi_newTimelineItem fuel h track kind alloc = .ok (h1, p))
    (hfresh : h.mem alloc = none) :
    ∀ q it0, h.mem q = some (.item it0) →
      ∃ it1, h1.mem q = some (.item it1) ∧ it1.type = it0.type := by
  have key : TypeKept h h1 alloc := by
    unfold aafi_newTimelineItem at hrun
    by_cases hk1 : kind = AAFI_CLIP
    · simp only [hk1, if_true] at hrun
      by_cases ha : alloc = 0
      · simp only [ha, if_true, pure, Except.pure, Except.ok.injEq, Prod.mk.injEq] at hrun
        rw [← hrun.1]
        exact TypeKept.refl _ _
      · simp only [ha, if_false] at hrun
        obtain ⟨g2, h2, hrun⟩ := bind_eq_ok hrun
        obtain ⟨g3, h3, hrun⟩ := bind_eq_ok hrun
        obtain ⟨o, rfl⟩ := modifyClip_ok h3
        exact ((((TypeKept.refl h alloc).set_self _).modifyItem h2 (Or.inl rfl)).set_self
          o).link hrun
    · simp only [hk1, if_false] at hrun
      by_cases hk2 : kind = AAFI_TRANS
      · simp only [hk2, if_true] at hrun
        by_cases ha : alloc = 0
        · simp only [ha, if_true, pure, Except.pure, Except.ok.injEq, Prod.mk.injEq] at hrun
          rw [← hrun.1]
          exact TypeKept.refl _ _
        · simp only [ha, if_false] at hrun
          obtain ⟨g2, h2, hrun⟩ := bind_eq_ok hrun
          exact (((TypeKept.refl h alloc).set_self _).modifyItem h2 (Or.inl rfl)).link hrun
      · simp only [hk2, if_false] at hrun
        unfold linkTimelineItem at hrun
        by_cases ht : track = 0
        · simp only [ht, ne_eq, not_true_eq_false, if_false, pure, Except.pure, Except.ok.injEq,
            Prod.mk.injEq] at hrun
          rw [← hrun.1]
          exact TypeKept.refl _ _
        · simp only [ne_eq, ht, not_false_eq_true, if_true] at hrun
          obtain ⟨t, _, hrun⟩ := bind_eq_ok hrun
          by_cases hi : t.Items = 0
          · simp only [hi, ne_eq, not_true_eq_false, if_false] at hrun
            obtain ⟨g2, _, hrun⟩ := bind_eq_ok hrun
            obtain ⟨g3, h3, _⟩ := bind_eq_ok hrun
            exact absurd rfl (modifyItem_ok h3).1
          · simp only [ne_eq, hi, not_false_eq_true, if_true] at hrun
            obtain ⟨tmp, _, hrun⟩ := bind_eq_ok hrun
            obtain ⟨g2, _, hrun⟩ := bind_eq_ok hrun
            obtain ⟨g3, h3, _⟩ := bind_eq_ok hrun
            exact absurd rfl (modifyItem_ok h3).1
  intro q it0 hq
  refine key q it0 ?_ hq
  intro e
  rw [e, hfresh] at hq
  cases hq

/-- A call of `aafi_newAudioTrack` that returns leaves every item that existed
before it as it was. -/
theorem newAudioTrack_types {MONO fuel : Nat} {h h1 : Heap} {aafi alloc p : Ptr}
    (hrun : aafi_newAudioTrack MONO fuel h aafi alloc = .ok (h1, p))
    (hfresh : h.mem alloc = none) :
    ∀ q it0, h.mem q = some (.item it0) →
      ∃ it1, h1.mem q = some (.item it1) ∧ it1.type = it0.type := by
  have key : TypeKept h h1 alloc := by
    unfold aafi_newAudioTrack at hrun
    by_cases ha : alloc = 0
    · simp only [ha, if_true, pure, Except.pure, Except.ok.injEq, Prod.mk.injEq] at hrun
      rw [← hrun.1]
      exact TypeKept.refl _ _
    · simp only [ha, if_false] at hrun
      obtain ⟨g1, h1, hrun⟩ := bind_eq_ok hrun
      obtain ⟨g2, h2, hrun⟩ := bind_eq_ok hrun
      obtain ⟨r, _, hrun⟩ := bind_eq_ok hrun
      obtain ⟨a, _, hrun⟩ := bind_eq_ok hrun
      have k2 : TypeKept h g2 alloc :=
        (((TypeKept.refl h alloc).set_self _).modifyTrack h1).modifyTrack h2
      by_cases hT : a.Tracks = 0
      · simp only [hT, ne_eq, not_true_eq_false, if_false] at hrun
        obtain ⟨g3, h3, hrun⟩ := bind_eq_ok hrun
        obtain ⟨r1, _, hrun⟩ := bind_eq_ok hrun
        obtain ⟨g4, h4, hrun⟩ := bind_eq_ok hrun
        obtain ⟨g5, h5, hrun⟩ := bind_eq_ok hrun
        simp only [pure, Except.pure, Except.ok.injEq, Prod.mk.injEq] at hrun
        rw [← hrun.1]
        exact ((k2.modifyAudio h3).modifyTrack h4).modifyIface h5
      · simp only [ne_eq, hT, not_false_eq_true, if_true] at hrun
        obtain ⟨tmp, _, hrun⟩ := bind_eq_ok hrun
        obtain ⟨g3, h3, hrun⟩ := bind_eq_ok hrun
        obtain ⟨r1, _, hrun⟩ := bind_eq_ok hrun
        obtain ⟨g4, h4, hrun⟩ := bind_eq_ok hrun
        obtain ⟨g5, h5, hrun⟩ := bind_eq_ok hrun
        simp only [pure, Except.pure, Except.ok.injEq, Prod.mk.injEq] at hrun
        rw [← hrun.1]
        exact ((k2.modifyTrack h3).modifyTrack h4).modifyIface h5
  intro q it0 hq
  refine key q it0 ?_ hq
  intro e
  rw [e, hfresh] at hq
  cases hq

theorem newTimelineItem_null_track (fuel : Nat) (h : Heap) (alloc kind : Nat)
    (hkind : kind = AAFI_CLIP ∨ kind = AAFI_TRANS) (halloc : alloc ≠ 0) :
    aafi_newTimelineItem fuel h 0 kind alloc =
      .ok (h.set alloc (.item (createdItem 0 kind 0)), alloc) := by
  rcases hkind with hk | hk
  · subst hk
    simp [aafi_newTimelineItem, halloc, bind, Except.bind, Heap.modifyItem, Heap.modifyClip,
      Heap.getItem, Heap.set_mem_same, Heap.set_set, linkTimelineItem, pure, Except.pure,
      createdItem, AAFI_CLIP, aafiAudioClip.zero]
  · subst hk
    simp [aafi_newTimelineItem, halloc, bind, Except.bind, Heap.modifyItem,
      Heap.getItem, Heap.set_mem_same, Heap.set_set, linkTimelineItem, pure, Except.pure,
      createdItem, AAFI_CLIP, AAFI_TRANS]

/-- A successful `aafi_newTimelineItem`: on a null track, or on a track with a
well-formed item list, the call returns the block with the created item in
it. -/
theorem newTimelineItem_created (fuel : Nat) (h : Heap) (track alloc kind : Nat)
    (hkind : kind = AAFI_CLIP ∨ kind = AAFI_TRANS) (halloc : alloc ≠ 0)
    (hfresh : h.mem alloc = none)
    (htrack : track = 0 ∨ ∃ t l, h.mem track = some (.track t) ∧
      Chain h.itemNext t.Items l ∧ l.length ≤ fuel) :
    ∃ h1 pv, aafi_newTimelineItem fuel h track kind alloc = .ok (h1, alloc) ∧
      h1.mem alloc = some (.item (createdItem track kind pv)) := by
  rcases htrack with ht | ⟨t, l, hmem, hchain, hfuel⟩
  · subst ht
    exact ⟨_, 0, newTimelineItem_null_track fuel h alloc kind hkind halloc,
      Heap.set_mem_same _ _ _⟩
  · by_cases ht0 : track = 0
    · subst ht0
      exact ⟨_, 0, newTimelineItem_null_track fuel h alloc kind hkind halloc,
        Heap.set_mem_same _ _ _⟩
    · rcases List.eq_nil_or_concat l with hl | ⟨l1, x, hl⟩
      · subst hl
        have hi : t.Items = 0 := hchain
        exact ⟨_, 0, newTimelineItem_empty fuel h track alloc kind t ht0 hmem hi hkind halloc
          hfresh, Heap.set_mem_same _ _ _⟩
      · subst hl
        rw [List.concat_eq_append] at hchain hfuel
        obtain ⟨_, ix, hx⟩ := Chain.item_live hchain (x := x) (by simp)
        have hf : l1.length < fuel := by
          simp at hfuel
          omega
        exact ⟨_, x, newTimelineItem_nonempty fuel h track alloc kind x t ix l1 ht0 hmem hchain
          hf hx hkind halloc hfresh, Heap.set_mem_same _ _ _⟩

/-- A successful `aafi_newAudioTrack`: on a root with a container whose track
list is well-formed, the call returns the block with the created track in it
and makes it the current track. -/
theorem newAudioTrack_created (MONO fuel : Nat) (h : Heap) (aafi alloc : Ptr) (r : AAF_Iface)
    (a : aafiAudio) (l : List Ptr) (haafi : aafi ≠ 0) (hr : h.mem aafi = some (.iface r))
    (haudio : r.Audio ≠ 0) (ha : h.mem r.Audio = some (.audio a))
    (hchain : Chain h.trackNext a.Tracks l) (hfuel : l.length ≤ fuel)
    (halloc : alloc ≠ 0) (hfresh : h.mem alloc = none) :
    ∃ h1, aafi_newAudioTrack MONO fuel h aafi alloc = .ok (h1, alloc) ∧
      h1.mem alloc = some (.track (createdTrack MONO r.Audio)) ∧
      h1.mem aafi = some (.iface { r with ctx := { r.ctx with current_track := alloc } }) := by
  have hna : aafi ≠ alloc := by
    intro e
    rw [e, hfresh] at hr
    cases hr
  rcases List.eq_nil_or_concat l with hl | ⟨l1, x, hl⟩
  · subst hl
    have hi : a.Tracks = 0 := hchain
    refine ⟨_, newAudioTrack_empty MONO fuel h aafi alloc r a haafi hr haudio ha hi halloc
      hfresh, ?_, Heap.set_mem_same _ _ _⟩
    rw [Heap.set_mem_ne _ _ hna.symm, Heap.set_mem_same]
  · subst hl
    rw [List.concat_eq_append] at hchain hfuel
    obtain ⟨_, tx, hx⟩ := Chain.track_live hchain (x := x) (by simp)
    have hf : l1.length < fuel := by
      simp at hfuel
      omega
    refine ⟨_, newAudioTrack_nonempty MONO fuel h aafi alloc x r a tx l1 haafi hr haudio ha
      hchain hf hx halloc hfresh, ?_, Heap.set_mem_same _ _ _⟩
    rw [Heap.set_mem_ne _ _ hna.symm, Heap.set_mem_same]

/-! ### Null heads, failed allocations, created nodes -/

/-- C12: on a handle that holds null, each of `aafi_freeAudioTracks`,
`aafi_freeTimelineItems`, `aafi_freeAudioEssences` and `aafi_freeUserComments`
returns, with any fuel and whatever else the heap holds, and the heap it
returns is the heap it was given: no block is freed, no node is read, and the
handle still holds null. -/
theorem C12_free_null_head (fuel : Nat) (h : Heap) (hd : Handle) (ch : CommentHandle)
    (hnull : h.load hd = .ok 0) (hcnull : h.loadComment ch = .ok 0) :
    aafi_freeAudioTracks fuel h hd = .ok h ∧ aafi_freeTimelineItems fuel h hd = .ok h ∧
    aafi_freeAudioEssences fuel h hd = .ok h ∧ aafi_freeUserComments fuel h ch = .ok h :=
  ⟨freeAudioTracks_null fuel hnull, freeTimelineItems_null fuel hnull,
    freeAudioEssences_null fuel hnull, freeUserComments_null fuel hcnull⟩

/-- Witness of C12: a pointer variable that holds null, and the empty comment
list of a root. -/
theorem C12_free_null_head_witness :
    aafi_freeAudioTracks 0 exNullVar (.var 5) = .ok exNullVar ∧
    aafi_freeTimelineItems 0 exNullVar (.var 5) = .ok exNullVar ∧
    aafi_freeAudioEssences 0 exNullVar (.var 5) = .ok exNullVar ∧
    aafi_freeUserComments 0 exNullVar (.ifaceComments 1) = .ok exNullVar :=
  C12_free_null_head 0 exNullVar (.var 5) (.ifaceComments 1) rfl rfl

/-- C16: when its node allocation fails (`calloc` returns null), each of
`aafi_newAudioTrack`, `aafi_newTimelineItem` (for `AAFI_CLIP` and
`AAFI_TRANS`), `aafi_newAudioEssence` and `aafi_newUserComment` returns null
and the heap it was given, unchanged: every list and the current-track context
are as before. -/
theorem C16_alloc_failure_atomic (MONO fuel : Nat) (h : Heap) (aafi track kind : Ptr)
    (CommentList : CommentHandle) (hkind : kind = AAFI_CLIP ∨ kind = AAFI_TRANS) :
    aafi_newAudioTrack MONO fuel h aafi 0 = .ok (h, 0) ∧
    aafi_newTimelineItem fuel h track kind 0 = .ok (h, 0) ∧
    aafi_newAudioEssence h aafi 0 = .ok (h, 0) ∧
    aafi_newUserComment h CommentList 0 = .ok (h, 0) := by
  refine ⟨by simp [aafi_newAudioTrack, pure, Except.pure], ?_,
    by simp [aafi_newAudioEssence, pure, Except.pure],
    by simp [aafi_newUserComment, pure, Except.pure]⟩
  rcases hkind with hk | hk
  · subst hk
    simp [aafi_newTimelineItem, pure, Except.pure]
  · subst hk
    simp [aafi_newTimelineItem, pure, Except.pure, AAFI_CLIP, AAFI_TRANS]

/-- Witness of C16: failed allocations on the root with one comment and on a
track with one clip. -/
theorem C16_alloc_failure_atomic_witness :
    aafi_newAudioTrack 1 3 exComments 1 0 = .ok (exComments, 0) ∧
    aafi_newTimelineItem 3 exComments 7 AAFI_TRANS 0 = .ok (exComments, 0) ∧
    aafi_newAudioEssence exComments 1 0 = .ok (exComments, 0) ∧
    aafi_newUserComment exComments (.ifaceComments 1) 0 = .ok (exComments, 0) :=
  C16_alloc_failure_atomic 1 3 exComments 1 7 AAFI_TRANS (.ifaceComments 1) (Or.inr rfl)

/-- C15: on a root with a non-null Audio Container whose track list is
well-formed, `aafi_newAudioTrack` with a successful allocation returns the new
track `t`, which has `format == AAFI_TRACK_FORMAT_MONO`, a null `next`, the
container of the root as `Audio`, no name, no gain, no pan and no item, and the
root then has `ctx.current_track == t` and the same container. -/
theorem C15_newAudioTrack_defaults (MONO fuel : Nat) (h : Heap) (aafi alloc : Ptr)
    (r : AAF_Iface) (a : aafiAudio) (l : List Ptr) (haafi : aafi ≠ 0)
    (hr : h.mem aafi = some (.iface r)) (haudio : r.Audio ≠ 0)
    (ha : h.mem r.Audio = some (.audio a)) (hchain : Chain h.trackNext a.Tracks l)
    (hfuel : l.length ≤ fuel) (halloc : alloc ≠ 0) (hfresh : h.mem alloc = none) :
    ∃ h1 t r1, aafi_newAudioTrack MONO fuel h aafi alloc = .ok (h1, alloc) ∧
      h1.mem alloc = some (.track t) ∧ t.format = MONO ∧ t.next = 0 ∧ t.Audio = r.Audio ∧
      t.name = 0 ∧ t.gain = 0 ∧ t.pan = 0 ∧ t.Items = 0 ∧
      h1.mem aafi = some (.iface r1) ∧ r1.ctx.current_track = alloc ∧ r1.Audio = r.Audio := by
  obtain ⟨h1, hrun, ht, hr1⟩ :=
    newAudioTrack_created MONO fuel h aafi alloc r a l haafi hr haudio ha hchain hfuel halloc
      hfresh
  exact ⟨h1, _, _, hrun, ht, rfl, rfl, rfl, rfl, rfl, rfl, rfl, hr1, rfl, rfl⟩

/-- Witness of C15: the first track of the empty root. -/
theorem C15_newAudioTrack_defaults_witness :
    ∃ h1 t r1, aafi_newAudioTrack 1 0 exRoot 1 3 = .ok (h1, 3) ∧
      h1.mem 3 = some (.track t) ∧ t.format = 1 ∧ t.next = 0 ∧ t.Audio = (exIface 0).Audio ∧
      t.name = 0 ∧ t.gain = 0 ∧ t.pan = 0 ∧ t.Items = 0 ∧
      h1.mem 1 = some (.iface r1) ∧ r1.ctx.current_track = 3 ∧
      r1.Audio = (exIface 0).Audio :=
  C15_newAudioTrack_defaults 1 0 exRoot 1 3 (exIface 0) ⟨0, 0, 0⟩ [] (by decide) rfl
    (by decide) rfl rfl (by decide) (by decide) rfl

/-- C14: a successful `aafi_newTimelineItem (track, kind)` with `kind` one of
`AAFI_CLIP` and `AAFI_TRANS` returns an item whose `type` is exactly `kind`,
over a clip payload bound to `track` for `AAFI_CLIP` and a transition payload
for `AAFI_TRANS`, so that the tests `type & AAFI_TRANS` and
`type == AAFI_TRANS` agree on it; and every later `aafi_newTimelineItem` or
`aafi_newAudioTrack` call that returns leaves the `type` of every existing
item as it was (`get_fadein` and `get_fadeout` only read: they return no
heap). -/
theorem C14_variant_tag (MONO fuel : Nat) (h : Heap) (track kind alloc : Ptr)
    (hkind : kind = AAFI_CLIP ∨ kind = AAFI_TRANS) (halloc : alloc ≠ 0)
    (hfresh : h.mem alloc = none)
    (htrack : track = 0 ∨ ∃ t l, h.mem track = some (.track t) ∧
      Chain h.itemNext t.Items l ∧ l.length ≤ fuel) :
    (∃ h1 it, aafi_newTimelineItem fuel h track kind alloc = .ok (h1, alloc) ∧
      h1.mem alloc = some (.item it) ∧ it.type = kind ∧
      (kind = AAFI_CLIP → ∃ c, it.data = .clip c ∧ c.track = track) ∧
      (kind = AAFI_TRANS → ∃ t, it.data = .trans t) ∧
      (it.type &&& AAFI_TRANS ≠ 0 ↔ it.type = AAFI_TRANS)) ∧
    (∀ fuel1 g g1 track1 kind1 alloc1 p,
      aafi_newTimelineItem fuel1 g track1 kind1 alloc1 = .ok (g1, p) → g.mem alloc1 = none →
      ∀ q it0, g.mem q = some (.item it0) →
        ∃ it1, g1.mem q = some (.item it1) ∧ it1.type = it0.type) ∧
    (∀ fuel1 g g1 aafi alloc1 p,
      aafi_newAudioTrack MONO fuel1 g aafi alloc1 = .ok (g1, p) → g.mem alloc1 = none →
      ∀ q it0, g.mem q = some (.item it0) →
        ∃ it1, g1.mem q = some (.item it1) ∧ it1.type = it0.type) := by
  refine ⟨?_, fun _ _ _ _ _ _ _ hrun hf => newTimelineItem_types hrun hf,
    fun _ _ _ _ _ _ hrun hf => newAudioTrack_types hrun hf⟩
  obtain ⟨h1, pv, hrun, hit⟩ :=
    newTimelineItem_created fuel h track alloc kind hkind halloc hfresh htrack
  refine ⟨h1, _, hrun, hit, rfl, ?_, ?_, ?_⟩
  · intro hk
    exact ⟨{ aafiAudioClip.zero with track := track }, by simp [createdItem, hk], rfl⟩
  · intro hk
    exact ⟨aafiTransition.zero, by simp [createdItem, hk, AAFI_CLIP, AAFI_TRANS]⟩
  · rcases hkind with hk | hk <;> subst hk <;> simp [createdItem, AAFI_CLIP, AAFI_TRANS]

/-- Witness of C14: a transition created after the only clip of a track. -/
theorem C14_variant_tag_witness :
    (∃ h1 it, aafi_newTimelineItem 1 exOneClip 1 AAFI_TRANS 3 = .ok (h1, 3) ∧
      h1.mem 3 = some (.item it) ∧ it.type = AAFI_TRANS ∧
      (AAFI_TRANS = AAFI_CLIP → ∃ c, it.data = .clip c ∧ c.track = 1) ∧
      (AAFI_TRANS = AAFI_TRANS → ∃ t, it.data = .trans t) ∧
      (it.type &&& AAFI_TRANS ≠ 0 ↔ it.type = AAFI_TRANS)) ∧
    (∀ fuel1 g g1 track1 kind1 alloc1 p,
      aafi_newTimelineItem fuel1 g track1 kind1 alloc1 = .ok (g1, p) → g.mem alloc1 = none →
      ∀ q it0, g.mem q = some (.item it0) →
        ∃ it1, g1.mem q = some (.item it1) ∧ it1.type = it0.type) ∧
    (∀ fuel1 g g1 aafi alloc1 p,
      aafi_newAudioTrack 1 fuel1 g aafi alloc1 = .ok (g1, p) → g.mem alloc1 = none →
      ∀ q it0, g.mem q = some (.item it0) →
        ∃ it1, g1.mem q = some (.item it1) ∧ it1.type = it0.type) :=
  C14_variant_tag 1 1 exOneClip 1 AAFI_TRANS 3 (Or.inr rfl) (by decide) rfl
    (Or.inr ⟨exTrack 2, [2], rfl, ⟨rfl, by decide, 0, rfl, rfl⟩, by decide⟩)

/-! ### The kind argument -/

theorem modifyItem_null (h : Heap) (f : aafiTimelineItem → aafiTimelineItem) :
    h.modifyItem 0 f = .error .nullDeref := by
  simp [Heap.modifyItem, Heap.getItem]

/-- The first write of the linking step with a null item, on a track with a
well-formed item list: it stores null where null already is. -/
theorem link_null_first_write {fuel : Nat} {h : Heap} {track : Ptr} {t : aafiAudioTrack}
    {l : List Ptr} (htrack : track ≠ 0) (hmem : h.mem track = some (.track t))
    (hchain : Chain h.itemNext t.Items l) (hfuel : l.length ≤ fuel) :
    (t.Items = 0 → h.modifyTrack track (fun t => { t with Items := 0 }) = .ok h) ∧
    (t.Items ≠ 0 → ∃ x, tailScan h.itemNext fuel t.Items = .ok x ∧
      h.modifyItem x (fun i => { i with next := 0 }) = .ok h) := by
  constructor
  · intro hi
    have : h.set track (.track { t with Items := 0 }) = h := by
      rw [← hi]
      exact Heap.set_same hmem
    simp [Heap.modifyTrack, Heap.getTrack, htrack, hmem, this]
  · intro hi
    rcases List.eq_nil_or_concat l with hl | ⟨l1, x, hl⟩
    · subst hl
      exact absurd hchain hi
    · subst hl
      rw [List.concat_eq_append] at hchain hfuel
      have hf : l1.length < fuel := by
        simp at hfuel
        omega
      obtain ⟨hx0, ix, hx⟩ := Chain.item_live hchain (x := x) (by simp)
      have hnx : h.itemNext x = .ok 0 := Chain.last_next hchain
      have hn0 : ix.next = 0 := by
        simpa [Heap.itemNext, Heap.getItem, hx0, hx] using hnx
      have : h.set x (.item { ix with next := 0 }) = h := by
        rw [← hn0]
        exact Heap.set_same hx
      exact ⟨x, tailScan_chain hchain hf, by simp [Heap.modifyItem, Heap.getItem, hx0, hx, this]⟩

theorem link_null_faults {fuel : Nat} {h : Heap} {track : Ptr} {t : aafiAudioTrack}
    {l : List Ptr} (htrack : track ≠ 0) (hmem : h.mem track = some (.track t))
    (hchain : Chain h.itemNext t.Items l) (hfuel : l.length ≤ fuel) :
    linkTimelineItem fuel h track 0 = .error .nullDeref := by
  obtain ⟨h1, h2⟩ := link_null_first_write htrack hmem hchain hfuel
  by_cases hi : t.Items = 0
  · simp [linkTimelineItem, htrack, Heap.getTrack, hmem, hi, bind, Except.bind, h1 hi,
      modifyItem_null]
  · obtain ⟨x, hs, hw⟩ := h2 hi
    simp [linkTimelineItem, htrack, Heap.getTrack, hmem, hi, bind, Except.bind, hs, hw,
      modifyItem_null]

/-- C20: with a successful allocation and a non-null track whose item list is
well-formed, `aafi_newTimelineItem (track, itemType)` returns iff `itemType`
is `AAFI_CLIP` or `AAFI_TRANS`.  For any other `itemType` the call is the
linking step on a null item, whatever `calloc` would give: its first write
(null into `track->Items` of an empty list, into `next` of the tail
otherwise) succeeds and leaves the heap as it was, and the next one,
`item->prev = ...`, goes through the null item.  With a null track and such an
`itemType` the call returns null and the heap it was given. -/
theorem C20_newTimelineItem_kind (fuel : Nat) (h : Heap) (track itemType alloc : Ptr)
    (t : aafiAudioTrack) (l : List Ptr) (htrack : track ≠ 0)
    (hmem : h.mem track = some (.track t)) (hchain : Chain h.itemNext t.Items l)
    (hfuel : l.length ≤ fuel) (halloc : alloc ≠ 0) (hfresh : h.mem alloc = none) :
    ((∃ r, aafi_newTimelineItem fuel h track itemType alloc = .ok r) ↔
      (itemType = AAFI_CLIP ∨ itemType = AAFI_TRANS)) ∧
    (itemType ≠ AAFI_CLIP → itemType ≠ AAFI_TRANS →
      aafi_newTimelineItem fuel h track itemType alloc = linkTimelineItem fuel h track 0 ∧
      aafi_newTimelineItem fuel h track itemType alloc = .error .nullDeref ∧
      (t.Items = 0 → h.modifyTrack track (fun t => { t with Items := 0 }) = .ok h) ∧
      (t.Items ≠ 0 → ∃ x, tailScan h.itemNext fuel t.Items = .ok x ∧
        h.modifyItem x (fun i => { i with next := 0 }) = .ok h) ∧
      (∀ f, h.modifyItem 0 f = .error .nullDeref) ∧
      aafi_newTimelineItem fuel h 0 itemType alloc = .ok (h, 0)) := by
  have hother : itemType ≠ AAFI_CLIP → itemType ≠ AAFI_TRANS →
      ∀ tr, aafi_newTimelineItem fuel h tr itemType alloc = linkTimelineItem fuel h tr 0 := by
    intro h1 h2 tr
    simp [aafi_newTimelineItem, h1, h2]
  constructor
  · constructor
    · rintro ⟨r, hr⟩
      by_contra hk
      push_neg at hk
      rw [hother hk.1 hk.2, link_null_faults htrack hmem hchain hfuel] at hr
      cases hr
    · intro hk
      obtain ⟨h1, _, hrun, _⟩ :=
        newTimelineItem_created fuel h track alloc itemType hk halloc hfresh
          (Or.inr ⟨t, l, hmem, hchain, hfuel⟩)
      exact ⟨_, hrun⟩
  · intro h1 h2
    obtain ⟨w1, w2⟩ := link_null_first_write htrack hmem hchain hfuel
    refine ⟨hother h1 h2 track, ?_, w1, w2, modifyItem_null h, ?_⟩
    · rw [hother h1 h2, link_null_faults htrack hmem hchain hfuel]
    · rw [hother h1 h2]
      simp [linkTimelineItem, pure, Except.pure]

/-- Witness of C20: kind `3` (both bits) on the track whose only item is the
clip at `2`. -/
theorem C20_newTimelineItem_kind_witness :
    ((∃ r, aafi_newTimelineItem 1 exOneClip 1 3 4 = .ok r) ↔
      ((3 : Ptr) = AAFI_CLIP ∨ (3 : Ptr) = AAFI_TRANS)) ∧
    ((3 : Ptr) ≠ AAFI_CLIP → (3 : Ptr) ≠ AAFI_TRANS →
      aafi_newTimelineItem 1 exOneClip 1 3 4 = linkTimelineItem 1 exOneClip 1 0 ∧
      aafi_newTimelineItem 1 exOneClip 1 3 4 = .error .nullDeref ∧
      ((exTrack 2).Items = 0 →
        exOneClip.modifyTrack 1 (fun t => { t with Items := 0 }) = .ok exOneClip) ∧
      ((exTrack 2).Items ≠ 0 → ∃ x, tailScan exOneClip.itemNext 1 (exTrack 2).Items = .ok x ∧
        exOneClip.modifyItem x (fun i => { i with next := 0 }) = .ok exOneClip) ∧
      (∀ f, exOneClip.modifyItem 0 f = .error .nullDeref) ∧
      aafi_newTimelineItem 1 exOneClip 0 3 4 = .ok (exOneClip, 0)) :=
  C20_newTimelineItem_kind 1 exOneClip 1 3 4 (exTrack 2) [2] (by decide) rfl
    ⟨rfl, by decide, 0, rfl, rfl⟩ (by decide) (by decide) rfl

/-! ### Flag bits -/

theorem flagConstants_pow {F : Nat} (hF : F ∈ flagConstants) :
    ∃ k, F = 2 ^ k := by
  simp only [flagConstants, List.mem_cons, List.mem_singleton, List.not_mem_nil, or_false] at hF
  rcases hF with e | e | e | e | e | e | e | e | e | e | e | e | e
  · exact ⟨0, by rw [e]; rfl⟩
  · exact ⟨1, by rw [e]; rfl⟩
  · exact ⟨4, by rw [e]; rfl⟩
  · exact ⟨5, by rw [e]; rfl⟩
  · exact ⟨6, by rw [e]; rfl⟩
  · exact ⟨7, by rw [e]; rfl⟩
  · exact ⟨8, by rw [e]; rfl⟩
  · exact ⟨10, by rw [e]; rfl⟩
  · exact ⟨11, by rw [e]; rfl⟩
  · exact ⟨12, by rw [e]; rfl⟩
  · exact ⟨13, by rw [e]; rfl⟩
  · exact ⟨14, by rw [e]; rfl⟩
  · exact ⟨15, by rw [e]; rfl⟩

theorem or_other_bit (x j k : Nat) (hjk : j ≠ k) : (x ||| 2 ^ j) &&& 2 ^ k = x &&& 2 ^ k := by
  rw [Nat.and_two_pow, Nat.and_two_pow, Nat.testBit_or, Nat.testBit_two_pow_of_ne hjk,
    Bool.or_false]

theorem orFlags_other_bits (F : Nat) (hF : F ∈ flagConstants) :
    ∀ (Gs : List Nat) (f : Nat), (∀ G ∈ Gs, G ∈ flagConstants ∧ G ≠ F) →
      orFlags f Gs &&& F = f &&& F
  | [], _, _ => rfl
  | G :: Gs, f, hGs => by
    obtain ⟨k, hk⟩ := flagConstants_pow hF
    obtain ⟨hG, hne⟩ := hGs G (List.mem_cons_self _ _)
    obtain ⟨j, hj⟩ := flagConstants_pow hG
    have hjk : j ≠ k := by
      intro e
      exact hne (by rw [hj, hk, e])
    have ih := orFlags_other_bits F hF Gs (f ||| G)
      (fun G1 h1 => hGs G1 (List.mem_cons_of_mem _ h1))
    have hstep : (f ||| G) &&& F = f &&& F := by
      rw [hj, hk]
      exact or_other_bit f j k hjk
    show orFlags (f ||| G) Gs &&& F = f &&& F
    rw [ih, hstep]

theorem getItem_set_item (h : Heap) (q x : Ptr) (n1 : aafiTimelineItem) :
    (h.set q (.item n1)).getItem x =
      if x = q then (if x = 0 then .error .nullDeref else .ok n1) else h.getItem x := by
  by_cases hx : x = q
  · subst hx
    by_cases h0 : x = 0 <;> simp [Heap.getItem, h0, Heap.set_mem_same]
  · simp [Heap.getItem, hx, Heap.set_mem_ne]

/-- The lookup of the neighbour `x` by `get_fadein` (`flag` being
`AAFI_TRANS_FADE_IN`) and `get_fadeout` (`AAFI_TRANS_FADE_OUT`) does not see a
change of the other bits of the flags of the transition at `q`. -/
theorem neighbour_flags {h : Heap} {q : Ptr} {n : aafiTimelineItem} {t : aafiTransition}
    (fl flag : Nat) (hq : h.mem q = some (.item n)) (hd : n.data = .trans t)
    (hbit : fl &&& flag = t.flags &&& flag) (x : Ptr) :
    (do
      let nb ← (h.set q (.item { n with data := .trans { t with flags := fl } })).getItem x
      if nb.type &&& AAFI_TRANS ≠ 0 then
        let Trans ← (h.set q (.item { n with data := .trans { t with flags := fl } })).getTransition
          (.dataOf x)
        if Trans.flags &&& flag ≠ 0 then
          pure (.dataOf x)
        else pure .null
      else pure .null : Except Fault DataPtr) =
    (do
      let nb ← h.getItem x
      if nb.type &&& AAFI_TRANS ≠ 0 then
        let Trans ← h.getTransition (.dataOf x)
        if Trans.flags &&& flag ≠ 0 then
          pure (.dataOf x)
        else pure .null
      else pure .null) := by
  simp only [Heap.getTransition, getItem_set_item]
  by_cases hx : x = q
  · subst hx
    by_cases h0 : x = 0
    · simp [h0, Heap.getItem, bind, Except.bind]
    · simp [h0, Heap.getItem, hq, hd, bind, Except.bind, hbit]
  · simp [hx]

/-- Replacing the flags of the transition at `q` by a word with the same
`FADE_IN` and `FADE_OUT` bits changes no result of `get_fadein` and
`get_fadeout`. -/
theorem fade_flags_irrelevant {h : Heap} {q : Ptr} {n : aafiTimelineItem} {t : aafiTransition}
    (fl : Nat) (hq : h.mem q = some (.item n)) (hd : n.data = .trans t)
    (hin : fl &&& AAFI_TRANS_FADE_IN = t.flags &&& AAFI_TRANS_FADE_IN)
    (hout : fl &&& AAFI_TRANS_FADE_OUT = t.flags &&& AAFI_TRANS_FADE_OUT) (p : Ptr) :
    get_fadein (h.set q (.item { n with data := .trans { t with flags := fl } })) p =
      get_fadein h p ∧
    get_fadeout (h.set q (.item { n with data := .trans { t with flags := fl } })) p =
      get_fadeout h p := by
  have hi := neighbour_flags fl AAFI_TRANS_FADE_IN hq hd hin
  have ho := neighbour_flags fl AAFI_TRANS_FADE_OUT hq hd hout
  unfold get_fadein get_fadeout
  simp only [hi, ho]
  rw [getItem_set_item]
  by_cases hp : p = q
  · subst hp
    by_cases h0 : p = 0
    · simp [h0, Heap.getItem]
    · simp [h0, Heap.getItem, hq, bind, Except.bind]
  · simp [hp]

/-- C19: the thirteen constants of `aafiAudioGain_e`, `aafiTransition_e` and
`aafiInterpolation_e` are pairwise distinct powers of two; for a flags word
`f` and one of the constants `F`, OR-ing any of the other constants into `f`
does not change whether `f & F` is non-zero; hence OR-ing arity, interpolation
or other constants into the flags of a transition changes no result of
`get_fadein` and `get_fadeout`, and the flags
`FADE_OUT | SINGLE_CURVE | INTERPOL_LINEAR` are reported by `get_fadeout` and
not by `get_fadein`. -/
theorem C19_flag_bits (f F : Nat) (Gs Hs : List Nat) (h : Heap) (p q : Ptr)
    (n : aafiTimelineItem) (t : aafiTransition) (hF : F ∈ flagConstants)
    (hGs : ∀ G ∈ Gs, G ∈ flagConstants ∧ G ≠ F) (hq0 : q ≠ 0)
    (hq : h.mem q = some (.item n)) (hd : n.data = .trans t)
    (hHs : ∀ G ∈ Hs, G ∈ flagConstants ∧ G ≠ AAFI_TRANS_FADE_IN ∧ G ≠ AAFI_TRANS_FADE_OUT) :
    flagConstants.Nodup ∧ (∀ C ∈ flagConstants, ∃ k, C = 2 ^ k) ∧
    (orFlags f Gs &&& F ≠ 0 ↔ f &&& F ≠ 0) ∧
    (∃ h1, setTransitionFlags h q (orFlags t.flags Hs) = .ok h1 ∧
      get_fadein h1 p = get_fadein h p ∧ get_fadeout h1 p = get_fadeout h p) ∧
    get_fadeout exMixed 2 = .ok (.dataOf 3) ∧ get_fadein exMixed 4 = .ok .null := by
  refine ⟨by decide, fun C hC => flagConstants_pow hC, ?_, ?_, rfl, rfl⟩
  · rw [orFlags_other_bits F hF Gs f hGs]
  · have hin : orFlags t.flags Hs &&& AAFI_TRANS_FADE_IN = t.flags &&& AAFI_TRANS_FADE_IN :=
      orFlags_other_bits _ (by decide) Hs t.flags (fun G hG => ⟨(hHs G hG).1, (hHs G hG).2.1⟩)
    have hout : orFlags t.flags Hs &&& AAFI_TRANS_FADE_OUT =
        t.flags &&& AAFI_TRANS_FADE_OUT :=
      orFlags_other_bits _ (by decide) Hs t.flags (fun G hG => ⟨(hHs G hG).1, (hHs G hG).2.2⟩)
    refine ⟨_, ?_, (fade_flags_irrelevant (orFlags t.flags Hs) hq hd hin hout p).1,
      (fade_flags_irrelevant (orFlags t.flags Hs) hq hd hin hout p).2⟩
    simp [setTransitionFlags, Heap.modifyTransition, Heap.getItem, hq0, hq, hd]

/-- Witness of C19: arity and interpolation constants OR-ed into a word with
`FADE_OUT` set, and into the flags of the fade-out at `4`. -/
theorem C19_flag_bits_witness :
    flagConstants.Nodup ∧ (∀ C ∈ flagConstants, ∃ k, C = 2 ^ k) ∧
    (orFlags AAFI_TRANS_FADE_OUT [AAFI_TRANS_SINGLE_CURVE, AAFI_INTERPOL_LINEAR] &&&
        AAFI_TRANS_FADE_IN ≠ 0 ↔ AAFI_TRANS_FADE_OUT &&& AAFI_TRANS_FADE_IN ≠ 0) ∧
    (∃ h1, setTransitionFlags exFades 4
        (orFlags ({ aafiTransition.zero with flags := AAFI_TRANS_FADE_OUT } : aafiTransition).flags
          [AAFI_TRANS_TWO_CURVE, AAFI_INTERPOL_LOG]) = .ok h1 ∧
      get_fadein h1 3 = get_fadein exFades 3 ∧ get_fadeout h1 3 = get_fadeout exFades 3) ∧
    get_fadeout exMixed 2 = .ok (.dataOf 3) ∧ get_fadein exMixed 4 = .ok .null :=
  C19_flag_bits AAFI_TRANS_FADE_OUT AAFI_TRANS_FADE_IN
    [AAFI_TRANS_SINGLE_CURVE, AAFI_INTERPOL_LINEAR] [AAFI_TRANS_TWO_CURVE, AAFI_INTERPOL_LOG]
    exFades 3 4 (exTrans 0 3 AAFI_TRANS_FADE_OUT)
    { aafiTransition.zero with flags := AAFI_TRANS_FADE_OUT } (by decide) (by decide)
    (by decide) rfl rfl (by decide)

/-! ### Roots built by the creators -/

theorem trackNext_congr {h g : Heap} {q : Ptr} (hm : g.mem q = h.mem q) :
    g.trackNext q = h.trackNext q := by
  simp [Heap.trackNext, Heap.getTrack, hm]

theorem itemNext_congr {h g : Heap} {q : Ptr} (hm : g.mem q = h.mem q) :
    g.itemNext q = h.itemNext q := by
  simp [Heap.itemNext, Heap.getItem, hm]

theorem essenceNext_congr {h g : Heap} {q : Ptr} (hm : g.mem q = h.mem q) :
    g.essenceNext q = h.essenceNext q := by
  simp [Heap.essenceNext, Heap.getEssence, hm]

theorem commentNext_congr {h g : Heap} {q : Ptr} (hm : g.mem q = h.mem q) :
    g.commentNext q = h.commentNext q := by
  simp [Heap.commentNext, Heap.getComment, hm]

theorem addItem_fst (track alloc : Ptr) (shape : List (Ptr × List Ptr)) :
    (addItem track alloc shape).map Prod.fst = shape.map Prod.fst := by
  induction shape with
  | nil => rfl
  | cons s rest ih =>
    simp only [addItem, List.map_cons] at ih ⊢
    rw [ih]
    by_cases hs : s.1 = track <;> simp [hs]

theorem addItem_absent {track : Ptr} (alloc : Ptr) {shape : List (Ptr × List Ptr)}
    (ht : track ∉ shape.map Prod.fst) : addItem track alloc shape = shape := by
  induction shape with
  | nil => rfl
  | cons s rest ih =>
    simp only [List.map_cons, List.mem_cons, not_or] at ht
    have h1 : ¬ s.1 = track := fun e => ht.1 e.symm
    have ih1 := ih ht.2
    simp only [addItem, List.map_cons] at ih1 ⊢
    rw [ih1]
    simp [h1]

theorem addItem_perm {track : Ptr} (alloc : Ptr) :
    ∀ {shape : List (Ptr × List Ptr)}, track ∈ shape.map Prod.fst →
      (shape.map Prod.fst).Nodup →
      ((addItem track alloc shape).flatMap (fun s => s.2 ++ [s.1])).Perm
        (alloc :: shape.flatMap (fun s => s.2 ++ [s.1]))
  | [], ht, _ => by simp at ht
  | s :: rest, ht, hnd => by
    simp only [List.map_cons, List.nodup_cons] at hnd
    by_cases hs : s.1 = track
    · have hrest : track ∉ rest.map Prod.fst := hs ▸ hnd.1
      have e : addItem track alloc (s :: rest) = (s.1, s.2 ++ [alloc]) :: rest := by
        have := addItem_absent alloc hrest
        simp only [addItem, List.map_cons] at this ⊢
        rw [this]
        simp [hs]
      rw [e]
      simp only [List.flatMap_cons, List.append_assoc]
      have p1 : (s.2 ++ ([alloc] ++ ([s.1] ++ rest.flatMap (fun s => s.2 ++ [s.1])))).Perm
          (alloc :: (s.2 ++ ([s.1] ++ rest.flatMap (fun s => s.2 ++ [s.1])))) :=
        List.perm_middle
      exact p1
    · have ht1 : track ∈ rest.map Prod.fst := by
        simp only [List.map_cons, List.mem_cons] at ht
        rcases ht with e | e
        · exact absurd e.symm hs
        · exact e
      have e : addItem track alloc (s :: rest) = s :: addItem track alloc rest := by
        simp [addItem, hs]
      rw [e]
      simp only [List.flatMap_cons]
      have ih := addItem_perm alloc ht1 hnd.2
      exact (List.Perm.append_left _ ih).trans List.perm_middle

theorem perm_insert (x : Ptr) (A B : List Ptr) : (A ++ ([x] ++ B)).Perm (x :: (A ++ B)) :=
  List.perm_middle

theorem rootNodes_track_perm (aafi audio alloc : Ptr) (shape : List (Ptr × List Ptr))
    (le lc : List Ptr) :
    (rootNodes aafi audio (shape ++ [(alloc, [])]) le lc).Perm
      (alloc :: rootNodes aafi audio shape le lc) := by
  simp only [rootNodes, List.flatMap_append, List.flatMap_cons, List.flatMap_nil,
    List.nil_append, List.append_nil, List.append_assoc]
  have p := perm_insert alloc (lc ++ shape.flatMap (fun s => s.2 ++ [s.1]))
    (le ++ ([audio] ++ [aafi]))
  simpa only [List.append_assoc] using p

theorem rootNodes_item_perm (aafi audio track alloc : Ptr) {shape : List (Ptr × List Ptr)}
    (le lc : List Ptr) (ht : track ∈ shape.map Prod.fst) (hnd : (shape.map Prod.fst).Nodup) :
    (rootNodes aafi audio (addItem track alloc shape) le lc).Perm
      (alloc :: rootNodes aafi audio shape le lc) := by
  simp only [rootNodes]
  have p := addItem_perm alloc ht hnd
  exact ((List.Perm.append_left lc (List.Perm.append_right _ p))).trans List.perm_middle

theorem rootNodes_essence_perm (aafi audio alloc : Ptr) (shape : List (Ptr × List Ptr))
    (le lc : List Ptr) :
    (rootNodes aafi audio shape (alloc :: le) lc).Perm
      (alloc :: rootNodes aafi audio shape le lc) := by
  simp only [rootNodes]
  have p := perm_insert alloc (lc ++ shape.flatMap (fun s => s.2 ++ [s.1]))
    (le ++ ([audio] ++ [aafi]))
  simpa only [List.append_assoc, List.cons_append, List.singleton_append] using p

theorem rootNodes_comment_eq (aafi audio alloc : Ptr) (shape : List (Ptr × List Ptr))
    (le lc : List Ptr) :
    rootNodes aafi audio shape le (alloc :: lc) = alloc :: rootNodes aafi audio shape le lc :=
  rfl

/-! ### Creation calls keep a root built -/

theorem ne_of_mem {h : Heap} {q c : Ptr} {o o1 : Obj} (hq : h.mem q = some o)
    (hc : h.mem c = some o1) (hne : o ≠ o1) : q ≠ c := by
  intro e
  rw [e, hc] at hq
  exact hne (Option.some.inj hq).symm

theorem ne_of_dead {h : Heap} {q c : Ptr} {o : Obj} (hq : h.mem q = some o)
    (hc : h.mem c = none) : q ≠ c := by
  intro e
  rw [e, hc] at hq
  cases hq

theorem Ext.base {h : Heap} {N : List Ptr} (alloc : Ptr)
    (hN : ∀ q ∈ N, ∃ o, h.mem q = some o ∧ o.plain) : Ext h h N alloc :=
  ⟨rfl, hN, fun _ _ _ => rfl⟩

theorem Ext.set {h g : Heap} {N : List Ptr} {alloc : Ptr} (he : Ext h g N alloc) {c : Ptr}
    {o : Obj} (hc : c ∈ N ∨ c = alloc) (ho : o.plain) : Ext h (g.set c o) N alloc := by
  obtain ⟨h1, h2, h3⟩ := he
  refine ⟨h1, ?_, ?_⟩
  · intro q hq
    by_cases e : q = c
    · exact ⟨o, by rw [e, Heap.set_mem_same], ho⟩
    · rw [Heap.set_mem_ne _ _ e]
      exact h2 q hq
  · intro q hq hqa
    have e : q ≠ c := by
      rintro rfl
      rcases hc with hc | hc
      · exact hq hc
      · exact hqa hc
    rw [Heap.set_mem_ne _ _ e]
    exact h3 q hq hqa

/-- The part of `Built` on blocks: from the old root to the new one, whose
nodes are the old ones and the fresh block `alloc`. -/
theorem Ext.built {h0 h g : Heap} {N N1 : List Ptr} {alloc : Ptr} (he : Ext h g N alloc)
    (hnd : N.Nodup) (hcells : ∀ q ∈ N, q ≠ 0 ∧ h0.mem q = none ∧ ∃ o, h.mem q = some o ∧ o.plain)
    (hframe : ∀ q, q ∉ N → h.mem q = h0.mem q) (hfreed : h.freed = h0.freed)
    (hperm : N1.Perm (alloc :: N)) (halloc : alloc ≠ 0) (hfresh : h0.mem alloc = none)
    (hnew : alloc ∉ N) (hlive : ∃ o, g.mem alloc = some o ∧ o.plain) :
    N1.Nodup ∧ (∀ q ∈ N1, q ≠ 0 ∧ h0.mem q = none ∧ ∃ o, g.mem q = some o ∧ o.plain) ∧
    (∀ q, q ∉ N1 → g.mem q = h0.mem q) ∧ g.freed = h0.freed := by
  obtain ⟨e1, e2, e3⟩ := he
  refine ⟨hperm.nodup_iff.mpr (List.nodup_cons.mpr ⟨hnew, hnd⟩), ?_, ?_, e1.trans hfreed⟩
  · intro q hq
    rcases List.mem_cons.mp (hperm.mem_iff.mp hq) with e | hqN
    · subst e
      exact ⟨halloc, hfresh, hlive⟩
    · exact ⟨(hcells q hqN).1, (hcells q hqN).2.1, e2 q hqN⟩
  · intro q hq
    have hq1 : q ∉ alloc :: N := fun hm => hq (hperm.mem_iff.mpr hm)
    simp only [List.mem_cons, not_or] at hq1
    rw [e3 q hq1.2 hq1.1]
    exact hframe q hq1.2

theorem mem_rootNodes_root (aafi audio : Ptr) (shape : List (Ptr × List Ptr))
    (le lc : List Ptr) : aafi ∈ rootNodes aafi audio shape le lc := by
  simp [rootNodes]

theorem mem_rootNodes_audio (aafi audio : Ptr) (shape : List (Ptr × List Ptr))
    (le lc : List Ptr) : audio ∈ rootNodes aafi audio shape le lc := by
  simp [rootNodes]

theorem mem_rootNodes_track {aafi audio : Ptr} {shape : List (Ptr × List Ptr)}
    {le lc : List Ptr} {s : Ptr × List Ptr} (hs : s ∈ shape) :
    s.1 ∈ rootNodes aafi audio shape le lc := by
  simp only [rootNodes, List.mem_append, List.mem_flatMap]
  exact Or.inr (Or.inl ⟨s, hs, Or.inr (List.mem_singleton.mpr rfl)⟩)

theorem mem_rootNodes_item {aafi audio : Ptr} {shape : List (Ptr × List Ptr)}
    {le lc : List Ptr} {s : Ptr × List Ptr} {x : Ptr} (hs : s ∈ shape) (hx : x ∈ s.2) :
    x ∈ rootNodes aafi audio shape le lc := by
  simp only [rootNodes, List.mem_append, List.mem_flatMap]
  exact Or.inr (Or.inl ⟨s, hs, Or.inl hx⟩)

theorem plain_at {h : Heap} {N : List Ptr} {q : Ptr} {o : Obj}
    (hcells : ∀ q ∈ N, ∃ o, h.mem q = some o ∧ o.plain) (hq : q ∈ N)
    (hm : h.mem q = some o) : o.plain := by
  obtain ⟨o1, h1, h2⟩ := hcells q hq
  rw [hm] at h1
  cases h1
  exact h2

theorem set3_keep {h : Heap} {q c1 c2 c3 : Ptr} (o1 o2 o3 : Obj) (h1 : q ≠ c1) (h2 : q ≠ c2)
    (h3 : q ≠ c3) : (((h.set c1 o1).set c2 o2).set c3 o3).mem q = h.mem q := by
  rw [Heap.set_mem_ne _ _ h3, Heap.set_mem_ne _ _ h2, Heap.set_mem_ne _ _ h1]

theorem set2_keep {h : Heap} {q c1 c2 : Ptr} (o1 o2 : Obj) (h1 : q ≠ c1) (h2 : q ≠ c2) :
    ((h.set c1 o1).set c2 o2).mem q = h.mem q := by
  rw [Heap.set_mem_ne _ _ h2, Heap.set_mem_ne _ _ h1]

/-- A successful `aafi_newAudioTrack` on a built root appends an empty track. -/
theorem built_track (MONO fuel : Nat) {h0 h : Heap} {aafi audio alloc : Ptr}
    {shape : List (Ptr × List Ptr)} {le lc : List Ptr}
    (hb : Built h0 h aafi audio shape le lc) (halloc : alloc ≠ 0)
    (hfresh : h0.mem alloc = none) (hnew : alloc ∉ rootNodes aafi audio shape le lc)
    (hfuel : shape.length ≤ fuel) :
    ∃ h1, aafi_newAudioTrack MONO fuel h aafi alloc = .ok (h1, alloc) ∧
      Built h0 h1 aafi audio (shape ++ [(alloc, [])]) le lc := by
  obtain ⟨hnd, hcells, hframe, hfreed, r, a, hr, hra, ha, hcc, hct, hce, hit⟩ := hb
  subst hra
  have hcl : ∀ q ∈ rootNodes aafi r.Audio shape le lc, ∃ o, h.mem q = some o ∧ o.plain :=
    fun q hq => (hcells q hq).2.2
  have ha0 : aafi ≠ 0 := (hcells aafi (mem_rootNodes_root _ _ _ _ _)).1
  have hu0 : r.Audio ≠ 0 := (hcells _ (mem_rootNodes_audio _ _ _ _ _)).1
  have hfr : h.mem alloc = none := by
    rw [hframe alloc hnew]
    exact hfresh
  have hna : aafi ≠ alloc := ne_of_dead hr hfr
  have hua : r.Audio ≠ alloc := ne_of_dead ha hfr
  have hau : aafi ≠ r.Audio := ne_of_mem hr ha (by simp)
  have hrp : (Obj.iface { r with ctx := { r.ctx with current_track := alloc } }).plain := by
    have := plain_at hcl (mem_rootNodes_root _ _ _ _ _) hr
    simpa [Obj.plain] using this
  have hcp : (Obj.track (createdTrack MONO r.Audio)).plain := ⟨rfl, rfl, rfl⟩
  have hkc : ∀ q ∈ lc, q ≠ aafi ∧ q ≠ r.Audio ∧ q ≠ alloc := by
    intro q hq
    obtain ⟨_, c, hc⟩ := Chain.comment_live hcc hq
    exact ⟨ne_of_mem hc hr (by simp), ne_of_mem hc ha (by simp), ne_of_dead hc hfr⟩
  have hke : ∀ q ∈ le, q ≠ aafi ∧ q ≠ r.Audio ∧ q ≠ alloc := by
    intro q hq
    obtain ⟨_, c, hc⟩ := Chain.essence_live hce hq
    exact ⟨ne_of_mem hc hr (by simp), ne_of_mem hc ha (by simp), ne_of_dead hc hfr⟩
  have hkt : ∀ q ∈ shape.map Prod.fst, q ≠ aafi ∧ q ≠ r.Audio ∧ q ≠ alloc := by
    intro q hq
    obtain ⟨_, c, hc⟩ := Chain.track_live hct hq
    exact ⟨ne_of_mem hc hr (by simp), ne_of_mem hc ha (by simp), ne_of_dead hc hfr⟩
  have hki : ∀ s ∈ shape, ∀ q ∈ s.2, (q ≠ aafi ∧ q ≠ r.Audio ∧ q ≠ alloc) ∧
      ∀ x tx, h.mem x = some (.track tx) → q ≠ x := by
    intro s hs q hq
    obtain ⟨t, _, hch⟩ := hit s hs
    obtain ⟨_, c, hc⟩ := Chain.item_live hch hq
    exact ⟨⟨ne_of_mem hc hr (by simp), ne_of_mem hc ha (by simp), ne_of_dead hc hfr⟩,
      fun x tx hx => ne_of_mem hc hx (by simp)⟩
  rcases List.eq_nil_or_concat shape with hs | ⟨sh1, sx, hs⟩
  · subst hs
    have hT : a.Tracks = 0 := hct
    have hap : (Obj.audio { a with Tracks := alloc }).plain := by
      have := plain_at hcl (mem_rootNodes_audio _ _ _ _ _) ha
      simpa [Obj.plain] using this
    refine ⟨_, newAudioTrack_empty MONO fuel h aafi alloc r a ha0 hr hu0 ha hT halloc hfr, ?_⟩
    have hext := (((Ext.base alloc hcl).set (Or.inl (mem_rootNodes_audio _ _ _ _ _))
      hap).set (Or.inr rfl) hcp).set (Or.inl (mem_rootNodes_root _ _ _ _ _)) hrp
    obtain ⟨c1, c2, c3, c4⟩ := hext.built hnd hcells hframe hfreed
      (rootNodes_track_perm _ _ _ _ _ _) halloc hfresh hnew
      ⟨_, by rw [Heap.set_mem_ne _ _ hna.symm, Heap.set_mem_same], hcp⟩
    refine ⟨c1, c2, c3, c4, _, { a with Tracks := alloc }, Heap.set_mem_same _ _ _, rfl, ?_,
      ?_, ?_, ?_, ?_⟩
    · rw [Heap.set_mem_ne _ _ hau.symm, Heap.set_mem_ne _ _ hua, Heap.set_mem_same]
    · refine Chain.congr (fun q hq => commentNext_congr ?_) hcc
      exact set3_keep _ _ _ (hkc q hq).2.1 (hkc q hq).2.2 (hkc q hq).1
    · refine ⟨rfl, halloc, 0, ?_, rfl⟩
      rw [trackNext_congr (Heap.set_mem_ne _ _ hna.symm)]
      exact trackNext_of_mem halloc (Heap.set_mem_same _ _ _)
    · refine Chain.congr (fun q hq => essenceNext_congr ?_) hce
      exact set3_keep _ _ _ (hke q hq).2.1 (hke q hq).2.2 (hke q hq).1
    · intro s hs
      simp only [List.nil_append, List.mem_singleton] at hs
      subst hs
      exact ⟨createdTrack MONO r.Audio,
          by rw [Heap.set_mem_ne _ _ hna.symm, Heap.set_mem_same], rfl⟩
  · subst hs
    rw [List.concat_eq_append] at *
    have hct1 : Chain h.trackNext a.Tracks (sh1.map Prod.fst ++ [sx.1]) := by
      simpa using hct
    obtain ⟨hx0, tx, hx⟩ := Chain.track_live hct1 (x := sx.1) (by simp)
    have hfu : (sh1.map Prod.fst).length < fuel := by
      simp at hfuel ⊢
      omega
    have hxN : sx.1 ∈ rootNodes aafi r.Audio (sh1 ++ [sx]) le lc :=
      mem_rootNodes_track (by simp)
    have hxp : (Obj.track { tx with next := alloc }).plain := by
      have := plain_at hcl hxN hx
      simpa [Obj.plain] using this
    have hxa : sx.1 ≠ alloc := ne_of_dead hx hfr
    have hxr : sx.1 ≠ aafi := ne_of_mem hx hr (by simp)
    refine ⟨_, newAudioTrack_nonempty MONO fuel h aafi alloc sx.1 r a tx (sh1.map Prod.fst) ha0
      hr hu0 ha hct1 hfu hx halloc hfr, ?_⟩
    have hext := (((Ext.base alloc hcl).set (Or.inl hxN) hxp).set (Or.inr rfl) hcp).set
      (Or.inl (mem_rootNodes_root _ _ _ _ _)) hrp
    obtain ⟨c1, c2, c3, c4⟩ := hext.built hnd hcells hframe hfreed
      (rootNodes_track_perm _ _ _ _ _ _) halloc hfresh hnew
      ⟨_, by rw [Heap.set_mem_ne _ _ hna.symm, Heap.set_mem_same], hcp⟩
    have hux : r.Audio ≠ sx.1 := ne_of_mem ha hx (by simp)
    refine ⟨c1, c2, c3, c4, _, a, Heap.set_mem_same _ _ _, rfl, ?_, ?_, ?_, ?_, ?_⟩
    · rw [set3_keep _ _ _ hux hua hau.symm]
      exact ha
    · refine Chain.congr (fun q hq => commentNext_congr ?_) hcc
      obtain ⟨_, c, hc⟩ := Chain.comment_live hcc hq
      exact set3_keep _ _ _ (ne_of_mem hc hx (by simp)) (hkc q hq).2.2 (hkc q hq).1
    · have hndl : (sh1.map Prod.fst ++ [sx.1]).Nodup := Chain.nodup hct1
      have hgoal : Chain (((h.set sx.1 (.track { tx with next := alloc })).set alloc
          (.track (createdTrack MONO r.Audio))).set aafi
          (.iface { r with ctx := { r.ctx with current_track := alloc } })).trackNext a.Tracks
          (sh1.map Prod.fst ++ [sx.1, alloc]) := by
        refine Chain.snoc hct1 ?_ ?_ halloc ?_
        · intro q hq
          have hq1 : q ∈ (sh1 ++ [sx]).map Prod.fst := by simp [hq]
          have hqx : q ≠ sx.1 := by
            intro e
            rw [List.nodup_append] at hndl
            exact hndl.2.2 hq (by simp [e])
          exact trackNext_congr (set3_keep _ _ _ hqx (hkt q hq1).2.2 (hkt q hq1).1)
        · have hm : (((h.set sx.1 (.track { tx with next := alloc })).set alloc
              (.track (createdTrack MONO r.Audio))).set aafi
              (.iface { r with ctx := { r.ctx with current_track := alloc } })).mem sx.1 =
              some (.track { tx with next := alloc }) := by
            rw [Heap.set_mem_ne _ _ hxr, Heap.set_mem_ne _ _ hxa, Heap.set_mem_same]
          exact trackNext_of_mem hx0 hm
        · rw [trackNext_congr (Heap.set_mem_ne _ _ hna.symm)]
          exact trackNext_of_mem halloc (Heap.set_mem_same _ _ _)
      simpa using hgoal
    · refine Chain.congr (fun q hq => essenceNext_congr ?_) hce
      obtain ⟨_, c, hc⟩ := Chain.essence_live hce hq
      exact set3_keep _ _ _ (ne_of_mem hc hx (by simp)) (hke q hq).2.2 (hke q hq).1
    · intro s hs
      rcases List.mem_append.mp hs with hs1 | hs1
      · obtain ⟨t, ht, hch⟩ := hit s hs1
        have hkeep : Chain (((h.set sx.1 (.track { tx with next := alloc })).set alloc
            (.track (createdTrack MONO r.Audio))).set aafi
            (.iface { r with ctx := { r.ctx with current_track := alloc } })).itemNext
            t.Items s.2 := by
          refine Chain.congr (fun q hq => itemNext_congr ?_) hch
          exact set3_keep _ _ _ ((hki s hs1 q hq).2 _ _ hx) (hki s hs1 q hq).1.2.2
            (hki s hs1 q hq).1.1
        have hsk := hkt s.1 (List.mem_map_of_mem _ hs1)
        by_cases hsx : s.1 = sx.1
        · refine ⟨{ tx with next := alloc }, ?_, ?_⟩
          · rw [hsx, Heap.set_mem_ne _ _ hxr, Heap.set_mem_ne _ _ hxa, Heap.set_mem_same]
          · rw [hsx, hx] at ht
            cases ht
            exact hkeep
        · exact ⟨t, by rw [set3_keep _ _ _ hsx hsk.2.2 hsk.1]; exact ht, hkeep⟩
      · simp only [List.mem_singleton] at hs1
        subst hs1
        exact ⟨createdTrack MONO r.Audio,
          by rw [Heap.set_mem_ne _ _ hna.symm, Heap.set_mem_same], rfl⟩

theorem newUserComment_root (h : Heap) (aafi alloc : Ptr) (r : AAF_Iface) (haafi : aafi ≠ 0)
    (hr : h.mem aafi = some (.iface r)) (halloc : alloc ≠ 0) (hfresh : h.mem alloc = none) :
    aafi_newUserComment h (.ifaceComments aafi) alloc =
      .ok ((h.set alloc (.comment ⟨0, 0, r.Comments⟩)).set aafi
        (.iface { r with Comments := alloc }), alloc) := by
  have hna : aafi ≠ alloc := ne_of_dead hr hfresh
  simp [aafi_newUserComment, halloc, bind, Except.bind, pure, Except.pure, Heap.loadComment,
    Heap.getIface, haafi, Heap.set_mem_ne, hna, hr, Heap.modifyComment, Heap.getComment,
    Heap.set_mem_same, Heap.set_set, Heap.storeComment, Heap.modifyIface, hna.symm,
    aafiUserComment.zero]

/-- A successful `aafi_newAudioEssence` on a built root prepends an essence. -/
theorem built_essence {h0 h : Heap} {aafi audio alloc : Ptr}
    {shape : List (Ptr × List Ptr)} {le lc : List Ptr}
    (hb : Built h0 h aafi audio shape le lc) (halloc : alloc ≠ 0)
    (hfresh : h0.mem alloc = none) (hnew : alloc ∉ rootNodes aafi audio shape le lc) :
    ∃ h1, aafi_newAudioEssence h aafi alloc = .ok (h1, alloc) ∧
      Built h0 h1 aafi audio shape (alloc :: le) lc := by
  obtain ⟨hnd, hcells, hframe, hfreed, r, a, hr, hra, ha, hcc, hct, hce, hit⟩ := hb
  subst hra
  have hcl : ∀ q ∈ rootNodes aafi r.Audio shape le lc, ∃ o, h.mem q = some o ∧ o.plain :=
    fun q hq => (hcells q hq).2.2
  have ha0 : aafi ≠ 0 := (hcells aafi (mem_rootNodes_root _ _ _ _ _)).1
  have hu0 : r.Audio ≠ 0 := (hcells _ (mem_rootNodes_audio _ _ _ _ _)).1
  have hfr : h.mem alloc = none := by
    rw [hframe alloc hnew]
    exact hfresh
  have hna : aafi ≠ alloc := ne_of_dead hr hfr
  have hua : r.Audio ≠ alloc := ne_of_dead ha hfr
  have hau : aafi ≠ r.Audio := ne_of_mem hr ha (by simp)
  have hap : (Obj.audio { a with Essences := alloc }).plain := by
    have := plain_at hcl (mem_rootNodes_audio _ _ _ _ _) ha
    simpa [Obj.plain] using this
  have hep : (Obj.essence { aafiAudioEssence.zero with next := a.Essences }).plain :=
    ⟨rfl, rfl, rfl, rfl⟩
  refine ⟨_, newAudioEssence_eval h aafi alloc r a ha0 hr hu0 ha halloc hfr, ?_⟩
  have hext := ((Ext.base alloc hcl).set (Or.inr rfl) hep).set
    (Or.inl (mem_rootNodes_audio _ _ _ _ _)) hap
  obtain ⟨c1, c2, c3, c4⟩ := hext.built hnd hcells hframe hfreed
    (rootNodes_essence_perm _ _ _ _ _ _) halloc hfresh hnew
    ⟨_, by rw [Heap.set_mem_ne _ _ hua.symm, Heap.set_mem_same], hep⟩
  refine ⟨c1, c2, c3, c4, r, { a with Essences := alloc }, ?_, rfl, Heap.set_mem_same _ _ _,
    ?_, ?_, ?_, ?_⟩
  · rw [set2_keep _ _ hna hau]
    exact hr
  · refine Chain.congr (fun q hq => commentNext_congr ?_) hcc
    obtain ⟨_, c, hc⟩ := Chain.comment_live hcc hq
    exact set2_keep _ _ (ne_of_dead hc hfr) (ne_of_mem hc ha (by simp))
  · refine Chain.congr (fun q hq => trackNext_congr ?_) hct
    obtain ⟨_, c, hc⟩ := Chain.track_live hct hq
    exact set2_keep _ _ (ne_of_dead hc hfr) (ne_of_mem hc ha (by simp))
  · refine ⟨rfl, halloc, a.Essences, ?_, ?_⟩
    · rw [essenceNext_congr (Heap.set_mem_ne _ _ hua.symm)]
      exact essenceNext_of_mem halloc (Heap.set_mem_same _ _ _)
    · refine Chain.congr (fun q hq => essenceNext_congr ?_) hce
      obtain ⟨_, c, hc⟩ := Chain.essence_live hce hq
      exact set2_keep _ _ (ne_of_dead hc hfr) (ne_of_mem hc ha (by simp))
  · intro s hs
    obtain ⟨t, ht, hch⟩ := hit s hs
    refine ⟨t, ?_, ?_⟩
    · rw [set2_keep _ _ (ne_of_dead ht hfr) (ne_of_mem ht ha (by simp))]
      exact ht
    · refine Chain.congr (fun q hq => itemNext_congr ?_) hch
      obtain ⟨_, c, hc⟩ := Chain.item_live hch hq
      exact set2_keep _ _ (ne_of_dead hc hfr) (ne_of_mem hc ha (by simp))

/-- A successful `aafi_newUserComment` through `&aafi->Comments` on a built
root prepends a comment. -/
theorem built_comment {h0 h : Heap} {aafi audio alloc : Ptr}
    {shape : List (Ptr × List Ptr)} {le lc : List Ptr}
    (hb : Built h0 h aafi audio shape le lc) (halloc : alloc ≠ 0)
    (hfresh : h0.mem alloc = none) (hnew : alloc ∉ rootNodes aafi audio shape le lc) :
    ∃ h1, aafi_newUserComment h (.ifaceComments aafi) alloc = .ok (h1, alloc) ∧
      Built h0 h1 aafi audio shape le (alloc :: lc) := by
  obtain ⟨hnd, hcells, hframe, hfreed, r, a, hr, hra, ha, hcc, hct, hce, hit⟩ := hb
  subst hra
  have hcl : ∀ q ∈ rootNodes aafi r.Audio shape le lc, ∃ o, h.mem q = some o ∧ o.plain :=
    fun q hq => (hcells q hq).2.2
  have ha0 : aafi ≠ 0 := (hcells aafi (mem_rootNodes_root _ _ _ _ _)).1
  have hfr : h.mem alloc = none := by
    rw [hframe alloc hnew]
    exact hfresh
  have hna : aafi ≠ alloc := ne_of_dead hr hfr
  have hua : r.Audio ≠ alloc := ne_of_dead ha hfr
  have hau : aafi ≠ r.Audio := ne_of_mem hr ha (by simp)
  have hrp : (Obj.iface { r with Comments := alloc }).plain := by
    have := plain_at hcl (mem_rootNodes_root _ _ _ _ _) hr
    simpa [Obj.plain] using this
  have hcp : (Obj.comment ⟨0, 0, r.Comments⟩).plain := ⟨rfl, rfl⟩
  refine ⟨_, newUserComment_root h aafi alloc r ha0 hr halloc hfr, ?_⟩
  have hext := ((Ext.base alloc hcl).set (Or.inr rfl) hcp).set
    (Or.inl (mem_rootNodes_root _ _ _ _ _)) hrp
  obtain ⟨c1, c2, c3, c4⟩ := hext.built hnd hcells hframe hfreed
    (List.Perm.refl _) halloc hfresh hnew
    ⟨_, by rw [Heap.set_mem_ne _ _ hna.symm, Heap.set_mem_same], hcp⟩
  refine ⟨c1, c2, c3, c4, { r with Comments := alloc }, a, Heap.set_mem_same _ _ _, rfl, ?_,
    ?_, ?_, ?_, ?_⟩
  · rw [set2_keep _ _ hua hau.symm]
    exact ha
  · refine ⟨rfl, halloc, r.Comments, ?_, ?_⟩
    · rw [commentNext_congr (Heap.set_mem_ne _ _ hna.symm)]
      exact commentNext_of_mem halloc (Heap.set_mem_same _ _ _)
    · refine Chain.congr (fun q hq => commentNext_congr ?_) hcc
      obtain ⟨_, c, hc⟩ := Chain.comment_live hcc hq
      exact set2_keep _ _ (ne_of_dead hc hfr) (ne_of_mem hc hr (by simp))
  · refine Chain.congr (fun q hq => trackNext_congr ?_) hct
    obtain ⟨_, c, hc⟩ := Chain.track_live hct hq
    exact set2_keep _ _ (ne_of_dead hc hfr) (ne_of_mem hc hr (by simp))
  · refine Chain.congr (fun q hq => essenceNext_congr ?_) hce
    obtain ⟨_, c, hc⟩ := Chain.essence_live hce hq
    exact set2_keep _ _ (ne_of_dead hc hfr) (ne_of_mem hc hr (by simp))
  · intro s hs
    obtain ⟨t, ht, hch⟩ := hit s hs
    refine ⟨t, ?_, ?_⟩
    · rw [set2_keep _ _ (ne_of_dead ht hfr) (ne_of_mem ht hr (by simp))]
      exact ht
    · refine Chain.congr (fun q hq => itemNext_congr ?_) hch
      obtain ⟨_, c, hc⟩ := Chain.item_live hch hq
      exact set2_keep _ _ (ne_of_dead hc hfr) (ne_of_mem hc hr (by simp))

theorem items_disjoint :
    ∀ {shape : List (Ptr × List Ptr)}, (shape.flatMap (fun s => s.2 ++ [s.1])).Nodup →
      ∀ {s s0 : Ptr × List Ptr}, s ∈ shape → s0 ∈ shape → s0.1 ≠ s.1 →
        ∀ {q : Ptr}, q ∈ s0.2 → q ∉ s.2
  | [], _, _, _, hs, _, _, _, _ => by simp at hs
  | a :: rest, hnd, s, s0, hs, hs0, hne, q, hq => by
    rw [List.flatMap_cons, List.nodup_append] at hnd
    obtain ⟨_, hn2, hdis⟩ := hnd
    intro hx
    rcases List.mem_cons.mp hs with e | hsr
    · rcases List.mem_cons.mp hs0 with e0 | hs0r
      · exact hne (by rw [e, e0])
      · subst e
        exact hdis (List.mem_append_left _ hx)
          (List.mem_flatMap.mpr ⟨s0, hs0r, List.mem_append_left _ hq⟩) 
    · rcases List.mem_cons.mp hs0 with e0 | hs0r
      · subst e0
        exact hdis (List.mem_append_left _ hq)
          (List.mem_flatMap.mpr ⟨s, hsr, List.mem_append_left _ hx⟩)
      · exact items_disjoint hn2 hsr hs0r hne hq hx

theorem rootNodes_shape_nodup {aafi audio : Ptr} {shape : List (Ptr × List Ptr)}
    {le lc : List Ptr} (hnd : (rootNodes aafi audio shape le lc).Nodup) :
    (shape.flatMap (fun s => s.2 ++ [s.1])).Nodup := by
  simp only [rootNodes] at hnd
  exact (List.nodup_append.mp (List.nodup_append.mp hnd).2.1).1

theorem createdItem_plain (track kind pv : Ptr) (hkind : kind = AAFI_CLIP ∨ kind = AAFI_TRANS) :
    (Obj.item (createdItem track kind pv)).plain := by
  rcases hkind with hk | hk
  · subst hk
    exact Or.inl ⟨rfl, { aafiAudioClip.zero with track := track }, by simp [createdItem], rfl⟩
  · subst hk
    exact Or.inr ⟨rfl, aafiTransition.zero, by simp [createdItem, AAFI_TRANS, AAFI_CLIP],
      rfl, rfl, rfl, rfl⟩

/-- A successful `aafi_newTimelineItem` on a track of a built root appends an
item to the item list of that track. -/
theorem built_item (fuel : Nat) {h0 h : Heap} {aafi audio track kind alloc : Ptr}
    {shape : List (Ptr × List Ptr)} {le lc : List Ptr}
    (hb : Built h0 h aafi audio shape le lc) (htrack : track ∈ shape.map Prod.fst)
    (hkind : kind = AAFI_CLIP ∨ kind = AAFI_TRANS) (halloc : alloc ≠ 0)
    (hfresh : h0.mem alloc = none) (hnew : alloc ∉ rootNodes aafi audio shape le lc)
    (hfuel : ∀ s ∈ shape, s.2.length ≤ fuel) :
    ∃ h1, aafi_newTimelineItem fuel h track kind alloc = .ok (h1, alloc) ∧
      Built h0 h1 aafi audio (addItem track alloc shape) le lc := by
  obtain ⟨hnd, hcells, hframe, hfreed, r, a, hr, hra, ha, hcc, hct, hce, hit⟩ := hb
  subst hra
  have hcl : ∀ q ∈ rootNodes aafi r.Audio shape le lc, ∃ o, h.mem q = some o ∧ o.plain :=
    fun q hq => (hcells q hq).2.2
  have hfr : h.mem alloc = none := by
    rw [hframe alloc hnew]
    exact hfresh
  obtain ⟨s, hs, hst⟩ := List.mem_map.mp htrack
  obtain ⟨t, htm, hch⟩ := hit s hs
  have hsN : s.1 ∈ rootNodes aafi r.Audio shape le lc := mem_rootNodes_track hs
  have ht0 : s.1 ≠ 0 := (hcells _ hsN).1
  have htnd : (shape.map Prod.fst).Nodup := Chain.nodup hct
  have hperm := rootNodes_item_perm aafi r.Audio track alloc le lc htrack htnd
  have hip := createdItem_plain track kind
  subst hst
  -- facts shared by both cases: the new heap has the form `(h.set c oc).set alloc new`
  have main : ∀ (c : Ptr) (oc : Obj) (pv : Ptr), c ∈ rootNodes aafi r.Audio shape le lc →
      oc.plain → (∃ o, h.mem c = some o ∧ (∀ x, o ≠ .iface x) ∧ (∀ x, o ≠ .audio x) ∧
        (∀ x, o ≠ .comment x) ∧ (∀ x, o ≠ .essence x)) →
      (∀ q ∈ shape.map Prod.fst, (h.set c oc).trackNext q = h.trackNext q) →
      (∀ s0 ∈ shape, ∃ t0, ((h.set c oc).set alloc (.item (createdItem s.1 kind pv))).mem
          s0.1 = some (.track t0) ∧
        Chain ((h.set c oc).set alloc (.item (createdItem s.1 kind pv))).itemNext t0.Items
          (if s0.1 = s.1 then s0.2 ++ [alloc] else s0.2)) →
      Built h0 ((h.set c oc).set alloc (.item (createdItem s.1 kind pv))) aafi r.Audio
        (addItem s.1 alloc shape) le lc := by
    intro c oc pv hcN hocp ⟨o, hco, hk1, hk2, hk3, hk4⟩ htn hitems
    have hext := ((Ext.base alloc hcl).set (Or.inl hcN) hocp).set (Or.inr rfl) (hip pv hkind)
    obtain ⟨c1, c2, c3, c4⟩ := hext.built hnd hcells hframe hfreed hperm halloc hfresh hnew
      ⟨_, Heap.set_mem_same _ _ _, hip pv hkind⟩
    have hca : aafi ≠ c := ne_of_mem hr hco (fun e => hk1 _ e.symm)
    have hcu : r.Audio ≠ c := ne_of_mem ha hco (fun e => hk2 _ e.symm)
    refine ⟨c1, c2, c3, c4, r, a, ?_, rfl, ?_, ?_, ?_, ?_, ?_⟩
    · rw [set2_keep _ _ hca (ne_of_dead hr hfr)]
      exact hr
    · rw [set2_keep _ _ hcu (ne_of_dead ha hfr)]
      exact ha
    · refine Chain.congr (fun q hq => commentNext_congr ?_) hcc
      obtain ⟨_, x, hx⟩ := Chain.comment_live hcc hq
      exact set2_keep _ _ (ne_of_mem hx hco (fun e => hk3 _ e.symm)) (ne_of_dead hx hfr)
    · rw [addItem_fst]
      refine Chain.congr (fun q hq => ?_) hct
      obtain ⟨_, x, hx⟩ := Chain.track_live hct hq
      rw [trackNext_congr (Heap.set_mem_ne _ _ (ne_of_dead hx hfr))]
      exact htn q hq
    · refine Chain.congr (fun q hq => essenceNext_congr ?_) hce
      obtain ⟨_, x, hx⟩ := Chain.essence_live hce hq
      exact set2_keep _ _ (ne_of_mem hx hco (fun e => hk4 _ e.symm)) (ne_of_dead hx hfr)
    · intro s1 hs1
      simp only [addItem, List.mem_map] at hs1
      obtain ⟨s0, hs0, rfl⟩ := hs1
      obtain ⟨t0, h1, h2⟩ := hitems s0 hs0
      by_cases e : s0.1 = s.1
      · simp only [e, if_true] at h2 ⊢
        rw [e] at h1
        exact ⟨t0, h1, h2⟩
      · simp only [e, if_false] at h2 ⊢
        exact ⟨t0, h1, h2⟩
  have hsa : s.1 ≠ alloc := ne_of_dead htm hfr
  have hsame : ∀ s0 ∈ shape, s0.1 = s.1 → s0.2 = s.2 := by
    intro s0 hs0 e
    obtain ⟨t1, ht1, hch1⟩ := hit s0 hs0
    rw [e, htm] at ht1
    cases ht1
    exact Chain.unique hch1 hch
  rcases List.eq_nil_or_concat s.2 with hl | ⟨l1, x, hl⟩
  · have hI : t.Items = 0 := by
      rw [hl] at hch
      exact hch
    refine ⟨_, newTimelineItem_empty fuel h s.1 alloc kind t ht0 htm hI hkind halloc hfr, ?_⟩
    refine main s.1 (.track { t with Items := alloc }) 0 hsN ?_
      ⟨_, htm, by simp, by simp, by simp, by simp⟩ ?_ ?_
    · have := plain_at hcl hsN htm
      simpa [Obj.plain] using this
    · intro q _
      by_cases e : q = s.1
      · rw [e, trackNext_of_mem ht0 (Heap.set_mem_same _ _ _), trackNext_of_mem ht0 htm]
      · exact trackNext_congr (Heap.set_mem_ne _ _ e)
    · intro s0 hs0
      by_cases e : s0.1 = s.1
      · refine ⟨{ t with Items := alloc }, ?_, ?_⟩
        · rw [e, Heap.set_mem_ne _ _ hsa, Heap.set_mem_same]
        · simp only [e, if_true]
          rw [hsame s0 hs0 e, hl]
          exact chain_item_single halloc rfl
      · obtain ⟨t1, ht1, hch1⟩ := hit s0 hs0
        refine ⟨t1, ?_, ?_⟩
        · rw [set2_keep _ _ e (ne_of_dead ht1 hfr)]
          exact ht1
        · simp only [e, if_false]
          refine Chain.congr (fun q hq => itemNext_congr ?_) hch1
          obtain ⟨_, y, hy⟩ := Chain.item_live hch1 hq
          exact set2_keep _ _ (ne_of_mem hy htm (by simp)) (ne_of_dead hy hfr)
  · rw [List.concat_eq_append] at hl
    rw [hl] at hch
    obtain ⟨hx0, ix, hx⟩ := Chain.item_live hch (x := x) (by simp)
    have hxs : x ∈ s.2 := by simp [hl]
    have hxN : x ∈ rootNodes aafi r.Audio shape le lc := mem_rootNodes_item hs hxs
    have hfu : l1.length < fuel := by
      have := hfuel s hs
      rw [hl] at this
      simp at this
      omega
    refine ⟨_, newTimelineItem_nonempty fuel h s.1 alloc kind x t ix l1 ht0 htm hch hfu hx
      hkind halloc hfr, ?_⟩
    refine main x (.item { ix with next := alloc }) x hxN ?_
      ⟨_, hx, by simp, by simp, by simp, by simp⟩ ?_ ?_
    · have := plain_at hcl hxN hx
      simpa [Obj.plain] using this
    · intro q hq
      obtain ⟨_, y, hy⟩ := Chain.track_live hct hq
      exact trackNext_congr (Heap.set_mem_ne _ _ (ne_of_mem hy hx (by simp)))
    · intro s0 hs0
      by_cases e : s0.1 = s.1
      · refine ⟨t, ?_, ?_⟩
        · rw [e, set2_keep _ _ (ne_of_mem htm hx (by simp)) hsa]
          exact htm
        · simp only [e, if_true]
          rw [hsame s0 hs0 e, hl, List.append_assoc]
          exact chain_item_snoc hch hx halloc hfr rfl
      · obtain ⟨t1, ht1, hch1⟩ := hit s0 hs0
        refine ⟨t1, ?_, ?_⟩
        · rw [set2_keep _ _ (ne_of_mem ht1 hx (by simp)) (ne_of_dead ht1 hfr)]
          exact ht1
        · simp only [e, if_false]
          refine Chain.congr (fun q hq => itemNext_congr ?_) hch1
          obtain ⟨_, y, hy⟩ := Chain.item_live hch1 hq
          have hqx : q ≠ x := by
            intro e1
            exact items_disjoint (rootNodes_shape_nodup hnd) hs hs0 e hq (e1 ▸ hxs)
          exact set2_keep _ _ hqx (ne_of_dead hy hfr)

/-! ### From a built root to its release -/

theorem flatMap_congr_mem {α : Type} {l : List α} {f g : α → List Ptr}
    (hfg : ∀ x ∈ l, f x = g x) : l.flatMap f = l.flatMap g := by
  induction l with
  | nil => rfl
  | cons a rest ih =>
    rw [List.flatMap_cons, List.flatMap_cons, hfg a (List.mem_cons_self _ _),
      ih (fun x hx => hfg x (List.mem_cons_of_mem _ hx))]

theorem flatMap_single (l : List Ptr) : l.flatMap (fun c => [c]) = l := by
  induction l with
  | nil => rfl
  | cons a rest ih => rw [List.flatMap_cons, ih]; rfl

theorem blobsAt_null (h : Heap) (l : List Ptr) (hl : ∀ q ∈ l, q = 0) : BlobsAt h l := by
  intro q hq
  simp only [nz, List.mem_filter, decide_eq_true_eq] at hq
  exact absurd (hl q hq.1) hq.2

theorem nz_null (l : List Ptr) (hl : ∀ q ∈ l, q = 0) : nz l = [] := by
  simp only [nz, List.filter_eq_nil_iff, decide_eq_true_eq, not_not]
  exact hl

theorem plain_item_ok {h : Heap} {p : Ptr} {it : aafiTimelineItem} (hp : p ≠ 0)
    (hm : h.mem p = some (.item it)) (hpl : (Obj.item it).plain) :
    ItemOK h p ∧ itemBlocks h p = [p] := by
  rcases hpl with ⟨hty, c, hd, hg⟩ | ⟨hty, t, hd, h1, h2, h3, h4⟩
  · refine ⟨⟨hp, it, hm, Or.inl ⟨hty, c, hd, Or.inl hg⟩⟩, ?_⟩
    simp [itemBlocks, hm, hd, hg, gainBlocks]
  · refine ⟨⟨hp, it, hm, Or.inr ⟨hty, t, hd, blobsAt_null h _ (by simp [h1, h2, h3, h4])⟩⟩, ?_⟩
    simp [itemBlocks, hm, hd, h1, h2, h3, h4, nz]

/-- A built root is a well-formed root, and the blocks it owns are its
nodes. -/
theorem built_rootOK {h0 h : Heap} {aafi audio : Ptr} {shape : List (Ptr × List Ptr)}
    {le lc : List Ptr} (hb : Built h0 h aafi audio shape le lc) :
    RootOK h aafi shape le lc ∧
      rootBlocks h aafi shape le lc = rootNodes aafi audio shape le lc := by
  obtain ⟨hnd, hcells, hframe, hfreed, r, a, hr, hra, ha, hcc, hct, hce, hit⟩ := hb
  subst hra
  have hcl : ∀ q ∈ rootNodes aafi r.Audio shape le lc, ∃ o, h.mem q = some o ∧ o.plain :=
    fun q hq => (hcells q hq).2.2
  have ha0 : aafi ≠ 0 := (hcells aafi (mem_rootNodes_root _ _ _ _ _)).1
  have hu0 : r.Audio ≠ 0 := (hcells _ (mem_rootNodes_audio _ _ _ _ _)).1
  have hrp : r.compositionName = 0 := plain_at hcl (mem_rootNodes_root _ _ _ _ _) hr
  have hap : a.tc = 0 := plain_at hcl (mem_rootNodes_audio _ _ _ _ _) ha
  have hcN : ∀ c ∈ lc, c ∈ rootNodes aafi r.Audio shape le lc := by
    intro c hc
    simp [rootNodes, hc]
  have heN : ∀ c ∈ le, c ∈ rootNodes aafi r.Audio shape le lc := by
    intro c hc
    simp [rootNodes, hc]
  have hcom : ∀ c ∈ lc, CommentOK h c ∧ commentBlocks h c = [c] := by
    intro c hc
    obtain ⟨hc0, x, hx⟩ := Chain.comment_live hcc hc
    obtain ⟨p1, p2⟩ : x.name = 0 ∧ x.text = 0 := plain_at hcl (hcN c hc) hx
    exact ⟨⟨hc0, x, hx, blobsAt_null h _ (by simp [p1, p2])⟩,
      by simp [commentBlocks, hx, p1, p2, nz]⟩
  have hess : ∀ c ∈ le, EssenceOK h c ∧ essenceBlocks h c = [c] := by
    intro c hc
    obtain ⟨hc0, x, hx⟩ := Chain.essence_live hce hc
    obtain ⟨p1, p2, p3, p4⟩ : x.original_file = 0 ∧ x.exported_file = 0 ∧ x.file_name = 0 ∧
      x.unique_file_name = 0 := plain_at hcl (heN c hc) hx
    exact ⟨⟨hc0, x, hx, blobsAt_null h _ (by simp [p1, p2, p3, p4])⟩,
      by simp [essenceBlocks, hx, p1, p2, p3, p4, nz]⟩
  have htrk : ∀ s ∈ shape, TrackOK h s ∧ trackBlocks h s = s.2 ++ [s.1] := by
    intro s hs
    obtain ⟨t, ht, hch⟩ := hit s hs
    have hs0 : s.1 ≠ 0 := (hcells _ (mem_rootNodes_track hs)).1
    obtain ⟨p1, p2, p3⟩ : t.name = 0 ∧ t.gain = 0 ∧ t.pan = 0 :=
      plain_at hcl (mem_rootNodes_track hs) ht
    have hitm : ∀ x ∈ s.2, ItemOK h x ∧ itemBlocks h x = [x] := by
      intro x hx
      obtain ⟨hx0, it, hi⟩ := Chain.item_live hch hx
      exact plain_item_ok hx0 hi (plain_at hcl (mem_rootNodes_item hs hx) hi)
    refine ⟨⟨hs0, t, ht, blobsAt_null h _ (by simp [p1]), Or.inl p2, Or.inl p3, hch,
      fun x hx => (hitm x hx).1⟩, ?_⟩
    have e1 : s.2.flatMap (itemBlocks h) = s.2 := by
      rw [flatMap_congr_mem (fun x hx => (hitm x hx).2), flatMap_single]
    simp [trackBlocks, ht, p1, p2, p3, gainBlocks, nz, e1]
  refine ⟨⟨ha0, r, a, hr, hu0, ha, blobsAt_null h _ (by simp [hrp]), hcc,
    fun c hc => (hcom c hc).1, hct, fun s hs => (htrk s hs).1, hce, fun e he => (hess e he).1,
    blobsAt_null h _ (by simp [hap])⟩, ?_⟩
  have e1 : lc.flatMap (commentBlocks h) = lc := by
    rw [flatMap_congr_mem (fun x hx => (hcom x hx).2), flatMap_single]
  have e2 : le.flatMap (essenceBlocks h) = le := by
    rw [flatMap_congr_mem (fun x hx => (hess x hx).2), flatMap_single]
  have e3 : shape.flatMap (trackBlocks h) = shape.flatMap (fun s => s.2 ++ [s.1]) :=
    flatMap_congr_mem (fun x hx => (htrk x hx).2)
  simp [rootBlocks, hr, ha, e1, e2, e3, hrp, hap, nz, rootNodes]

/-- The state `aafi_alloc` leaves is a built root with empty lists. -/
theorem built_alloc {h0 : Heap} {aafi audio : Ptr} (x : Ptr) (haafi : aafi ≠ 0)
    (haudio : audio ≠ 0) (hne : audio ≠ aafi) (hf1 : h0.mem aafi = none)
    (hf2 : h0.mem audio = none) :
    Built h0 ((h0.set audio (.audio ⟨0, 0, 0⟩)).set aafi
      (.iface { AAF_Iface.zero with Audio := audio, aafd := x })) aafi audio [] [] [] := by
  refine ⟨?_, ?_, ?_, rfl, _, ⟨0, 0, 0⟩, Heap.set_mem_same _ _ _, rfl, ?_, rfl, rfl, rfl, ?_⟩
  · simp [rootNodes, hne]
  · intro q hq
    simp only [rootNodes, List.flatMap_nil, List.nil_append, List.mem_append,
      List.mem_singleton] at hq
    rcases hq with e | e
    · subst e
      exact ⟨haudio, hf2, .audio ⟨0, 0, 0⟩,
        by rw [Heap.set_mem_ne _ _ hne, Heap.set_mem_same], rfl⟩
    · subst e
      exact ⟨haafi, hf1, .iface { AAF_Iface.zero with Audio := audio, aafd := x },
        Heap.set_mem_same _ _ _, rfl⟩
  · intro q hq
    simp only [rootNodes, List.flatMap_nil, List.nil_append, List.mem_append,
      List.mem_singleton, not_or] at hq
    exact set2_keep _ _ hq.1 hq.2
  · rw [Heap.set_mem_ne _ _ hne, Heap.set_mem_same]
  · intro s hs
    simp at hs

theorem flatMap_length_ge (shape : List (Ptr × List Ptr)) :
    shape.length ≤ (shape.flatMap (fun s => s.2 ++ [s.1])).length := by
  induction shape with
  | nil => simp
  | cons a rest ih =>
    simp only [List.flatMap_cons, List.length_append, List.length_cons, List.length_nil]
    omega

theorem flatMap_length_mem {shape : List (Ptr × List Ptr)} {s : Ptr × List Ptr}
    (hs : s ∈ shape) : s.2.length + 1 ≤ (shape.flatMap (fun s => s.2 ++ [s.1])).length := by
  induction shape with
  | nil => simp at hs
  | cons a rest ih =>
    simp only [List.flatMap_cons, List.length_append, List.length_cons, List.length_nil]
    rcases List.mem_cons.mp hs with e | e
    · subst e
      omega
    · have := ih e
      omega

theorem rootNodes_length (aafi audio : Ptr) (shape : List (Ptr × List Ptr))
    (le lc : List Ptr) :
    (rootNodes aafi audio shape le lc).length =
      lc.length + (shape.flatMap (fun s => s.2 ++ [s.1])).length + le.length + 2 := by
  simp only [rootNodes, List.length_append, List.length_cons, List.length_nil]
  omega

/-- A run of creation calls on a built root, with fresh blocks, returns and
leaves a built root whose nodes are the former ones and the blocks of the
calls. -/
theorem runOps_built (MONO fuel : Nat) {h0 : Heap} {aafi audio : Ptr} :
    ∀ (ops : List Op) {h : Heap} {shape : List (Ptr × List Ptr)} {le lc : List Ptr},
      Built h0 h aafi audio shape le lc → OpsOK (shape.map Prod.fst) ops →
      (∀ o ∈ ops, o.alloc ≠ 0 ∧ h0.mem o.alloc = none ∧
        o.alloc ∉ rootNodes aafi audio shape le lc) →
      (ops.map Op.alloc).Nodup →
      (rootNodes aafi audio shape le lc).length + ops.length ≤ fuel + 2 →
      ∃ h1 shape1 le1 lc1, runOps MONO fuel h aafi ops = .ok h1 ∧
        Built h0 h1 aafi audio shape1 le1 lc1 ∧
        (rootNodes aafi audio shape1 le1 lc1).Perm
          (ops.map Op.alloc ++ rootNodes aafi audio shape le lc)
  | [], h, shape, le, lc, hb, _, _, _, _ =>
    ⟨h, shape, le, lc, rfl, hb, List.Perm.refl _⟩
  | o :: rest, h, shape, le, lc, hb, hok, hal, hnd, hfuel => by
    obtain ⟨ho0, hof, hoN⟩ := hal o (List.mem_cons_self _ _)
    simp only [List.map_cons, List.nodup_cons] at hnd
    have hlen := rootNodes_length aafi audio shape le lc
    have hl1 := flatMap_length_ge shape
    simp only [List.length_cons] at hfuel
    have htn : (shape.map Prod.fst).Nodup := by
      obtain ⟨_, _, _, _, _, _, _, _, _, _, hct, _⟩ := hb
      exact Chain.nodup hct
    have step : ∃ h1 shape1 le1 lc1, runOp MONO fuel h aafi o = .ok (h1, o.alloc) ∧
        Built h0 h1 aafi audio shape1 le1 lc1 ∧
        (rootNodes aafi audio shape1 le1 lc1).Perm
          (o.alloc :: rootNodes aafi audio shape le lc) ∧
        OpsOK (shape1.map Prod.fst) rest := by
      cases o with
      | track a =>
        obtain ⟨h1, hrun, hb1⟩ := built_track MONO fuel hb ho0 hof hoN (by omega)
        exact ⟨h1, _, _, _, hrun, hb1, rootNodes_track_perm _ _ _ _ _ _, by simpa using hok⟩
      | item t k a =>
        obtain ⟨ht, hk, hok1⟩ := hok
        have hfi : ∀ s ∈ shape, s.2.length ≤ fuel := by
          intro s hs
          have := flatMap_length_mem hs
          omega
        obtain ⟨h1, hrun, hb1⟩ := built_item fuel hb ht hk ho0 hof hoN hfi
        exact ⟨h1, _, _, _, hrun, hb1,
          rootNodes_item_perm _ _ _ _ _ _ ht htn, by rw [addItem_fst]; exact hok1⟩
      | essence a =>
        obtain ⟨h1, hrun, hb1⟩ := built_essence hb ho0 hof hoN
        exact ⟨h1, _, _, _, hrun, hb1, rootNodes_essence_perm _ _ _ _ _ _, hok⟩
      | comment a =>
        obtain ⟨h1, hrun, hb1⟩ := built_comment hb ho0 hof hoN
        exact ⟨h1, _, _, _, hrun, hb1, List.Perm.refl _, hok⟩
    obtain ⟨h1, shape1, le1, lc1, hrun, hb1, hperm, hok1⟩ := step
    have hal1 : ∀ o1 ∈ rest, o1.alloc ≠ 0 ∧ h0.mem o1.alloc = none ∧
        o1.alloc ∉ rootNodes aafi audio shape1 le1 lc1 := by
      intro o1 ho1
      obtain ⟨a1, a2, a3⟩ := hal o1 (List.mem_cons_of_mem _ ho1)
      refine ⟨a1, a2, fun hm => ?_⟩
      rcases List.mem_cons.mp (hperm.mem_iff.mp hm) with e | e
      · exact hnd.1 (e ▸ List.mem_map_of_mem _ ho1)
      · exact a3 e
    have hfuel1 : (rootNodes aafi audio shape1 le1 lc1).length + rest.length ≤ fuel + 2 := by
      rw [hperm.length_eq, List.length_cons]
      omega
    obtain ⟨h2, shape2, le2, lc2, hrun2, hb2, hperm2⟩ :=
      runOps_built MONO fuel rest hb1 hok1 hal1 hnd.2 hfuel1
    refine ⟨h2, shape2, le2, lc2, ?_, hb2, ?_⟩
    · simp [runOps, hrun, hrun2]
    · refine hperm2.trans ?_
      refine (List.Perm.append_left _ hperm).trans ?_
      simp only [List.map_cons, List.cons_append]
      exact List.perm_middle

theorem Heap.set_comm (h : Heap) {p q : Ptr} (a b : Obj) (hpq : p ≠ q) :
    (h.set p a).set q b = (h.set q b).set p a := by
  unfold Heap.set
  congr 1
  funext x
  by_cases h1 : x = p
  · subst h1
    simp [hpq]
  · simp [h1]

/-- The whole life of a root: `aafi_alloc`, the assignment of its result to
the variable at `v`, a run of creation calls, and `aafi_release (&v)`.  Every
block of the module is freed, and the heap is back to what it was. -/
theorem release_built (rel : Ptr → Ptr) (MONO fuel : Nat) (h0 : Heap)
    (aafd aafi_mem Audio_mem aaf v x0 : Ptr) (garbage : aafiAudio) (ops : List Op)
    (hnd : (aafi_mem :: Audio_mem :: ops.map Op.alloc).Nodup)
    (hfree : ∀ q ∈ aafi_mem :: Audio_mem :: ops.map Op.alloc, q ≠ 0 ∧ h0.mem q = none)
    (hops : OpsOK [] ops) (hfuel : ops.length ≤ fuel) (hv0 : v ≠ 0)
    (hv : h0.mem v = some (.ptrvar x0)) :
    ∃ h1 h2 h3, aafi_alloc h0 aafd aafi_mem Audio_mem garbage aaf = .ok (h1, aafi_mem) ∧
      runOps MONO fuel (h1.set v (.ptrvar aafi_mem)) aafi_mem ops = .ok h2 ∧
      aafi_release rel fuel h2 (.var v) = .ok h3 ∧
      h3.freed.Perm ((aafi_mem :: Audio_mem :: ops.map Op.alloc) ++ h0.freed) ∧
      (∀ q ∈ aafi_mem :: Audio_mem :: ops.map Op.alloc, h3.mem q = none) ∧
      (∀ q, q ≠ v → h3.mem q = h0.mem q) := by
  obtain ⟨ha0, haf⟩ := hfree aafi_mem (by simp)
  obtain ⟨hu0, huf⟩ := hfree Audio_mem (by simp)
  have hne : Audio_mem ≠ aafi_mem := by
    intro e
    simp [e] at hnd
  have hva : v ≠ aafi_mem := ne_of_dead hv haf
  have hvu : v ≠ Audio_mem := ne_of_dead hv huf
  have hH : ∀ q, q ≠ v → (h0.set v (.ptrvar aafi_mem)).mem q = h0.mem q :=
    fun q hq => Heap.set_mem_ne _ _ hq
  have hstart : Built (h0.set v (.ptrvar aafi_mem))
      (((h0.set Audio_mem (.audio ⟨0, 0, 0⟩)).set aafi_mem
        (.iface { AAF_Iface.zero with
          Audio := Audio_mem, aafd := if aafd ≠ 0 then aafd else aaf })).set v
        (.ptrvar aafi_mem)) aafi_mem Audio_mem [] [] [] := by
    rw [Heap.set_comm _ _ _ hva.symm, Heap.set_comm (p := Audio_mem) _ _ _ hvu.symm]
    exact built_alloc _ ha0 hu0 hne (by rw [hH _ hva.symm]; exact haf)
      (by rw [hH _ hvu.symm]; exact huf)
  have hal : ∀ o ∈ ops, o.alloc ≠ 0 ∧ (h0.set v (.ptrvar aafi_mem)).mem o.alloc = none ∧
      o.alloc ∉ rootNodes aafi_mem Audio_mem [] [] [] := by
    intro o ho
    have hm : o.alloc ∈ ops.map Op.alloc := List.mem_map_of_mem _ ho
    obtain ⟨h1, h2⟩ := hfree o.alloc (by simp [hm])
    refine ⟨h1, by rw [hH _ (ne_of_dead hv h2).symm]; exact h2, ?_⟩
    simp only [List.nodup_cons, List.mem_cons, not_or] at hnd
    simp only [rootNodes, List.flatMap_nil, List.nil_append, List.mem_append,
      List.mem_singleton, not_or]
    exact ⟨fun e => hnd.2.1 (e ▸ hm), fun e => hnd.1.2 (e ▸ hm)⟩
  have hnd1 : (ops.map Op.alloc).Nodup := by
    simp only [List.nodup_cons] at hnd
    exact hnd.2.2
  obtain ⟨h2, shape, le, lc, hrun, hb, hperm⟩ :=
    runOps_built MONO fuel ops hstart (by simpa using hops) hal hnd1
      (by simp [rootNodes]; omega)
  obtain ⟨hok, hblocks⟩ := built_rootOK hb
  have hplen := hperm.length_eq
  simp only [rootNodes, List.flatMap_nil, List.nil_append, List.length_append,
    List.length_map, List.length_cons, List.length_nil] at hplen
  have hl1 := flatMap_length_ge shape
  have hvN : v ∉ rootNodes aafi_mem Audio_mem shape le lc := by
    intro hm
    have := (hb.2.1 v hm).2.1
    rw [Heap.set_mem_same] at this
    cases this
  have hload : h2.load (.var v) = .ok aafi_mem := by
    have : h2.mem v = some (.ptrvar aafi_mem) := by
      rw [hb.2.2.1 v hvN, Heap.set_mem_same]
    simp [Heap.load, Heap.getPtrvar, hv0, this]
  have hfc : lc.length ≤ fuel := by omega
  have hft : shape.length ≤ fuel := by omega
  have hfe : le.length ≤ fuel := by omega
  have hfi : ∀ s ∈ shape, s.2.length ≤ fuel := by
    intro s hs
    have := flatMap_length_mem hs
    omega
  obtain ⟨h3, hrel, hF, _⟩ := release_spec rel hok (by rw [hblocks]; exact hb.1) hload
    (by rw [hblocks]; exact hvN) hfc hft hfi hfe
  rw [hblocks] at hF
  obtain ⟨hfreed, hdead, hsame⟩ := hF
  have hNperm : (rootNodes aafi_mem Audio_mem shape le lc).Perm
      (aafi_mem :: Audio_mem :: ops.map Op.alloc) := by
    refine hperm.trans ?_
    simp only [rootNodes, List.flatMap_nil, List.nil_append]
    refine List.perm_append_comm.trans ?_
    exact List.Perm.swap _ _ _
  refine ⟨_, h2, h3, aafi_alloc_eval h0 aafd aafi_mem Audio_mem aaf garbage ha0 hu0 hne, hrun,
    hrel, ?_, ?_, ?_⟩
  · rw [hfreed, hb.2.2.2.1]
    exact List.Perm.append_right _ ((List.reverse_perm _).trans hNperm)
  · intro q hq
    exact hdead q (hNperm.mem_iff.mpr hq)
  · intro q hqv
    by_cases hq : q ∈ rootNodes aafi_mem Audio_mem shape le lc
    · rw [hdead q hq, ← hH q hqv]
      exact (hb.2.1 q hq).2.1.symm
    · rw [hsame q hq (by simp), hb.2.2.1 q hq, hH q hqv]

/-! ### The example session -/

theorem exSession_track :
    TrackOK exSession (3, [4, 5]) ∧
      trackBlocks exSession (3, [4, 5]) = [10, 12, 13, 11, 4, 5, 3] := by
  refine ⟨⟨by decide, exSessionTrack, rfl, ?_, Or.inl rfl, Or.inl rfl,
    ⟨rfl, by decide, 5, rfl, rfl, by decide, 0, rfl, rfl⟩, ?_⟩, ?_⟩
  · intro q hq
    simp [nz, exSessionTrack] at hq
    subst hq
    rfl
  · intro x hx
    simp only [List.mem_cons, List.mem_singleton, List.not_mem_nil, or_false] at hx
    rcases hx with rfl | rfl
    · refine ⟨by decide, exSessionClip, rfl,
        Or.inl ⟨rfl, { aafiAudioClip.zero with track := 3, gain := 11 }, rfl,
          Or.inr ⟨exSessionGain, rfl, ?_⟩⟩⟩
      intro q hq
      simp [nz, exSessionGain] at hq
      rcases hq with rfl | rfl <;> rfl
    · refine ⟨by decide, exTrans 0 4 AAFI_TRANS_FADE_OUT, rfl,
        Or.inr ⟨rfl, { aafiTransition.zero with flags := AAFI_TRANS_FADE_OUT }, rfl, ?_⟩⟩
      intro q hq
      simp [nz, aafiTransition.zero] at hq
  · rfl

/-! ### Kinds of the freed blocks -/

theorem filter_aux {h : Heap} {l : List Ptr}
    (hl : ∀ q ∈ l, h.mem q = some .blob ∨ ∃ g, h.mem q = some (.gain g)) :
    l.filter (isTrack h) = [] ∧ l.filter (isItem h) = [] := by
  constructor <;>
  · rw [List.filter_eq_nil_iff]
    intro q hq
    rcases hl q hq with e | ⟨g, e⟩ <;> simp [isTrack, isItem, e]

theorem blobs_aux {h : Heap} {l : List Ptr} (hb : BlobsAt h l) :
    ∀ q ∈ nz l, h.mem q = some .blob ∨ ∃ g, h.mem q = some (.gain g) :=
  fun q hq => Or.inl (hb q hq)

theorem gain_aux {h : Heap} {gp : Ptr} (hg : GainOK h gp) :
    ∀ q ∈ gainBlocks h gp, h.mem q = some .blob ∨ ∃ g, h.mem q = some (.gain g) := by
  intro q hq
  by_cases h0 : gp = 0
  · simp [gainBlocks, h0] at hq
  · obtain ⟨g, hm, hb⟩ := hg.resolve_left h0
    simp only [gainBlocks, h0, if_false, hm, List.mem_append, List.mem_singleton] at hq
    rcases hq with hq | hq
    · exact Or.inl (hb q hq)
    · exact Or.inr ⟨g, hq ▸ hm⟩

theorem filter_self_item {h : Heap} {x : Ptr} {it : aafiTimelineItem}
    (hm : h.mem x = some (.item it)) :
    [x].filter (isTrack h) = [] ∧ [x].filter (isItem h) = [x] := by
  simp [isTrack, isItem, hm]

theorem item_kinds {h : Heap} {x : Ptr} (hx : ItemOK h x) :
    (itemBlocks h x).filter (isTrack h) = [] ∧ (itemBlocks h x).filter (isItem h) = [x] := by
  obtain ⟨_, it, hm, hk⟩ := hx
  obtain ⟨s1, s2⟩ := filter_self_item hm
  rcases hk with ⟨_, c, hd, hg⟩ | ⟨_, t, hd, hb⟩
  · obtain ⟨f1, f2⟩ := filter_aux (gain_aux hg)
    rw [itemBlocks_clip hm hd, List.filter_append, List.filter_append, f1, f2, s1, s2]
    exact ⟨rfl, rfl⟩
  · obtain ⟨f1, f2⟩ := filter_aux (blobs_aux hb)
    have e : itemBlocks h x = nz [t.value_a, t.value_b, t.time_a, t.time_b] ++ [x] := by
      simp only [itemBlocks, hm, hd]
    rw [e, List.filter_append, List.filter_append, f1, f2, s1, s2]
    exact ⟨rfl, rfl⟩

theorem items_kinds {h : Heap} :
    ∀ {l : List Ptr}, (∀ x ∈ l, ItemOK h x) →
      (l.flatMap (itemBlocks h)).filter (isTrack h) = [] ∧
      (l.flatMap (itemBlocks h)).filter (isItem h) = l
  | [], _ => ⟨rfl, rfl⟩
  | x :: l, hok => by
    obtain ⟨i1, i2⟩ := item_kinds (hok x (List.mem_cons_self _ _))
    obtain ⟨j1, j2⟩ := items_kinds (fun y hy => hok y (List.mem_cons_of_mem _ hy))
    simp only [List.flatMap_cons, List.filter_append, i1, i2, j1, j2, List.nil_append,
      List.singleton_append, and_self]

theorem track_kinds {h : Heap} {s : Ptr × List Ptr} (hs : TrackOK h s) :
    (trackBlocks h s).filter (isTrack h) = [s.1] ∧
      (trackBlocks h s).filter (isItem h) = s.2 := by
  obtain ⟨_, t, hm, hn, hg, hp, _, hok⟩ := hs
  obtain ⟨a1, a2⟩ := filter_aux (blobs_aux hn)
  obtain ⟨b1, b2⟩ := filter_aux (gain_aux hg)
  obtain ⟨c1, c2⟩ := filter_aux (gain_aux hp)
  obtain ⟨d1, d2⟩ := items_kinds hok
  have s1 : [s.1].filter (isTrack h) = [s.1] := by simp [isTrack, hm]
  have s2 : [s.1].filter (isItem h) = [] := by simp [isItem, hm]
  have e : trackBlocks h s = nz [t.name] ++ (gainBlocks h t.gain ++ (gainBlocks h t.pan ++
      (s.2.flatMap (itemBlocks h) ++ [s.1]))) := by
    simp only [trackBlocks, hm]
  rw [e]
  simp only [List.filter_append, a1, a2, b1, b2, c1, c2, d1, d2, s1, s2, List.nil_append,
    List.append_nil, and_self]

theorem tracks_kinds {h : Heap} :
    ∀ {shape : List (Ptr × List Ptr)}, (∀ s ∈ shape, TrackOK h s) →
      (shape.flatMap (trackBlocks h)).filter (isTrack h) = shape.map Prod.fst ∧
      (shape.flatMap (trackBlocks h)).filter (isItem h) = shape.flatMap Prod.snd
  | [], _ => ⟨rfl, rfl⟩
  | s :: rest, hok => by
    obtain ⟨i1, i2⟩ := track_kinds (hok s (List.mem_cons_self _ _))
    obtain ⟨j1, j2⟩ := tracks_kinds (fun y hy => hok y (List.mem_cons_of_mem _ hy))
    simp only [List.flatMap_cons, List.filter_append, i1, i2, j1, j2, List.map_cons,
      List.singleton_append, and_self]

theorem count_freed {B old : List Ptr} {q : Ptr} (hnd : B.Nodup) (hq : q ∈ B) :
    (B.reverse ++ old).count q = old.count q + 1 := by
  rw [List.count_append, List.count_reverse, List.count_eq_one_of_mem hnd hq]
  omega

/-! ### Freed lists and released roots -/

theorem exSession_root :
    RootOK exSession 1 [(3, [4, 5])] [7] [8] ∧
      rootBlocks exSession 1 [(3, [4, 5])] [7] [8] = [8, 10, 12, 13, 11, 4, 5, 3, 7, 2, 1] := by
  refine ⟨⟨by decide, exIface 8, ⟨0, 7, 3⟩, rfl, by decide, rfl, ?_,
    ⟨rfl, by decide, 0, rfl, rfl⟩, ?_, ⟨rfl, by decide, 0, rfl, rfl⟩, ?_,
    ⟨rfl, by decide, 0, rfl, rfl⟩, ?_, ?_⟩, rfl⟩
  · intro q hq
    simp [nz, exIface, AAF_Iface.zero] at hq
  · intro c hc
    simp only [List.mem_singleton] at hc
    subst hc
    refine ⟨by decide, ⟨0, 0, 0⟩, rfl, ?_⟩
    intro q hq
    simp [nz] at hq
  · intro s hs
    simp only [List.mem_singleton] at hs
    subst hs
    exact exSession_track.1
  · intro e he
    simp only [List.mem_singleton] at he
    subst he
    refine ⟨by decide, aafiAudioEssence.zero, rfl, ?_⟩
    intro q hq
    simp [nz, aafiAudioEssence.zero] at hq
  · intro q hq
    simp [nz] at hq

/-- C17: on a handle that holds a well-formed track list of `N` tracks
`shape` (each with a well-formed item list, an optional name, gain and pan) in
which no block is owned twice, `aafi_freeAudioTracks` returns; the blocks it
has freed, in order, are those of `trackBlocks` for each track in turn (the
name, the gain and the pan with their point arrays, then for each item the
gain with its point arrays of a clip or the non-null curve arrays of a
transition and the item, then the track), each of them once; the track nodes
among them are exactly the `N` tracks and the item nodes exactly the items of
the tracks; these blocks are dead afterwards, no other block has changed but
the one that holds the handle, and the handle holds null. -/
theorem C17_free_tracks_exact (fuel : Nat) (h : Heap) (tracks : Handle) (p : Ptr)
    (shape : List (Ptr × List Ptr)) (hload : h.load tracks = .ok p)
    (hc : Chain h.trackNext p (shape.map Prod.fst)) (hok : ∀ s ∈ shape, TrackOK h s)
    (hnd : (shape.flatMap (trackBlocks h)).Nodup)
    (hcell : tracks.cell ∉ shape.flatMap (trackBlocks h)) (hfuel : shape.length ≤ fuel)
    (hinner : ∀ s ∈ shape, s.2.length ≤ fuel) :
    ∃ h1, aafi_freeAudioTracks fuel h tracks = .ok h1 ∧
      h1.freed = (shape.flatMap (trackBlocks h)).reverse ++ h.freed ∧
      (shape.flatMap (trackBlocks h)).filter (isTrack h) = shape.map Prod.fst ∧
      ((shape.flatMap (trackBlocks h)).filter (isTrack h)).length = shape.length ∧
      (shape.flatMap (trackBlocks h)).filter (isItem h) = shape.flatMap Prod.snd ∧
      (∀ q ∈ shape.flatMap (trackBlocks h),
        h1.mem q = none ∧ h1.freed.count q = h.freed.count q + 1) ∧
      (∀ q, q ∉ shape.flatMap (trackBlocks h) → q ≠ tracks.cell → h1.mem q = h.mem q) ∧
      h1.load tracks = .ok 0 := by
  obtain ⟨h1, hrun, hF, _, hl, hfr, _⟩ :=
    freeAudioTracks_spec (R := []) (FreedFrom.start h [tracks.cell]) hload
      (List.mem_singleton.mpr rfl) (List.not_mem_nil _) hc hok (by simpa using hnd)
      (fun q hq hm => hcell (List.mem_singleton.mp hm ▸ hq)) hfuel hinner
  obtain ⟨hfreed, hdead, _⟩ := hF
  simp only [List.nil_append] at hfreed hdead
  obtain ⟨k1, k2⟩ := tracks_kinds hok
  refine ⟨h1, hrun, hfreed, k1, by rw [k1, List.length_map], k2, ?_, hfr, hl⟩
  intro q hq
  exact ⟨hdead q hq, by rw [hfreed]; exact count_freed hnd hq⟩

/-- Witness of C17: the track list of the example session, through
`&audio->Tracks`. -/
theorem C17_free_tracks_exact_witness :
    ∃ h1, aafi_freeAudioTracks 2 exSession (.audioTracks 2) = .ok h1 ∧
      h1.freed = ([(3, [4, 5])].flatMap (trackBlocks exSession)).reverse ++ exSession.freed ∧
      ([(3, [4, 5])].flatMap (trackBlocks exSession)).filter (isTrack exSession) =
        [(3, [4, 5])].map Prod.fst ∧
      (([(3, [4, 5])].flatMap (trackBlocks exSession)).filter (isTrack exSession)).length =
        [((3 : Ptr), ([4, 5] : List Ptr))].length ∧
      ([(3, [4, 5])].flatMap (trackBlocks exSession)).filter (isItem exSession) =
        [(3, [4, 5])].flatMap Prod.snd ∧
      (∀ q ∈ [(3, [4, 5])].flatMap (trackBlocks exSession),
        h1.mem q = none ∧ h1.freed.count q = exSession.freed.count q + 1) ∧
      (∀ q, q ∉ [(3, [4, 5])].flatMap (trackBlocks exSession) →
        q ≠ (Handle.audioTracks 2).cell → h1.mem q = exSession.mem q) ∧
      h1.load (.audioTracks 2) = .ok 0 :=
  C17_free_tracks_exact 2 exSession (.audioTracks 2) 3 [(3, [4, 5])] rfl
    ⟨rfl, by decide, 0, rfl, rfl⟩
    (fun s hs => by rw [List.mem_singleton.mp hs]; exact exSession_track.1)
    (by simp [exSession_track.2]) (by simp [exSession_track.2, Handle.cell]) (by decide)
    (fun s hs => by rw [List.mem_singleton.mp hs]; decide)

/-- C13: each of `aafi_freeTimelineItem`, `aafi_freeTimelineItems`,
`aafi_freeAudioTracks`, `aafi_freeAudioEssences` and `aafi_freeUserComments`,
called on a handle that holds a well-formed item or list, returns and leaves
null in the handle; a second call of the same list free on that handle then
returns the heap it is given. -/
theorem C13_free_nulls_handle (fuel : Nat) (h : Heap) (c : FreeCall)
    (hwf : c.WellFormed fuel h) :
    ∃ h1, c.run fuel h = .ok h1 ∧ c.held h1 = .ok 0 ∧
      (c.isList = true → c.run fuel h1 = .ok h1) := by
  cases c with
  | item hd =>
    obtain ⟨p, hload, hok, hnd, hcell⟩ := hwf
    obtain ⟨h1, hrun, _, _, hl, _⟩ :=
      freeTimelineItem_spec (R := []) (FreedFrom.start h [hd.cell]) hload
        (List.mem_singleton.mpr rfl) (List.not_mem_nil _) hok (by simpa using hnd)
        (fun q hq hm => hcell (List.mem_singleton.mp hm ▸ hq))
    exact ⟨h1, hrun, hl, fun hf => by simp [FreeCall.isList] at hf⟩
  | items hd =>
    obtain ⟨p, l, hload, hc, hok, hnd, hcell, hfuel⟩ := hwf
    obtain ⟨h1, hrun, _, _, hl, _⟩ :=
      freeTimelineItems_spec (R := []) (FreedFrom.start h [hd.cell]) hload
        (List.mem_singleton.mpr rfl) (List.not_mem_nil _) hc hok (by simpa using hnd)
        (fun q hq hm => hcell (List.mem_singleton.mp hm ▸ hq)) hfuel
    exact ⟨h1, hrun, hl, fun _ => freeTimelineItems_null fuel hl⟩
  | tracks hd =>
    obtain ⟨p, shape, hload, hc, hok, hnd, hcell, hfuel, hinner⟩ := hwf
    obtain ⟨h1, hrun, _, _, hl, _⟩ :=
      freeAudioTracks_spec (R := []) (FreedFrom.start h [hd.cell]) hload
        (List.mem_singleton.mpr rfl) (List.not_mem_nil _) hc hok (by simpa using hnd)
        (fun q hq hm => hcell (List.mem_singleton.mp hm ▸ hq)) hfuel hinner
    exact ⟨h1, hrun, hl, fun _ => freeAudioTracks_null fuel hl⟩
  | essences hd =>
    obtain ⟨p, l, hload, hc, hok, hnd, hcell, hfuel⟩ := hwf
    obtain ⟨h1, hrun, _, _, hl, _⟩ :=
      freeAudioEssences_spec (R := []) (FreedFrom.start h [hd.cell]) hload
        (List.mem_singleton.mpr rfl) (List.not_mem_nil _) hc hok (by simpa using hnd)
        (fun q hq hm => hcell (List.mem_singleton.mp hm ▸ hq)) hfuel
    exact ⟨h1, hrun, hl, fun _ => freeAudioEssences_null fuel hl⟩
  | comments hd =>
    obtain ⟨p, l, hload, hc, hok, hnd, hcell, hfuel⟩ := hwf
    obtain ⟨h1, hrun, _, _, hl, _⟩ :=
      freeUserComments_spec (R := []) (FreedFrom.start h [hd.cell]) hload
        (List.mem_singleton.mpr rfl) (List.not_mem_nil _) hc hok (by simpa using hnd)
        (fun q hq hm => hcell (List.mem_singleton.mp hm ▸ hq)) hfuel
    exact ⟨h1, hrun, hl, fun _ => freeUserComments_null fuel hl⟩

/-- Witness of C13: the track list of the example session, freed through
`&audio->Tracks`. -/
theorem C13_free_nulls_handle_witness :
    ∃ h1, (FreeCall.tracks (.audioTracks 2)).run 2 exSession = .ok h1 ∧
      (FreeCall.tracks (.audioTracks 2)).held h1 = .ok 0 ∧
      ((FreeCall.tracks (.audioTracks 2)).isList = true →
        (FreeCall.tracks (.audioTracks 2)).run 2 h1 = .ok h1) :=
  C13_free_nulls_handle 2 exSession (.tracks (.audioTracks 2))
    ⟨3, [(3, [4, 5])], rfl, ⟨rfl, by decide, 0, rfl, rfl⟩,
      fun s hs => by rw [List.mem_singleton.mp hs]; exact exSession_track.1,
      by simp [exSession_track.2], by simp [exSession_track.2, Handle.cell], by decide,
      fun s hs => by rw [List.mem_singleton.mp hs]; decide⟩

theorem root_mem_rootBlocks {h : Heap} {aafi : Ptr} {shape : List (Ptr × List Ptr)}
    {le lc : List Ptr} (hok : RootOK h aafi shape le lc) :
    aafi ∈ rootBlocks h aafi shape le lc := by
  obtain ⟨_, r, a, hr, _, ha, _⟩ := hok
  rw [rootBlocks_of_mem hr ha]
  simp

/-- C11: `aafi_release` on a handle that holds null returns the heap it is
given.  On a handle that holds a well-formed root it returns, but the handle
then still holds the address of the root, whose block is dead: the function
has no assignment `*aafi = NULL`.  A second `aafi_release` on the same handle
does not return: it reads the dead root (`(*aafi)->aafd`). -/
theorem C11_release_twice (rel : Ptr → Ptr) (fuel : Nat) (h : Heap) (hd : Handle)
    (aafi : Ptr) (shape : List (Ptr × List Ptr)) (le lc : List Ptr)
    (hok : RootOK h aafi shape le lc) (hnd : (rootBlocks h aafi shape le lc).Nodup)
    (hload : h.load hd = .ok aafi) (hcell : hd.cell ∉ rootBlocks h aafi shape le lc)
    (hfc : lc.length ≤ fuel) (hft : shape.length ≤ fuel)
    (hfi : ∀ s ∈ shape, s.2.length ≤ fuel) (hfe : le.length ≤ fuel) :
    (∀ g : Heap, g.load hd = .ok 0 → aafi_release rel fuel g hd = .ok g) ∧
    ∃ h1, aafi_release rel fuel h hd = .ok h1 ∧ h1.load hd = .ok aafi ∧ aafi ≠ 0 ∧
      h1.mem aafi = none ∧ aafi_release rel fuel h1 hd = .error .invalidDeref := by
  refine ⟨fun g hg => release_null rel fuel hg, ?_⟩
  obtain ⟨h1, hrun, hF, hl⟩ := release_spec rel hok hnd hload hcell hfc hft hfi hfe
  have ha0 : aafi ≠ 0 := hok.1
  have hdead : h1.mem aafi = none := hF.2.1 aafi (root_mem_rootBlocks hok)
  refine ⟨h1, hrun, hl, ha0, hdead, ?_⟩
  simp [aafi_release, hl, ha0, bind, Except.bind, Heap.modifyIface, Heap.getIface, hdead]

/-- Witness of C11: the example session, released twice through the variable
at `9`. -/
theorem C11_release_twice_witness :
    (∀ g : Heap, g.load (.var 9) = .ok 0 → aafi_release id 2 g (.var 9) = .ok g) ∧
    ∃ h1, aafi_release id 2 exSession (.var 9) = .ok h1 ∧ h1.load (.var 9) = .ok 1 ∧
      (1 : Ptr) ≠ 0 ∧ h1.mem 1 = none ∧
      aafi_release id 2 h1 (.var 9) = .error .invalidDeref :=
  C11_release_twice id 2 exSession (.var 9) 1 [(3, [4, 5])] [7] [8] exSession_root.1
    (by simp [exSession_root.2]) rfl (by simp [exSession_root.2, Handle.cell]) (by decide)
    (by decide) (fun s hs => by rw [List.mem_singleton.mp hs]; decide) (by decide)

/-- C18: take a heap in which the blocks that `calloc` and `malloc` will give
are free, and run `aafi_alloc`, the assignment of its result to the variable
at `v`, any sequence of successful `aafi_newAudioTrack`,
`aafi_newTimelineItem` (on tracks of this root), `aafi_newAudioEssence` and
`aafi_newUserComment` (through `&aafi->Comments`) calls, and then
`aafi_release (&v)`.  All of it returns; the blocks freed are the root, its
container and the node of every creation call, each exactly once; each of them
is dead afterwards; and every block other than `v` is as it was before
`aafi_alloc`, so no allocation of the module remains live. -/
theorem C18_release_frees_all (rel : Ptr → Ptr) (MONO fuel : Nat) (h0 : Heap)
    (aafd aafi_mem Audio_mem aaf v x0 : Ptr) (garbage : aafiAudio) (ops : List Op)
    (hnd : (aafi_mem :: Audio_mem :: ops.map Op.alloc).Nodup)
    (hfree : ∀ q ∈ aafi_mem :: Audio_mem :: ops.map Op.alloc, q ≠ 0 ∧ h0.mem q = none)
    (hops : OpsOK [] ops) (hfuel : ops.length ≤ fuel) (hv0 : v ≠ 0)
    (hv : h0.mem v = some (.ptrvar x0)) :
    ∃ h1 h2 h3, aafi_alloc h0 aafd aafi_mem Audio_mem garbage aaf = .ok (h1, aafi_mem) ∧
      runOps MONO fuel (h1.set v (.ptrvar aafi_mem)) aafi_mem ops = .ok h2 ∧
      aafi_release rel fuel h2 (.var v) = .ok h3 ∧
      h3.freed.Perm ((aafi_mem :: Audio_mem :: ops.map Op.alloc) ++ h0.freed) ∧
      (∀ q ∈ aafi_mem :: Audio_mem :: ops.map Op.alloc,
        h3.mem q = none ∧ h3.freed.count q = h0.freed.count q + 1) ∧
      (∀ q, q ≠ v → h3.mem q = h0.mem q) := by
  obtain ⟨h1, h2, h3, e1, e2, e3, hperm, hdead, hsame⟩ :=
    release_built rel MONO fuel h0 aafd aafi_mem Audio_mem aaf v x0 garbage ops hnd hfree hops
      hfuel hv0 hv
  refine ⟨h1, h2, h3, e1, e2, e3, hperm, fun q hq => ⟨hdead q hq, ?_⟩, hsame⟩
  rw [hperm.count_eq, List.count_append, List.count_eq_one_of_mem hnd hq]
  omega

/-- Witness of C18: a root with a track, a clip and a fade-out on it, an
essence and a comment, built over a heap that holds only the variable at
`9`. -/
theorem C18_release_frees_all_witness :
    ∃ h1 h2 h3, aafi_alloc (Heap.empty.set 9 (.ptrvar 0)) 0 1 2 ⟨7, 8, 9⟩ 5 = .ok (h1, 1) ∧
      runOps 1 5 (h1.set 9 (.ptrvar 1)) 1
        [.track 3, .item 3 AAFI_CLIP 4, .essence 6, .comment 7, .item 3 AAFI_TRANS 8] =
        .ok h2 ∧
      aafi_release id 5 h2 (.var 9) = .ok h3 ∧
      h3.freed.Perm ((1 :: 2 ::
        [Op.track 3, .item 3 AAFI_CLIP 4, .essence 6, .comment 7,
          .item 3 AAFI_TRANS 8].map Op.alloc) ++ (Heap.empty.set 9 (.ptrvar 0)).freed) ∧
      (∀ q ∈ 1 :: 2 :: [Op.track 3, .item 3 AAFI_CLIP 4, .essence 6, .comment 7,
          .item 3 AAFI_TRANS 8].map Op.alloc,
        h3.mem q = none ∧
          h3.freed.count q = (Heap.empty.set 9 (.ptrvar 0)).freed.count q + 1) ∧
      (∀ q, q ≠ 9 → h3.mem q = (Heap.empty.set 9 (.ptrvar 0)).mem q) :=
  C18_release_frees_all id 1 5 (Heap.empty.set 9 (.ptrvar 0)) 0 1 2 5 9 0 ⟨7, 8, 9⟩
    [.track 3, .item 3 AAFI_CLIP 4, .essence 6, .comment 7, .item 3 AAFI_TRANS 8]
    (by decide) (by decide) (by simp [OpsOK]) (by decide) (by decide) rfl

/-! ### The handle of `aafi_newUserComment` -/

theorem newUserComment_null (h : Heap) (alloc : Ptr) (halloc : alloc ≠ 0) :
    aafi_newUserComment h .null alloc = .error .nullDeref := by
  simp [aafi_newUserComment, halloc, bind, Except.bind, Heap.storeComment]

/-- Through a non-null handle that can be read, `aafi_newUserComment` with a
successful allocation returns the new comment. -/
theorem newUserComment_ok {h : Heap} {CommentList : CommentHandle} {head alloc : Ptr}
    (hload : h.loadComment CommentList = .ok head) (halloc : alloc ≠ 0)
    (hfresh : h.mem alloc = none) :
    ∃ h1, aafi_newUserComment h CommentList alloc = .ok (h1, alloc) := by
  cases CommentList with
  | null => simp [Heap.loadComment] at hload
  | var a =>
    have ha0 : a ≠ 0 := by
      intro e
      simp [Heap.loadComment, Heap.getPtrvar, e] at hload
    have ham : h.mem a = some (.ptrvar head) := by
      simp only [Heap.loadComment, Heap.getPtrvar, ha0, if_false] at hload
      cases hm : h.mem a with
      | none => simp [hm] at hload
      | some o =>
        cases o <;> simp [hm] at hload
        rw [hload]
    have haa : a ≠ alloc := ne_of_dead ham hfresh
    exact ⟨_, by
      simp [aafi_newUserComment, halloc, bind, Except.bind, pure, Except.pure,
        Heap.loadComment, Heap.getPtrvar, ha0, Heap.set_mem_ne, haa, ham, Heap.modifyComment,
        Heap.getComment, Heap.set_mem_same, Heap.storeComment]
      rfl⟩
  | ifaceComments a =>
    have ha0 : a ≠ 0 := by
      intro e
      simp [Heap.loadComment, Heap.getIface, e] at hload
    obtain ⟨r, ham⟩ : ∃ r, h.mem a = some (.iface r) := by
      simp only [Heap.loadComment, Heap.getIface, ha0, if_false] at hload
      cases hm : h.mem a with
      | none => simp [hm] at hload
      | some o =>
        cases o <;> simp [hm] at hload
        exact ⟨_, rfl⟩
    have haa : a ≠ alloc := ne_of_dead ham hfresh
    exact ⟨_, by
      simp [aafi_newUserComment, halloc, bind, Except.bind, pure, Except.pure,
        Heap.loadComment, Heap.getIface, ha0, Heap.set_mem_ne, haa, ham, Heap.modifyComment,
        Heap.getComment, Heap.set_mem_same, Heap.storeComment, Heap.modifyIface]
      rfl⟩
  | commentNext c =>
    have hc0 : c ≠ 0 := by
      intro e
      simp [Heap.loadComment, Heap.commentNext, Heap.getComment, e] at hload
    obtain ⟨x, hcm⟩ : ∃ x, h.mem c = some (.comment x) := by
      simp only [Heap.loadComment, Heap.commentNext, Heap.getComment, hc0, if_false] at hload
      cases hm : h.mem c with
      | none => simp [hm] at hload
      | some o =>
        cases o <;> simp [hm] at hload
        exact ⟨_, rfl⟩
    have hca : c ≠ alloc := ne_of_dead hcm hfresh
    exact ⟨_, by
      simp [aafi_newUserComment, halloc, bind, Except.bind, pure, Except.pure,
        Heap.loadComment, Heap.commentNext, Heap.getComment, hc0, Heap.set_mem_ne, hca, hcm,
        Heap.modifyComment, Heap.set_mem_same, Heap.storeComment]
      rfl⟩

/-- C21: with a successful allocation and a handle that is null or can be
read, `aafi_newUserComment (CommentList)` returns iff `CommentList` is not
null.  Through a null handle the call takes the else-branch, whose store
`*CommentList = UserComment` goes through the null handle: the call does not
return the new comment, on any heap. -/
theorem C21_newUserComment_handle (h : Heap) (CommentList : CommentHandle) (alloc : Ptr)
    (halloc : alloc ≠ 0) (hfresh : h.mem alloc = none)
    (hvalid : CommentList = .null ∨ ∃ head, h.loadComment CommentList = .ok head) :
    ((∃ r, aafi_newUserComment h CommentList alloc = .ok r) ↔ CommentList ≠ .null) ∧
    (CommentList ≠ .null → ∃ h1, aafi_newUserComment h CommentList alloc = .ok (h1, alloc)) ∧
    (CommentList = .null →
      aafi_newUserComment h CommentList alloc = .error .nullDeref ∧
      (h.set alloc (.comment aafiUserComment.zero)).storeComment CommentList alloc =
        .error .nullDeref) ∧
    (∀ g, aafi_newUserComment g .null alloc = .error .nullDeref) := by
  have hok : CommentList ≠ .null →
      ∃ h1, aafi_newUserComment h CommentList alloc = .ok (h1, alloc) := by
    intro hne
    rcases hvalid with e | ⟨head, hl⟩
    · exact absurd e hne
    · exact newUserComment_ok hl halloc hfresh
  refine ⟨⟨?_, ?_⟩, hok, ?_, fun g => newUserComment_null g alloc halloc⟩
  · rintro ⟨r, hr⟩ e
    rw [e, newUserComment_null h alloc halloc] at hr
    cases hr
  · intro hne
    obtain ⟨h1, hrun⟩ := hok hne
    exact ⟨_, hrun⟩
  · intro e
    subst e
    exact ⟨newUserComment_null h alloc halloc, rfl⟩

/-- Witness of C21: the handle `&v` of the variable at `5`, which holds the
comment at `3`. -/
theorem C21_newUserComment_handle_witness :
    ((∃ r, aafi_newUserComment exCommentVar (.var 5) 4 = .ok r) ↔
      CommentHandle.var 5 ≠ .null) ∧
    (CommentHandle.var 5 ≠ .null →
      ∃ h1, aafi_newUserComment exCommentVar (.var 5) 4 = .ok (h1, 4)) ∧
    (CommentHandle.var 5 = .null →
      aafi_newUserComment exCommentVar (.var 5) 4 = .error .nullDeref ∧
      (exCommentVar.set 4 (.comment aafiUserComment.zero)).storeComment (.var 5) 4 =
        .error .nullDeref) ∧
    (∀ g, aafi_newUserComment g .null 4 = .error .nullDeref) :=
  C21_newUserComment_handle exCommentVar (.var 5) 4 (by decide) rfl (Or.inr ⟨3, rfl⟩)

/-! ### Frame of the creators -/

theorem sameBut_set2 (h : Heap) (c1 c2 : Ptr) (o1 o2 : Obj) (cells : List Ptr)
    (h1 : c1 ∈ cells) (h2 : c2 ∈ cells) : SameBut h ((h.set c1 o1).set c2 o2) cells :=
  ⟨rfl, fun _ hq => set2_keep o1 o2 (fun e => hq (e ▸ h1)) (fun e => hq (e ▸ h2))⟩

theorem sameBut_set3 (h : Heap) (c1 c2 c3 : Ptr) (o1 o2 o3 : Obj) (cells : List Ptr)
    (h1 : c1 ∈ cells) (h2 : c2 ∈ cells) (h3 : c3 ∈ cells) :
    SameBut h (((h.set c1 o1).set c2 o2).set c3 o3) cells :=
  ⟨rfl, fun _ hq => set3_keep o1 o2 o3 (fun e => hq (e ▸ h1)) (fun e => hq (e ▸ h2))
    (fun e => hq (e ▸ h3))⟩

/-- The frame of a successful `aafi_newAudioTrack`. -/
theorem newAudioTrack_frame (MONO fuel : Nat) (h : Heap) (aafi alloc : Ptr) (r : AAF_Iface)
    (a : aafiAudio) (l : List Ptr) (haafi : aafi ≠ 0) (hr : h.mem aafi = some (.iface r))
    (haudio : r.Audio ≠ 0) (ha : h.mem r.Audio = some (.audio a))
    (hchain : Chain h.trackNext a.Tracks l) (hfuel : l.length ≤ fuel)
    (halloc : alloc ≠ 0) (hfresh : h.mem alloc = none) :
    ∃ h1, aafi_newAudioTrack MONO fuel h aafi alloc = .ok (h1, alloc) ∧
      h1.mem alloc = some (.track (createdTrack MONO r.Audio)) ∧
      h1.mem aafi = some (.iface { r with ctx := { r.ctx with current_track := alloc } }) ∧
      (l = [] → h1.mem r.Audio = some (.audio { a with Tracks := alloc }) ∧
        SameBut h h1 [alloc, aafi, r.Audio]) ∧
      (∀ l0 x, l = l0 ++ [x] → h1.mem r.Audio = some (.audio a) ∧
        (∃ tx, h.mem x = some (.track tx) ∧ h1.mem x = some (.track { tx with next := alloc })) ∧
        SameBut h h1 [alloc, aafi, x]) ∧
      (∀ q t, q ∈ l → h.mem q = some (.track t) →
        ∃ t1, h1.mem q = some (.track t1) ∧ { t1 with next := t.next } = t) ∧
      (∀ q it, h.mem q = some (.item it) → h1.mem q = some (.item it)) ∧
      (∀ q e, h.mem q = some (.essence e) → h1.mem q = some (.essence e)) ∧
      (∀ q c, h.mem q = some (.comment c) → h1.mem q = some (.comment c)) := by
  have hna : aafi ≠ alloc := ne_of_dead hr hfresh
  have hua : r.Audio ≠ alloc := ne_of_dead ha hfresh
  have hau : aafi ≠ r.Audio := ne_of_mem hr ha (by simp)
  rcases List.eq_nil_or_concat l with hl | ⟨l1, x, hl⟩
  · subst hl
    have hi : a.Tracks = 0 := hchain
    have hkeep : ∀ q o, h.mem q = some o → (∀ v, o ≠ .iface v) → (∀ v, o ≠ .audio v) →
        (((h.set r.Audio (.audio { a with Tracks := alloc })).set alloc
          (.track (createdTrack MONO r.Audio))).set aafi
          (.iface { r with ctx := { r.ctx with current_track := alloc } })).mem q = some o := by
      intro q o hq h1 h2
      rw [set3_keep _ _ _ (ne_of_mem hq ha (h2 _)) (ne_of_dead hq hfresh)
        (ne_of_mem hq hr (h1 _))]
      exact hq
    refine ⟨_, newAudioTrack_empty MONO fuel h aafi alloc r a haafi hr haudio ha hi halloc
      hfresh, ?_, Heap.set_mem_same _ _ _, ?_, ?_, ?_, ?_, ?_, ?_⟩
    · rw [Heap.set_mem_ne _ _ hna.symm, Heap.set_mem_same]
    · intro _
      refine ⟨?_, sameBut_set3 _ _ _ _ _ _ _ _ (by simp) (by simp) (by simp)⟩
      rw [Heap.set_mem_ne _ _ hau.symm, Heap.set_mem_ne _ _ hua, Heap.set_mem_same]
    · intro l0 x e
      simp at e
    · intro q t hq _
      simp at hq
    · exact fun q it hq => hkeep q _ hq (by simp) (by simp)
    · exact fun q e hq => hkeep q _ hq (by simp) (by simp)
    · exact fun q c hq => hkeep q _ hq (by simp) (by simp)
  · subst hl
    rw [List.concat_eq_append] at hchain hfuel
    obtain ⟨hx0, tx, hx⟩ := Chain.track_live hchain (x := x) (by simp)
    have hf : l1.length < fuel := by
      simp at hfuel
      omega
    have hxa : x ≠ alloc := ne_of_dead hx hfresh
    have hxr : x ≠ aafi := ne_of_mem hx hr (by simp)
    have hux : r.Audio ≠ x := ne_of_mem ha hx (by simp)
    have hkeep : ∀ q o, h.mem q = some o → (∀ v, o ≠ .iface v) → q ≠ x →
        (((h.set x (.track { tx with next := alloc })).set alloc
          (.track (createdTrack MONO r.Audio))).set aafi
          (.iface { r with ctx := { r.ctx with current_track := alloc } })).mem q = some o := by
      intro q o hq h1 h2
      rw [set3_keep _ _ _ h2 (ne_of_dead hq hfresh) (ne_of_mem hq hr (h1 _))]
      exact hq
    have hxm : (((h.set x (.track { tx with next := alloc })).set alloc
          (.track (createdTrack MONO r.Audio))).set aafi
          (.iface { r with ctx := { r.ctx with current_track := alloc } })).mem x =
        some (.track { tx with next := alloc }) := by
      rw [Heap.set_mem_ne _ _ hxr, Heap.set_mem_ne _ _ hxa, Heap.set_mem_same]
    refine ⟨_, newAudioTrack_nonempty MONO fuel h aafi alloc x r a tx l1 haafi hr haudio ha
      hchain hf hx halloc hfresh, ?_, Heap.set_mem_same _ _ _, ?_, ?_, ?_, ?_, ?_, ?_⟩
    · rw [Heap.set_mem_ne _ _ hna.symm, Heap.set_mem_same]
    · intro e
      simp at e
    · intro l0 y e
      rw [List.concat_eq_append] at e
      have exy : x = y := by
        have := (List.append_inj' e rfl).2
        simpa using this
      subst exy
      refine ⟨hkeep _ _ ha (by simp) hux, ⟨tx, hx, hxm⟩,
        sameBut_set3 _ _ _ _ _ _ _ _ (by simp) (by simp) (by simp)⟩
    · intro q t _ hq
      by_cases e : q = x
      · subst e
        rw [hx] at hq
        cases hq
        exact ⟨_, hxm, rfl⟩
      · exact ⟨t, hkeep q _ hq (by simp) e, rfl⟩
    · exact fun q it hq => hkeep q _ hq (by simp) (ne_of_mem hq hx (by simp))
    · exact fun q e hq => hkeep q _ hq (by simp) (ne_of_mem hq hx (by simp))
    · exact fun q c hq => hkeep q _ hq (by simp) (ne_of_mem hq hx (by simp))

/-- The frame of a successful `aafi_newAudioEssence`. -/
theorem newAudioEssence_frame (h : Heap) (aafi alloc : Ptr) (r : AAF_Iface) (a : aafiAudio)
    (haafi : aafi ≠ 0) (hr : h.mem aafi = some (.iface r)) (haudio : r.Audio ≠ 0)
    (ha : h.mem r.Audio = some (.audio a)) (halloc : alloc ≠ 0)
    (hfresh : h.mem alloc = none) :
    ∃ h1, aafi_newAudioEssence h aafi alloc = .ok (h1, alloc) ∧
      h1.mem alloc = some (.essence { aafiAudioEssence.zero with next := a.Essences }) ∧
      h1.mem r.Audio = some (.audio { a with Essences := alloc }) ∧
      SameBut h h1 [alloc, r.Audio] ∧
      (∀ q t, h.mem q = some (.track t) → h1.mem q = some (.track t)) ∧
      (∀ q it, h.mem q = some (.item it) → h1.mem q = some (.item it)) ∧
      (∀ q e, h.mem q = some (.essence e) → h1.mem q = some (.essence e)) ∧
      (∀ q c, h.mem q = some (.comment c) → h1.mem q = some (.comment c)) := by
  have hua : r.Audio ≠ alloc := ne_of_dead ha hfresh
  have hkeep : ∀ q o, h.mem q = some o → (∀ v, o ≠ .audio v) →
      ((h.set alloc (.essence { aafiAudioEssence.zero with next := a.Essences })).set r.Audio
        (.audio { a with Essences := alloc })).mem q = some o := by
    intro q o hq h2
    rw [set2_keep _ _ (ne_of_dead hq hfresh) (ne_of_mem hq ha (h2 _))]
    exact hq
  refine ⟨_, newAudioEssence_eval h aafi alloc r a haafi hr haudio ha halloc hfresh, ?_,
    Heap.set_mem_same _ _ _, sameBut_set2 _ _ _ _ _ _ (by simp) (by simp), ?_, ?_, ?_, ?_⟩
  · rw [Heap.set_mem_ne _ _ hua.symm, Heap.set_mem_same]
  · exact fun q t hq => hkeep q _ hq (by simp)
  · exact fun q it hq => hkeep q _ hq (by simp)
  · exact fun q e hq => hkeep q _ hq (by simp)
  · exact fun q c hq => hkeep q _ hq (by simp)

/-- The frame of a successful `aafi_newTimelineItem` on a non-null track. -/
theorem newTimelineItem_frame (fuel : Nat) (h : Heap) (track kind alloc : Ptr)
    (t : aafiAudioTrack) (l : List Ptr) (htrack : track ≠ 0)
    (hmem : h.mem track = some (.track t)) (hchain : Chain h.itemNext t.Items l)
    (hfuel : l.length ≤ fuel) (hkind : kind = AAFI_CLIP ∨ kind = AAFI_TRANS)
    (halloc : alloc ≠ 0) (hfresh : h.mem alloc = none) :
    ∃ h1, aafi_newTimelineItem fuel h track kind alloc = .ok (h1, alloc) ∧
      (∃ pv, h1.mem alloc = some (.item (createdItem track kind pv))) ∧
      (l = [] → h1.mem track = some (.track { t with Items := alloc }) ∧
        SameBut h h1 [alloc, track]) ∧
      (∀ l0 x, l = l0 ++ [x] → h1.mem track = some (.track t) ∧
        (∃ ix, h.mem x = some (.item ix) ∧ h1.mem x = some (.item { ix with next := alloc })) ∧
        SameBut h h1 [alloc, x]) ∧
      (∀ q it, h.mem q = some (.item it) →
        ∃ it1, h1.mem q = some (.item it1) ∧ { it1 with next := it.next } = it) ∧
      (∀ q t1, q ≠ track → h.mem q = some (.track t1) → h1.mem q = some (.track t1)) ∧
      (∀ q e, h.mem q = some (.essence e) → h1.mem q = some (.essence e)) ∧
      (∀ q c, h.mem q = some (.comment c) → h1.mem q = some (.comment c)) := by
  have hta : track ≠ alloc := ne_of_dead hmem hfresh
  rcases List.eq_nil_or_concat l with hl | ⟨l1, x, hl⟩
  · subst hl
    have hi : t.Items = 0 := hchain
    have hkeep : ∀ q o, h.mem q = some o → q ≠ track →
        ((h.set track (.track { t with Items := alloc })).set alloc
          (.item (createdItem track kind 0))).mem q = some o := by
      intro q o hq h2
      rw [set2_keep _ _ h2 (ne_of_dead hq hfresh)]
      exact hq
    refine ⟨_, newTimelineItem_empty fuel h track alloc kind t htrack hmem hi hkind halloc
      hfresh, ⟨0, Heap.set_mem_same _ _ _⟩, ?_, ?_, ?_, ?_, ?_, ?_⟩
    · intro _
      refine ⟨?_, sameBut_set2 _ _ _ _ _ _ (by simp) (by simp)⟩
      rw [Heap.set_mem_ne _ _ hta, Heap.set_mem_same]
    · intro l0 x e
      simp at e
    · exact fun q it hq => ⟨it, hkeep q _ hq (ne_of_mem hq hmem (by simp)), rfl⟩
    · exact fun q t1 hq hm => hkeep q _ hm hq
    · exact fun q e hq => hkeep q _ hq (ne_of_mem hq hmem (by simp))
    · exact fun q c hq => hkeep q _ hq (ne_of_mem hq hmem (by simp))
  · subst hl
    rw [List.concat_eq_append] at hchain hfuel
    obtain ⟨hx0, ix, hx⟩ := Chain.item_live hchain (x := x) (by simp)
    have hf : l1.length < fuel := by
      simp at hfuel
      omega
    have hxa : x ≠ alloc := ne_of_dead hx hfresh
    have hkeep : ∀ q o, h.mem q = some o → q ≠ x →
        ((h.set x (.item { ix with next := alloc })).set alloc
          (.item (createdItem track kind x))).mem q = some o := by
      intro q o hq h2
      rw [set2_keep _ _ h2 (ne_of_dead hq hfresh)]
      exact hq
    have hxm : ((h.set x (.item { ix with next := alloc })).set alloc
          (.item (createdItem track kind x))).mem x = some (.item { ix with next := alloc }) := by
      rw [Heap.set_mem_ne _ _ hxa, Heap.set_mem_same]
    refine ⟨_, newTimelineItem_nonempty fuel h track alloc kind x t ix l1 htrack hmem hchain hf
      hx hkind halloc hfresh, ⟨x, Heap.set_mem_same _ _ _⟩, ?_, ?_, ?_, ?_, ?_, ?_⟩
    · intro e
      simp at e
    · intro l0 y e
      rw [List.concat_eq_append] at e
      have exy : x = y := by
        have := (List.append_inj' e rfl).2
        simpa using this
      subst exy
      exact ⟨hkeep _ _ hmem (ne_of_mem hmem hx (by simp)), ⟨ix, hx, hxm⟩,
        sameBut_set2 _ _ _ _ _ _ (by simp) (by simp)⟩
    · intro q it hq
      by_cases e : q = x
      · subst e
        rw [hx] at hq
        cases hq
        exact ⟨_, hxm, rfl⟩
      · exact ⟨it, hkeep q _ hq e, rfl⟩
    · exact fun q t1 _ hm => hkeep q _ hm (ne_of_mem hm hx (by simp))
    · exact fun q e hq => hkeep q _ hq (ne_of_mem hq hx (by simp))
    · exact fun q c hq => hkeep q _ hq (ne_of_mem hq hx (by simp))

/-- C22: on a root whose container has a well-formed track list, a successful
`aafi_newAudioTrack` writes the new block, `ctx.current_track` of the root and
either `Audio->Tracks` (empty list) or `next` of the former last track, and
nothing else: every other block, every other field of the existing tracks,
and every item, essence and comment is as before.  A successful
`aafi_newAudioEssence` writes the new block and `Audio->Essences` and nothing
else.  A successful `aafi_newTimelineItem` on a non-null track with a
well-formed item list writes the new block and either `Items` of the track
(empty list) or `next` of the former last item, and nothing else: `type`,
`prev` and the payload of every existing item, every other track, and every
essence and comment are as before.  None of them frees a block. -/
theorem C22_creators_frame (MONO fuel : Nat) (h : Heap) (aafi alloc track kind : Ptr)
    (r : AAF_Iface) (a : aafiAudio) (lt li : List Ptr) (t : aafiAudioTrack)
    (haafi : aafi ≠ 0) (hr : h.mem aafi = some (.iface r)) (haudio : r.Audio ≠ 0)
    (ha : h.mem r.Audio = some (.audio a)) (hct : Chain h.trackNext a.Tracks lt)
    (hft : lt.length ≤ fuel) (htrack : track ≠ 0) (ht : h.mem track = some (.track t))
    (hci : Chain h.itemNext t.Items li) (hfi : li.length ≤ fuel)
    (hkind : kind = AAFI_CLIP ∨ kind = AAFI_TRANS) (halloc : alloc ≠ 0)
    (hfresh : h.mem alloc = none) :
    (∃ h1, aafi_newAudioTrack MONO fuel h aafi alloc = .ok (h1, alloc) ∧
      h1.mem alloc = some (.track (createdTrack MONO r.Audio)) ∧
      h1.mem aafi =
        some (.iface { r with ctx := { r.ctx with current_track := alloc } }) ∧
      (lt = [] → h1.mem r.Audio = some (.audio { a with Tracks := alloc }) ∧
        SameBut h h1 [alloc, aafi, r.Audio]) ∧
      (∀ l0 x, lt = l0 ++ [x] → h1.mem r.Audio = some (.audio a) ∧
        (∃ tx, h.mem x = some (.track tx) ∧
          h1.mem x = some (.track { tx with next := alloc })) ∧
        SameBut h h1 [alloc, aafi, x]) ∧
      (∀ q t0, q ∈ lt → h.mem q = some (.track t0) →
        ∃ t1, h1.mem q = some (.track t1) ∧ { t1 with next := t0.next } = t0) ∧
      (∀ q it, h.mem q = some (.item it) → h1.mem q = some (.item it)) ∧
      (∀ q e, h.mem q = some (.essence e) → h1.mem q = some (.essence e)) ∧
      (∀ q c, h.mem q = some (.comment c) → h1.mem q = some (.comment c))) ∧
    (∃ h1, aafi_newAudioEssence h aafi alloc = .ok (h1, alloc) ∧
      h1.mem alloc = some (.essence { aafiAudioEssence.zero with next := a.Essences }) ∧
      h1.mem r.Audio = some (.audio { a with Essences := alloc }) ∧
      SameBut h h1 [alloc, r.Audio] ∧
      (∀ q t0, h.mem q = some (.track t0) → h1.mem q = some (.track t0)) ∧
      (∀ q it, h.mem q = some (.item it) → h1.mem q = some (.item it)) ∧
      (∀ q e, h.mem q = some (.essence e) → h1.mem q = some (.essence e)) ∧
      (∀ q c, h.mem q = some (.comment c) → h1.mem q = some (.comment c))) ∧
    (∃ h1, aafi_newTimelineItem fuel h track kind alloc = .ok (h1, alloc) ∧
      (∃ pv, h1.mem alloc = some (.item (createdItem track kind pv))) ∧
      (li = [] → h1.mem track = some (.track { t with Items := alloc }) ∧
        SameBut h h1 [alloc, track]) ∧
      (∀ l0 x, li = l0 ++ [x] → h1.mem track = some (.track t) ∧
        (∃ ix, h.mem x = some (.item ix) ∧
          h1.mem x = some (.item { ix with next := alloc })) ∧
        SameBut h h1 [alloc, x]) ∧
      (∀ q it, h.mem q = some (.item it) →
        ∃ it1, h1.mem q = some (.item it1) ∧ { it1 with next := it.next } = it) ∧
      (∀ q t1, q ≠ track → h.mem q = some (.track t1) → h1.mem q = some (.track t1)) ∧
      (∀ q e, h.mem q = some (.essence e) → h1.mem q = some (.essence e)) ∧
      (∀ q c, h.mem q = some (.comment c) → h1.mem q = some (.comment c))) :=
  ⟨newAudioTrack_frame MONO fuel h aafi alloc r a lt haafi hr haudio ha hct hft halloc hfresh,
    newAudioEssence_frame h aafi alloc r a haafi hr haudio ha halloc hfresh,
    newTimelineItem_frame fuel h track kind alloc t li htrack ht hci hfi hkind halloc hfresh⟩

/-- Witness of C22: a track, an essence and a clip created in block `20` on
the example session. -/
theorem C22_creators_frame_witness :
    (∃ h1, aafi_newAudioTrack 1 2 exSession 1 20 = .ok (h1, 20) ∧
      h1.mem 20 = some (.track (createdTrack 1 (exIface 8).Audio)) ∧
      h1.mem 1 =
        some (.iface { (exIface 8) with ctx := { (exIface 8).ctx with current_track := 20 } }) ∧
      (([3] : List Ptr) = [] →
        h1.mem (exIface 8).Audio =
          some (.audio { (⟨0, 7, 3⟩ : aafiAudio) with Tracks := 20 }) ∧
        SameBut exSession h1 [20, 1, (exIface 8).Audio]) ∧
      (∀ l0 x, ([3] : List Ptr) = l0 ++ [x] →
        h1.mem (exIface 8).Audio = some (.audio (⟨0, 7, 3⟩ : aafiAudio)) ∧
        (∃ tx, exSession.mem x = some (.track tx) ∧
          h1.mem x = some (.track { tx with next := 20 })) ∧
        SameBut exSession h1 [20, 1, x]) ∧
      (∀ q t0, q ∈ ([3] : List Ptr) → exSession.mem q = some (.track t0) →
        ∃ t1, h1.mem q = some (.track t1) ∧ { t1 with next := t0.next } = t0) ∧
      (∀ q it, exSession.mem q = some (.item it) → h1.mem q = some (.item it)) ∧
      (∀ q e, exSession.mem q = some (.essence e) → h1.mem q = some (.essence e)) ∧
      (∀ q c, exSession.mem q = some (.comment c) → h1.mem q = some (.comment c))) ∧
    (∃ h1, aafi_newAudioEssence exSession 1 20 = .ok (h1, 20) ∧
      h1.mem 20 =
        some (.essence { aafiAudioEssence.zero with
          next := (⟨0, 7, 3⟩ : aafiAudio).Essences }) ∧
      h1.mem (exIface 8).Audio = some (.audio { (⟨0, 7, 3⟩ : aafiAudio) with Essences := 20 }) ∧
      SameBut exSession h1 [20, (exIface 8).Audio] ∧
      (∀ q t0, exSession.mem q = some (.track t0) → h1.mem q = some (.track t0)) ∧
      (∀ q it, exSession.mem q = some (.item it) → h1.mem q = some (.item it)) ∧
      (∀ q e, exSession.mem q = some (.essence e) → h1.mem q = some (.essence e)) ∧
      (∀ q c, exSession.mem q = some (.comment c) → h1.mem q = some (.comment c))) ∧
    (∃ h1, aafi_newTimelineItem 2 exSession 3 AAFI_CLIP 20 = .ok (h1, 20) ∧
      (∃ pv, h1.mem 20 = some (.item (createdItem 3 AAFI_CLIP pv))) ∧
      (([4, 5] : List Ptr) = [] → h1.mem 3 = some (.track { exSessionTrack with Items := 20 }) ∧
        SameBut exSession h1 [20, 3]) ∧
      (∀ l0 x, ([4, 5] : List Ptr) = l0 ++ [x] → h1.mem 3 = some (.track exSessionTrack) ∧
        (∃ ix, exSession.mem x = some (.item ix) ∧
          h1.mem x = some (.item { ix with next := 20 })) ∧
        SameBut exSession h1 [20, x]) ∧
      (∀ q it, exSession.mem q = some (.item it) →
        ∃ it1, h1.mem q = some (.item it1) ∧ { it1 with next := it.next } = it) ∧
      (∀ q t1, q ≠ 3 → exSession.mem q = some (.track t1) → h1.mem q = some (.track t1)) ∧
      (∀ q e, exSession.mem q = some (.essence e) → h1.mem q = some (.essence e)) ∧
      (∀ q c, exSession.mem q = some (.comment c) → h1.mem q = some (.comment c))) :=
  C22_creators_frame 1 2 exSession 1 20 3 AAFI_CLIP (exIface 8) ⟨0, 7, 3⟩ [3] [4, 5]
    exSessionTrack (by decide) rfl (by decide) rfl ⟨rfl, by decide, 0, rfl, rfl⟩ (by decide)
    (by decide) rfl ⟨rfl, by decide, 5, rfl, rfl, by decide, 0, rfl, rfl⟩ (by decide)
    (Or.inl rfl) (by decide) rfl

end LibAAF
